import Mathlib

/-! Quake-Zero `q_common.cpp`: memory subsystem

A shallow embedding of the Hunk, Zone and Cache allocators of
`src/code/q_common.cpp`, with theorems about them.

Conventions of the embedding.

* `int` / `I32` values are mathematical integers; every `int` operation of the
  source is followed by `wrap32`, the two's-complement narrowing to 32 bits.
  Pointer arithmetic (64-bit) is exact.
* Pointers into the byte buffer are byte offsets from `g_hunk_base`; pointers to
  Zone blocks are byte offsets from the start of the Zone slab (`g_main_zone`).
* The platform error reporter `g_platformAPI.SysError` does not return: a call
  to it ends the operation with `Fault.sysError`.  A null dereference or a
  header written outside the byte buffer ends it with `Fault.crash`.
* Loops of the source without a syntactic bound take a fuel argument; running
  out of it is `Fault.fuel`, and the theorems show when it does not happen.
* Block headers (`MemoryBlock`, `CacheHeader`) are kept in typed maps keyed by
  their byte offset; raw bytes written by the Hunk are kept in a byte map.
-/

namespace Quake

/-! ## Machine integers -/

/-- Two's-complement narrowing of an integer to a 32-bit `int`. -/
def wrap32 (x : Int) : Int := (x + 2147483648) % 4294967296 - 2147483648

/-- `inline int Align16(int v)`: `(v + 15) & ~15`. -/
def Align16 (v : Int) : Int := wrap32 (v + 15) - wrap32 (v + 15) % 16

/-- `inline int Align8(int v)`: `(v + 7) & ~7`. -/
def Align8 (v : Int) : Int := wrap32 (v + 7) - wrap32 (v + 7) % 8

/-- How an operation ends when it does not return. -/
inductive Fault where
  | sysError (msg : String)
  | crash
  | fuel
  deriving DecidableEq, Repr

/-! ## Byte memory, `MemSet`, `StringCopy` -/

/-- A byte memory: the byte stored at each offset. -/
abbrev Bytes := Int → Int

/-- Store of one byte. -/
def setByte (mem : Bytes) (p v : Int) : Bytes := fun a => if a = p then v else mem a

/-- Store of a 32-bit value, little-endian, at offset `p`. -/
def store32 (mem : Bytes) (p v : Int) : Bytes :=
  setByte (setByte (setByte (setByte mem p (v % 256)) (p + 1) (v / 256 % 256))
    (p + 2) (v / 65536 % 256)) (p + 3) (v / 16777216 % 256)

/-- Load of a 32-bit unsigned value, little-endian, at offset `p`. -/
def load32 (mem : Bytes) (p : Int) : Int :=
  mem p + 256 * mem (p + 1) + 65536 * mem (p + 2) + 16777216 * mem (p + 3)

/-- The loop `for (i = 0; i < n; ++i) ((U8 *)dest)[i] = value`. -/
def MemSetBytes (mem : Bytes) (dest value : Int) : Nat → Bytes
  | 0 => mem
  | n + 1 => setByte (MemSetBytes mem dest value n) (dest + n) value

/-- The loop `for (i = 0; i < n; ++i) ((U32 *)dest)[i] = fill`, where every
byte of `fill` is `value`. -/
def MemSetWords (mem : Bytes) (dest value : Int) : Nat → Bytes
  | 0 => mem
  | n + 1 =>
    setByte (setByte (setByte (setByte (MemSetWords mem dest value n)
      (dest + 4 * n) value) (dest + 4 * n + 1) value) (dest + 4 * n + 2) value)
      (dest + 4 * n + 3) value

/-- `void MemSet(void *dest, U8 value, int count)`.  `addr` is the machine
address of `dest`, which decides between the word loop and the byte loop;
`dest` is its offset in `mem`. -/
def MemSet (mem : Bytes) (addr dest value count : Int) : Bytes :=
  if addr % 4 = 0 ∧ count % 4 = 0 then
    MemSetWords mem dest value (count / 4).toNat
  else
    MemSetBytes mem dest value count.toNat

/-- The character of a C string at index `i`: the list holds the characters
before the terminating NUL. -/
def charAt (s : List Int) (i : Nat) : Int := s.getD i 0

/-- The `for (;;)` loop of `StringCopy`.  `i` is the number of iterations done,
so `dest + i` and `src + i` are the current pointers and `i` is `amount`. -/
def StringCopyLoop (src : List Int) (dest count : Int) :
    Nat → Bytes → Int → Nat → Except Fault (Bytes × Int)
  | 0, _, _, _ => .error .fuel
  | fuel + 1, mem, destSize, i =>
    if destSize = 1 ∨ (i : Int) = count then
      .ok (setByte mem (dest + i) 0, i)
    else
      let mem1 := setByte mem (dest + i) (charAt src i)
      if charAt src i = 0 then
        .ok (mem1, i)
      else
        StringCopyLoop src dest count fuel mem1 (destSize - 1) (i + 1)

/-- `int StringCopy(char *dest, int destSize, const char *src, int count = 0)`.
A failed `ASSERT` is a fault. -/
def StringCopy (mem : Bytes) (dest destSize : Int) (src : List Int) (count : Int) :
    Except Fault (Bytes × Int) :=
  if ¬ (destSize > 0) then .error (.sysError "ASSERT(destSize > 0)")
  else if ¬ (count ≥ 0) then .error (.sysError "ASSERT(count >= 0)")
  else
    StringCopyLoop src dest (if count = 0 then destSize - 1 else count)
      destSize.toNat mem destSize 0

/-! ## Hunk -/

/-- `#define HUNK_SENTINEL 0x1df001ed`. -/
def HUNK_SENTINEL : Int := 0x1df001ed

/-- `sizeof(HunkHeader)`: two `int`s and `char name[16]`. -/
def sizeofHunkHeader : Int := 24

/-- The Hunk globals and the byte buffer. -/
structure Hunk where
  /-- machine address of the buffer -/
  g_hunk_base : Int
  g_hunk_total_size : Int
  g_hunk_low_used : Int
  g_hunk_high_used : Int
  g_hunk_temp_used : Int
  g_hunk_temp_active : Bool
  /-- bytes of the buffer, by offset from `g_hunk_base` -/
  mem : Bytes

/-- The value assigned by `size = Align16(size + sizeof(HunkHeader))`: the sum is
computed in `size_t` and narrowed to the `int` parameter of `Align16`. -/
def hunkRounded (size : Int) : Int := Align16 (wrap32 (size + sizeofHunkHeader))

/-- The statements `MemSet(hh, 0, size); hh->sentinel = HUNK_SENTINEL;
hh->size = size; StringCopy(hh->name, 16, name);` of both Hunk allocators, for a
header at offset `hh` and the rounded `size`. -/
def writeHunkHeader (mem : Bytes) (base hh size : Int) (name : List Int) :
    Except Fault Bytes :=
  (StringCopy (store32 (store32 (MemSet mem (base + hh) hh 0 size) hh HUNK_SENTINEL)
    (hh + 4) size) (hh + 8) 16 name 0).map Prod.fst

/-- `void *HunkLowAlloc(int size, char *name)`; the result is the new state and
the offset of the returned pointer. -/
def HunkLowAlloc (h : Hunk) (size : Int) (name : List Int) : Except Fault (Hunk × Int) :=
  if size < 0 then .error (.sysError "HunkLowAlloc: negative size")
  else if wrap32 (wrap32 (h.g_hunk_total_size - h.g_hunk_low_used) - h.g_hunk_high_used)
      < hunkRounded size then
    .error (.sysError "HunkLowAlloc: out of memory")
  else
    match writeHunkHeader h.mem h.g_hunk_base h.g_hunk_low_used (hunkRounded size) name with
    | .error e => .error e
    | .ok mem =>
      .ok ({ h with
              g_hunk_low_used := wrap32 (h.g_hunk_low_used + hunkRounded size)
              mem := mem },
           h.g_hunk_low_used + sizeofHunkHeader)

/-- `void *HunkHighAlloc(int size, char *name)`. -/
def HunkHighAlloc (h : Hunk) (size : Int) (name : List Int) : Except Fault (Hunk × Int) :=
  if size < 0 then .error (.sysError "HunkHighAlloc: negative size")
  else if wrap32 (wrap32 (h.g_hunk_total_size - h.g_hunk_low_used) - h.g_hunk_high_used)
      < hunkRounded size then
    .error (.sysError "HunkHighAlloc: out of memory")
  else
    match writeHunkHeader h.mem h.g_hunk_base
        (h.g_hunk_total_size - wrap32 (h.g_hunk_high_used + hunkRounded size))
        (hunkRounded size) name with
    | .error e => .error e
    | .ok mem =>
      .ok ({ h with
              g_hunk_high_used := wrap32 (h.g_hunk_high_used + hunkRounded size)
              mem := mem },
           h.g_hunk_total_size - wrap32 (h.g_hunk_high_used + hunkRounded size)
             + sizeofHunkHeader)

/-- `void HunkFreeTemp()`. -/
def HunkFreeTemp (h : Hunk) : Hunk :=
  { h with
    g_hunk_temp_active := false
    g_hunk_high_used := wrap32 (h.g_hunk_high_used - h.g_hunk_temp_used)
    g_hunk_temp_used := 0 }

/-- The characters of the literal `"temp"`. -/
def tempName : List Int := [116, 101, 109, 112]

/-- `void *HunkTempAlloc(int size)`. -/
def HunkTempAlloc (h : Hunk) (size : Int) : Except Fault (Hunk × Int) :=
  let h1 : Hunk := if h.g_hunk_temp_active = true then HunkFreeTemp h else h
  let h2 : Hunk := { h1 with g_hunk_temp_active := true }
  let old_high_used := h2.g_hunk_high_used
  match HunkHighAlloc h2 size tempName with
  | .error e => .error e
  | .ok (h3, result) =>
    .ok ({ h3 with g_hunk_temp_used := wrap32 (h3.g_hunk_high_used - old_high_used) }, result)

/-- The Hunk part of `MemoryInit(buf, size)` up to, and not including, the Zone
allocation: the four assignments to the Hunk globals.  `g_hunk_temp_used` and
`g_hunk_temp_active` are not assigned; as globals they start out zero. -/
def hunkInit (buf size : Int) (mem : Bytes) : Hunk :=
  { g_hunk_base := buf
    g_hunk_total_size := size
    g_hunk_low_used := 0
    g_hunk_high_used := 0
    g_hunk_temp_used := 0
    g_hunk_temp_active := false
    mem := mem }

/-- A call of one of the four public Hunk operations. -/
inductive HunkOp where
  | lowAlloc (size : Int) (name : List Int)
  | highAlloc (size : Int) (name : List Int)
  | tempAlloc (size : Int)
  | freeTemp

/-- Run one Hunk operation, keeping only the state. -/
def HunkOp.run (h : Hunk) : HunkOp → Except Fault Hunk
  | .lowAlloc size name => (HunkLowAlloc h size name).map Prod.fst
  | .highAlloc size name => (HunkHighAlloc h size name).map Prod.fst
  | .tempAlloc size => (HunkTempAlloc h size).map Prod.fst
  | .freeTemp => .ok (HunkFreeTemp h)

/-- Run a sequence of Hunk operations; a fault ends the run. -/
def runHunkOps (h : Hunk) : List HunkOp → Except Fault Hunk
  | [] => .ok h
  | op :: ops =>
    match op.run h with
    | .error e => .error e
    | .ok h2 => runHunkOps h2 ops

/-- The Hunk state invariant of the specification's data model. -/
def HunkInv (h : Hunk) : Prop :=
  0 ≤ h.g_hunk_low_used ∧ 0 ≤ h.g_hunk_high_used ∧
  h.g_hunk_low_used + h.g_hunk_high_used ≤ h.g_hunk_total_size ∧
  0 ≤ h.g_hunk_temp_used ∧ h.g_hunk_temp_used ≤ h.g_hunk_high_used ∧
  (0 < h.g_hunk_temp_used ↔ h.g_hunk_temp_active = true)

instance (h : Hunk) : Decidable (HunkInv h) := by
  unfold HunkInv; infer_instance

/-! ## Zone -/

/-- `#define DYNAMIC_ZONE_SIZE 128 * 1024`. -/
def DYNAMIC_ZONE_SIZE : Int := 128 * 1024

/-- `#define ZONE_ID 0x1d4a11`. -/
def ZONE_ID : Int := 0x1d4a11

/-- `#define MIN_FRAGMENT 64`. -/
def MIN_FRAGMENT : Int := 64

/-- `sizeof(MemoryBlock)`: four 32-bit fields and two 8-byte pointers. -/
def sizeofMemoryBlock : Int := 32

/-- `sizeof(MemoryZone)`: the rover pointer, the `tailhead` block, `size` and
`padding`. -/
def sizeofMemoryZone : Int := 48

/-- Offset of `zone->tailhead` inside the slab (it follows the 8-byte `rover`). -/
def tailhead : Int := 8

/-- `struct MemoryBlock` without its `padding`; `next` and `prev` are offsets
from the start of the slab. -/
structure MemoryBlock where
  size : Int
  tag : Int
  id : Int
  next : Int
  prev : Int
  deriving DecidableEq, Repr

/-- `struct MemoryZone` together with the slab it heads.  `blocks a` is the
header stored at offset `a` of the slab (`blocks tailhead` is `zone->tailhead`);
`marks` holds the 32-bit words written into payload space. -/
structure MemoryZone where
  rover : Int
  size : Int
  blocks : Int → MemoryBlock
  marks : Int → Int

/-- Assignment to fields of the header at offset `p`. -/
def MemoryZone.upd (z : MemoryZone) (p : Int) (f : MemoryBlock → MemoryBlock) : MemoryZone :=
  { z with blocks := fun a => if a = p then f (z.blocks a) else z.blocks a }

/-- `p->size = v`. -/
def MemoryZone.setSize (z : MemoryZone) (p v : Int) : MemoryZone :=
  z.upd p (fun b => { b with size := v })

/-- `p->tag = v`. -/
def MemoryZone.setTag (z : MemoryZone) (p v : Int) : MemoryZone :=
  z.upd p (fun b => { b with tag := v })

/-- `p->id = v`. -/
def MemoryZone.setId (z : MemoryZone) (p v : Int) : MemoryZone :=
  z.upd p (fun b => { b with id := v })

/-- `p->next = v`. -/
def MemoryZone.setNext (z : MemoryZone) (p v : Int) : MemoryZone :=
  z.upd p (fun b => { b with next := v })

/-- `p->prev = v`. -/
def MemoryZone.setPrev (z : MemoryZone) (p v : Int) : MemoryZone :=
  z.upd p (fun b => { b with prev := v })

/-- `zone->rover = v`. -/
def MemoryZone.setRover (z : MemoryZone) (v : Int) : MemoryZone :=
  { z with rover := v }

/-- `void ZoneClearAll(MemoryZone *zone)`. -/
def ZoneClearAll (zone : MemoryZone) : MemoryZone :=
  let z1 := zone.setSize tailhead 0
  let z2 := z1.setTag tailhead 1
  let z3 := z2.setId tailhead ZONE_ID
  let z4 := z3.setRover sizeofMemoryZone
  let z5 := z4.setSize z4.rover (wrap32 (z4.size - sizeofMemoryZone))
  let z6 := z5.setTag z5.rover 0
  let z7 := z6.setId z6.rover ZONE_ID
  let z8 := z7.setNext z7.rover tailhead
  let z9 := z8.setPrev z8.rover tailhead
  let z10 := z9.setNext tailhead z9.rover
  z10.setPrev tailhead z10.rover

/-- The loop of `ZoneCheckHeap`, from `block`. -/
def ZoneCheckHeapLoop (z : MemoryZone) : Nat → Int → Except Fault Unit
  | 0, _ => .error .fuel
  | fuel + 1, block =>
    if (z.blocks block).next ≠ tailhead then
      if block + (z.blocks block).size ≠ (z.blocks block).next then
        .error (.sysError "ZoneCheckHeap: block size is erroneous")
      else if (z.blocks (z.blocks block).next).prev ≠ block then
        .error (.sysError "ZoneCheckHeap: memory block linked list is broken")
      else if (z.blocks block).tag = 0 ∧ (z.blocks (z.blocks block).next).tag = 0 then
        .error (.sysError "2 consecutive free memory blocks!")
      else
        ZoneCheckHeapLoop z fuel (z.blocks block).next
    else .ok ()

/-- `void ZoneCheckHeap()`. -/
def ZoneCheckHeap (fuel : Nat) (z : MemoryZone) : Except Fault Unit :=
  ZoneCheckHeapLoop z fuel (z.blocks tailhead).next

/-- The first merge of `ZoneFree`: `other = block->prev; if (other->tag == 0)
{ ... block = other; }`.  The result is the state and the new `block`. -/
def zoneMergePrev (z : MemoryZone) (block : Int) : MemoryZone × Int :=
  let other := (z.blocks block).prev
  if (z.blocks other).tag = 0 then
    let z2 := z.setNext other (z.blocks block).next
    let z3 := z2.setPrev (z2.blocks block).next other
    let z4 := z3.setSize other (wrap32 ((z3.blocks other).size + (z3.blocks block).size))
    let z5 := z4.setRover (if z4.rover = block then other else z4.rover)
    (z5, other)
  else (z, block)

/-- The second merge of `ZoneFree`: `other = block->next; if (other->tag == 0)
{ ... }`. -/
def zoneMergeNext (z : MemoryZone) (block : Int) : MemoryZone :=
  let other := (z.blocks block).next
  if (z.blocks other).tag = 0 then
    let z7 := z.setNext block (z.blocks other).next
    let z8 := z7.setPrev other block
    let z9 := z8.setSize block (wrap32 ((z8.blocks block).size + (z8.blocks other).size))
    z9.setRover (if z9.rover = other then block else z9.rover)
  else z

/-- The part of `ZoneFree` after the three checks, for the header at `block`:
`block->tag = 0;` and the two merges. -/
def ZoneFreeBlock (z : MemoryZone) (block : Int) : MemoryZone :=
  zoneMergeNext (zoneMergePrev (z.setTag block 0) block).1
    (zoneMergePrev (z.setTag block 0) block).2

/-- `void ZoneFree(void *ptr)`; `none` is the null pointer. -/
def ZoneFree (z : MemoryZone) (ptr : Option Int) : Except Fault MemoryZone :=
  match ptr with
  | none => .error (.sysError "ZoneFree: free NULL pointer")
  | some p =>
    if (z.blocks (p - sizeofMemoryBlock)).id ≠ ZONE_ID then
      .error (.sysError "ZoneFree: free memory block without zone id")
    else if (z.blocks (p - sizeofMemoryBlock)).tag = 0 then
      .error (.sysError "ZoneFree: free a free memory block")
    else .ok (ZoneFreeBlock z (p - sizeofMemoryBlock))

/-- The value of `size` after `size += sizeof(MemoryBlock); size += 4;
size = (size + 7) & ~7;` in `ZoneTagMalloc`. -/
def zoneRounded (size : Int) : Int :=
  Align8 (wrap32 (wrap32 (size + sizeofMemoryBlock) + 4))

/-- The search loop of `ZoneTagMalloc`: `none` is the `return NULL` inside the
loop, `some c` the candidate at the `break`. -/
def zoneSearch (z : MemoryZone) (size : Int) : Nat → Int → Except Fault (Option Int)
  | 0, _ => .error .fuel
  | fuel + 1, candidate =>
    if candidate = (z.blocks z.rover).prev then .ok none
    else if (z.blocks candidate).tag = 0 ∧ (z.blocks candidate).size ≥ size then
      .ok (some candidate)
    else zoneSearch z size fuel (z.blocks candidate).next

/-- The split of `ZoneTagMalloc`: the body of `if (extra > MIN_FRAGMENT)`. -/
def zoneSplit (z : MemoryZone) (candidate size extra : Int) : MemoryZone :=
  let newBlock := candidate + size
  let n1 := z.setSize newBlock extra
  let n2 := n1.setTag newBlock 0
  let n3 := n2.setId newBlock ZONE_ID
  -- insert new block into linked list
  let z1 := n3.setPrev (n3.blocks candidate).next newBlock
  let z2 := z1.setNext newBlock (z1.blocks candidate).next
  let z3 := z2.setNext candidate newBlock
  let z4 := z3.setPrev newBlock candidate
  z4.setSize candidate size

/-- The part of `ZoneTagMalloc` after the search loop, for the chosen
`candidate` and the rounded `size`. -/
def zoneCarve (z : MemoryZone) (candidate size tag : Int) : MemoryZone × Int :=
  let extra := wrap32 ((z.blocks candidate).size - size)
  let z5 := if extra > MIN_FRAGMENT then zoneSplit z candidate size extra else z
  let z6 := z5.setTag candidate tag
  let z7 := z6.setId candidate ZONE_ID
  -- next allocation will start looking here
  let z8 := z7.setRover (z7.blocks candidate).next
  -- marker for memory trash testing
  let z9 : MemoryZone :=
    { z8 with marks := fun a =>
        if a = candidate + ((z8.blocks candidate).size - 4) then ZONE_ID else z8.marks a }
  (z9, candidate + sizeofMemoryBlock)

/-- `void *ZoneTagMalloc(int size, int tag)`; the pointer is an offset from the
start of the slab, `none` is NULL. -/
def ZoneTagMalloc (fuel : Nat) (z : MemoryZone) (size tag : Int) :
    Except Fault (MemoryZone × Option Int) :=
  if tag = 0 then .error (.sysError "ZoneTagAlloc: using a 0 tag")
  else
    match zoneSearch z (zoneRounded size) fuel z.rover with
    | .error e => .error e
    | .ok none => .ok (z, none)
    | .ok (some candidate) =>
      .ok ((zoneCarve z candidate (zoneRounded size) tag).1,
           some (zoneCarve z candidate (zoneRounded size) tag).2)

/-- A zone slab of `size` bytes on which nothing has been written yet. -/
def rawZone (size : Int) : MemoryZone :=
  { rover := 0, size := size, blocks := fun _ => ⟨0, 0, 0, 0, 0⟩, marks := fun _ => 0 }

/-- The Zone as `MemoryInit` leaves it: `g_main_zone->size = zoneSize;
ZoneClearAll(g_main_zone);`. -/
def zoneInit (zoneSize : Int) : MemoryZone := ZoneClearAll (rawZone zoneSize)

/-- A call of a public Zone operation. -/
inductive ZoneCall where
  | tagMalloc (size tag : Int)
  | free (ptr : Option Int)

/-- Run a sequence of Zone calls; the pointers returned by the `ZoneTagMalloc`
calls are collected in call order. -/
def runZoneCalls (fuel : Nat) (z : MemoryZone) :
    List ZoneCall → Except Fault (MemoryZone × List (Option Int))
  | [] => .ok (z, [])
  | .tagMalloc size tag :: cs =>
    match ZoneTagMalloc fuel z size tag with
    | .error e => .error e
    | .ok (z1, p) =>
      match runZoneCalls fuel z1 cs with
      | .error e => .error e
      | .ok (z2, ps) => .ok (z2, p :: ps)
  | .free ptr :: cs =>
    match ZoneFree z ptr with
    | .error e => .error e
    | .ok z1 => runZoneCalls fuel z1 cs

/-- The blocks met by walking `next` from `block` until the sentinel, at most
`fuel` of them. -/
def ringFrom (z : MemoryZone) : Nat → Int → List Int
  | 0, _ => []
  | fuel + 1, block =>
    if block = tailhead then [] else block :: ringFrom z fuel (z.blocks block).next

/-- The blocks met by walking `prev` from `block` until the sentinel. -/
def ringBackFrom (z : MemoryZone) : Nat → Int → List Int
  | 0, _ => []
  | fuel + 1, block =>
    if block = tailhead then [] else block :: ringBackFrom z fuel (z.blocks block).prev

/-- Size and tag of the blocks of the ring, walking forward from the sentinel. -/
def ringView (fuel : Nat) (z : MemoryZone) : List (Int × Int × Int) :=
  (ringFrom z fuel (z.blocks tailhead).next).map
    (fun a => (a, (z.blocks a).size, (z.blocks a).tag))

/-! ## Cache -/

/-- `sizeof(CacheHeader)`: `char name[16]`, five 8-byte pointers, `size` and
`padding`. -/
def sizeofCacheHeader : Int := 64

/-- A `CacheHeader *`: null, the address of the global `g_cache_head`, or a
header in the byte buffer at the given offset from `g_hunk_base`. -/
inductive CachePtr where
  | null
  | head
  | blk (off : Int)
  deriving DecidableEq, Repr

/-- `struct CacheHeader` without its `padding`.  `user` is the `CacheUser *`:
handles are told apart by a number, `none` is the null pointer. -/
structure CacheHeader where
  name : Bytes
  user : Option Nat
  prev : CachePtr
  next : CachePtr
  lru_prev : CachePtr
  lru_next : CachePtr
  size : Int

/-- The cache globals: `hdr CachePtr.head` is `g_cache_head`, `hdr (.blk a)` the
header stored at offset `a` of the byte buffer; `data u` is the `data` field of
the caller-owned `CacheUser` handle `u` (`none` is null, `some p` the offset
`p`). -/
structure Cache where
  hdr : CachePtr → CacheHeader
  data : Nat → Option Int

/-- Assignment to fields of the header `p` points at. -/
def Cache.upd (c : Cache) (p : CachePtr) (f : CacheHeader → CacheHeader) : Cache :=
  { c with hdr := fun q => if q = p then f (c.hdr q) else c.hdr q }

/-- `p->name` becomes `v`. -/
def Cache.setName (c : Cache) (p : CachePtr) (v : Bytes) : Cache :=
  c.upd p (fun b => { b with name := v })

/-- `p->user = v`. -/
def Cache.setUser (c : Cache) (p : CachePtr) (v : Option Nat) : Cache :=
  c.upd p (fun b => { b with user := v })

/-- `p->prev = v`. -/
def Cache.setPrev (c : Cache) (p v : CachePtr) : Cache :=
  c.upd p (fun b => { b with prev := v })

/-- `p->next = v`. -/
def Cache.setNext (c : Cache) (p v : CachePtr) : Cache :=
  c.upd p (fun b => { b with next := v })

/-- `p->lru_prev = v`. -/
def Cache.setLruPrev (c : Cache) (p v : CachePtr) : Cache :=
  c.upd p (fun b => { b with lru_prev := v })

/-- `p->lru_next = v`. -/
def Cache.setLruNext (c : Cache) (p v : CachePtr) : Cache :=
  c.upd p (fun b => { b with lru_next := v })

/-- `p->size = v`. -/
def Cache.setSize (c : Cache) (p : CachePtr) (v : Int) : Cache :=
  c.upd p (fun b => { b with size := v })

/-- `u->data = v` for the handle `u`. -/
def Cache.setData (c : Cache) (u : Nat) (v : Option Int) : Cache :=
  { c with data := fun w => if w = u then v else c.data w }

/-- A header of zero bytes, as `MemSet(new_cache, 0, sizeof(*new_cache))` leaves
it. -/
def zeroHeader : CacheHeader :=
  { name := fun _ => 0, user := none, prev := .null, next := .null,
    lru_prev := .null, lru_next := .null, size := 0 }

/-- `MemSet(p, 0, sizeof(*p))` on the header `p` points at. -/
def Cache.zero (c : Cache) (p : CachePtr) : Cache :=
  c.upd p (fun _ => zeroHeader)

/-- `void CacheUnlinkLRU(CacheHeader *ch)`. -/
def CacheUnlinkLRU (c : Cache) (ch : CachePtr) : Except Fault Cache :=
  if ch = .null then .error .crash
  else if (c.hdr ch).lru_next = .null ∨ (c.hdr ch).lru_prev = .null then
    .error (.sysError "CacheUnlinkLRU: NULL link")
  else
    let c1 := c.setLruPrev (c.hdr ch).lru_next (c.hdr ch).lru_prev
    let c2 := c1.setLruNext (c1.hdr ch).lru_prev (c1.hdr ch).lru_next
    let c3 := c2.setLruNext ch .null
    .ok (c3.setLruPrev ch .null)

/-- The four assignments at the end of `CacheMarkMRU`. -/
def cacheLinkMRU (c : Cache) (ch : CachePtr) : Except Fault Cache :=
  if (c.hdr .head).lru_next = .null then .error .crash
  else
    let c1 := c.setLruPrev (c.hdr .head).lru_next ch
    let c2 := c1.setLruNext ch (c1.hdr .head).lru_next
    let c3 := c2.setLruNext .head ch
    .ok (c3.setLruPrev ch .head)

/-- `void CacheMarkMRU(CacheHeader *ch)`. -/
def CacheMarkMRU (c : Cache) (ch : CachePtr) : Except Fault Cache :=
  if ch = .null then .error .crash
  else if (c.hdr ch).lru_next ≠ .null ∨ (c.hdr ch).lru_prev ≠ .null then
    match CacheUnlinkLRU c ch with
    | .error e => .error e
    | .ok c1 => cacheLinkMRU c1 ch
  else cacheLinkMRU c ch

/-- `void *CacheCheck(CacheUser *user)`. -/
def CacheCheck (c : Cache) (user : Nat) : Except Fault (Cache × Option Int) :=
  match c.data user with
  | none => .ok (c, none)
  | some p =>
    match CacheUnlinkLRU c (.blk (p - sizeofCacheHeader)) with
    | .error e => .error e
    | .ok c1 =>
      match CacheMarkMRU c1 (.blk (p - sizeofCacheHeader)) with
      | .error e => .error e
      | .ok c2 => .ok (c2, c2.data user)

/-- The statements of `CacheFree` that take `ch` out of the address ring and
clear the handle `u`. -/
def cacheUnlinkAddr (c : Cache) (ch : CachePtr) (u : Nat) : Except Fault Cache :=
  if (c.hdr ch).next = .null then .error .crash
  else
    let c1 := c.setPrev (c.hdr ch).next (c.hdr ch).prev
    if (c1.hdr ch).prev = .null then .error .crash
    else
      let c2 := c1.setNext (c1.hdr ch).prev (c1.hdr ch).next
      let c3 := c2.setPrev ch .null
      let c4 := c3.setNext ch .null
      .ok (c4.setData u none)

/-- `void CacheFree(CacheUser *cu)`; `none` is a null `cu`. -/
def CacheFree (c : Cache) (cu : Option Nat) : Except Fault Cache :=
  match cu with
  | none => .error .crash
  | some u =>
    match c.data u with
    | none => .error (.sysError "CacheFree: not allocated")
    | some p =>
      match cacheUnlinkAddr c (.blk (p - sizeofCacheHeader)) u with
      | .error e => .error e
      | .ok c5 => CacheUnlinkLRU c5 (.blk (p - sizeofCacheHeader))

/-- The statements `MemSet(new_cache, 0, sizeof(*new_cache)); new_cache->size =
size;` for a header at offset `new_cache`.  A header that does not lie inside
the byte buffer is a crash. -/
def cacheNewHeader (h : Hunk) (c : Cache) (new_cache size : Int) : Except Fault Cache :=
  if 0 ≤ new_cache ∧ new_cache + sizeofCacheHeader ≤ h.g_hunk_total_size then
    .ok ((c.zero (.blk new_cache)).setSize (.blk new_cache) size)
  else .error .crash

/-- The four assignments that insert `new_cache` before `old_cache` in the
address ring. -/
def cacheLinkBefore (c : Cache) (new_cache old_cache : CachePtr) : Except Fault Cache :=
  if (c.hdr old_cache).prev = .null then .error .crash
  else
    let c1 := c.setNext (c.hdr old_cache).prev new_cache
    let c2 := c1.setPrev new_cache (c1.hdr old_cache).prev
    let c3 := c2.setNext new_cache old_cache
    .ok (c3.setPrev old_cache new_cache)

/-- Placement of a new header at offset `new_cache` before `old_cache` in the
address ring, followed by `CacheMarkMRU(new_cache); return new_cache;`.  With
`old_cache` the sentinel these are the statements of the insertion at the
end. -/
def cacheInsertBefore (h : Hunk) (c : Cache) (new_cache size : Int) (old_cache : CachePtr) :
    Except Fault (Cache × Option Int) :=
  match cacheNewHeader h c new_cache size with
  | .error e => .error e
  | .ok c0 =>
    match cacheLinkBefore c0 (.blk new_cache) old_cache with
    | .error e => .error e
    | .ok c4 =>
      match CacheMarkMRU c4 (.blk new_cache) with
      | .error e => .error e
      | .ok c5 => .ok (c5, some new_cache)

/-- The `do ... while` loop of `CacheTryAlloc` and the code after it.  The
result is the offset of the returned header, `none` for `return NULL`. -/
def cacheScan (h : Hunk) (c : Cache) (size : Int) :
    Nat → Int → CachePtr → Except Fault (Cache × Option Int)
  | 0, _, _ => .error .fuel
  | fuel + 1, new_cache, old_cache =>
    match old_cache with
    | .blk o =>
      if o - new_cache ≥ size then
        cacheInsertBefore h c new_cache size (.blk o)
      else if (c.hdr (.blk o)).next ≠ .head then
        cacheScan h c size fuel (o + (c.hdr (.blk o)).size) (c.hdr (.blk o)).next
      else if h.g_hunk_total_size - h.g_hunk_high_used - (o + (c.hdr (.blk o)).size) ≥ size then
        -- no hole big enough, allocate at the end
        cacheInsertBefore h c (o + (c.hdr (.blk o)).size) size .head
      else .ok (c, none)
    | _ => .error .crash

/-- The placement of `CacheTryAlloc` when the cache list is empty. -/
def cacheInsertFirst (h : Hunk) (c : Cache) (size : Int) : Except Fault (Cache × Option Int) :=
  match cacheNewHeader h c h.g_hunk_low_used size with
  | .error e => .error e
  | .ok c0 =>
    let new_cache := CachePtr.blk h.g_hunk_low_used
    let c1 := c0.setNext .head new_cache
    let c2 := c1.setPrev .head new_cache
    let c3 := c2.setNext new_cache .head
    let c4 := c3.setPrev new_cache .head
    match CacheMarkMRU c4 new_cache with
    | .error e => .error e
    | .ok c5 => .ok (c5, some h.g_hunk_low_used)

/-- `CacheHeader *CacheTryAlloc(int size)`; the returned header is given by its
offset in the byte buffer, `none` is NULL. -/
def CacheTryAlloc (fuel : Nat) (h : Hunk) (c : Cache) (size : Int) :
    Except Fault (Cache × Option Int) :=
  if (c.hdr .head).next = .head then
    -- cache list is empty
    if wrap32 (wrap32 (h.g_hunk_total_size - h.g_hunk_low_used) - h.g_hunk_high_used) < size then
      .error (.sysError "CacheTryAlloc: size is greater than free hunk")
    else cacheInsertFirst h c size
  else cacheScan h c size fuel h.g_hunk_low_used (c.hdr .head).next

/-- The statements of `CacheAlloc` run when `CacheTryAlloc` returned the header
at offset `a`: `ch->user = cu; ch->user->data = (void *)(ch + 1);
StringCopy(ch->name, 15, name, 15);`. -/
def cacheAttach (c : Cache) (a : Int) (cu : Nat) (name : List Int) : Except Fault Cache :=
  let c1 := c.setUser (.blk a) (some cu)
  let c2 := c1.setData cu (some (a + sizeofCacheHeader))
  match StringCopy (c2.hdr (.blk a)).name 0 15 name 15 with
  | .error e => .error e
  | .ok (nm, _) => .ok (c2.setName (.blk a) nm)

/-- The `for (;;)` loop of `CacheAlloc` for the rounded `size`.  `fuel` bounds
the iterations of this loop, `scanFuel` those of the scan inside each
`CacheTryAlloc`. -/
def CacheAllocLoop (h : Hunk) (cu : Nat) (size : Int) (name : List Int) (scanFuel : Nat) :
    Nat → Cache → Except Fault (Cache × Option Int)
  | 0, _ => .error .fuel
  | fuel + 1, c =>
    match CacheTryAlloc scanFuel h c size with
    | .error e => .error e
    | .ok (c1, some a) =>
      match cacheAttach c1 a cu name with
      | .error e => .error e
      | .ok c2 => .ok (c2, c2.data cu)
    | .ok (c1, none) =>
      if (c1.hdr .head).next = .head then .error (.sysError "CacheAlloc: out of memory")
      else if (c1.hdr .head).lru_prev = .null then .error .crash
      else
        match CacheFree c1 (c1.hdr (c1.hdr .head).lru_prev).user with
        | .error e => .error e
        | .ok c2 => CacheAllocLoop h cu size name scanFuel fuel c2

/-- `void *CacheAlloc(CacheUser *cu, int size, char *name)`. -/
def CacheAlloc (fuel : Nat) (h : Hunk) (c : Cache) (cu : Nat) (size : Int) (name : List Int) :
    Except Fault (Cache × Option Int) :=
  if (c.data cu).isSome then .error (.sysError "CacheAlloc: already allocated")
  else if size ≤ 0 then .error (.sysError "CacheAlloc: bad size")
  else
    CacheAllocLoop h cu (Align16 (wrap32 (size + sizeofCacheHeader))) name fuel fuel c

/-- `void CacheInit()`. -/
def CacheInit (c : Cache) : Cache :=
  let c1 := c.setNext .head .head
  let c2 := c1.setPrev .head .head
  let c3 := c2.setLruNext .head .head
  let c4 := c3.setLruPrev .head .head
  c4.setSize .head 0

/-- The cache globals at program start: zero-initialised, and every caller's
handle not yet populated. -/
def rawCache : Cache := { hdr := fun _ => zeroHeader, data := fun _ => none }

/-- The offsets met by walking `next` from `p` until the sentinel. -/
def cacheRingFrom (c : Cache) : Nat → CachePtr → List Int
  | 0, _ => []
  | fuel + 1, p =>
    match p with
    | .blk a => a :: cacheRingFrom c fuel (c.hdr (.blk a)).next
    | _ => []

/-- The offsets met by walking `lru_next` from `p` until the sentinel. -/
def cacheLruFrom (c : Cache) : Nat → CachePtr → List Int
  | 0, _ => []
  | fuel + 1, p =>
    match p with
    | .blk a => a :: cacheLruFrom c fuel (c.hdr (.blk a)).lru_next
    | _ => []

/-- The address-order ring: offset and size of each block, from
`g_cache_head.next`. -/
def addrRing (fuel : Nat) (c : Cache) : List (Int × Int) :=
  (cacheRingFrom c fuel (c.hdr .head).next).map (fun a => (a, (c.hdr (.blk a)).size))

/-- The LRU ring from `g_cache_head.lru_next` (most recently used first). -/
def lruRing (fuel : Nat) (c : Cache) : List Int :=
  cacheLruFrom c fuel (c.hdr .head).lru_next

/-! ## `MemoryInit` and the whole memory subsystem -/

/-- The Hunk, the Cache and the Zone together.  `g_main_zone` is the offset of
the Zone slab in the byte buffer. -/
structure Memory where
  hunk : Hunk
  cache : Cache
  zone : MemoryZone
  g_main_zone : Int

/-- The characters of the literal `"zone"`. -/
def zoneName : List Int := [122, 111, 110, 101]

/-- `void MemoryInit(void *buf, int size)`, on a buffer whose bytes are `mem`. -/
def MemoryInit (buf size : Int) (mem : Bytes) : Except Fault Memory :=
  match HunkLowAlloc (hunkInit buf size mem) DYNAMIC_ZONE_SIZE zoneName with
  | .error e => .error e
  | .ok (h, p) =>
    .ok { hunk := h, cache := CacheInit rawCache, zone := zoneInit DYNAMIC_ZONE_SIZE,
          g_main_zone := p }

/-- A call of a public operation of the Hunk or of the Cache. -/
inductive MemCall where
  | hunkLowAlloc (size : Int) (name : List Int)
  | hunkHighAlloc (size : Int) (name : List Int)
  | hunkTempAlloc (size : Int)
  | hunkFreeTemp
  | cacheAlloc (cu : Nat) (size : Int) (name : List Int)
  | cacheCheck (cu : Nat)
  | cacheFree (cu : Nat)

/-- Run one call on the Hunk and Cache state. -/
def MemCall.run (fuel : Nat) (h : Hunk) (c : Cache) : MemCall → Except Fault (Hunk × Cache)
  | .hunkLowAlloc size name => (HunkLowAlloc h size name).map (fun r => (r.1, c))
  | .hunkHighAlloc size name => (HunkHighAlloc h size name).map (fun r => (r.1, c))
  | .hunkTempAlloc size => (HunkTempAlloc h size).map (fun r => (r.1, c))
  | .hunkFreeTemp => .ok (HunkFreeTemp h, c)
  | .cacheAlloc cu size name => (CacheAlloc fuel h c cu size name).map (fun r => (h, r.1))
  | .cacheCheck cu => (CacheCheck c cu).map (fun r => (h, r.1))
  | .cacheFree cu => (CacheFree c (some cu)).map (fun r => (h, r))

/-- Run a sequence of calls; a fault ends the run. -/
def runMemCalls (fuel : Nat) (h : Hunk) (c : Cache) : List MemCall → Except Fault (Hunk × Cache)
  | [] => .ok (h, c)
  | op :: ops =>
    match op.run fuel h c with
    | .error e => .error e
    | .ok (h2, c2) => runMemCalls fuel h2 c2 ops

/-! ## Specification-side definitions for the Hunk -/

/-- Rounding as the specification words it: `size + sizeof(HunkHeader) + 15`
rounded down to a multiple of 16. -/
def roundedSpec (size : Int) : Int :=
  (size + sizeofHunkHeader + 15) - (size + sizeofHunkHeader + 15) % 16

/-- A size for which the rounding of the Hunk allocators does not wrap. -/
def HunkOp.small : HunkOp → Prop
  | .lowAlloc size _ => size ≤ 2147483608
  | .highAlloc size _ => size ≤ 2147483608
  | .tempAlloc size => size ≤ 2147483608
  | .freeTemp => True

/-! ## Specification-side definitions for the Zone -/

/-- Forward links: following `next` from `x` one meets exactly the blocks of
`l`, in order, and then `y`. -/
def ZFwd (b : Int → MemoryBlock) : Int → List Int → Int → Prop
  | x, [], y => (b x).next = y
  | x, a :: l, y => (b x).next = a ∧ ZFwd b a l y

/-- Backward links: the `prev` of each block of `l` is the block before it
(`x` for the first), and the `prev` of `y` is the last block. -/
def ZBwd (b : Int → MemoryBlock) : Int → List Int → Int → Prop
  | x, [], y => (b y).prev = x
  | x, a :: l, y => (b a).prev = x ∧ ZBwd b a l y

/-- Size arithmetic: the blocks of `l` lie one after the other from offset `p`
to offset `e`, each at least as large as the smallest block `ZoneTagMalloc`
makes (header, 4-byte marker, rounded to 8: 40 bytes). -/
def ZTile (b : Int → MemoryBlock) : Int → List Int → Int → Prop
  | p, [], e => p = e
  | p, a :: l, e => a = p ∧ 40 ≤ (b a).size ∧ ZTile b (p + (b a).size) l e

/-- The ring invariants of the Zone, for the ring whose non-sentinel blocks are
`l` in walking order: size arithmetic up to the end of the slab, consistent
`next`/`prev` links, no two adjacent free blocks, identity words, a sentinel
that counts as allocated, a rover on the ring, and a slab size that fits an
`int`. -/
structure ZoneInv (z : MemoryZone) (l : List Int) : Prop where
  fwd : ZFwd z.blocks tailhead l tailhead
  bwd : ZBwd z.blocks tailhead l tailhead
  tile : ZTile z.blocks sizeofMemoryZone l z.size
  noAdj : List.Chain' (fun x y => ¬ ((z.blocks x).tag = 0 ∧ (z.blocks y).tag = 0)) l
  ids : ∀ a ∈ l, (z.blocks a).id = ZONE_ID
  sentinel : (z.blocks tailhead).tag ≠ 0 ∧ (z.blocks tailhead).id = ZONE_ID
  rover : z.rover = tailhead ∨ z.rover ∈ l
  bound : z.size < 2147483648

/-- The forward ring with its size arithmetic: what a walk along `next` from the
sentinel sees. -/
def ZoneRing (z : MemoryZone) (l : List Int) : Prop :=
  ZFwd z.blocks tailhead l tailhead ∧ ZTile z.blocks sizeofMemoryZone l z.size

/-- The sum of the `size` fields of the blocks of `l`. -/
def sizeSum (z : MemoryZone) (l : List Int) : Int :=
  (l.map (fun a => (z.blocks a).size)).sum

/-- Run one Zone call, keeping only the state. -/
def ZoneCall.run (fuel : Nat) (z : MemoryZone) : ZoneCall → Except Fault MemoryZone
  | .tagMalloc size tag => (ZoneTagMalloc fuel z size tag).map Prod.fst
  | .free ptr => ZoneFree z ptr

/-- The calls the Zone invariants speak of: a `ZoneTagMalloc` of a size that is a
non-negative `int`, or a `ZoneFree` of the payload pointer of a used block of
the ring `l`. -/
def ZoneCall.valid (z : MemoryZone) (l : List Int) : ZoneCall → Prop
  | .tagMalloc size _ => 0 ≤ size ∧ size < 2147483648
  | .free ptr => ∃ b ∈ l, (z.blocks b).tag ≠ 0 ∧ ptr = some (b + sizeofMemoryBlock)

/-- The fault an operation ended with, if any. -/
def faultOf {α : Type} : Except Fault α → Option Fault
  | .error e => some e
  | .ok _ => none


/-! ## Specification-side definitions for the Cache -/

/-- A doubly linked segment: from `x`, the forward link `nx` leads through the
headers at the offsets `l`, in order, to `y`, and the backward link `pv` leads
back the same way. -/
def CSeg (nx pv : CachePtr → CachePtr) : CachePtr → List Int → CachePtr → Prop
  | x, [], y => nx x = y ∧ pv y = x
  | x, a :: l, y => nx x = .blk a ∧ pv (.blk a) = x ∧ CSeg nx pv (.blk a) l y

/-- The last header of `x` followed by `l`. -/
def lastPtr (x : CachePtr) : List Int → CachePtr
  | [] => x
  | a :: l => lastPtr (.blk a) l

/-- The first header of `l` followed by `y`. -/
def firstPtr (l : List Int) (y : CachePtr) : CachePtr :=
  match l with
  | [] => y
  | a :: _ => .blk a

/-- The `next` field as a function of the header. -/
def Cache.nextOf (c : Cache) (p : CachePtr) : CachePtr := (c.hdr p).next

/-- The `prev` field as a function of the header. -/
def Cache.prevOf (c : Cache) (p : CachePtr) : CachePtr := (c.hdr p).prev

/-- The `lru_next` field as a function of the header. -/
def Cache.lruNextOf (c : Cache) (p : CachePtr) : CachePtr := (c.hdr p).lru_next

/-- The `lru_prev` field as a function of the header. -/
def Cache.lruPrevOf (c : Cache) (p : CachePtr) : CachePtr := (c.hdr p).lru_prev

/-- The address-order ring holds exactly the blocks at the offsets `l`, in this
order from `g_cache_head.next`. -/
def AddrRingIs (c : Cache) (l : List Int) : Prop :=
  CSeg c.nextOf c.prevOf .head l .head ∧ l.Nodup

/-- The LRU ring holds exactly the blocks at the offsets `l`, in this order from
`g_cache_head.lru_next` (most recently used first). -/
def LruRingIs (c : Cache) (l : List Int) : Prop :=
  CSeg c.lruNextOf c.lruPrevOf .head l .head ∧ l.Nodup

/-- Ring and handle consistency of the Cache (I6, I7), for the address ring `as`
and the LRU ring `lru`: both rings hold the same blocks, every block of the
rings belongs to a handle whose `data` is the address just after its header, and
every populated handle points just after the header of a block of the rings
whose `user` is that handle. -/
structure CacheInv (c : Cache) (as lru : List Int) : Prop where
  ringA : AddrRingIs c as
  ringL : LruRingIs c lru
  same : ∀ a, a ∈ lru ↔ a ∈ as
  owner : ∀ a ∈ as, ∃ u, (c.hdr (.blk a)).user = some u ∧
    c.data u = some (a + sizeofCacheHeader)
  handle : ∀ u p, c.data u = some p →
    p - sizeofCacheHeader ∈ as ∧ (c.hdr (.blk (p - sizeofCacheHeader))).user = some u

/-- Two cache states that differ at most in the LRU links. -/
def SameButLru (c c2 : Cache) : Prop :=
  c2.data = c.data ∧
  ∀ q, (c2.hdr q).next = (c.hdr q).next ∧ (c2.hdr q).prev = (c.hdr q).prev ∧
    (c2.hdr q).size = (c.hdr q).size ∧ (c2.hdr q).user = (c.hdr q).user ∧
    (c2.hdr q).name = (c.hdr q).name

/-- Two cache states that differ at most in the address links. -/
def SameButAddr (c c2 : Cache) : Prop :=
  c2.data = c.data ∧
  ∀ q, (c2.hdr q).lru_next = (c.hdr q).lru_next ∧ (c2.hdr q).lru_prev = (c.hdr q).lru_prev ∧
    (c2.hdr q).size = (c.hdr q).size ∧ (c2.hdr q).user = (c.hdr q).user ∧
    (c2.hdr q).name = (c.hdr q).name

/-- The candidate position of `CacheTryAlloc` after it has passed the blocks
`l`: `p` when there are none, otherwise the end of the last one. -/
def candAfter (c : Cache) : Int → List Int → Int
  | p, [] => p
  | _, a :: l => candAfter c (a + (c.hdr (.blk a)).size) l

/-- The geometry the address ring keeps whatever sizes are requested: the
blocks `l` come at strictly increasing offsets, none below `p`; a block of
positive size ends at or before the next block, and a block whose size is not
positive (a request whose rounding wrapped) ends below the byte buffer. -/
def CGeom (c : Cache) : Int → List Int → Prop
  | _, [] => True
  | p, a :: l =>
    p ≤ a ∧ ((0 < (c.hdr (.blk a)).size ∧ CGeom c (a + (c.hdr (.blk a)).size) l) ∨
      (a + (c.hdr (.blk a)).size < 0 ∧ CGeom c (a + 1) l))

/-- The bounds invariant I5: the blocks `l` have positive sizes and lie one
after the other, without overlap, between `p` and `e`. -/
def CLay (c : Cache) (e : Int) : Int → List Int → Prop
  | p, [] => p ≤ e
  | p, a :: l => p ≤ a ∧ 0 < (c.hdr (.blk a)).size ∧ CLay c e (a + (c.hdr (.blk a)).size) l

/-- What a successful `CacheTryAlloc` did to a state `c` with rings `as` and
`lru`: in the new state `c5` a header at the fresh offset `n`, of size `s` and
without a user, stands between `k1` and `k2` in the address ring and at the
front of the LRU ring; handles and the other headers' sizes and users are
unchanged. -/
structure Placed (c c5 : Cache) (as lru k1 k2 : List Int) (n s : Int) : Prop where
  split : as = k1 ++ k2
  ringA : AddrRingIs c5 (k1 ++ n :: k2)
  ringL : LruRingIs c5 (n :: lru)
  fresh : n ∉ as
  data : c5.data = c.data
  old : ∀ a, a ≠ n → (c5.hdr (.blk a)).size = (c.hdr (.blk a)).size ∧
    (c5.hdr (.blk a)).user = (c.hdr (.blk a)).user
  new : (c5.hdr (.blk n)).size = s ∧ (c5.hdr (.blk n)).user = none

/-- The Hunk counters as the Cache needs them: both stacks non-negative, inside
the buffer, whose size fits an `int`. -/
def HunkOk (h : Hunk) : Prop :=
  0 ≤ h.g_hunk_low_used ∧ 0 ≤ h.g_hunk_high_used ∧
  h.g_hunk_low_used + h.g_hunk_high_used ≤ h.g_hunk_total_size ∧
  h.g_hunk_total_size < 2147483648

/-- The sizes `CacheAlloc` can pass to `CacheTryAlloc`: positive, or, when the
rounding wrapped, at most `-2^31 + 64`. -/
def RoundedSize (s : Int) : Prop := 0 < s ∨ s ≤ -2147483584

/-- A consistent cache: ring and handle consistency together with the geometry
of the address ring above `g_hunk_low_used`. -/
structure CacheOk (h : Hunk) (c : Cache) (as lru : List Int) : Prop where
  inv : CacheInv c as lru
  geom : CGeom c h.g_hunk_low_used as

/-- The evictions of one `CacheAlloc`: `Evicts sf h s c bs c2` says that from the
state `c` the loop went through one iteration per block of `bs`, in this order;
in each of them `CacheTryAlloc(s)` returned NULL and left the state as it was,
the block `b` was the sentinel's `lru_prev`, and `CacheFree` of its user gave
the next state; `c2` is the state after the last of them. -/
inductive Evicts (sf : Nat) (h : Hunk) (s : Int) : Cache → List Int → Cache → Prop
  | done (c : Cache) : Evicts sf h s c [] c
  | step (c c2 c3 : Cache) (b : Int) (bs : List Int) :
      CacheTryAlloc sf h c s = .ok (c, none) →
      (c.hdr .head).lru_prev = .blk b →
      CacheFree c (c.hdr (.blk b)).user = .ok c2 →
      Evicts sf h s c2 bs c3 → Evicts sf h s c (b :: bs) c3

/-- A call of a public Cache operation. -/
inductive CacheCall where
  | alloc (cu : Nat) (size : Int) (name : List Int)
  | check (cu : Nat)
  | free (cu : Nat)

/-- Run one Cache call, keeping only the state. -/
def CacheCall.run (fuel : Nat) (h : Hunk) (c : Cache) : CacheCall → Except Fault Cache
  | .alloc cu size name => (CacheAlloc fuel h c cu size name).map Prod.fst
  | .check cu => (CacheCheck c cu).map Prod.fst
  | .free cu => CacheFree c (some cu)

/-- Run a sequence of Cache calls on a fixed Hunk state; a fault ends the
run. -/
def runCacheCalls (fuel : Nat) (h : Hunk) (c : Cache) : List CacheCall → Except Fault Cache
  | [] => .ok c
  | op :: ops =>
    match op.run fuel h c with
    | .error e => .error e
    | .ok c2 => runCacheCalls fuel h c2 ops

/-- A request whose rounding `Align16(size + sizeof(CacheHeader))` does not
wrap. -/
def CacheCall.small : CacheCall → Prop
  | .alloc _ size _ => size ≤ 2147483568
  | .check _ => True
  | .free _ => True

/-- The size argument of a call does not exceed `INT_MAX`. -/
def CacheCall.typed : CacheCall → Prop
  | .alloc _ size _ => size < 2147483648
  | .check _ => True
  | .free _ => True

/-- The bounds invariant I5 for the address ring `as`, spelt out: the offsets
increase strictly, every block ends at or before each later block starts, and
every block has a positive size and lies within `[low_used, N - high_used)`. -/
def CacheBounds (h : Hunk) (c : Cache) (as : List Int) : Prop :=
  as.Pairwise (fun a b => a < b) ∧
  as.Pairwise (fun a b => a + (c.hdr (.blk a)).size ≤ b) ∧
  ∀ a ∈ as, 0 < (c.hdr (.blk a)).size ∧ h.g_hunk_low_used ≤ a ∧
    a + (c.hdr (.blk a)).size ≤ h.g_hunk_total_size - h.g_hunk_high_used

/-- The Hunk counters of scenario S3: those after `MemoryInit` on a buffer of
1 MiB followed by `HunkHighAlloc(914232, "")`, which leave a gap of 3216 bytes,
room for three cache blocks of 1072 bytes. -/
def s3Hunk : Hunk :=
  { g_hunk_base := 0, g_hunk_total_size := 1048576, g_hunk_low_used := 131104,
    g_hunk_high_used := 914256, g_hunk_temp_used := 0, g_hunk_temp_active := false,
    mem := fun _ => 0 }

/-- The calls of scenario S3 before the evicting allocation: three blocks of
size 1000 for the handles 0, 1 and 2, then `CacheCheck` of the first. -/
def s3Calls : List CacheCall :=
  [.alloc 0 1000 [], .alloc 1 1000 [], .alloc 2 1000 [], .check 0]

/-- The cache state of scenario S3 before the evicting allocation. -/
def s3State : Cache :=
  ((runCacheCalls 10 s3Hunk (CacheInit rawCache) s3Calls).toOption).getD rawCache

/-- The cache state of scenario S3 after `CacheAlloc` of a fourth block of size
1000 for the handle 3. -/
def s3After : Cache :=
  (((CacheAlloc 10 s3Hunk s3State 3 1000 []).toOption).getD (rawCache, none)).1

/-! ## `CacheFlushAll` -/

/-- The loop `while (ch != &g_cache_head) { ch->user->data = NULL; }` of
`CacheFlushAll`.  The body does not assign `ch`. -/
def CacheFlushLoop (ch : CachePtr) : Nat → Cache → Except Fault Cache
  | 0, _ => .error .fuel
  | fuel + 1, c =>
    if ch = .head then .ok c
    else if ch = .null then .error .crash
    else
      match (c.hdr ch).user with
      | none => .error .crash
      | some u => CacheFlushLoop ch fuel (c.setData u none)

/-- `void CacheFlushAll()`. -/
def CacheFlushAll (fuel : Nat) (c : Cache) : Except Fault Cache :=
  match CacheFlushLoop (c.hdr .head).next fuel c with
  | .error e => .error e
  | .ok c1 =>
    let c2 := c1.setNext .head .head
    let c3 := c2.setPrev .head .head
    let c4 := c3.setLruNext .head .head
    .ok (c4.setLruPrev .head .head)

/-! ## Specification-side definitions for the Zone scenarios -/

/-- The rounded request as the specification words it:
`align8(size + sizeof(MemoryBlock) + 4)`, without narrowing to an `int`. -/
def zoneRoundedSpec (size : Int) : Int :=
  (size + sizeofMemoryBlock + 4 + 7) - (size + sizeofMemoryBlock + 4 + 7) % 8

/-- The zone of scenario S2 before the last allocation: the fresh default zone
after `a = ZoneTagMalloc(100, 1)`, `b = ZoneTagMalloc(200, 1)`, `ZoneFree(a)`. -/
def s2Zone : MemoryZone :=
  (((runZoneCalls 100 (zoneInit DYNAMIC_ZONE_SIZE)
      [ZoneCall.tagMalloc 100 1, ZoneCall.tagMalloc 200 1,
       ZoneCall.free (some 80)]).toOption).map Prod.fst).getD (rawZone 0)

/-- `void ZoneFree(void *ptr)` once more, keeping the zone as it is at the moment
the function ends, also when it ends in `SysError`: the result is that zone and
the fault, if any. -/
def ZoneFreeTrace (z : MemoryZone) (ptr : Option Int) : MemoryZone × Option Fault :=
  match ptr with
  | none => (z, some (.sysError "ZoneFree: free NULL pointer"))
  | some p =>
    if (z.blocks (p - sizeofMemoryBlock)).id ≠ ZONE_ID then
      (z, some (.sysError "ZoneFree: free memory block without zone id"))
    else if (z.blocks (p - sizeofMemoryBlock)).tag = 0 then
      (z, some (.sysError "ZoneFree: free a free memory block"))
    else (ZoneFreeBlock z (p - sizeofMemoryBlock), none)

/-! ## File system: pack files and the search path

`q_common.h`, which declares `PackFile`, `PackHeader`, `SearchPath` and the
`MAX_...` constants, is not part of the source at hand.  The structures below
hold the fields `q_common.cpp` uses; the constants and `sizeof` values are
parameters (`FsConst`).  The C library (`fopen_s`, `fread`, `fseek`, `ftell`,
`sprintf_s`) is modelled by its effect on an explicit file table. -/

/-- `int StringCompare(const char *lhs, const char *rhs)`.  A list holds the
characters up to the terminating NUL, so the character read at the end of a
list is 0; `lhs++; rhs++` are the tails. -/
def StringCompare : List Int → List Int → Int
  | [], [] => 0
  | [], b :: _ => if (0 : Int) ≠ b then -1 else 0
  | a :: _, [] => if a ≠ 0 then -1 else 0
  | a :: l, b :: r => if a ≠ b then -1 else if a = 0 then 0 else StringCompare l r

/-- The C string stored in the byte array at `dest`: the characters before the
first NUL among the first `n`. -/
def cstrAt (mem : Bytes) (dest : Int) : Nat → List Int
  | 0 => []
  | n + 1 => if mem dest = 0 then [] else mem dest :: cstrAt mem (dest + 1) n

/-- The C string that `StringCopy(dest, destSize, src, count)` leaves in a
zero-filled array `dest` of `destSize` characters. -/
def copiedString (destSize : Int) (src : List Int) (count : Int) : Except Fault (List Int) :=
  (StringCopy (fun _ => 0) 0 destSize src count).map
    (fun r => cstrAt r.1 0 destSize.toNat)

/-- `#define MAX_FILE_HANDLES 10`. -/
def MAX_FILE_HANDLES : Nat := 10

/-- The constants and sizes that `q_common.cpp` takes from `q_common.h`. -/
structure FsConst where
  MAX_FILES_IN_PACK : Int
  MAX_PACK_FILE_PATH : Int
  PAK0_FILE_NUM : Int
  MAX_OS_PATH_LENGTH : Int
  sizeofPackFile : Int
  sizeofPackHeader : Int
  sizeofSearchPath : Int

/-- `struct PackFileDisk`: `name` holds the characters of `char name[56]` up to
its first NUL, all 56 when there is none. -/
structure PackFileDisk where
  name : List Int
  filePosition : Int
  fileLength : Int

/-- A file on disk as the pack reader sees it: its length, and what `fread`
delivers into `PackHeaderDisk` at the start of the file and into
`diskPackFiles[i]` at `directoryOffset`. -/
structure DiskFile where
  length : Int
  magic : List Int
  directoryOffset : Int
  directoryLength : Int
  directory : Nat → PackFileDisk

/-- A non-null `FILE *`: the path it was opened with and its position
indicator. -/
structure OpenFile where
  path : List Int
  pos : Int

/-- The files on disk, by path, and the table `g_file_handles` (`none` is a
null entry). -/
structure FileSys where
  disk : List Int → Option DiskFile
  g_file_handles : Nat → Option OpenFile

/-- `struct PackFile`, the in-memory directory entry; `name` is the C string in
`char name[MAX_PACK_FILE_PATH]`. -/
structure PackFile where
  name : List Int
  filePosition : Int
  fileLength : Int

/-- `struct PackHeader`; `files` is the array `files` points to. -/
structure PackHeader where
  handle : Int
  numfiles : Int
  files : List PackFile

/-- A `struct SearchPath` node without its `next`: the list of nodes is kept as
a list, head first.  `pack` is `none` for a null pointer. -/
structure SearchPath where
  filename : List Int
  pack : Option PackHeader

/-- The element `pack->files[i]`. -/
def PackHeader.file (pack : PackHeader) (i : Nat) : PackFile :=
  pack.files.getD i ⟨[], 0, 0⟩

/-- The loop of `FileGetAvailableHande`, from index `i` with `n` indices left. -/
def FileGetAvailableHandeLoop (handles : Nat → Option OpenFile) : Nat → Nat → Except Fault Nat
  | 0, _ => .error (.sysError "out of file handle")
  | n + 1, i => if (handles i).isNone then .ok i else FileGetAvailableHandeLoop handles n (i + 1)

/-- `int FileGetAvailableHande()`. -/
def FileGetAvailableHande (fs : FileSys) : Except Fault Nat :=
  FileGetAvailableHandeLoop fs.g_file_handles MAX_FILE_HANDLES 0

/-- `int FileLength(FILE *file)`: the position indicator is put back, the
result is the length narrowed to `int`. -/
def FileLength (f : DiskFile) : Int := wrap32 f.length

/-- `int FileOpenForRead(char *path, int *handle_out)`: the new table, the
value of `*handle_out` and the result. -/
def FileOpenForRead (fs : FileSys) (path : List Int) : Except Fault (FileSys × Int × Int) :=
  match FileGetAvailableHande fs with
  | .error e => .error e
  | .ok handle =>
    match fs.disk path with
    | some f =>
      .ok ({ fs with g_file_handles := fun i =>
              if i = handle then some ⟨path, 0⟩ else fs.g_file_handles i },
           handle, FileLength f)
    | none => .ok (fs, -1, -1)

/-- Assignment to the position indicator of the file behind `filehandle`; an
index outside the table or a null entry is a crash. -/
def setFilePos (fs : FileSys) (filehandle : Int) (f : OpenFile → Int) : Except Fault FileSys :=
  if 0 ≤ filehandle ∧ filehandle < MAX_FILE_HANDLES then
    match fs.g_file_handles filehandle.toNat with
    | some o =>
      .ok { fs with g_file_handles := fun i =>
              if i = filehandle.toNat then some ⟨o.path, f o⟩ else fs.g_file_handles i }
    | none => .error .crash
  else .error .crash

/-- `FileSeek(int filehandle, int position)`:
`fseek(g_file_handles[filehandle], position, SEEK_SET)`. -/
def FileSeek (fs : FileSys) (filehandle position : Int) : Except Fault FileSys :=
  setFilePos fs filehandle (fun _ => position)

/-- `FileRead(int filehandle, void *dest, int count)` as far as the file table
goes: `fread` moves the position indicator past the bytes it delivered. -/
def FileRead (fs : FileSys) (filehandle count : Int) : Except Fault FileSys :=
  if ¬ (count ≥ 0) then .error (.sysError "ASSERT(count >= 0)")
  else
    setFilePos fs filehandle (fun o =>
      match fs.disk o.path with
      | some f => if o.pos < f.length then o.pos + min count (f.length - o.pos) else o.pos
      | none => o.pos)

/-- The inner loop of `FileFind` over `pack->files`, from index `i` with `n`
indices left: the entry at the `return`, if the loop reaches one. -/
def packScan (pack : PackHeader) (filepath : List Int) : Nat → Nat → Option PackFile
  | 0, _ => none
  | n + 1, i =>
    if StringCompare (pack.file i).name filepath = 0 then some (pack.file i)
    else packScan pack filepath n (i + 1)

/-- The outer loop of `FileFind` from the node `searchPath`: the file table,
`*handle` and the value returned. -/
def FileFindFrom (fs : FileSys) (filepath : List Int) :
    List SearchPath → Except Fault (FileSys × Int × Int)
  | [] => .ok (fs, -1, 0)
  | searchPath :: next =>
    match searchPath.pack with
    | some pack =>
      -- search in PAK file
      match packScan pack filepath pack.numfiles.toNat 0 with
      | some file =>
        match FileSeek fs pack.handle file.filePosition with
        | .error e => .error e
        | .ok fs2 => .ok (fs2, pack.handle, file.fileLength)
      | none => FileFindFrom fs filepath next
    | none => FileFindFrom fs filepath next

/-- `int FileFind(const char *filepath, int *handle)`; `handle` is the value of
`*handle` at the call, the result holds its value at the return. -/
def FileFind (fs : FileSys) (g_search_path : List SearchPath) (filepath : List Int)
    (handle : Int) : Except Fault (FileSys × Int × Int) :=
  if handle ≥ 0 then .error (.sysError "handle is already set")
  else FileFindFrom fs filepath g_search_path

/-- The Hunk, the file table and the globals of the file system. -/
structure FileState where
  hunk : Hunk
  fs : FileSys
  g_search_path : List SearchPath
  g_gameDir : List Int
  g_packModified : Bool

/-- The characters of the literal `"packfiles"`. -/
def packfilesName : List Int := [112, 97, 99, 107, 102, 105, 108, 101, 115]

/-- The characters of the literal `"packheader"`. -/
def packheaderName : List Int := [112, 97, 99, 107, 104, 101, 97, 100, 101, 114]

/-- The characters of the literal `"searchpath"`. -/
def searchpathName : List Int := [115, 101, 97, 114, 99, 104, 112, 97, 116, 104]

/-- The characters of the literal `"packpath"`. -/
def packpathName : List Int := [112, 97, 99, 107, 112, 97, 116, 104]

/-- The four characters `'P'`, `'A'`, `'C'`, `'K'`. -/
def packMagic : List Int := [80, 65, 67, 75]

/-- The string `sprintf_s` forms from `"%spak%i.pak"`, `dir` and `i`. -/
def pakPath (dir : List Int) (i : Nat) : List Int :=
  dir ++ [112, 97, 107] ++ (Nat.toDigits 10 i).map (fun c => (c.toNat : Int))
    ++ [46, 112, 97, 107]

/-- The value of `packHeaderDisk.directoryLength / sizeof(PackFileDisk)` as
assigned to `int packfileNum`: the division is done in `size_t`. -/
def packfileNumOf (f : DiskFile) : Int :=
  wrap32 ((f.directoryLength % 18446744073709551616) / 64)

/-- The loop of `FileLoadPack` that fills `packFiles`, from index `i` with `n`
entries left: the entries it writes, in order. -/
def loadPackFiles (k : FsConst) (f : DiskFile) : Nat → Nat → Except Fault (List PackFile)
  | 0, _ => .ok []
  | n + 1, i =>
    match copiedString k.MAX_PACK_FILE_PATH (f.directory i).name 55 with
    | .error e => .error e
    | .ok name =>
      match loadPackFiles k f n (i + 1) with
      | .error e => .error e
      | .ok rest =>
        .ok (⟨name, (f.directory i).filePosition, (f.directory i).fileLength⟩ :: rest)

/-- `PackHeader *FileLoadPack(char *packpath)`; `none` is the NULL result.  The
structures the function writes into its Hunk allocations are kept as values. -/
def FileLoadPack (k : FsConst) (st : FileState) (packpath : List Int) :
    Except Fault (FileState × Option PackHeader) :=
  match FileOpenForRead st.fs packpath with
  | .error e => .error e
  | .ok (fs1, packHandle, r) =>
    match st.fs.disk packpath with
    | none => .ok ({ st with fs := fs1 }, none)
    | some f =>
      if r = -1 then .ok ({ st with fs := fs1 }, none)
      else
        match FileRead fs1 packHandle 12 with
        | .error e => .error e
        | .ok fs2 =>
          if f.magic ≠ packMagic then .error (.sysError "%s is not a packfile")
          else if packfileNumOf f > k.MAX_FILES_IN_PACK then
            .error (.sysError "%s has %i files, too many")
          else
            match FileSeek fs2 packHandle f.directoryOffset with
            | .error e => .error e
            | .ok fs3 =>
              match FileRead fs3 packHandle f.directoryLength with
              | .error e => .error e
              | .ok fs4 =>
                match HunkLowAlloc st.hunk (wrap32 (packfileNumOf f * k.sizeofPackFile))
                    packfilesName with
                | .error e => .error e
                | .ok (h1, _) =>
                  match loadPackFiles k f (packfileNumOf f).toNat 0 with
                  | .error e => .error e
                  | .ok packFiles =>
                    match HunkLowAlloc h1 k.sizeofPackHeader packheaderName with
                    | .error e => .error e
                    | .ok (h2, _) =>
                      .ok ({ st with
                              hunk := h2
                              fs := fs4
                              g_packModified :=
                                if packfileNumOf f ≠ k.PAK0_FILE_NUM then true
                                else st.g_packModified },
                           some ⟨packHandle, packfileNumOf f, packFiles⟩)

/-- The `for (int i = 0; ; ++i)` loop of `FileAddGameDiectory`, from `i`. -/
def addPacksLoop (k : FsConst) (dir : List Int) : Nat → Nat → FileState → Except Fault FileState
  | 0, _, _ => .error .fuel
  | fuel + 1, i, st =>
    -- add any pack files in the format of pak[0-9].pak
    if ((pakPath dir i).length : Int) + 1 > k.MAX_OS_PATH_LENGTH then .error .crash
    else
      match FileLoadPack k st (pakPath dir i) with
      | .error e => .error e
      | .ok (st1, none) => .ok st1
      | .ok (st1, some pack) =>
        match HunkLowAlloc st1.hunk k.sizeofSearchPath packpathName with
        | .error e => .error e
        | .ok (h2, _) =>
          -- insert in front of search path list
          addPacksLoop k dir fuel (i + 1)
            { st1 with hunk := h2, g_search_path := ⟨[], some pack⟩ :: st1.g_search_path }

/-- `void FileAddGameDiectory(char *dir)`. -/
def FileAddGameDiectory (k : FsConst) (fuel : Nat) (st : FileState) (dir : List Int) :
    Except Fault FileState :=
  match copiedString k.MAX_OS_PATH_LENGTH dir 0 with
  | .error e => .error e
  | .ok gameDir =>
    match HunkLowAlloc st.hunk k.sizeofSearchPath searchpathName with
    | .error e => .error e
    | .ok (h1, _) =>
      match copiedString k.MAX_OS_PATH_LENGTH dir 0 with
      | .error e => .error e
      | .ok filename =>
        -- insert game directory in front of search path list
        addPacksLoop k dir fuel 0
          { st with hunk := h1, g_gameDir := gameDir,
                    g_search_path := ⟨filename, none⟩ :: st.g_search_path }

/-! ## Specification-side definitions for the search path -/

/-- The characters of a C string: those before its first NUL. -/
def cstr (s : List Int) : List Int := s.takeWhile (fun c => c ≠ 0)

/-- The entries `files[0]`, ..., `files[numfiles - 1]` of an archive. -/
def PackHeader.entries (pack : PackHeader) : List PackFile :=
  (List.range pack.numfiles.toNat).map pack.file

/-- Resolution as the specification words it: walking the search path head
first, the first archive node that has an entry whose name is byte-wise equal
to `p`, together with the first such entry of that archive. -/
def resolveSpec (sp : List SearchPath) (p : List Int) : Option (PackHeader × PackFile) :=
  (sp.filterMap (fun node => node.pack)).findSome? (fun pack =>
    (pack.entries.find? (fun e => decide (cstr e.name = cstr p))).map (fun e => (pack, e)))

/-- The search-path node `FileAddGameDiectory` makes for an archive. -/
def packNode (pack : PackHeader) : SearchPath := ⟨[], some pack⟩

/-- The first entry of `pack` whose name is byte-wise equal to `p`, with the
archive. -/
def PackHeader.lookup (p : List Int) (pack : PackHeader) : Option (PackHeader × PackFile) :=
  (pack.entries.find? (fun e => decide (cstr e.name = cstr p))).map (fun e => (pack, e))

/-- The archive `pack` is what `FileLoadPack` builds from the file at `path`:
its entry count and its normalised entries. -/
def LoadedFrom (k : FsConst) (disk : List Int → Option DiskFile) (path : List Int)
    (pack : PackHeader) : Prop :=
  ∃ f, disk path = some f ∧ pack.numfiles = packfileNumOf f ∧
    loadPackFiles k f (packfileNumOf f).toNat 0 = .ok pack.files

/-- What `FileFind` is to return for `p` on the search path `sp`, given
`resolveSpec`: handle -1 and length 0 when nothing resolves `p`, otherwise the
archive's handle, sought to the entry's position, and the entry's length. -/
def findSpec (fs : FileSys) (sp : List SearchPath) (p : List Int) :
    Except Fault (FileSys × Int × Int) :=
  match resolveSpec sp p with
  | none => .ok (fs, -1, 0)
  | some x =>
    (FileSeek fs x.1.handle x.2.filePosition).map (fun fs2 => (fs2, x.1.handle, x.2.fileLength))

/-! ## Scenario S5 -/

/-- Values for the parameters in scenario S5: `MAX_FILES_IN_PACK` is the
specification's default, the others are sample values. -/
def s5Const : FsConst :=
  { MAX_FILES_IN_PACK := 2048, MAX_PACK_FILE_PATH := 64, PAK0_FILE_NUM := 339,
    MAX_OS_PATH_LENGTH := 128, sizeofPackFile := 72, sizeofPackHeader := 16,
    sizeofSearchPath := 144 }

/-- The characters of `"shared.dat"`. -/
def sharedDat : List Int := [115, 104, 97, 114, 101, 100, 46, 100, 97, 116]

/-- A pack file with the single entry `"shared.dat"` at `position`, of the given
`length`. -/
def s5Pack (position length : Int) : DiskFile :=
  { length := 1024, magic := packMagic, directoryOffset := 12, directoryLength := 64,
    directory := fun _ => ⟨sharedDat, position, length⟩ }

/-- The characters of `"A/"`. -/
def dirA : List Int := [65, 47]

/-- The characters of `"B/"`. -/
def dirB : List Int := [66, 47]

/-- The disk of scenario S5: `A/pak0.pak`, `B/pak0.pak` and `B/pak1.pak`, each
with a file `"shared.dat"`. -/
def s5Disk (path : List Int) : Option DiskFile :=
  if path = pakPath dirA 0 then some (s5Pack 100 5)
  else if path = pakPath dirB 0 then some (s5Pack 200 7)
  else if path = pakPath dirB 1 then some (s5Pack 300 9)
  else none

/-- The state before the two registrations of scenario S5. -/
def s5Start : FileState :=
  { hunk := hunkInit 0 1048576 (fun _ => 0),
    fs := { disk := s5Disk, g_file_handles := fun _ => none },
    g_search_path := [], g_gameDir := [], g_packModified := false }

/-- The state of scenario S5 after `FileAddGameDiectory("A/")`. -/
def s5StateA : FileState :=
  ((FileAddGameDiectory s5Const 20 s5Start dirA).toOption).getD s5Start

/-- The state of scenario S5 after `FileAddGameDiectory("A/")` and then
`FileAddGameDiectory("B/")`. -/
def s5StateB : FileState :=
  ((FileAddGameDiectory s5Const 20 s5StateA dirB).toOption).getD s5Start

/-! ## `GetFileNameFromPath`, `IntToString`, `StringToInt` -/

/-- The scan loop of `GetFileNameFromPath`.  The list holds the characters from
`scan` up to the terminating NUL; the result is the final `scan` and
`onePastLastSlash`, both as indices into the path. -/
def scanPath : List Int → Nat → Nat → Nat × Nat
  | [], scan, onePastLastSlash => (scan, onePastLastSlash)
  | c :: rest, scan, onePastLastSlash =>
    if c = 0 then (scan, onePastLastSlash)
    else if c = 92 ∨ c = 47 then scanPath rest (scan + 1) (scan + 1)
    else scanPath rest (scan + 1) onePastLastSlash

/-- `void GetFileNameFromPath(const char *path, char *dest, int destSize)`; the
result is the memory that holds `dest`. -/
def GetFileNameFromPath (mem : Bytes) (path : List Int) (dest destSize : Int) :
    Except Fault Bytes :=
  (StringCopy mem dest destSize (path.drop (scanPath path 0 0).2)
    (wrap32 ((scanPath path 0 0).1 - (scanPath path 0 0).2))).map Prod.fst

/-- The last segment of a path as the specification words it: what follows the
last `/` or `\`, the whole path when it has neither. -/
def lastSegment (path : List Int) : List Int :=
  (path.reverse.takeWhile (fun c => decide (c ≠ 92 ∧ c ≠ 47))).reverse

/-- The first loop of `IntToString`: it writes the digits of `number`, the
lowest first, from `str[index]` on and then the NUL.  The result is the memory
and the final `index`. -/
def intDigitsLoop (str size : Int) : Nat → Bytes → Int → Int → Except Fault (Bytes × Int)
  | 0, _, _, _ => .error .fuel
  | fuel + 1, mem, number, index =>
    if wrap32 (index + 1) ≥ wrap32 (size - 1) ∨ Int.tdiv number 10 = 0 then
      .ok (setByte (setByte mem (str + index) (Int.tmod number 10 + 48))
        (str + wrap32 (index + 1)) 0, wrap32 (index + 1))
    else
      intDigitsLoop str size fuel (setByte mem (str + index) (Int.tmod number 10 + 48))
        (Int.tdiv number 10) (wrap32 (index + 1))

/-- The second loop of `IntToString`, which rotates the digits. -/
def rotateLoop (str : Int) : Nat → Bytes → Int → Int → Except Fault Bytes
  | 0, _, _, _ => .error .fuel
  | fuel + 1, mem, start_i, end_i =>
    if start_i < end_i then
      rotateLoop str fuel
        (setByte (setByte mem (str + start_i) (mem (str + end_i))) (str + end_i)
          (mem (str + start_i)))
        (wrap32 (start_i + 1)) (wrap32 (end_i - 1))
    else .ok mem

/-- `void IntToString(int number, char *str, int size)`; the result is the
memory that holds `str`. -/
def IntToString (fuel : Nat) (mem : Bytes) (number str size : Int) : Except Fault Bytes :=
  match intDigitsLoop str size fuel
      (if number < 0 then setByte mem (str + 0) 45 else mem)
      (if number < 0 then wrap32 (number * -1) else number)
      (if number < 0 then 1 else 0) with
  | .error e => .error e
  | .ok (mem1, index) =>
    rotateLoop str fuel mem1 (if number < 0 then 1 else 0) (wrap32 (index - 1))

/-- The loop of `StringToInt` from `str[index]`, with the `number` so far: the
`number` at the `break`. -/
def stringToIntLoop (mem : Bytes) (str : Int) : Nat → Int → Int → Except Fault Int
  | 0, _, _ => .error .fuel
  | fuel + 1, number, index =>
    if mem (str + index) = 48 ∧ number = 0 then
      stringToIntLoop mem str fuel number (wrap32 (index + 1))
    else if mem (str + index) ≥ 48 ∧ mem (str + index) ≤ 57 then
      stringToIntLoop mem str fuel
        (wrap32 (wrap32 (number * 10) + (mem (str + index) - 48))) (wrap32 (index + 1))
    else .ok number

/-- `int StringToInt(char *str)`. -/
def StringToInt (fuel : Nat) (mem : Bytes) (str : Int) : Except Fault Int :=
  (stringToIntLoop mem str fuel 0
    (if mem (str + 0) = 45 then 1 else if mem (str + 0) = 43 then 1 else 0)).map
    (fun number => wrap32 (number * (if mem (str + 0) = 45 then -1 else 1)))

/-- The usual decimal representation of `n`: a `-` when `n` is negative, then
the digits of its absolute value, the highest first, as characters; `"0"` for
zero. -/
def decimalSpec (n : Int) : List Int :=
  (if n < 0 then [45] else []) ++
    (if n = 0 then [48]
      else ((Nat.digits 10 n.natAbs).reverse.map (fun (d : Nat) => (d : Int) + 48)))

/-- Decimal digits of `k`, least significant first, with the single digit 0 for
zero: the order in which the digit loop of `IntToString` produces them. -/
def digitsLE (k : Nat) : List Nat := if k = 0 then [0] else Nat.digits 10 k

/-! ## Specification-side definitions for the first-fit scan of `CacheTryAlloc` -/

/-- No gap in front of a block of `l` holds `s` bytes: starting from the
candidate position `p`, the distance from the candidate position to each block
is below `s`, where the candidate position after a block is that block's end. -/
def GapsTooSmall (c : Cache) (s : Int) : Int → List Int → Prop
  | _, [] => True
  | p, a :: l => a - p < s ∧ GapsTooSmall c s (a + (c.hdr (.blk a)).size) l

/-- The calls that leave a hole in the cache region of scenario S3: three blocks
of size 1000 for the handles 0, 1 and 2, then `CacheFree` of the second. -/
def gapCalls : List CacheCall :=
  [.alloc 0 1000 [], .alloc 1 1000 [], .alloc 2 1000 [], .free 1]

/-- The cache state after `gapCalls`: blocks at 131104 and 133248, and a hole of
1072 bytes between them. -/
def gapState : Cache :=
  ((runCacheCalls 10 s3Hunk (CacheInit rawCache) gapCalls).toOption).getD rawCache

/-! ## `FileClose` and `FileLoad` -/

/-- The allocation targets of `FileLoad`.  The enumeration is declared in
`q_common.h`; these are the enumerators `FileLoad` names, and `other` stands for
a value that is none of them. -/
inductive ALLocType where
  | LOWHUNK
  | TEMPHUNK
  | ZONE
  | CACHE
  | TEMPSTACK
  | other
  deriving DecidableEq, Repr

/-- Where a buffer returned by `FileLoad` lies: at an offset of the Hunk buffer
or at an offset of the main zone. -/
inductive LoadPtr where
  | hunk (p : Int)
  | zone (p : Int)
  deriving DecidableEq, Repr

/-- The globals `FileLoad` works on: those of the file system and the Hunk, the
main zone, and the payload bytes of the main zone by zone offset. -/
structure LoadState where
  files : FileState
  zone : MemoryZone
  zoneBytes : Bytes

/-- The assignment `buffer[i] = v`. -/
def LoadState.store (st : LoadState) (buffer : LoadPtr) (i v : Int) : LoadState :=
  match buffer with
  | .hunk p =>
    { st with files := { st.files with
        hunk := { st.files.hunk with mem := setByte st.files.hunk.mem (p + i) v } } }
  | .zone p => { st with zoneBytes := setByte st.zoneBytes (p + i) v }

/-- The value of `buffer[i]`. -/
def LoadState.load (st : LoadState) (buffer : LoadPtr) (i : Int) : Int :=
  match buffer with
  | .hunk p => st.files.hunk.mem (p + i)
  | .zone p => st.zoneBytes (p + i)

/-- The assignments `buffer[i] = l[0]`, `buffer[i + 1] = l[1]`, and so on. -/
def LoadState.storeList (st : LoadState) (buffer : LoadPtr) : Int → List Int → LoadState
  | _, [] => st
  | i, v :: l => LoadState.storeList (st.store buffer i v) buffer (i + 1) l

/-- `void FileClose(int handle)`.  The loop advances with `++sp`: after the
first node it reads whatever follows that node in memory, not the next node of
the list.  So the function returns when the list is empty or its first node is
a pack with this handle; anything else is outside defined behaviour. -/
def FileClose (g_search_path : List SearchPath) (handle : Int) : Except Fault Unit :=
  match g_search_path with
  | [] => .ok ()
  | sp :: _ =>
    match sp.pack with
    | some pack => if pack.handle = handle then .ok () else .error .crash
    | none => .error .crash

/-- The bytes `fread` delivers for `FileRead(filehandle, dest, count)`: those of
the open file from its position indicator on, as many as `count` and the file's
length allow.  `data` gives the bytes of the files on disk by path and
position. -/
def readBytes (fs : FileSys) (data : List Int → Int → Int) (filehandle count : Int) :
    List Int :=
  match fs.g_file_handles filehandle.toNat with
  | some o =>
    match fs.disk o.path with
    | some f =>
      (List.range (min count (f.length - o.pos)).toNat).map (fun i => data o.path (o.pos + i))
    | none => []
  | none => []

/-- `FileRead(filehandle, buffer, count)` together with the bytes it stores in
`buffer`. -/
def FileReadInto (data : List Int → Int → Int) (st : LoadState) (filehandle : Int)
    (buffer : LoadPtr) (count : Int) : Except Fault LoadState :=
  match FileRead st.files.fs filehandle count with
  | .error e => .error e
  | .ok fs2 =>
    .ok (LoadState.storeList { st with files := { st.files with fs := fs2 } } buffer 0
      (readBytes st.files.fs data filehandle count))

/-- The `switch (allocType)` of `FileLoad`: the new state and the value of
`buffer` after it. -/
def loadAlloc (fuel : Nat) (st : LoadState) (allocType : ALLocType) (fileLength : Int)
    (baseName : List Int) : Except Fault (LoadState × Option LoadPtr) :=
  match allocType with
  | .LOWHUNK =>
    match HunkLowAlloc st.files.hunk (wrap32 (fileLength + 1)) baseName with
    | .error e => .error e
    | .ok (h, p) => .ok ({ st with files := { st.files with hunk := h } }, some (.hunk p))
  | .TEMPHUNK =>
    match HunkTempAlloc st.files.hunk (wrap32 (fileLength + 1)) with
    | .error e => .error e
    | .ok (h, p) => .ok ({ st with files := { st.files with hunk := h } }, some (.hunk p))
  | .ZONE =>
    match ZoneTagMalloc fuel st.zone (wrap32 (fileLength + 1)) 1 with
    | .error e => .error e
    | .ok (z, r) => .ok ({ st with zone := z }, r.map LoadPtr.zone)
  | .CACHE =>
    -- buffer = (U8 *)CacheAlloc(loadcache, fileLength + 1, baseName);
    .ok (st, none)
  | .TEMPSTACK => .ok (st, none)
  | .other => .error (.sysError "bad alloc type")

/-- `U8 *FileLoad(const char *filepath, ALLocType allocType)`; the result is the
new state and the returned pointer. -/
def FileLoad (fuel : Nat) (data : List Int → Int → Int) (st : LoadState)
    (filepath : List Int) (allocType : ALLocType) : Except Fault (LoadState × Option LoadPtr) :=
  match FileFind st.files.fs st.files.g_search_path filepath (-1) with
  | .error e => .error e
  | .ok (fs1, handle, fileLength) =>
    if handle = -1 then .ok ({ st with files := { st.files with fs := fs1 } }, none)
    else
      match GetFileNameFromPath (fun _ => 0) filepath 0 16 with
      | .error e => .error e
      | .ok stack =>
        match loadAlloc fuel { st with files := { st.files with fs := fs1 } } allocType
            fileLength (cstrAt stack 0 16) with
        | .error e => .error e
        | .ok (_, none) => .error (.sysError "not enough space for %s")
        | .ok (st2, some buffer) =>
          match FileReadInto data (st2.store buffer fileLength 0) handle buffer fileLength with
          | .error e => .error e
          | .ok st3 =>
            match FileClose st3.files.g_search_path handle with
            | .error e => .error e
            | .ok _ => .ok (st3, some buffer)

/-- `U8 *FileLoadToLowHunk(const char *filepath)`. -/
def FileLoadToLowHunk (fuel : Nat) (data : List Int → Int → Int) (st : LoadState)
    (filepath : List Int) : Except Fault (LoadState × Option LoadPtr) :=
  FileLoad fuel data st filepath .LOWHUNK

/-- The bytes of the files of scenario S5: the byte at position `i` of every
file is `i % 251 + 1`. -/
def s5Data (_path : List Int) (i : Int) : Int := i % 251 + 1

/-- The state in which scenario S5 calls `FileLoad`: the file system and Hunk
after both registrations, and a freshly initialised main zone. -/
def s5Load : LoadState :=
  { files := s5StateB, zone := zoneInit DYNAMIC_ZONE_SIZE, zoneBytes := fun _ => 0 }

/-! ## Specification-side definitions for the registration of a directory -/

/-- No archive is loaded from `path`: there is no such file, or `FileLength`
gives -1 for it.  These are the cases in which `FileOpenForRead` returns -1. -/
def Unloadable (disk : List Int → Option DiskFile) (path : List Int) : Prop :=
  disk path = none ∨ ∃ f, disk path = some f ∧ FileLength f = -1

/-- The entry `handle` of the file table is a stream opened on the file at
`path`. -/
def OpenOn (fs : FileSys) (handle : Int) (path : List Int) : Prop :=
  0 ≤ handle ∧ handle < MAX_FILE_HANDLES ∧
    ∃ o, fs.g_file_handles handle.toNat = some o ∧ o.path = path


/-! ## Facts about the Hunk -/

theorem StringCopyLoop_ok (src : List Int) (dest count : Int) :
    ∀ (fuel : Nat) (mem : Bytes) (destSize : Int) (i : Nat),
      1 ≤ destSize → destSize ≤ fuel →
      ∃ r, StringCopyLoop src dest count fuel mem destSize i = .ok r := by
  intro fuel
  induction fuel with
  | zero => intro mem destSize i h1 h2; simp at h2; omega
  | succ n ih =>
    intro mem destSize i h1 h2
    unfold StringCopyLoop
    by_cases hc : destSize = 1 ∨ (i : Int) = count
    · simp [hc]
    · simp only [hc, if_false]
      by_cases h0 : charAt src i = 0
      · simp [h0]
      · simp only [h0, if_false]
        have hne : destSize ≠ 1 := fun h => hc (Or.inl h)
        apply ih
        · omega
        · push_cast at h2; omega

theorem StringCopy_ok (mem : Bytes) (dest destSize : Int) (src : List Int) (count : Int)
    (h1 : 1 ≤ destSize) (h2 : 0 ≤ count) :
    ∃ r, StringCopy mem dest destSize src count = .ok r := by
  unfold StringCopy
  have : ¬ ¬ destSize > 0 := by omega
  have : ¬ ¬ count ≥ 0 := by omega
  simp only [*, if_false]
  apply StringCopyLoop_ok
  · exact h1
  · rw [Int.toNat_of_nonneg (by omega)]

theorem writeHunkHeader_ok (mem : Bytes) (base hh size : Int) (name : List Int) :
    ∃ m, writeHunkHeader mem base hh size name = .ok m := by
  unfold writeHunkHeader
  obtain ⟨r, hr⟩ := StringCopy_ok
    (store32 (store32 (MemSet mem (base + hh) hh 0 size) hh HUNK_SENTINEL) (hh + 4) size)
    (hh + 8) 16 name 0 (by norm_num) (by norm_num)
  rw [hr]
  exact ⟨r.1, rfl⟩

/-- What a returning `HunkLowAlloc` did to the Hunk globals. -/
theorem HunkLowAlloc_ok {h h2 : Hunk} {size p : Int} {name : List Int}
    (hr : HunkLowAlloc h size name = .ok (h2, p)) :
    0 ≤ size ∧
    hunkRounded size ≤
      wrap32 (wrap32 (h.g_hunk_total_size - h.g_hunk_low_used) - h.g_hunk_high_used) ∧
    h2.g_hunk_low_used = wrap32 (h.g_hunk_low_used + hunkRounded size) ∧
    h2.g_hunk_high_used = h.g_hunk_high_used ∧
    h2.g_hunk_temp_used = h.g_hunk_temp_used ∧
    h2.g_hunk_temp_active = h.g_hunk_temp_active ∧
    h2.g_hunk_total_size = h.g_hunk_total_size ∧
    h2.g_hunk_base = h.g_hunk_base ∧
    p = h.g_hunk_low_used + sizeofHunkHeader := by
  unfold HunkLowAlloc at hr
  split_ifs at hr with h1 h3
  split at hr
  · exact absurd hr (by simp)
  · simp only [Except.ok.injEq, Prod.mk.injEq] at hr
    obtain ⟨rfl, rfl⟩ := hr
    exact ⟨by omega, by omega, rfl, rfl, rfl, rfl, rfl, rfl, rfl⟩

/-- What a returning `HunkHighAlloc` did to the Hunk globals. -/
theorem HunkHighAlloc_ok {h h2 : Hunk} {size p : Int} {name : List Int}
    (hr : HunkHighAlloc h size name = .ok (h2, p)) :
    0 ≤ size ∧
    hunkRounded size ≤
      wrap32 (wrap32 (h.g_hunk_total_size - h.g_hunk_low_used) - h.g_hunk_high_used) ∧
    h2.g_hunk_low_used = h.g_hunk_low_used ∧
    h2.g_hunk_high_used = wrap32 (h.g_hunk_high_used + hunkRounded size) ∧
    h2.g_hunk_temp_used = h.g_hunk_temp_used ∧
    h2.g_hunk_temp_active = h.g_hunk_temp_active ∧
    h2.g_hunk_total_size = h.g_hunk_total_size ∧
    h2.g_hunk_base = h.g_hunk_base ∧
    p = h.g_hunk_total_size - wrap32 (h.g_hunk_high_used + hunkRounded size)
      + sizeofHunkHeader := by
  unfold HunkHighAlloc at hr
  split_ifs at hr with h1 h3
  split at hr
  · exact absurd hr (by simp)
  · simp only [Except.ok.injEq, Prod.mk.injEq] at hr
    obtain ⟨rfl, rfl⟩ := hr
    exact ⟨by omega, by omega, rfl, rfl, rfl, rfl, rfl, rfl, rfl⟩

theorem hunkRounded_eq_spec {size : Int} (h0 : 0 ≤ size) (h1 : size ≤ 2147483608) :
    hunkRounded size = roundedSpec size := by
  unfold hunkRounded roundedSpec Align16 wrap32 sizeofHunkHeader
  omega

/-- The Hunk invariant is kept by every operation that returns, as long as the
requested size is at most `2^31 - 40`, so that its rounding does not wrap. -/
theorem HunkInv_step {h h2 : Hunk} (op : HunkOp) (hN : h.g_hunk_total_size < 2147483648)
    (hinv : HunkInv h) (hs : op.small) (hr : op.run h = .ok h2) :
    HunkInv h2 ∧ h2.g_hunk_total_size = h.g_hunk_total_size := by
  unfold HunkInv at hinv ⊢
  obtain ⟨i1, i2, i3, i4, i5, i6⟩ := hinv
  cases op with
  | lowAlloc size name =>
    simp only [HunkOp.run] at hr
    cases hq : HunkLowAlloc h size name with
    | error e => rw [hq] at hr; exact absurd hr (by simp [Except.map])
    | ok r =>
      rw [hq] at hr
      simp only [Except.map, Except.ok.injEq] at hr
      subst hr
      obtain ⟨a1, a2, a3, a4, a5, a6, a7, -, -⟩ := @HunkLowAlloc_ok _ r.1 _ r.2 _ hq
      simp only [HunkOp.small] at hs
      rw [hunkRounded_eq_spec a1 hs] at a2 a3
      rw [a3, a4, a5, a6, a7]
      unfold roundedSpec wrap32 sizeofHunkHeader at *
      refine ⟨⟨?_, ?_, ?_, ?_, ?_, ?_⟩, rfl⟩ <;> first | exact i6 | omega
  | highAlloc size name =>
    simp only [HunkOp.run] at hr
    cases hq : HunkHighAlloc h size name with
    | error e => rw [hq] at hr; exact absurd hr (by simp [Except.map])
    | ok r =>
      rw [hq] at hr
      simp only [Except.map, Except.ok.injEq] at hr
      subst hr
      obtain ⟨a1, a2, a3, a4, a5, a6, a7, -, -⟩ := @HunkHighAlloc_ok _ r.1 _ r.2 _ hq
      simp only [HunkOp.small] at hs
      rw [hunkRounded_eq_spec a1 hs] at a2 a4
      rw [a3, a4, a5, a6, a7]
      unfold roundedSpec wrap32 sizeofHunkHeader at *
      refine ⟨⟨?_, ?_, ?_, ?_, ?_, ?_⟩, rfl⟩ <;> first | exact i6 | omega
  | tempAlloc size =>
    simp only [HunkOp.run] at hr
    cases hq : HunkTempAlloc h size with
    | error e => rw [hq] at hr; exact absurd hr (by simp [Except.map])
    | ok r =>
      rw [hq] at hr
      simp only [Except.map, Except.ok.injEq] at hr
      subst hr
      simp only [HunkOp.small] at hs
      by_cases hact : h.g_hunk_temp_active = true
      · simp only [HunkTempAlloc, hact, if_true] at hq
        split at hq
        · exact absurd hq (by simp)
        · rename_i h3 res hq2
          simp only [Except.ok.injEq] at hq
          subst hq
          obtain ⟨a1, a2, a3, a4, a5, a6, a7, -, -⟩ := HunkHighAlloc_ok hq2
          rw [hunkRounded_eq_spec a1 hs] at a2 a4
          simp only [HunkFreeTemp] at a2 a3 a4 a5 a6 a7
          simp only [a3, a4, a5, a6, a7, HunkFreeTemp]
          have : 0 < h.g_hunk_temp_used := i6.mpr hact
          unfold roundedSpec wrap32 sizeofHunkHeader at *
          refine ⟨⟨?_, ?_, ?_, ?_, ?_, ?_⟩, trivial⟩
          · omega
          · omega
          · omega
          · omega
          · omega
          · constructor
            · intro _; trivial
            · intro _; omega
      · have hf : h.g_hunk_temp_active = false := by simpa using hact
        simp only [HunkTempAlloc, hf, Bool.false_eq_true, if_false] at hq
        split at hq
        · exact absurd hq (by simp)
        · rename_i h3 res hq2
          simp only [Except.ok.injEq] at hq
          subst hq
          obtain ⟨a1, a2, a3, a4, a5, a6, a7, -, -⟩ := HunkHighAlloc_ok hq2
          rw [hunkRounded_eq_spec a1 hs] at a2 a4
          dsimp only at a2 a3 a4 a5 a6 a7
          simp only [a3, a4, a5, a6, a7]
          have : ¬ 0 < h.g_hunk_temp_used := fun hh => hact (i6.mp hh)
          unfold roundedSpec wrap32 sizeofHunkHeader at *
          refine ⟨⟨?_, ?_, ?_, ?_, ?_, ?_⟩, trivial⟩
          · omega
          · omega
          · omega
          · omega
          · omega
          · constructor
            · intro _; trivial
            · intro _; omega
  | freeTemp =>
    simp only [HunkOp.run, Except.ok.injEq] at hr
    subst hr
    simp only [HunkFreeTemp]
    unfold wrap32
    refine ⟨⟨?_, ?_, ?_, ?_, ?_, ?_⟩, trivial⟩ <;> first | omega | simp

/-- Along a run of Hunk operations whose sizes do not wrap, the Hunk invariant
holds in the final state. -/
theorem HunkInv_run (ops : List HunkOp) :
    ∀ (h h2 : Hunk), h.g_hunk_total_size < 2147483648 → HunkInv h →
      (∀ op ∈ ops, op.small) → runHunkOps h ops = .ok h2 → HunkInv h2 := by
  induction ops with
  | nil =>
    intro h h2 _ hinv _ hr
    simp only [runHunkOps, Except.ok.injEq] at hr
    exact hr ▸ hinv
  | cons op ops ih =>
    intro h h2 hN hinv hs hr
    simp only [runHunkOps] at hr
    cases hq : op.run h with
    | error e => rw [hq] at hr; exact absurd hr (by simp)
    | ok h1 =>
      rw [hq] at hr
      obtain ⟨i1, i2⟩ := HunkInv_step op hN hinv (hs op (List.mem_cons_self _ _)) hq
      exact ih h1 h2 (by omega) i1 (fun o ho => hs o (List.mem_cons_of_mem _ ho)) hr

/-- C1 (failing input).  From the state set by `MemoryInit` on a buffer of
1 048 576 bytes, `HunkLowAlloc(2147483647, name)` returns without a fatal
error: the rounded size wraps to -2147483616, the out-of-memory test passes, and
`g_hunk_low_used` ends up negative, so the Hunk invariant is broken. -/
theorem hunk_invariant_broken_by_wrapped_size :
    (runHunkOps (hunkInit 0 1048576 (fun _ => 0)) [HunkOp.lowAlloc 2147483647 []]).toOption.map
        (fun h => (h.g_hunk_low_used, h.g_hunk_high_used, decide (HunkInv h)))
      = some (-2147483616, 0, false) := by
  decide

/-- C2 (failing input).  In the state set by `MemoryInit` on a buffer of
1 048 576 bytes and for `size = 2147483647`, the rounded size of the contract,
`size + sizeof(HunkHeader) + 15` rounded down to a multiple of 16, exceeds the
free space, so the contract asks for a fatal error; `HunkLowAlloc` returns the
offset 24 instead and moves `g_hunk_low_used` down to -2147483616. -/
theorem HunkLowAlloc_misses_wrapped_size :
    (hunkInit 0 1048576 (fun _ => 0)).g_hunk_low_used
        + (hunkInit 0 1048576 (fun _ => 0)).g_hunk_high_used + roundedSpec 2147483647
      > (hunkInit 0 1048576 (fun _ => 0)).g_hunk_total_size ∧
    (HunkLowAlloc (hunkInit 0 1048576 (fun _ => 0)) 2147483647 []).toOption.map
        (fun r => (r.1.g_hunk_low_used, r.2))
      = some (-2147483616, 24) := by
  decide
/-! ## Field-wise reading of the Zone assignments -/

@[simp] theorem MemoryZone.setSize_blk_size (z : MemoryZone) (p v a : Int) :
    ((z.setSize p v).blocks a).size = if a = p then v else (z.blocks a).size := by
  simp only [MemoryZone.setSize, MemoryZone.upd]; split_ifs <;> rfl

@[simp] theorem MemoryZone.setSize_blk_tag (z : MemoryZone) (p v a : Int) :
    ((z.setSize p v).blocks a).tag = (z.blocks a).tag := by
  simp only [MemoryZone.setSize, MemoryZone.upd]; split_ifs <;> rfl

@[simp] theorem MemoryZone.setSize_blk_id (z : MemoryZone) (p v a : Int) :
    ((z.setSize p v).blocks a).id = (z.blocks a).id := by
  simp only [MemoryZone.setSize, MemoryZone.upd]; split_ifs <;> rfl

@[simp] theorem MemoryZone.setSize_blk_next (z : MemoryZone) (p v a : Int) :
    ((z.setSize p v).blocks a).next = (z.blocks a).next := by
  simp only [MemoryZone.setSize, MemoryZone.upd]; split_ifs <;> rfl

@[simp] theorem MemoryZone.setSize_blk_prev (z : MemoryZone) (p v a : Int) :
    ((z.setSize p v).blocks a).prev = (z.blocks a).prev := by
  simp only [MemoryZone.setSize, MemoryZone.upd]; split_ifs <;> rfl

@[simp] theorem MemoryZone.setSize_zsize (z : MemoryZone) (p v : Int) :
    (z.setSize p v).size = z.size := rfl

@[simp] theorem MemoryZone.setSize_rover (z : MemoryZone) (p v : Int) :
    (z.setSize p v).rover = z.rover := rfl

@[simp] theorem MemoryZone.setTag_blk_size (z : MemoryZone) (p v a : Int) :
    ((z.setTag p v).blocks a).size = (z.blocks a).size := by
  simp only [MemoryZone.setTag, MemoryZone.upd]; split_ifs <;> rfl

@[simp] theorem MemoryZone.setTag_blk_tag (z : MemoryZone) (p v a : Int) :
    ((z.setTag p v).blocks a).tag = if a = p then v else (z.blocks a).tag := by
  simp only [MemoryZone.setTag, MemoryZone.upd]; split_ifs <;> rfl

@[simp] theorem MemoryZone.setTag_blk_id (z : MemoryZone) (p v a : Int) :
    ((z.setTag p v).blocks a).id = (z.blocks a).id := by
  simp only [MemoryZone.setTag, MemoryZone.upd]; split_ifs <;> rfl

@[simp] theorem MemoryZone.setTag_blk_next (z : MemoryZone) (p v a : Int) :
    ((z.setTag p v).blocks a).next = (z.blocks a).next := by
  simp only [MemoryZone.setTag, MemoryZone.upd]; split_ifs <;> rfl

@[simp] theorem MemoryZone.setTag_blk_prev (z : MemoryZone) (p v a : Int) :
    ((z.setTag p v).blocks a).prev = (z.blocks a).prev := by
  simp only [MemoryZone.setTag, MemoryZone.upd]; split_ifs <;> rfl

@[simp] theorem MemoryZone.setTag_zsize (z : MemoryZone) (p v : Int) :
    (z.setTag p v).size = z.size := rfl

@[simp] theorem MemoryZone.setTag_rover (z : MemoryZone) (p v : Int) :
    (z.setTag p v).rover = z.rover := rfl

@[simp] theorem MemoryZone.setId_blk_size (z : MemoryZone) (p v a : Int) :
    ((z.setId p v).blocks a).size = (z.blocks a).size := by
  simp only [MemoryZone.setId, MemoryZone.upd]; split_ifs <;> rfl

@[simp] theorem MemoryZone.setId_blk_tag (z : MemoryZone) (p v a : Int) :
    ((z.setId p v).blocks a).tag = (z.blocks a).tag := by
  simp only [MemoryZone.setId, MemoryZone.upd]; split_ifs <;> rfl

@[simp] theorem MemoryZone.setId_blk_id (z : MemoryZone) (p v a : Int) :
    ((z.setId p v).blocks a).id = if a = p then v else (z.blocks a).id := by
  simp only [MemoryZone.setId, MemoryZone.upd]; split_ifs <;> rfl

@[simp] theorem MemoryZone.setId_blk_next (z : MemoryZone) (p v a : Int) :
    ((z.setId p v).blocks a).next = (z.blocks a).next := by
  simp only [MemoryZone.setId, MemoryZone.upd]; split_ifs <;> rfl

@[simp] theorem MemoryZone.setId_blk_prev (z : MemoryZone) (p v a : Int) :
    ((z.setId p v).blocks a).prev = (z.blocks a).prev := by
  simp only [MemoryZone.setId, MemoryZone.upd]; split_ifs <;> rfl

@[simp] theorem MemoryZone.setId_zsize (z : MemoryZone) (p v : Int) :
    (z.setId p v).size = z.size := rfl

@[simp] theorem MemoryZone.setId_rover (z : MemoryZone) (p v : Int) :
    (z.setId p v).rover = z.rover := rfl

@[simp] theorem MemoryZone.setNext_blk_size (z : MemoryZone) (p v a : Int) :
    ((z.setNext p v).blocks a).size = (z.blocks a).size := by
  simp only [MemoryZone.setNext, MemoryZone.upd]; split_ifs <;> rfl

@[simp] theorem MemoryZone.setNext_blk_tag (z : MemoryZone) (p v a : Int) :
    ((z.setNext p v).blocks a).tag = (z.blocks a).tag := by
  simp only [MemoryZone.setNext, MemoryZone.upd]; split_ifs <;> rfl

@[simp] theorem MemoryZone.setNext_blk_id (z : MemoryZone) (p v a : Int) :
    ((z.setNext p v).blocks a).id = (z.blocks a).id := by
  simp only [MemoryZone.setNext, MemoryZone.upd]; split_ifs <;> rfl

@[simp] theorem MemoryZone.setNext_blk_next (z : MemoryZone) (p v a : Int) :
    ((z.setNext p v).blocks a).next = if a = p then v else (z.blocks a).next := by
  simp only [MemoryZone.setNext, MemoryZone.upd]; split_ifs <;> rfl

@[simp] theorem MemoryZone.setNext_blk_prev (z : MemoryZone) (p v a : Int) :
    ((z.setNext p v).blocks a).prev = (z.blocks a).prev := by
  simp only [MemoryZone.setNext, MemoryZone.upd]; split_ifs <;> rfl

@[simp] theorem MemoryZone.setNext_zsize (z : MemoryZone) (p v : Int) :
    (z.setNext p v).size = z.size := rfl

@[simp] theorem MemoryZone.setNext_rover (z : MemoryZone) (p v : Int) :
    (z.setNext p v).rover = z.rover := rfl

@[simp] theorem MemoryZone.setPrev_blk_size (z : MemoryZone) (p v a : Int) :
    ((z.setPrev p v).blocks a).size = (z.blocks a).size := by
  simp only [MemoryZone.setPrev, MemoryZone.upd]; split_ifs <;> rfl

@[simp] theorem MemoryZone.setPrev_blk_tag (z : MemoryZone) (p v a : Int) :
    ((z.setPrev p v).blocks a).tag = (z.blocks a).tag := by
  simp only [MemoryZone.setPrev, MemoryZone.upd]; split_ifs <;> rfl

@[simp] theorem MemoryZone.setPrev_blk_id (z : MemoryZone) (p v a : Int) :
    ((z.setPrev p v).blocks a).id = (z.blocks a).id := by
  simp only [MemoryZone.setPrev, MemoryZone.upd]; split_ifs <;> rfl

@[simp] theorem MemoryZone.setPrev_blk_next (z : MemoryZone) (p v a : Int) :
    ((z.setPrev p v).blocks a).next = (z.blocks a).next := by
  simp only [MemoryZone.setPrev, MemoryZone.upd]; split_ifs <;> rfl

@[simp] theorem MemoryZone.setPrev_blk_prev (z : MemoryZone) (p v a : Int) :
    ((z.setPrev p v).blocks a).prev = if a = p then v else (z.blocks a).prev := by
  simp only [MemoryZone.setPrev, MemoryZone.upd]; split_ifs <;> rfl

@[simp] theorem MemoryZone.setPrev_zsize (z : MemoryZone) (p v : Int) :
    (z.setPrev p v).size = z.size := rfl

@[simp] theorem MemoryZone.setPrev_rover (z : MemoryZone) (p v : Int) :
    (z.setPrev p v).rover = z.rover := rfl

@[simp] theorem MemoryZone.setRover_blocks (z : MemoryZone) (v : Int) :
    (z.setRover v).blocks = z.blocks := rfl

@[simp] theorem MemoryZone.setRover_zsize (z : MemoryZone) (v : Int) :
    (z.setRover v).size = z.size := rfl

@[simp] theorem MemoryZone.setRover_rover (z : MemoryZone) (v : Int) :
    (z.setRover v).rover = v := rfl
/-! ## Facts about the Zone ring -/

theorem ZFwd_append (b : Int → MemoryBlock) (l2 : List Int) (a y : Int) :
    ∀ (l1 : List Int) (x : Int),
      ZFwd b x (l1 ++ a :: l2) y ↔ ZFwd b x l1 a ∧ ZFwd b a l2 y := by
  intro l1
  induction l1 with
  | nil => intro x; simp [ZFwd]
  | cons c l1 ih => intro x; simp [ZFwd, ih, and_assoc]

theorem ZBwd_append (b : Int → MemoryBlock) (l2 : List Int) (a y : Int) :
    ∀ (l1 : List Int) (x : Int),
      ZBwd b x (l1 ++ a :: l2) y ↔ ZBwd b x l1 a ∧ ZBwd b a l2 y := by
  intro l1
  induction l1 with
  | nil => intro x; simp [ZBwd]
  | cons c l1 ih => intro x; simp [ZBwd, ih, and_assoc]

theorem ZFwd_congr {b b2 : Int → MemoryBlock} (y : Int) :
    ∀ (l : List Int) (x x2 : Int), (b2 x2).next = (b x).next →
      (∀ a ∈ l, (b2 a).next = (b a).next) → ZFwd b x l y → ZFwd b2 x2 l y := by
  intro l
  induction l with
  | nil => intro x x2 hx _ h; simp only [ZFwd] at h ⊢; rw [hx, h]
  | cons c l ih =>
    intro x x2 hx hl h
    simp only [ZFwd] at h ⊢
    refine ⟨by rw [hx, h.1], ih c c (hl c (List.mem_cons_self _ _))
      (fun a ha => hl a (List.mem_cons_of_mem _ ha)) h.2⟩

theorem ZTile_append (b : Int → MemoryBlock) (l2 : List Int) (a e : Int) :
    ∀ (l1 : List Int) (p : Int),
      ZTile b p (l1 ++ a :: l2) e ↔
        ZTile b p l1 a ∧ 40 ≤ (b a).size ∧ ZTile b (a + (b a).size) l2 e := by
  intro l1
  induction l1 with
  | nil =>
    intro p
    simp only [List.nil_append, ZTile]
    constructor
    · rintro ⟨rfl, h1, h2⟩; exact ⟨rfl, h1, h2⟩
    · rintro ⟨rfl, h1, h2⟩; exact ⟨rfl, h1, h2⟩
  | cons c l1 ih => intro p; simp [ZTile, ih, and_assoc]

theorem ZTile_congr {b b2 : Int → MemoryBlock} (e : Int) :
    ∀ (l : List Int) (p : Int), (∀ a ∈ l, (b2 a).size = (b a).size) →
      ZTile b p l e → ZTile b2 p l e := by
  intro l
  induction l with
  | nil => intro p _ h; exact h
  | cons c l ih =>
    intro p hl h
    simp only [ZTile] at h ⊢
    have hc := hl c (List.mem_cons_self _ _)
    refine ⟨h.1, by rw [hc]; exact h.2.1, ?_⟩
    rw [hc]
    exact ih _ (fun a ha => hl a (List.mem_cons_of_mem _ ha)) h.2.2

theorem ZTile_bounds {b : Int → MemoryBlock} (e : Int) :
    ∀ (l : List Int) (p : Int), ZTile b p l e →
      p ≤ e ∧ ∀ a ∈ l, p ≤ a ∧ a + (b a).size ≤ e ∧ 40 ≤ (b a).size := by
  intro l
  induction l with
  | nil => intro p h; simp only [ZTile] at h; subst h; simp
  | cons c l ih =>
    intro p h
    simp only [ZTile] at h
    obtain ⟨rfl, h1, h2⟩ := h
    obtain ⟨i1, i2⟩ := ih _ h2
    refine ⟨by omega, ?_⟩
    intro a ha
    rcases List.mem_cons.mp ha with rfl | ha
    · exact ⟨le_refl _, i1, h1⟩
    · have := i2 a ha
      exact ⟨by omega, this.2⟩

theorem ZTile_sum {z : MemoryZone} (e : Int) :
    ∀ (l : List Int) (p : Int), ZTile z.blocks p l e → sizeSum z l = e - p := by
  intro l
  induction l with
  | nil => intro p h; simp only [ZTile] at h; subst h; simp [sizeSum]
  | cons c l ih =>
    intro p h
    simp only [ZTile] at h
    obtain ⟨rfl, _, h2⟩ := h
    have := ih _ h2
    simp only [sizeSum, List.map_cons, List.sum_cons] at this ⊢
    omega

/-- Every block of the ring, and the sentinel, has its `next` on the ring or
at the sentinel. -/
theorem ZFwd_next_mem {b : Int → MemoryBlock} (y : Int) :
    ∀ (l : List Int) (x : Int), ZFwd b x l y →
      ∀ a ∈ x :: l, (b a).next = y ∨ (b a).next ∈ l := by
  intro l
  induction l with
  | nil =>
    intro x h a ha
    simp only [List.mem_singleton] at ha
    subst ha
    exact Or.inl h
  | cons c l ih =>
    intro x h a ha
    simp only [ZFwd] at h
    rcases List.mem_cons.mp ha with rfl | ha
    · exact Or.inr (by rw [h.1]; exact List.mem_cons_self _ _)
    · rcases ih c h.2 a ha with h3 | h3
      · exact Or.inl h3
      · exact Or.inr (List.mem_cons_of_mem _ h3)

/-- The search loop only ever breaks at a free block of the ring that is large
enough. -/
theorem zoneSearch_some {z : MemoryZone} {l : List Int} (hinv : ZoneInv z l) (size : Int) :
    ∀ (fuel : Nat) (c cand : Int), (c = tailhead ∨ c ∈ l) →
      zoneSearch z size fuel c = .ok (some cand) →
      cand ∈ l ∧ (z.blocks cand).tag = 0 ∧ size ≤ (z.blocks cand).size := by
  intro fuel
  induction fuel with
  | zero => intro c cand _ h; simp [zoneSearch] at h
  | succ n ih =>
    intro c cand hc h
    unfold zoneSearch at h
    split_ifs at h with h1 h2
    · exact absurd h (by simp)
    · simp only [Except.ok.injEq, Option.some.injEq] at h
      subst h
      rcases hc with rfl | hc
      · exact absurd h2.1 hinv.sentinel.1
      · exact ⟨hc, h2.1, h2.2⟩
    · exact ih _ _ (ZFwd_next_mem tailhead l tailhead hinv.fwd c
        (by rcases hc with rfl | hc
            · exact List.mem_cons_self _ _
            · exact List.mem_cons_of_mem _ hc)) h

theorem zoneRounded_cases {k : Int} (h0 : 0 ≤ k) (h1 : k < 2147483648) :
    (40 ≤ zoneRounded k ∧ k + 36 ≤ zoneRounded k ∧ zoneRounded k ≤ 2147483640) ∨
    (-2147483648 ≤ zoneRounded k ∧ zoneRounded k ≤ -2147483608) := by
  unfold zoneRounded Align8 wrap32 sizeofMemoryBlock
  omega

theorem zoneCarve_size (z : MemoryZone) (c r tag : Int) :
    (zoneCarve z c r tag).1.size = z.size := by
  simp only [zoneCarve, zoneSplit]
  split_ifs <;> simp

theorem zoneCarve_nosplit {z : MemoryZone} {c r tag : Int}
    (hx : ¬ wrap32 ((z.blocks c).size - r) > MIN_FRAGMENT) (a : Int) :
    ((zoneCarve z c r tag).1.blocks a).next = (z.blocks a).next ∧
    ((zoneCarve z c r tag).1.blocks a).size = (z.blocks a).size := by
  simp [zoneCarve, hx]

theorem zoneCarve_split {z : MemoryZone} {c r tag : Int}
    (hx : wrap32 ((z.blocks c).size - r) > MIN_FRAGMENT) (hn : c + r ≠ c) (a : Int) :
    ((zoneCarve z c r tag).1.blocks a).next =
      (if a = c then c + r else if a = c + r then (z.blocks c).next else (z.blocks a).next) ∧
    ((zoneCarve z c r tag).1.blocks a).size =
      (if a = c then r else if a = c + r then wrap32 ((z.blocks c).size - r)
        else (z.blocks a).size) := by
  have hn2 : ¬ c = c + r := fun h => hn h.symm
  simp only [zoneCarve, hx, if_true, zoneSplit]
  by_cases h : a = c
  · subst h; simp [hn2]
  · by_cases h2 : a = c + r
    · subst h2; simp [hn]
    · simp [h, h2]

theorem zoneMergePrev_zsize (z : MemoryZone) (b : Int) : (zoneMergePrev z b).1.size = z.size := by
  simp only [zoneMergePrev]
  split_ifs <;> simp

theorem zoneMergeNext_zsize (z : MemoryZone) (b : Int) : (zoneMergeNext z b).size = z.size := by
  simp only [zoneMergeNext]
  split_ifs <;> simp

theorem ZoneFreeBlock_size (z : MemoryZone) (b : Int) : (ZoneFreeBlock z b).size = z.size := by
  simp [ZoneFreeBlock, zoneMergeNext_zsize, zoneMergePrev_zsize]

/-- Neither neighbour is free: only the tag of `b` changes. -/
theorem ZoneFreeBlock_none {z : MemoryZone} {b : Int}
    (hpb : (z.blocks b).prev ≠ b) (hnb : (z.blocks b).next ≠ b)
    (tp : (z.blocks (z.blocks b).prev).tag ≠ 0) (tn : (z.blocks (z.blocks b).next).tag ≠ 0)
    (a : Int) :
    ((ZoneFreeBlock z b).blocks a).next = (z.blocks a).next ∧
    ((ZoneFreeBlock z b).blocks a).size = (z.blocks a).size := by
  simp [ZoneFreeBlock, zoneMergePrev, zoneMergeNext, hpb, hnb, tp, tn]

/-- Only the next block is free. -/
theorem ZoneFreeBlock_next {z : MemoryZone} {b : Int}
    (hpb : (z.blocks b).prev ≠ b) (hnb : (z.blocks b).next ≠ b)
    (tp : (z.blocks (z.blocks b).prev).tag ≠ 0) (tn : (z.blocks (z.blocks b).next).tag = 0)
    (a : Int) :
    ((ZoneFreeBlock z b).blocks a).next =
      (if a = b then (z.blocks (z.blocks b).next).next else (z.blocks a).next) ∧
    ((ZoneFreeBlock z b).blocks a).size =
      (if a = b then wrap32 ((z.blocks b).size + (z.blocks (z.blocks b).next).size)
        else (z.blocks a).size) := by
  have hbn : ¬ b = (z.blocks b).next := fun h => hnb h.symm
  simp only [ZoneFreeBlock, zoneMergePrev, zoneMergeNext]
  by_cases h : a = b
  · subst h; simp [hbn, hnb, hpb, tp, tn]
  · simp [h, hbn, hnb, hpb, tp, tn]

/-- Only the previous block is free. -/
theorem ZoneFreeBlock_prev {z : MemoryZone} {b : Int}
    (hpb : (z.blocks b).prev ≠ b) (hnb : (z.blocks b).next ≠ b)
    (hpn : (z.blocks b).prev ≠ (z.blocks b).next)
    (tp : (z.blocks (z.blocks b).prev).tag = 0) (tn : (z.blocks (z.blocks b).next).tag ≠ 0)
    (a : Int) :
    ((ZoneFreeBlock z b).blocks a).next =
      (if a = (z.blocks b).prev then (z.blocks b).next else (z.blocks a).next) ∧
    ((ZoneFreeBlock z b).blocks a).size =
      (if a = (z.blocks b).prev then
        wrap32 ((z.blocks (z.blocks b).prev).size + (z.blocks b).size)
        else (z.blocks a).size) := by
  have hbn : ¬ b = (z.blocks b).next := fun h => hnb h.symm
  have hbp : ¬ b = (z.blocks b).prev := fun h => hpb h.symm
  have hnp : ¬ (z.blocks b).next = (z.blocks b).prev := fun h => hpn h.symm
  simp only [ZoneFreeBlock, zoneMergePrev, zoneMergeNext]
  by_cases h : a = (z.blocks b).prev
  · subst h; simp [hbn, hnb, hpb, hbp, hpn, hnp, tn, tp]
  · simp [h, hbn, hnb, hpb, hbp, hpn, hnp, tn, tp]

/-- Both neighbours are free. -/
theorem ZoneFreeBlock_both {z : MemoryZone} {b : Int}
    (hpb : (z.blocks b).prev ≠ b) (hnb : (z.blocks b).next ≠ b)
    (hpn : (z.blocks b).prev ≠ (z.blocks b).next)
    (tp : (z.blocks (z.blocks b).prev).tag = 0) (tn : (z.blocks (z.blocks b).next).tag = 0)
    (a : Int) :
    ((ZoneFreeBlock z b).blocks a).next =
      (if a = (z.blocks b).prev then (z.blocks (z.blocks b).next).next
        else (z.blocks a).next) ∧
    ((ZoneFreeBlock z b).blocks a).size =
      (if a = (z.blocks b).prev then
        wrap32 (wrap32 ((z.blocks (z.blocks b).prev).size + (z.blocks b).size)
          + (z.blocks (z.blocks b).next).size)
        else (z.blocks a).size) := by
  have hbn : ¬ b = (z.blocks b).next := fun h => hnb h.symm
  have hbp : ¬ b = (z.blocks b).prev := fun h => hpb h.symm
  have hnp : ¬ (z.blocks b).next = (z.blocks b).prev := fun h => hpn h.symm
  simp only [ZoneFreeBlock, zoneMergePrev, zoneMergeNext]
  by_cases h : a = (z.blocks b).prev
  · subst h; simp [hbn, hnb, hpb, hbp, hpn, hnp, tn, tp]
  · simp [h, hbn, hnb, hpb, hbp, hpn, hnp, tn, tp]

/-- `ZoneTagMalloc` with a size `0 ≤ k < 2^31`, run on a state that satisfies the
ring invariants, leaves a forward ring with exact size arithmetic. -/
theorem ZoneTagMalloc_ring {z z2 : MemoryZone} {l : List Int} {fuel : Nat} {k tag : Int}
    {r : Option Int} (hinv : ZoneInv z l) (h0 : 0 ≤ k) (h1 : k < 2147483648)
    (hr : ZoneTagMalloc fuel z k tag = .ok (z2, r)) :
    ∃ l2, ZoneRing z2 l2 ∧ z2.size = z.size := by
  unfold ZoneTagMalloc at hr
  split_ifs at hr with ht
  split at hr
  · exact absurd hr (by simp)
  · simp only [Except.ok.injEq, Prod.mk.injEq] at hr
    obtain ⟨rfl, -⟩ := hr
    exact ⟨l, ⟨hinv.fwd, hinv.tile⟩, rfl⟩
  · rename_i c hs
    simp only [Except.ok.injEq, Prod.mk.injEq] at hr
    obtain ⟨rfl, -⟩ := hr
    obtain ⟨hc, -, hfit⟩ := zoneSearch_some hinv (zoneRounded k) fuel z.rover c hinv.rover hs
    obtain ⟨l1, l2, rfl⟩ := List.append_of_mem hc
    have hf := (ZFwd_append z.blocks l2 c tailhead l1 tailhead).mp hinv.fwd
    have ht := (ZTile_append z.blocks l2 c z.size l1 sizeofMemoryZone).mp hinv.tile
    obtain ⟨b1, b1m⟩ := ZTile_bounds _ _ _ ht.1
    obtain ⟨b2, b2m⟩ := ZTile_bounds _ _ _ ht.2.2
    have hb := hinv.bound
    have hsz := ht.2.1
    simp only [sizeofMemoryZone] at b1 b1m
    have hT : tailhead = 8 := rfl
    suffices hh : ∃ l3, ZoneRing (zoneCarve z c (zoneRounded k) tag).1 l3 from
      hh.elim (fun l3 h3 => ⟨l3, h3, zoneCarve_size _ _ _ _⟩)
    by_cases hx : wrap32 ((z.blocks c).size - zoneRounded k) > MIN_FRAGMENT
    · -- the block is split
      have hR : 40 ≤ zoneRounded k ∧
          wrap32 ((z.blocks c).size - zoneRounded k) = (z.blocks c).size - zoneRounded k := by
        rcases zoneRounded_cases h0 h1 with hh | hh
        · refine ⟨hh.1, ?_⟩
          unfold wrap32; omega
        · exfalso
          unfold wrap32 MIN_FRAGMENT at hx
          omega
      have hx2 : 64 < (z.blocks c).size - zoneRounded k := by
        rw [← hR.2]; exact hx
      have hn : c + zoneRounded k ≠ c := by omega
      have key := @zoneCarve_split _ _ _ tag hx hn
      refine ⟨l1 ++ c :: (c + zoneRounded k) :: l2, ?_, ?_⟩
      · rw [ZFwd_append]
        refine ⟨ZFwd_congr _ _ _ _ ?_ ?_ hf.1, ?_⟩
        · rw [(key tailhead).1, if_neg (by omega), if_neg (by omega)]
        · intro a ha
          have := b1m a ha
          rw [(key a).1, if_neg (by omega), if_neg (by omega)]
        · simp only [ZFwd]
          refine ⟨by rw [(key c).1, if_pos rfl], ZFwd_congr _ _ _ _ ?_ ?_ hf.2⟩
          · rw [(key _).1, if_neg hn, if_pos rfl]
          · intro a ha
            have := b2m a ha
            rw [(key a).1, if_neg (by omega), if_neg (by omega)]
      · rw [ZTile_append]
        refine ⟨ZTile_congr _ _ _ ?_ ht.1, ?_, ?_⟩
        · intro a ha
          have := b1m a ha
          rw [(key a).2, if_neg (by omega), if_neg (by omega)]
        · rw [(key c).2, if_pos rfl]; exact hR.1
        · simp only [ZTile]
          rw [(key c).2, if_pos rfl, (key _).2, if_neg hn, if_pos rfl, hR.2]
          refine ⟨rfl, by omega, ?_⟩
          have : c + zoneRounded k + ((z.blocks c).size - zoneRounded k)
              = c + (z.blocks c).size := by ring
          rw [this, zoneCarve_size]
          refine ZTile_congr _ _ _ ?_ ht.2.2
          intro a ha
          have := b2m a ha
          rw [(key a).2, if_neg (by omega), if_neg (by omega)]
    · -- the whole block is used
      have key := @zoneCarve_nosplit _ _ _ tag hx
      refine ⟨l1 ++ c :: l2, ?_, ?_⟩
      · exact ZFwd_congr _ _ _ _ (key _).1 (fun a _ => (key a).1) hinv.fwd
      · rw [zoneCarve_size]
        exact ZTile_congr _ _ _ (fun a _ => (key a).2) hinv.tile

/-- A valid `ZoneFree`, of a used block of the ring, run on a state that
satisfies the ring invariants, returns and leaves a forward ring with exact size
arithmetic. -/
theorem ZoneFree_ring {z : MemoryZone} {l : List Int} {b : Int}
    (hinv : ZoneInv z l) (hb : b ∈ l) (hu : (z.blocks b).tag ≠ 0) :
    ZoneFree z (some (b + sizeofMemoryBlock)) = .ok (ZoneFreeBlock z b) ∧
    ∃ l2, ZoneRing (ZoneFreeBlock z b) l2 := by
  constructor
  · simp [ZoneFree, hinv.ids b hb, hu]
  obtain ⟨l1, l2, rfl⟩ := List.append_of_mem hb
  have hf := (ZFwd_append z.blocks l2 b tailhead l1 tailhead).mp hinv.fwd
  have hbw := (ZBwd_append z.blocks l2 b tailhead l1 tailhead).mp hinv.bwd
  have ht := (ZTile_append z.blocks l2 b z.size l1 sizeofMemoryZone).mp hinv.tile
  obtain ⟨b1, b1m⟩ := ZTile_bounds _ _ _ ht.1
  obtain ⟨b2, b2m⟩ := ZTile_bounds _ _ _ ht.2.2
  have hbound := hinv.bound
  have hsz := ht.2.1
  simp only [sizeofMemoryZone] at b1 b1m ht
  have hT : tailhead = 8 := rfl
  have hst := hinv.sentinel.1
  -- the two neighbours of `b`
  have hprev : ((z.blocks b).prev = tailhead ∧ l1 = []) ∨
      ∃ l0, l1 = l0 ++ [(z.blocks b).prev] := by
    rcases List.eq_nil_or_concat l1 with rfl | ⟨l0, p, h⟩
    · left; exact ⟨by simpa [ZBwd] using hbw.1, rfl⟩
    · right
      rw [List.concat_eq_append] at h
      subst h
      have h1 := hbw.1
      rw [ZBwd_append] at h1
      simp only [ZBwd] at h1
      exact ⟨l0, by rw [h1.2]⟩
  have hnext : ((z.blocks b).next = tailhead ∧ l2 = []) ∨
      ∃ l3, l2 = (z.blocks b).next :: l3 := by
    cases l2 with
    | nil => left; exact ⟨by simpa [ZFwd] using hf.2, rfl⟩
    | cons n l3 =>
      right
      have h1 := hf.2
      simp only [ZFwd] at h1
      exact ⟨l3, by rw [h1.1]⟩
  have hpb : (z.blocks b).prev ≠ b := by
    rcases hprev with ⟨h, -⟩ | ⟨l0, h⟩
    · rw [h]; omega
    · have := b1m (z.blocks b).prev (by rw [h]; simp)
      omega
  have hnb : (z.blocks b).next ≠ b := by
    rcases hnext with ⟨h, -⟩ | ⟨l3, h⟩
    · rw [h]; omega
    · have := b2m (z.blocks b).next (by rw [h]; simp)
      omega
  by_cases tp : (z.blocks (z.blocks b).prev).tag = 0
  · -- the previous block is free, so it is not the sentinel
    rcases hprev with ⟨h, -⟩ | ⟨l0, h1⟩
    · rw [h] at tp; exact absurd tp hst
    generalize hp : (z.blocks b).prev = p at *
    subst h1
    have hf1 := hf.1
    rw [ZFwd_append] at hf1
    simp only [ZFwd] at hf1
    have ht1 := ht.1
    rw [ZTile_append] at ht1
    simp only [ZTile] at ht1
    obtain ⟨c1, c1m⟩ := ZTile_bounds _ _ _ ht1.1
    have hpm := b1m p (by simp)
    have hpn : p ≠ (z.blocks b).next := by
      rcases hnext with ⟨h, -⟩ | ⟨l3, h⟩
      · rw [h]; omega
      · have := b2m (z.blocks b).next (by rw [h]; simp)
        omega
    by_cases tn : (z.blocks (z.blocks b).next).tag = 0
    · rcases hnext with ⟨h, -⟩ | ⟨l3, h2⟩
      · rw [h] at tn; exact absurd tn hst
      have key := ZoneFreeBlock_both (by rw [hp]; exact hpb) hnb (by rw [hp]; exact hpn)
        (by rw [hp]; exact tp) tn
      rw [hp] at key
      generalize hn : (z.blocks b).next = n at *
      subst h2
      have hf2 := hf.2
      simp only [ZFwd] at hf2
      have ht2 := ht.2.2
      simp only [ZTile] at ht2
      obtain ⟨d1, d1m⟩ := ZTile_bounds _ _ _ ht2.2.2
      have hnm := b2m n (by simp)
      refine ⟨l0 ++ p :: l3, ?_, ?_⟩
      · rw [ZFwd_append]
        refine ⟨ZFwd_congr _ _ _ _ ?_ ?_ hf1.1, ZFwd_congr _ _ _ _ ?_ ?_ hf2.2⟩
        · rw [(key tailhead).1, if_neg (by omega)]
        · intro a ha
          have := c1m a ha
          rw [(key a).1, if_neg (by omega)]
        · rw [(key p).1, if_pos rfl]
        · intro a ha
          have := d1m a ha
          rw [(key a).1, if_neg (by omega)]
      · rw [ZTile_append, ZoneFreeBlock_size]
        have hs : ((ZoneFreeBlock z b).blocks p).size
            = (z.blocks p).size + (z.blocks b).size + (z.blocks n).size := by
          rw [(key p).2, if_pos rfl]
          unfold wrap32; omega
        refine ⟨ZTile_congr _ _ _ ?_ ht1.1, by rw [hs]; omega, ?_⟩
        · intro a ha
          have := c1m a ha
          rw [(key a).2, if_neg (by omega)]
        · rw [hs]
          have : p + ((z.blocks p).size + (z.blocks b).size + (z.blocks n).size)
              = b + (z.blocks b).size + (z.blocks n).size := by omega
          rw [this]
          refine ZTile_congr _ _ _ ?_ ht2.2.2
          intro a ha
          have := d1m a ha
          rw [(key a).2, if_neg (by omega)]
    · have key := ZoneFreeBlock_prev (by rw [hp]; exact hpb) hnb (by rw [hp]; exact hpn)
        (by rw [hp]; exact tp) tn
      rw [hp] at key
      refine ⟨l0 ++ p :: l2, ?_, ?_⟩
      · rw [ZFwd_append]
        refine ⟨ZFwd_congr _ _ _ _ ?_ ?_ hf1.1, ZFwd_congr _ _ _ _ ?_ ?_ hf.2⟩
        · rw [(key tailhead).1, if_neg (by omega)]
        · intro a ha
          have := c1m a ha
          rw [(key a).1, if_neg (by omega)]
        · rw [(key p).1, if_pos rfl]
        · intro a ha
          have := b2m a ha
          rw [(key a).1, if_neg (by omega)]
      · rw [ZTile_append, ZoneFreeBlock_size]
        have hs : ((ZoneFreeBlock z b).blocks p).size
            = (z.blocks p).size + (z.blocks b).size := by
          rw [(key p).2, if_pos rfl]
          unfold wrap32; omega
        refine ⟨ZTile_congr _ _ _ ?_ ht1.1, by rw [hs]; omega, ?_⟩
        · intro a ha
          have := c1m a ha
          rw [(key a).2, if_neg (by omega)]
        · rw [hs]
          have : p + ((z.blocks p).size + (z.blocks b).size) = b + (z.blocks b).size := by
            omega
          rw [this]
          refine ZTile_congr _ _ _ ?_ ht.2.2
          intro a ha
          have := b2m a ha
          rw [(key a).2, if_neg (by omega)]
  · by_cases tn : (z.blocks (z.blocks b).next).tag = 0
    · rcases hnext with ⟨h, -⟩ | ⟨l3, h2⟩
      · rw [h] at tn; exact absurd tn hst
      have key := ZoneFreeBlock_next hpb hnb tp tn
      generalize hn : (z.blocks b).next = n at *
      subst h2
      have hf2 := hf.2
      simp only [ZFwd] at hf2
      have ht2 := ht.2.2
      simp only [ZTile] at ht2
      obtain ⟨d1, d1m⟩ := ZTile_bounds _ _ _ ht2.2.2
      have hnm := b2m n (by simp)
      refine ⟨l1 ++ b :: l3, ?_, ?_⟩
      · rw [ZFwd_append]
        refine ⟨ZFwd_congr _ _ _ _ ?_ ?_ hf.1, ZFwd_congr _ _ _ _ ?_ ?_ hf2.2⟩
        · rw [(key tailhead).1, if_neg (by omega)]
        · intro a ha
          have := b1m a ha
          rw [(key a).1, if_neg (by omega)]
        · rw [(key b).1, if_pos rfl]
        · intro a ha
          have := d1m a ha
          rw [(key a).1, if_neg (by omega)]
      · rw [ZTile_append, ZoneFreeBlock_size]
        have hs : ((ZoneFreeBlock z b).blocks b).size
            = (z.blocks b).size + (z.blocks n).size := by
          rw [(key b).2, if_pos rfl]
          unfold wrap32; omega
        refine ⟨ZTile_congr _ _ _ ?_ ht.1, by rw [hs]; omega, ?_⟩
        · intro a ha
          have := b1m a ha
          rw [(key a).2, if_neg (by omega)]
        · rw [hs]
          have : b + ((z.blocks b).size + (z.blocks n).size)
              = b + (z.blocks b).size + (z.blocks n).size := by omega
          rw [this]
          refine ZTile_congr _ _ _ ?_ ht2.2.2
          intro a ha
          have := d1m a ha
          rw [(key a).2, if_neg (by omega)]
    · have key := ZoneFreeBlock_none hpb hnb tp tn
      refine ⟨l1 ++ b :: l2, ?_, ?_⟩
      · exact ZFwd_congr _ _ _ _ (key _).1 (fun a _ => (key a).1) hinv.fwd
      · rw [ZoneFreeBlock_size]
        exact ZTile_congr _ _ _ (fun a _ => (key a).2) hinv.tile
/-! ## Zone: the ring under `ZoneTagMalloc` and `ZoneFree` -/

/-- `ZoneClearAll` establishes the ring invariants, for a slab that has room
for one smallest block and whose size fits an `int`. -/
theorem zoneInit_inv {size : Int} (h0 : 88 ≤ size) (h1 : size < 2147483648) :
    ZoneInv (zoneInit size) [sizeofMemoryZone] := by
  have hw : wrap32 (size - 48) = size - 48 := by unfold wrap32; omega
  constructor
  · simp [zoneInit, ZoneClearAll, rawZone, ZFwd, tailhead, sizeofMemoryZone]
  · simp [zoneInit, ZoneClearAll, rawZone, ZBwd, tailhead, sizeofMemoryZone]
  · simp [zoneInit, ZoneClearAll, rawZone, ZTile, tailhead, sizeofMemoryZone, hw]
    omega
  · simp
  · simp [zoneInit, ZoneClearAll, rawZone, tailhead, sizeofMemoryZone]
  · simp [zoneInit, ZoneClearAll, rawZone, tailhead, sizeofMemoryZone]
  · simp [zoneInit, ZoneClearAll, rawZone, tailhead, sizeofMemoryZone]
  · simpa [zoneInit, ZoneClearAll, rawZone] using h1

/-- C7 (amended).  In a state that satisfies the ring invariants, such as the
one `ZoneClearAll` produces, the `size` fields of the blocks of the ring add up
to `zone->size - sizeof(MemoryZone)`; and after a `ZoneTagMalloc` of a
non-negative size or a valid `ZoneFree` run on such a state, the blocks met by
walking `next` from the sentinel still lie one after the other from offset
`sizeof(MemoryZone)` to the end of the slab and their sizes add up to
`zone->size - sizeof(MemoryZone)`. -/
theorem zone_sizes_sum (z : MemoryZone) (l : List Int) (hinv : ZoneInv z l)
    (c : ZoneCall) (hv : c.valid z l) (fuel : Nat) (z2 : MemoryZone)
    (hr : c.run fuel z = .ok z2) :
    sizeSum z l = z.size - sizeofMemoryZone ∧
    ∃ l2, ZoneRing z2 l2 ∧ sizeSum z2 l2 = z2.size - sizeofMemoryZone ∧ z2.size = z.size := by
  refine ⟨ZTile_sum _ _ _ hinv.tile, ?_⟩
  cases c with
  | tagMalloc size tag =>
    simp only [ZoneCall.run] at hr
    cases hq : ZoneTagMalloc fuel z size tag with
    | error e => rw [hq] at hr; exact absurd hr (by simp [Except.map])
    | ok r =>
      rw [hq] at hr
      simp only [Except.map, Except.ok.injEq] at hr
      subst hr
      obtain ⟨l2, h2, h3⟩ := @ZoneTagMalloc_ring _ r.1 _ _ _ _ r.2 hinv hv.1 hv.2 hq
      exact ⟨l2, h2, ZTile_sum _ _ _ h2.2, h3⟩
  | free ptr =>
    obtain ⟨b, hb, hu, rfl⟩ := hv
    obtain ⟨h1, l2, h2⟩ := ZoneFree_ring hinv hb hu
    simp only [ZoneCall.run] at hr
    rw [h1] at hr
    simp only [Except.ok.injEq] at hr
    subst hr
    exact ⟨l2, h2, ZTile_sum _ _ _ h2.2, ZoneFreeBlock_size _ _⟩

theorem zone_sizes_sum_witness :
    ZoneInv (zoneInit DYNAMIC_ZONE_SIZE) [sizeofMemoryZone] ∧
    (ZoneCall.tagMalloc 100 1).valid (zoneInit DYNAMIC_ZONE_SIZE) [sizeofMemoryZone] ∧
    (ZoneCall.tagMalloc 100 1).run 100 (zoneInit DYNAMIC_ZONE_SIZE)
      = .ok (zoneCarve (zoneInit DYNAMIC_ZONE_SIZE) 48 136 1).1 ∧
    (sizeSum (zoneInit DYNAMIC_ZONE_SIZE) [sizeofMemoryZone]
        = (zoneInit DYNAMIC_ZONE_SIZE).size - sizeofMemoryZone ∧
      ∃ l2, ZoneRing (zoneCarve (zoneInit DYNAMIC_ZONE_SIZE) 48 136 1).1 l2 ∧
        sizeSum (zoneCarve (zoneInit DYNAMIC_ZONE_SIZE) 48 136 1).1 l2
          = (zoneCarve (zoneInit DYNAMIC_ZONE_SIZE) 48 136 1).1.size - sizeofMemoryZone ∧
        (zoneCarve (zoneInit DYNAMIC_ZONE_SIZE) 48 136 1).1.size
          = (zoneInit DYNAMIC_ZONE_SIZE).size) :=
  ⟨zoneInit_inv (by decide) (by decide), ⟨by decide, by decide⟩, rfl,
    zone_sizes_sum _ _ (zoneInit_inv (by decide) (by decide)) (ZoneCall.tagMalloc 100 1)
      ⟨by decide, by decide⟩ 100 _ rfl⟩

/-- C7 (counterexample).  Right after `ZoneClearAll` on the default slab the
ring holds one block of 131 024 bytes: the sizes add up to 131 024, not to the
slab size 131 072. -/
theorem zone_sizes_sum_is_not_slab_size :
    ringView 10 (zoneInit DYNAMIC_ZONE_SIZE) = [(48, 131024, 0)] ∧
    sizeSum (zoneInit DYNAMIC_ZONE_SIZE)
        (ringFrom (zoneInit DYNAMIC_ZONE_SIZE) 10
          ((zoneInit DYNAMIC_ZONE_SIZE).blocks tailhead).next) = 131024 ∧
    (zoneInit DYNAMIC_ZONE_SIZE).size = 131072 := by
  decide

/-- C3 (failing input).  On the fresh default zone, `p = ZoneTagMalloc(100, 1)`
followed by `ZoneFree(p)` restores the forward walk (one free block of 131 024
bytes), but the sentinel's `prev`, which was the block at 48, is left pointing
at offset 184, the fragment that the free absorbed: walking `prev` from the
sentinel now meets two blocks. -/
theorem zone_malloc_free_leaves_stale_prev :
    (ringView 10 (zoneInit DYNAMIC_ZONE_SIZE),
      ringBackFrom (zoneInit DYNAMIC_ZONE_SIZE) 10
        ((zoneInit DYNAMIC_ZONE_SIZE).blocks tailhead).prev)
      = ([(48, 131024, 0)], [48]) ∧
    (runZoneCalls 100 (zoneInit DYNAMIC_ZONE_SIZE)
        [ZoneCall.tagMalloc 100 1, ZoneCall.free (some 80)]).toOption.map
      (fun r => (r.2, ringView 10 r.1, ringBackFrom r.1 10 (r.1.blocks tailhead).prev))
      = some ([some 80], [(48, 131024, 0)], [184, 48]) := by
  decide

/-- C4 (failing input).  On the fresh default zone, three `ZoneTagMalloc(100, 1)`
calls, then `ZoneFree` of the second and of the first pointer, leave the block
at 320 with `prev` 184 although the block before it on the ring is the one at
48; `ZoneCheckHeap` then reports that the linked list is broken. -/
theorem zone_free_breaks_links :
    (runZoneCalls 100 (zoneInit DYNAMIC_ZONE_SIZE)
        [ZoneCall.tagMalloc 100 1, ZoneCall.tagMalloc 100 1, ZoneCall.tagMalloc 100 1,
         ZoneCall.free (some 216), ZoneCall.free (some 80)]).toOption.map
      (fun r => (r.2, ringView 10 r.1, (r.1.blocks 48).next, (r.1.blocks 320).prev,
        faultOf (ZoneCheckHeap 100 r.1)))
      = some ([some 80, some 216, some 352],
          [(48, 272, 0), (320, 136, 1), (456, 130616, 0)], 320, 184,
          some (Fault.sysError "ZoneCheckHeap: memory block linked list is broken")) := by
  rfl

/-- C5 (failing input).  On the fresh default zone, `ZoneTagMalloc(130988, 1)`
takes the whole free block; after `ZoneFree` of its pointer the ring holds one
free block of 131 024 bytes, which is the rounded size of the request, and yet
the same `ZoneTagMalloc(130988, 1)` returns NULL: the rover is at the sentinel
and the free block is `rover->prev`, where the search stops without looking. -/
theorem zone_malloc_null_although_fits :
    zoneRounded 130988 = 131024 ∧
    (runZoneCalls 100 (zoneInit DYNAMIC_ZONE_SIZE)
        [ZoneCall.tagMalloc 130988 1, ZoneCall.free (some 80),
         ZoneCall.tagMalloc 130988 1]).toOption.map
      (fun r => (r.2, ringView 10 r.1, r.1.rover, (r.1.blocks r.1.rover).prev))
      = some ([some 80, none], [(48, 131024, 0)], 8, 48) := by
  decide

/-- C6 (failing input).  On the fresh default zone `ZoneTagMalloc(2147483647, 1)`
returns the payload at offset 80 of the block at 48, whose size 131 024 leaves
130 988 bytes before the tail marker, far fewer than the 2 147 483 647 asked
for: the rounded size wrapped to -2147483608. -/
theorem zone_malloc_wrapped_size_returns_small_block :
    zoneRounded 2147483647 = -2147483608 ∧
    (runZoneCalls 100 (zoneInit DYNAMIC_ZONE_SIZE)
        [ZoneCall.tagMalloc 2147483647 1]).toOption.map
      (fun r => (r.2, ringView 10 r.1,
        decide ((r.1.blocks 48).size - sizeofMemoryBlock - 4 ≥ 2147483647)))
      = some ([some 80], [(48, 131024, 1)], false) := by
  decide
/-! ## Field-wise reading of the Cache assignments -/

@[simp] theorem Cache.setName_name (c : Cache) (p : CachePtr) (v : Bytes) (q : CachePtr) :
    ((c.setName p v).hdr q).name = if q = p then v else (c.hdr q).name := by
  simp only [Cache.setName, Cache.upd]; split_ifs <;> rfl

@[simp] theorem Cache.setName_user (c : Cache) (p : CachePtr) (v : Bytes) (q : CachePtr) :
    ((c.setName p v).hdr q).user = (c.hdr q).user := by
  simp only [Cache.setName, Cache.upd]; split_ifs <;> rfl

@[simp] theorem Cache.setName_prev (c : Cache) (p : CachePtr) (v : Bytes) (q : CachePtr) :
    ((c.setName p v).hdr q).prev = (c.hdr q).prev := by
  simp only [Cache.setName, Cache.upd]; split_ifs <;> rfl

@[simp] theorem Cache.setName_next (c : Cache) (p : CachePtr) (v : Bytes) (q : CachePtr) :
    ((c.setName p v).hdr q).next = (c.hdr q).next := by
  simp only [Cache.setName, Cache.upd]; split_ifs <;> rfl

@[simp] theorem Cache.setName_lru_prev (c : Cache) (p : CachePtr) (v : Bytes) (q : CachePtr) :
    ((c.setName p v).hdr q).lru_prev = (c.hdr q).lru_prev := by
  simp only [Cache.setName, Cache.upd]; split_ifs <;> rfl

@[simp] theorem Cache.setName_lru_next (c : Cache) (p : CachePtr) (v : Bytes) (q : CachePtr) :
    ((c.setName p v).hdr q).lru_next = (c.hdr q).lru_next := by
  simp only [Cache.setName, Cache.upd]; split_ifs <;> rfl

@[simp] theorem Cache.setName_size (c : Cache) (p : CachePtr) (v : Bytes) (q : CachePtr) :
    ((c.setName p v).hdr q).size = (c.hdr q).size := by
  simp only [Cache.setName, Cache.upd]; split_ifs <;> rfl

@[simp] theorem Cache.setName_data (c : Cache) (p : CachePtr) (v : Bytes) :
    (c.setName p v).data = c.data := rfl

@[simp] theorem Cache.setUser_name (c : Cache) (p : CachePtr) (v : Option Nat) (q : CachePtr) :
    ((c.setUser p v).hdr q).name = (c.hdr q).name := by
  simp only [Cache.setUser, Cache.upd]; split_ifs <;> rfl

@[simp] theorem Cache.setUser_user (c : Cache) (p : CachePtr) (v : Option Nat) (q : CachePtr) :
    ((c.setUser p v).hdr q).user = if q = p then v else (c.hdr q).user := by
  simp only [Cache.setUser, Cache.upd]; split_ifs <;> rfl

@[simp] theorem Cache.setUser_prev (c : Cache) (p : CachePtr) (v : Option Nat) (q : CachePtr) :
    ((c.setUser p v).hdr q).prev = (c.hdr q).prev := by
  simp only [Cache.setUser, Cache.upd]; split_ifs <;> rfl

@[simp] theorem Cache.setUser_next (c : Cache) (p : CachePtr) (v : Option Nat) (q : CachePtr) :
    ((c.setUser p v).hdr q).next = (c.hdr q).next := by
  simp only [Cache.setUser, Cache.upd]; split_ifs <;> rfl

@[simp] theorem Cache.setUser_lru_prev (c : Cache) (p : CachePtr) (v : Option Nat) (q : CachePtr) :
    ((c.setUser p v).hdr q).lru_prev = (c.hdr q).lru_prev := by
  simp only [Cache.setUser, Cache.upd]; split_ifs <;> rfl

@[simp] theorem Cache.setUser_lru_next (c : Cache) (p : CachePtr) (v : Option Nat) (q : CachePtr) :
    ((c.setUser p v).hdr q).lru_next = (c.hdr q).lru_next := by
  simp only [Cache.setUser, Cache.upd]; split_ifs <;> rfl

@[simp] theorem Cache.setUser_size (c : Cache) (p : CachePtr) (v : Option Nat) (q : CachePtr) :
    ((c.setUser p v).hdr q).size = (c.hdr q).size := by
  simp only [Cache.setUser, Cache.upd]; split_ifs <;> rfl

@[simp] theorem Cache.setUser_data (c : Cache) (p : CachePtr) (v : Option Nat) :
    (c.setUser p v).data = c.data := rfl

@[simp] theorem Cache.setPrev_name (c : Cache) (p : CachePtr) (v : CachePtr) (q : CachePtr) :
    ((c.setPrev p v).hdr q).name = (c.hdr q).name := by
  simp only [Cache.setPrev, Cache.upd]; split_ifs <;> rfl

@[simp] theorem Cache.setPrev_user (c : Cache) (p : CachePtr) (v : CachePtr) (q : CachePtr) :
    ((c.setPrev p v).hdr q).user = (c.hdr q).user := by
  simp only [Cache.setPrev, Cache.upd]; split_ifs <;> rfl

@[simp] theorem Cache.setPrev_prev (c : Cache) (p : CachePtr) (v : CachePtr) (q : CachePtr) :
    ((c.setPrev p v).hdr q).prev = if q = p then v else (c.hdr q).prev := by
  simp only [Cache.setPrev, Cache.upd]; split_ifs <;> rfl

@[simp] theorem Cache.setPrev_next (c : Cache) (p : CachePtr) (v : CachePtr) (q : CachePtr) :
    ((c.setPrev p v).hdr q).next = (c.hdr q).next := by
  simp only [Cache.setPrev, Cache.upd]; split_ifs <;> rfl

@[simp] theorem Cache.setPrev_lru_prev (c : Cache) (p : CachePtr) (v : CachePtr) (q : CachePtr) :
    ((c.setPrev p v).hdr q).lru_prev = (c.hdr q).lru_prev := by
  simp only [Cache.setPrev, Cache.upd]; split_ifs <;> rfl

@[simp] theorem Cache.setPrev_lru_next (c : Cache) (p : CachePtr) (v : CachePtr) (q : CachePtr) :
    ((c.setPrev p v).hdr q).lru_next = (c.hdr q).lru_next := by
  simp only [Cache.setPrev, Cache.upd]; split_ifs <;> rfl

@[simp] theorem Cache.setPrev_size (c : Cache) (p : CachePtr) (v : CachePtr) (q : CachePtr) :
    ((c.setPrev p v).hdr q).size = (c.hdr q).size := by
  simp only [Cache.setPrev, Cache.upd]; split_ifs <;> rfl

@[simp] theorem Cache.setPrev_data (c : Cache) (p : CachePtr) (v : CachePtr) :
    (c.setPrev p v).data = c.data := rfl

@[simp] theorem Cache.setNext_name (c : Cache) (p : CachePtr) (v : CachePtr) (q : CachePtr) :
    ((c.setNext p v).hdr q).name = (c.hdr q).name := by
  simp only [Cache.setNext, Cache.upd]; split_ifs <;> rfl

@[simp] theorem Cache.setNext_user (c : Cache) (p : CachePtr) (v : CachePtr) (q : CachePtr) :
    ((c.setNext p v).hdr q).user = (c.hdr q).user := by
  simp only [Cache.setNext, Cache.upd]; split_ifs <;> rfl

@[simp] theorem Cache.setNext_prev (c : Cache) (p : CachePtr) (v : CachePtr) (q : CachePtr) :
    ((c.setNext p v).hdr q).prev = (c.hdr q).prev := by
  simp only [Cache.setNext, Cache.upd]; split_ifs <;> rfl

@[simp] theorem Cache.setNext_next (c : Cache) (p : CachePtr) (v : CachePtr) (q : CachePtr) :
    ((c.setNext p v).hdr q).next = if q = p then v else (c.hdr q).next := by
  simp only [Cache.setNext, Cache.upd]; split_ifs <;> rfl

@[simp] theorem Cache.setNext_lru_prev (c : Cache) (p : CachePtr) (v : CachePtr) (q : CachePtr) :
    ((c.setNext p v).hdr q).lru_prev = (c.hdr q).lru_prev := by
  simp only [Cache.setNext, Cache.upd]; split_ifs <;> rfl

@[simp] theorem Cache.setNext_lru_next (c : Cache) (p : CachePtr) (v : CachePtr) (q : CachePtr) :
    ((c.setNext p v).hdr q).lru_next = (c.hdr q).lru_next := by
  simp only [Cache.setNext, Cache.upd]; split_ifs <;> rfl

@[simp] theorem Cache.setNext_size (c : Cache) (p : CachePtr) (v : CachePtr) (q : CachePtr) :
    ((c.setNext p v).hdr q).size = (c.hdr q).size := by
  simp only [Cache.setNext, Cache.upd]; split_ifs <;> rfl

@[simp] theorem Cache.setNext_data (c : Cache) (p : CachePtr) (v : CachePtr) :
    (c.setNext p v).data = c.data := rfl

@[simp] theorem Cache.setLruPrev_name (c : Cache) (p : CachePtr) (v : CachePtr) (q : CachePtr) :
    ((c.setLruPrev p v).hdr q).name = (c.hdr q).name := by
  simp only [Cache.setLruPrev, Cache.upd]; split_ifs <;> rfl

@[simp] theorem Cache.setLruPrev_user (c : Cache) (p : CachePtr) (v : CachePtr) (q : CachePtr) :
    ((c.setLruPrev p v).hdr q).user = (c.hdr q).user := by
  simp only [Cache.setLruPrev, Cache.upd]; split_ifs <;> rfl

@[simp] theorem Cache.setLruPrev_prev (c : Cache) (p : CachePtr) (v : CachePtr) (q : CachePtr) :
    ((c.setLruPrev p v).hdr q).prev = (c.hdr q).prev := by
  simp only [Cache.setLruPrev, Cache.upd]; split_ifs <;> rfl

@[simp] theorem Cache.setLruPrev_next (c : Cache) (p : CachePtr) (v : CachePtr) (q : CachePtr) :
    ((c.setLruPrev p v).hdr q).next = (c.hdr q).next := by
  simp only [Cache.setLruPrev, Cache.upd]; split_ifs <;> rfl

@[simp] theorem Cache.setLruPrev_lru_prev (c : Cache) (p : CachePtr) (v : CachePtr) (q : CachePtr) :
    ((c.setLruPrev p v).hdr q).lru_prev = if q = p then v else (c.hdr q).lru_prev := by
  simp only [Cache.setLruPrev, Cache.upd]; split_ifs <;> rfl

@[simp] theorem Cache.setLruPrev_lru_next (c : Cache) (p : CachePtr) (v : CachePtr) (q : CachePtr) :
    ((c.setLruPrev p v).hdr q).lru_next = (c.hdr q).lru_next := by
  simp only [Cache.setLruPrev, Cache.upd]; split_ifs <;> rfl

@[simp] theorem Cache.setLruPrev_size (c : Cache) (p : CachePtr) (v : CachePtr) (q : CachePtr) :
    ((c.setLruPrev p v).hdr q).size = (c.hdr q).size := by
  simp only [Cache.setLruPrev, Cache.upd]; split_ifs <;> rfl

@[simp] theorem Cache.setLruPrev_data (c : Cache) (p : CachePtr) (v : CachePtr) :
    (c.setLruPrev p v).data = c.data := rfl

@[simp] theorem Cache.setLruNext_name (c : Cache) (p : CachePtr) (v : CachePtr) (q : CachePtr) :
    ((c.setLruNext p v).hdr q).name = (c.hdr q).name := by
  simp only [Cache.setLruNext, Cache.upd]; split_ifs <;> rfl

@[simp] theorem Cache.setLruNext_user (c : Cache) (p : CachePtr) (v : CachePtr) (q : CachePtr) :
    ((c.setLruNext p v).hdr q).user = (c.hdr q).user := by
  simp only [Cache.setLruNext, Cache.upd]; split_ifs <;> rfl

@[simp] theorem Cache.setLruNext_prev (c : Cache) (p : CachePtr) (v : CachePtr) (q : CachePtr) :
    ((c.setLruNext p v).hdr q).prev = (c.hdr q).prev := by
  simp only [Cache.setLruNext, Cache.upd]; split_ifs <;> rfl

@[simp] theorem Cache.setLruNext_next (c : Cache) (p : CachePtr) (v : CachePtr) (q : CachePtr) :
    ((c.setLruNext p v).hdr q).next = (c.hdr q).next := by
  simp only [Cache.setLruNext, Cache.upd]; split_ifs <;> rfl

@[simp] theorem Cache.setLruNext_lru_prev (c : Cache) (p : CachePtr) (v : CachePtr) (q : CachePtr) :
    ((c.setLruNext p v).hdr q).lru_prev = (c.hdr q).lru_prev := by
  simp only [Cache.setLruNext, Cache.upd]; split_ifs <;> rfl

@[simp] theorem Cache.setLruNext_lru_next (c : Cache) (p : CachePtr) (v : CachePtr) (q : CachePtr) :
    ((c.setLruNext p v).hdr q).lru_next = if q = p then v else (c.hdr q).lru_next := by
  simp only [Cache.setLruNext, Cache.upd]; split_ifs <;> rfl

@[simp] theorem Cache.setLruNext_size (c : Cache) (p : CachePtr) (v : CachePtr) (q : CachePtr) :
    ((c.setLruNext p v).hdr q).size = (c.hdr q).size := by
  simp only [Cache.setLruNext, Cache.upd]; split_ifs <;> rfl

@[simp] theorem Cache.setLruNext_data (c : Cache) (p : CachePtr) (v : CachePtr) :
    (c.setLruNext p v).data = c.data := rfl

@[simp] theorem Cache.setSize_name (c : Cache) (p : CachePtr) (v : Int) (q : CachePtr) :
    ((c.setSize p v).hdr q).name = (c.hdr q).name := by
  simp only [Cache.setSize, Cache.upd]; split_ifs <;> rfl

@[simp] theorem Cache.setSize_user (c : Cache) (p : CachePtr) (v : Int) (q : CachePtr) :
    ((c.setSize p v).hdr q).user = (c.hdr q).user := by
  simp only [Cache.setSize, Cache.upd]; split_ifs <;> rfl

@[simp] theorem Cache.setSize_prev (c : Cache) (p : CachePtr) (v : Int) (q : CachePtr) :
    ((c.setSize p v).hdr q).prev = (c.hdr q).prev := by
  simp only [Cache.setSize, Cache.upd]; split_ifs <;> rfl

@[simp] theorem Cache.setSize_next (c : Cache) (p : CachePtr) (v : Int) (q : CachePtr) :
    ((c.setSize p v).hdr q).next = (c.hdr q).next := by
  simp only [Cache.setSize, Cache.upd]; split_ifs <;> rfl

@[simp] theorem Cache.setSize_lru_prev (c : Cache) (p : CachePtr) (v : Int) (q : CachePtr) :
    ((c.setSize p v).hdr q).lru_prev = (c.hdr q).lru_prev := by
  simp only [Cache.setSize, Cache.upd]; split_ifs <;> rfl

@[simp] theorem Cache.setSize_lru_next (c : Cache) (p : CachePtr) (v : Int) (q : CachePtr) :
    ((c.setSize p v).hdr q).lru_next = (c.hdr q).lru_next := by
  simp only [Cache.setSize, Cache.upd]; split_ifs <;> rfl

@[simp] theorem Cache.setSize_size (c : Cache) (p : CachePtr) (v : Int) (q : CachePtr) :
    ((c.setSize p v).hdr q).size = if q = p then v else (c.hdr q).size := by
  simp only [Cache.setSize, Cache.upd]; split_ifs <;> rfl

@[simp] theorem Cache.setSize_data (c : Cache) (p : CachePtr) (v : Int) :
    (c.setSize p v).data = c.data := rfl

@[simp] theorem Cache.setData_hdr (c : Cache) (u : Nat) (v : Option Int) :
    (c.setData u v).hdr = c.hdr := rfl

@[simp] theorem Cache.setData_data (c : Cache) (u : Nat) (v : Option Int) (w : Nat) :
    (c.setData u v).data w = if w = u then v else c.data w := rfl

@[simp] theorem Cache.zero_hdr (c : Cache) (p q : CachePtr) :
    (c.zero p).hdr q = if q = p then zeroHeader else c.hdr q := by
  simp only [Cache.zero, Cache.upd]

@[simp] theorem Cache.zero_data (c : Cache) (p : CachePtr) : (c.zero p).data = c.data := rfl
/-! ## Doubly linked segments -/

theorem CSeg_append (nx pv : CachePtr → CachePtr) (l2 : List Int) (a : Int) (y : CachePtr) :
    ∀ (l1 : List Int) (x : CachePtr),
      CSeg nx pv x (l1 ++ a :: l2) y ↔ CSeg nx pv x l1 (.blk a) ∧ CSeg nx pv (.blk a) l2 y := by
  intro l1
  induction l1 with
  | nil => intro x; simp [CSeg, and_assoc]
  | cons c l1 ih => intro x; simp [CSeg, ih, and_assoc]

theorem CSeg_congr {nx pv nx2 pv2 : CachePtr → CachePtr} (y : CachePtr) :
    ∀ (l : List Int) (x : CachePtr),
      nx2 x = nx x → (∀ a ∈ l, nx2 (.blk a) = nx (.blk a)) →
      pv2 y = pv y → (∀ a ∈ l, pv2 (.blk a) = pv (.blk a)) →
      CSeg nx pv x l y → CSeg nx2 pv2 x l y := by
  intro l
  induction l with
  | nil =>
    intro x h1 _ h3 _ h
    simp only [CSeg] at h ⊢
    exact ⟨by rw [h1, h.1], by rw [h3, h.2]⟩
  | cons c l ih =>
    intro x h1 h2 h3 h4 h
    simp only [CSeg] at h ⊢
    refine ⟨by rw [h1, h.1], by rw [h4 c (List.mem_cons_self _ _), h.2.1], ?_⟩
    exact ih (.blk c) (h2 c (List.mem_cons_self _ _))
      (fun a ha => h2 a (List.mem_cons_of_mem _ ha)) h3
      (fun a ha => h4 a (List.mem_cons_of_mem _ ha)) h.2.2

theorem lastPtr_cases (l : List Int) : ∀ (x : CachePtr),
    (l = [] ∧ lastPtr x l = x) ∨ ∃ a ∈ l, lastPtr x l = .blk a := by
  induction l with
  | nil => intro x; left; exact ⟨rfl, rfl⟩
  | cons c l ih =>
    intro x
    right
    rcases ih (.blk c) with ⟨h1, h2⟩ | ⟨a, ha, h2⟩
    · exact ⟨c, List.mem_cons_self _ _, by simp only [lastPtr]; exact h2⟩
    · exact ⟨a, List.mem_cons_of_mem _ ha, by simp only [lastPtr]; exact h2⟩

theorem lastPtr_append (l1 : List Int) (a : Int) : ∀ (x : CachePtr),
    lastPtr x (l1 ++ [a]) = .blk a := by
  induction l1 with
  | nil => intro x; rfl
  | cons c l1 ih => intro x; simp only [List.cons_append, lastPtr]; exact ih _

theorem firstPtr_cases (l : List Int) (y : CachePtr) :
    (l = [] ∧ firstPtr l y = y) ∨ ∃ a l2, l = a :: l2 ∧ firstPtr l y = .blk a := by
  cases l with
  | nil => left; exact ⟨rfl, rfl⟩
  | cons a l2 => right; exact ⟨a, l2, rfl, rfl⟩

/-- The links at the two ends of a segment. -/
theorem CSeg_ends {nx pv : CachePtr → CachePtr} (y : CachePtr) :
    ∀ (l : List Int) (x : CachePtr), CSeg nx pv x l y →
      nx x = firstPtr l y ∧ pv y = lastPtr x l := by
  intro l
  induction l with
  | nil => intro x h; exact h
  | cons c l ih =>
    intro x h
    simp only [CSeg] at h
    exact ⟨h.1, (ih _ h.2.2).2⟩

/-- The links of a block inside a segment. -/
theorem CSeg_mid {nx pv : CachePtr → CachePtr} {l1 l2 : List Int} {a : Int}
    {x y : CachePtr} (h : CSeg nx pv x (l1 ++ a :: l2) y) :
    pv (.blk a) = lastPtr x l1 ∧ nx (.blk a) = firstPtr l2 y := by
  rw [CSeg_append] at h
  exact ⟨(CSeg_ends _ _ _ h.1).2, (CSeg_ends _ _ _ h.2).1⟩

/-- Insertion of the header at `n` between `l1` and `l2`. -/
theorem CSeg_insert {nx pv nx2 pv2 : CachePtr → CachePtr} (l2 : List Int) (n : Int)
    (y : CachePtr) (hyn : y ≠ .blk n) (hn2 : n ∉ l2) :
    ∀ (l1 : List Int) (x : CachePtr),
      CSeg nx pv x (l1 ++ l2) y → (l1 ++ l2).Nodup → n ∉ l1 → x ≠ .blk n →
      (∀ a ∈ l1 ++ l2, x ≠ .blk a) → (∀ a ∈ l1 ++ l2, y ≠ .blk a) →
      nx2 (lastPtr x l1) = .blk n → nx2 (.blk n) = firstPtr l2 y →
      pv2 (.blk n) = lastPtr x l1 → pv2 (firstPtr l2 y) = .blk n →
      (∀ q, q ≠ lastPtr x l1 → q ≠ .blk n → nx2 q = nx q) →
      (∀ q, q ≠ firstPtr l2 y → q ≠ .blk n → pv2 q = pv q) →
      CSeg nx2 pv2 x (l1 ++ n :: l2) y := by
  intro l1
  induction l1 with
  | nil =>
    intro x h hnd _ hxn hx hy e1 e2 e3 e4 f1 f2
    simp only [List.nil_append, lastPtr] at *
    simp only [CSeg]
    refine ⟨e1, e3, ?_⟩
    cases l2 with
    | nil => exact ⟨e2, e4⟩
    | cons a l3 =>
      simp only [firstPtr] at e2 e4 f2
      simp only [CSeg] at h ⊢
      have hna : n ≠ a := fun hh => hn2 (hh ▸ List.mem_cons_self _ _)
      have ha3 : a ∉ l3 := (List.nodup_cons.mp hnd).1
      refine ⟨e2, e4, CSeg_congr _ _ _ ?_ ?_ ?_ ?_ h.2.2⟩
      · exact f1 _ (fun hh => hx a (List.mem_cons_self _ _) hh.symm)
          (by simp; exact fun hh => hna hh.symm)
      · intro b hb
        exact f1 _ (fun hh => hx b (List.mem_cons_of_mem _ hb) hh.symm)
          (by simp; exact fun hh => hn2 (hh ▸ List.mem_cons_of_mem _ hb))
      · exact f2 _ (hy a (List.mem_cons_self _ _)) hyn
      · intro b hb
        exact f2 _ (by simp; exact fun hh => ha3 (hh ▸ hb))
          (by simp; exact fun hh => hn2 (hh ▸ List.mem_cons_of_mem _ hb))
  | cons c l1 ih =>
    intro x h hnd hn1 hxn hx hy e1 e2 e3 e4 f1 f2
    simp only [List.cons_append, lastPtr, CSeg] at *
    have hnd2 := List.nodup_cons.mp hnd
    have hcn : c ≠ n := fun hh => hn1 (hh ▸ List.mem_cons_self _ _)
    have hlast : lastPtr (.blk c) l1 ≠ x := by
      rcases lastPtr_cases l1 (.blk c) with ⟨-, h2⟩ | ⟨a, ha, h2⟩
      · rw [h2]; exact fun hh => hx c (List.mem_cons_self _ _) hh.symm
      · rw [h2]
        exact fun hh => hx a (List.mem_cons_of_mem _ (List.mem_append_left _ ha)) hh.symm
    have hfirst : firstPtr l2 y ≠ .blk c := by
      rcases firstPtr_cases l2 y with ⟨-, h2⟩ | ⟨a, l3, h1, h2⟩
      · rw [h2]; exact hy c (List.mem_cons_self _ _)
      · rw [h2]
        simp only [ne_eq, CachePtr.blk.injEq]
        intro hh
        exact hnd2.1 (hh ▸ List.mem_append_right _ (h1 ▸ List.mem_cons_self _ _))
    refine ⟨?_, ?_, ?_⟩
    · rw [f1 x (fun hh => hlast hh.symm) hxn]; exact h.1
    · rw [f2 (.blk c) (fun hh => hfirst hh.symm) (by simp; exact hcn)]; exact h.2.1
    · refine ih (.blk c) h.2.2 hnd2.2 (fun hh => hn1 (List.mem_cons_of_mem _ hh))
        (by simp; exact hcn) ?_ (fun a ha => hy a (List.mem_cons_of_mem _ ha)) e1 e2 e3 e4 f1 f2
      intro a ha
      simp only [ne_eq, CachePtr.blk.injEq]
      exact fun hh => hnd2.1 (hh ▸ ha)

/-- Removal of the header at `a` from between `l1` and `l2`. -/
theorem CSeg_remove {nx pv nx2 pv2 : CachePtr → CachePtr} (l2 : List Int) (a : Int)
    (y : CachePtr) :
    ∀ (l1 : List Int) (x : CachePtr),
      CSeg nx pv x (l1 ++ a :: l2) y → (l1 ++ a :: l2).Nodup →
      (∀ b ∈ l1 ++ a :: l2, x ≠ .blk b) → (∀ b ∈ l1 ++ a :: l2, y ≠ .blk b) →
      nx2 (lastPtr x l1) = firstPtr l2 y → pv2 (firstPtr l2 y) = lastPtr x l1 →
      (∀ q, q ≠ lastPtr x l1 → q ≠ .blk a → nx2 q = nx q) →
      (∀ q, q ≠ firstPtr l2 y → q ≠ .blk a → pv2 q = pv q) →
      CSeg nx2 pv2 x (l1 ++ l2) y := by
  intro l1
  induction l1 with
  | nil =>
    intro x h hnd hx hy e1 e2 f1 f2
    simp only [List.nil_append, lastPtr] at *
    have hnd2 := List.nodup_cons.mp hnd
    cases l2 with
    | nil => exact ⟨e1, e2⟩
    | cons b l3 =>
      simp only [firstPtr] at e1 e2 f2
      simp only [CSeg] at h ⊢
      have hab : a ≠ b := fun hh => hnd2.1 (hh ▸ List.mem_cons_self _ _)
      have hnd3 := List.nodup_cons.mp hnd2.2
      refine ⟨e1, e2, CSeg_congr _ _ _ ?_ ?_ ?_ ?_ h.2.2.2.2⟩
      · exact f1 _ (fun hh => hx b (List.mem_cons_of_mem _ (List.mem_cons_self _ _)) hh.symm)
          (by simp; exact fun hh => hab hh.symm)
      · intro d hd
        exact f1 _
          (fun hh => hx d (List.mem_cons_of_mem _ (List.mem_cons_of_mem _ hd)) hh.symm)
          (by simp; exact fun hh => hnd2.1 (hh ▸ List.mem_cons_of_mem _ hd))
      · exact f2 _ (hy b (List.mem_cons_of_mem _ (List.mem_cons_self _ _)))
          (hy a (List.mem_cons_self _ _))
      · intro d hd
        exact f2 _ (by simp; exact fun hh => hnd3.1 (hh ▸ hd))
          (by simp; exact fun hh => hnd2.1 (hh ▸ List.mem_cons_of_mem _ hd))
  | cons c l1 ih =>
    intro x h hnd hx hy e1 e2 f1 f2
    simp only [List.cons_append, lastPtr, CSeg] at *
    have hnd2 := List.nodup_cons.mp hnd
    have hca : c ≠ a := fun hh =>
      hnd2.1 (hh ▸ List.mem_append_right _ (List.mem_cons_self _ _))
    have hlast : lastPtr (.blk c) l1 ≠ x := by
      rcases lastPtr_cases l1 (.blk c) with ⟨-, h2⟩ | ⟨b, hb, h2⟩
      · rw [h2]; exact fun hh => hx c (List.mem_cons_self _ _) hh.symm
      · rw [h2]
        exact fun hh => hx b (List.mem_cons_of_mem _ (List.mem_append_left _ hb)) hh.symm
    have hfirst : firstPtr l2 y ≠ .blk c := by
      rcases firstPtr_cases l2 y with ⟨-, h2⟩ | ⟨b, l3, h1, h2⟩
      · rw [h2]; exact hy c (List.mem_cons_self _ _)
      · rw [h2]
        simp only [ne_eq, CachePtr.blk.injEq]
        intro hh
        exact hnd2.1 (hh ▸ List.mem_append_right _
          (List.mem_cons_of_mem _ (h1 ▸ List.mem_cons_self _ _)))
    refine ⟨?_, ?_, ?_⟩
    · rw [f1 x (fun hh => hlast hh.symm)
        (fun hh => hx a (List.mem_cons_of_mem _ (List.mem_append_right _
          (List.mem_cons_self _ _))) hh)]
      exact h.1
    · rw [f2 (.blk c) (fun hh => hfirst hh.symm) (by simp; exact hca)]; exact h.2.1
    · refine ih (.blk c) h.2.2 hnd2.2 ?_ (fun b hb => hy b (List.mem_cons_of_mem _ hb))
        e1 e2 f1 f2
      intro b hb
      simp only [ne_eq, CachePtr.blk.injEq]
      exact fun hh => hnd2.1 (hh ▸ hb)
/-! ## The ring operations of the Cache -/

theorem lastPtr_head_ne (l : List Int) (a : Int) (h : a ∉ l) :
    lastPtr .head l ≠ .blk a ∧ lastPtr .head l ≠ .null := by
  rcases lastPtr_cases l .head with ⟨-, h2⟩ | ⟨b, hb, h2⟩
  · rw [h2]; simp
  · rw [h2]
    simp only [ne_eq, CachePtr.blk.injEq, not_false_eq_true, and_true, reduceCtorEq]
    exact fun hh => h (hh ▸ hb)

theorem firstPtr_head_ne (l : List Int) (a : Int) (h : a ∉ l) :
    firstPtr l .head ≠ .blk a ∧ firstPtr l .head ≠ .null := by
  rcases firstPtr_cases l .head with ⟨-, h2⟩ | ⟨b, l2, h1, h2⟩
  · rw [h2]; simp
  · rw [h2]
    simp only [ne_eq, CachePtr.blk.injEq, not_false_eq_true, and_true, reduceCtorEq]
    exact fun hh => h (hh ▸ h1 ▸ List.mem_cons_self _ _)

/-- `CacheUnlinkLRU` of a block of the LRU ring takes it out of the ring and
nulls its two LRU links. -/
theorem CacheUnlinkLRU_spec {c : Cache} {l1 l2 : List Int} {a : Int}
    (h : LruRingIs c (l1 ++ a :: l2)) :
    ∃ c2, CacheUnlinkLRU c (.blk a) = .ok c2 ∧ LruRingIs c2 (l1 ++ l2) ∧
      (c2.hdr (.blk a)).lru_next = .null ∧ (c2.hdr (.blk a)).lru_prev = .null ∧
      SameButLru c c2 := by
  obtain ⟨hs, hnd⟩ := h
  have hmid := CSeg_mid hs
  simp only [Cache.lruNextOf, Cache.lruPrevOf] at hmid
  have hnd2 := List.nodup_append.mp hnd
  have hnd3 := List.nodup_cons.mp hnd2.2.1
  have ha1 : a ∉ l1 := fun hh => hnd2.2.2 hh (List.mem_cons_self _ _)
  have hp := lastPtr_head_ne l1 a ha1
  have hn := firstPtr_head_ne l2 a hnd3.1
  have hne : ¬ ((c.hdr (.blk a)).lru_next = .null ∨ (c.hdr (.blk a)).lru_prev = .null) := by
    rw [hmid.1, hmid.2]; simp [hp.2, hn.2]
  cases hres : CacheUnlinkLRU c (.blk a) with
  | error e => simp [CacheUnlinkLRU, hne] at hres
  | ok c2 =>
    simp only [CacheUnlinkLRU, hne, if_false, reduceCtorEq, Except.ok.injEq] at hres
    subst hres
    refine ⟨_, rfl, ⟨?_, ?_⟩, ?_, ?_, ?_⟩
    · refine CSeg_remove l2 a .head l1 .head hs hnd (by simp) (by simp) ?_ ?_ ?_ ?_
      · simp [Cache.lruNextOf, hmid.1, hmid.2, hp.1, hn.1, Ne.symm hn.1]
      · simp [Cache.lruPrevOf, hmid.1, hmid.2, hp.1, hn.1]
      · intro q h1 h2
        simp [Cache.lruNextOf, hmid.1, hmid.2, hp.1, hn.1, Ne.symm hn.1, h1, h2]
      · intro q h1 h2
        simp [Cache.lruPrevOf, hmid.1, hmid.2, hp.1, hn.1, h1, h2]
    · exact (List.nodup_append.mpr ⟨hnd2.1, hnd3.2,
        fun x hx1 hx2 => hnd2.2.2 hx1 (List.mem_cons_of_mem _ hx2)⟩)
    · simp
    · simp
    · simp [SameButLru]

/-- The linking part of `CacheMarkMRU` puts a block that is not on the LRU
ring at its front. -/
theorem cacheLinkMRU_spec {c : Cache} {l : List Int} {n : Int}
    (h : LruRingIs c l) (hn : n ∉ l) :
    ∃ c2, cacheLinkMRU c (.blk n) = .ok c2 ∧ LruRingIs c2 (n :: l) ∧ SameButLru c c2 := by
  obtain ⟨hs, hnd⟩ := h
  have he := CSeg_ends _ _ _ hs
  simp only [Cache.lruNextOf, Cache.lruPrevOf] at he
  have hf := firstPtr_head_ne l n hn
  have hne : ¬ (c.hdr .head).lru_next = .null := by rw [he.1]; exact hf.2
  cases hres : cacheLinkMRU c (.blk n) with
  | error e => simp [cacheLinkMRU, hne] at hres
  | ok c2 =>
    simp only [cacheLinkMRU, hne, if_false, Except.ok.injEq] at hres
    subst hres
    refine ⟨_, rfl, ⟨?_, List.nodup_cons.mpr ⟨hn, hnd⟩⟩, ?_⟩
    · refine CSeg_insert l n .head (by simp) hn [] .head hs hnd (by simp) (by simp)
        (by simp) (by simp) ?_ ?_ ?_ ?_ ?_ ?_
      · simp [Cache.lruNextOf, lastPtr]
      · simp [Cache.lruNextOf, he.1]
      · simp [Cache.lruPrevOf, lastPtr]
      · simp [Cache.lruPrevOf, he.1, hf.1]
      · intro q h1 h2
        simp only [lastPtr] at h1
        simp [Cache.lruNextOf, h1, h2]
      · intro q h1 h2
        simp [Cache.lruPrevOf, he.1, h1, h2]
    · simp [SameButLru]

/-- The LRU ring only depends on the LRU links. -/
theorem LruRingIs_congr {c c2 : Cache} {l : List Int}
    (h1 : ∀ q, (c2.hdr q).lru_next = (c.hdr q).lru_next)
    (h2 : ∀ q, (c2.hdr q).lru_prev = (c.hdr q).lru_prev) (h : LruRingIs c l) :
    LruRingIs c2 l :=
  ⟨@CSeg_congr c.lruNextOf c.lruPrevOf c2.lruNextOf
    c2.lruPrevOf _ _ _ (h1 _) (fun a _ => h1 _) (h2 _) (fun a _ => h2 _) h.1, h.2⟩

/-- The address ring only depends on the address links. -/
theorem AddrRingIs_congr {c c2 : Cache} {l : List Int}
    (h1 : ∀ q, (c2.hdr q).next = (c.hdr q).next)
    (h2 : ∀ q, (c2.hdr q).prev = (c.hdr q).prev) (h : AddrRingIs c l) :
    AddrRingIs c2 l :=
  ⟨@CSeg_congr c.nextOf c.prevOf c2.nextOf
    c2.prevOf _ _ _ (h1 _) (fun a _ => h1 _) (h2 _) (fun a _ => h2 _) h.1, h.2⟩

/-- `CacheMarkMRU` of a block whose LRU links are null is the linking part. -/
theorem CacheMarkMRU_unlinked {c : Cache} {n : Int}
    (h1 : (c.hdr (.blk n)).lru_next = .null) (h2 : (c.hdr (.blk n)).lru_prev = .null) :
    CacheMarkMRU c (.blk n) = cacheLinkMRU c (.blk n) := by
  simp [CacheMarkMRU, h1, h2]

/-- The address part of `CacheFree` takes the block out of the address ring and
clears the handle. -/
theorem cacheUnlinkAddr_spec {c : Cache} {l1 l2 : List Int} {a : Int} (u : Nat)
    (h : AddrRingIs c (l1 ++ a :: l2)) :
    ∃ c2, cacheUnlinkAddr c (.blk a) u = .ok c2 ∧ AddrRingIs c2 (l1 ++ l2) ∧
      (∀ q, (c2.hdr q).lru_next = (c.hdr q).lru_next ∧
        (c2.hdr q).lru_prev = (c.hdr q).lru_prev ∧
        (c2.hdr q).size = (c.hdr q).size ∧ (c2.hdr q).user = (c.hdr q).user ∧
        (c2.hdr q).name = (c.hdr q).name) ∧
      ∀ w, c2.data w = if w = u then none else c.data w := by
  obtain ⟨hs, hnd⟩ := h
  have hmid := CSeg_mid hs
  simp only [Cache.nextOf, Cache.prevOf] at hmid
  have hnd2 := List.nodup_append.mp hnd
  have hnd3 := List.nodup_cons.mp hnd2.2.1
  have ha1 : a ∉ l1 := fun hh => hnd2.2.2 hh (List.mem_cons_self _ _)
  have hp := lastPtr_head_ne l1 a ha1
  have hn := firstPtr_head_ne l2 a hnd3.1
  have hne1 : ¬ (c.hdr (.blk a)).next = .null := by rw [hmid.2]; exact hn.2
  have hne3 : ¬ (c.hdr (.blk a)).prev = .null := by rw [hmid.1]; exact hp.2
  have hne2 : ¬ ((c.setPrev (c.hdr (.blk a)).next (c.hdr (.blk a)).prev).hdr (.blk a)).prev
      = .null := by
    simp [hmid.1, hmid.2, Ne.symm hn.1, hp.2]
  cases hres : cacheUnlinkAddr c (.blk a) u with
  | error e =>
    simp only [cacheUnlinkAddr, hne1, hne2, if_false, reduceCtorEq] at hres
  | ok c2 =>
    simp only [cacheUnlinkAddr, hne1, hne2, if_false, Except.ok.injEq] at hres
    subst hres
    refine ⟨_, rfl, ⟨?_, ?_⟩, ?_, ?_⟩
    · refine CSeg_remove l2 a .head l1 .head hs hnd (by simp) (by simp) ?_ ?_ ?_ ?_
      · simp [Cache.nextOf, hmid.1, hmid.2, hp.1, hn.1, Ne.symm hn.1]
      · simp [Cache.prevOf, hmid.1, hmid.2, hp.1, hn.1]
      · intro q h1 h2
        simp [Cache.nextOf, hmid.1, hmid.2, hp.1, hn.1, Ne.symm hn.1, h1, h2]
      · intro q h1 h2
        simp [Cache.prevOf, hmid.1, hmid.2, hp.1, hn.1, h1, h2]
    · exact (List.nodup_append.mpr ⟨hnd2.1, hnd3.2,
        fun x hx1 hx2 => hnd2.2.2 hx1 (List.mem_cons_of_mem _ hx2)⟩)
    · intro q; simp
    · intro w; simp

/-- The four assignments that link a new header before `old_cache` put it into
the address ring at that place. -/
theorem cacheLinkBefore_spec {c : Cache} {l1 l2 : List Int} {n : Int}
    (h : AddrRingIs c (l1 ++ l2)) (hn : n ∉ l1 ++ l2) :
    ∃ c2, cacheLinkBefore c (.blk n) (firstPtr l2 .head) = .ok c2 ∧
      AddrRingIs c2 (l1 ++ n :: l2) ∧ SameButAddr c c2 := by
  obtain ⟨hs, hnd⟩ := h
  have hn1 : n ∉ l1 := fun hh => hn (List.mem_append_left _ hh)
  have hn2 : n ∉ l2 := fun hh => hn (List.mem_append_right _ hh)
  have hpv : (c.hdr (firstPtr l2 .head)).prev = lastPtr .head l1 := by
    rcases firstPtr_cases l2 .head with ⟨h1, h2⟩ | ⟨b, l3, h1, h2⟩
    · subst h1
      rw [h2]
      simp only [List.append_nil] at hs
      exact (CSeg_ends _ _ _ hs).2
    · subst h1
      rw [h2]
      exact (CSeg_mid hs).1
  have hp := lastPtr_head_ne l1 n hn1
  have hf := firstPtr_head_ne l2 n hn2
  have hne : ¬ (c.hdr (firstPtr l2 .head)).prev = .null := by rw [hpv]; exact hp.2
  cases hres : cacheLinkBefore c (.blk n) (firstPtr l2 .head) with
  | error e => simp [cacheLinkBefore, hne] at hres
  | ok c2 =>
    simp only [cacheLinkBefore, hne, if_false, Except.ok.injEq] at hres
    subst hres
    have hnd4 : (l1 ++ n :: l2).Nodup := by
      have hnd2 := List.nodup_append.mp hnd
      refine List.nodup_append.mpr ⟨hnd2.1, List.nodup_cons.mpr ⟨hn2, hnd2.2.1⟩, ?_⟩
      intro x hx1 hx2
      rcases List.mem_cons.mp hx2 with rfl | hx2
      · exact hn1 hx1
      · exact hnd2.2.2 hx1 hx2
    refine ⟨_, rfl, ⟨?_, hnd4⟩, ?_⟩
    · refine CSeg_insert l2 n .head (by simp) hn2 l1 .head hs hnd hn1 (by simp)
        (by simp) (by simp) ?_ ?_ ?_ ?_ ?_ ?_
      · simp [Cache.nextOf, hpv, hp.1]
      · simp [Cache.nextOf]
      · simp [Cache.prevOf, hpv, Ne.symm hf.1]
      · simp [Cache.prevOf]
      · intro q h1 h2
        simp [Cache.nextOf, hpv, h1, h2]
      · intro q h1 h2
        simp [Cache.prevOf, hpv, h1, h2]
    · simp [SameButAddr]

theorem mem_remove_mid {l1 l2 : List Int} {a : Int} (hnd : (l1 ++ a :: l2).Nodup) (b : Int) :
    b ∈ l1 ++ l2 ↔ b ∈ l1 ++ a :: l2 ∧ b ≠ a := by
  have hnd2 := List.nodup_append.mp hnd
  have hnd3 := List.nodup_cons.mp hnd2.2.1
  have ha1 : a ∉ l1 := fun hh => hnd2.2.2 hh (List.mem_cons_self _ _)
  simp only [List.mem_append, List.mem_cons]
  constructor
  · rintro (h | h)
    · exact ⟨Or.inl h, fun hh => ha1 (hh ▸ h)⟩
    · exact ⟨Or.inr (Or.inr h), fun hh => hnd3.1 (hh ▸ h)⟩
  · rintro ⟨h | h | h, hne⟩
    · exact Or.inl h
    · exact absurd h hne
    · exact Or.inr h

/-- A change of the LRU links alone keeps ring and handle consistency, for the
new LRU ring. -/
theorem CacheInv_of_sameButLru {c c2 : Cache} {as lru lru2 : List Int}
    (hinv : CacheInv c as lru) (hs : SameButLru c c2) (hl : LruRingIs c2 lru2)
    (hm : ∀ a, a ∈ lru2 ↔ a ∈ lru) : CacheInv c2 as lru2 := by
  refine ⟨AddrRingIs_congr (fun q => (hs.2 q).1) (fun q => (hs.2 q).2.1) hinv.ringA, hl,
    fun a => (hm a).trans (hinv.same a), ?_, ?_⟩
  · intro a ha
    obtain ⟨u, h1, h2⟩ := hinv.owner a ha
    exact ⟨u, by rw [(hs.2 _).2.2.2.1]; exact h1, by rw [hs.1]; exact h2⟩
  · intro u p hp
    rw [hs.1] at hp
    obtain ⟨h1, h2⟩ := hinv.handle u p hp
    exact ⟨h1, by rw [(hs.2 _).2.2.2.1]; exact h2⟩

/-- `CacheFree` of a populated handle takes its block out of both rings and
nulls the handle; ring and handle consistency is kept. -/
theorem CacheFree_spec {c : Cache} {l1 l2 m1 m2 : List Int} {a : Int} {u : Nat}
    (hinv : CacheInv c (l1 ++ a :: l2) (m1 ++ a :: m2))
    (hu : c.data u = some (a + sizeofCacheHeader)) :
    ∃ c2, CacheFree c (some u) = .ok c2 ∧ CacheInv c2 (l1 ++ l2) (m1 ++ m2) ∧
      (∀ q, (c2.hdr q).size = (c.hdr q).size) ∧
      (∀ w, c2.data w = if w = u then none else c.data w) := by
  have hpa : a + sizeofCacheHeader - sizeofCacheHeader = a := by ring
  obtain ⟨c5, h5, r5, f5, d5⟩ := cacheUnlinkAddr_spec u hinv.ringA
  have hl5 : LruRingIs c5 (m1 ++ a :: m2) :=
    LruRingIs_congr (fun q => (f5 q).1) (fun q => (f5 q).2.1) hinv.ringL
  obtain ⟨c2, h2, r2, -, -, s2⟩ := CacheUnlinkLRU_spec hl5
  refine ⟨c2, ?_, ⟨?_, r2, ?_, ?_, ?_⟩, ?_, ?_⟩
  · simp only [CacheFree, hu, hpa, h5, h2]
  · exact AddrRingIs_congr (fun q => (s2.2 q).1) (fun q => (s2.2 q).2.1) r5
  · intro b
    rw [mem_remove_mid hinv.ringL.2, mem_remove_mid hinv.ringA.2, hinv.same]
  · intro b hb
    have hb2 := (mem_remove_mid hinv.ringA.2 b).mp hb
    obtain ⟨w, h1, h3⟩ := hinv.owner b hb2.1
    have hwu : w ≠ u := by
      intro hh
      rw [hh, hu] at h3
      simp only [Option.some.injEq] at h3
      exact hb2.2 (by omega)
    refine ⟨w, by rw [(s2.2 _).2.2.2.1, (f5 _).2.2.2.1]; exact h1, ?_⟩
    rw [s2.1, d5, if_neg hwu]; exact h3
  · intro w p hp
    rw [s2.1, d5] at hp
    split_ifs at hp with hwu
    obtain ⟨h1, h3⟩ := hinv.handle w p hp
    have hne : p - sizeofCacheHeader ≠ a := by
      intro hh
      have := (hinv.handle u _ hu).2
      rw [hpa] at this
      rw [hh, this] at h3
      simp only [Option.some.injEq] at h3
      exact hwu h3.symm
    exact ⟨(mem_remove_mid hinv.ringA.2 _).mpr ⟨h1, hne⟩,
      by rw [(s2.2 _).2.2.2.1, (f5 _).2.2.2.1]; exact h3⟩
  · intro q; rw [(s2.2 q).2.2.1, (f5 q).2.2.1]
  · intro w; rw [s2.1, d5]

/-- `CacheCheck` of a populated handle moves its block to the front of the LRU
ring and changes nothing else. -/
theorem CacheCheck_spec {c : Cache} {as m1 m2 : List Int} {a : Int} {u : Nat}
    (hinv : CacheInv c as (m1 ++ a :: m2))
    (hu : c.data u = some (a + sizeofCacheHeader)) :
    ∃ c2, CacheCheck c u = .ok (c2, some (a + sizeofCacheHeader)) ∧
      CacheInv c2 as (a :: (m1 ++ m2)) ∧ SameButLru c c2 := by
  have hpa : a + sizeofCacheHeader - sizeofCacheHeader = a := by ring
  obtain ⟨c1, h1, r1, n1, n2, s1⟩ := CacheUnlinkLRU_spec hinv.ringL
  have hnd := hinv.ringL.2
  have ha : a ∉ m1 ++ m2 := fun hh => ((mem_remove_mid hnd a).mp hh).2 rfl
  obtain ⟨c2, h2, r2, s2⟩ := cacheLinkMRU_spec r1 ha
  have hs : SameButLru c c2 :=
    ⟨by rw [s2.1, s1.1], fun q => by
      obtain ⟨x1, x2, x3, x4, x5⟩ := s1.2 q
      obtain ⟨y1, y2, y3, y4, y5⟩ := s2.2 q
      exact ⟨by rw [y1, x1], by rw [y2, x2], by rw [y3, x3], by rw [y4, x4], by rw [y5, x5]⟩⟩
  refine ⟨c2, ?_, CacheInv_of_sameButLru hinv hs r2 ?_, hs⟩
  · simp only [CacheCheck, hu, hpa, h1, CacheMarkMRU_unlinked n1 n2, h2]
    rw [hs.1, hu]
  · intro b
    simp only [List.mem_cons, List.mem_append]
    tauto
/-! ## Placement of a new cache block -/

theorem candAfter_append (c : Cache) (a : Int) : ∀ (l : List Int) (p : Int),
    candAfter c p (l ++ [a]) = a + (c.hdr (.blk a)).size := by
  intro l
  induction l with
  | nil => intro p; rfl
  | cons b l ih => intro p; simp only [List.cons_append, candAfter]; exact ih _

theorem candAfter_congr {c c2 : Cache} : ∀ (l : List Int) (p : Int),
    (∀ a ∈ l, (c2.hdr (.blk a)).size = (c.hdr (.blk a)).size) →
    candAfter c2 p l = candAfter c p l := by
  intro l
  induction l with
  | nil => intro p _; rfl
  | cons b l ih =>
    intro p h
    simp only [candAfter]
    rw [h b (List.mem_cons_self _ _)]
    exact ih _ (fun a ha => h a (List.mem_cons_of_mem _ ha))

/-- Only the links of the ring's own headers and of the sentinel matter. -/
theorem AddrRingIs_congr_on {c c2 : Cache} {l : List Int}
    (h0 : (c2.hdr .head).next = (c.hdr .head).next ∧ (c2.hdr .head).prev = (c.hdr .head).prev)
    (h1 : ∀ a ∈ l, (c2.hdr (.blk a)).next = (c.hdr (.blk a)).next ∧
      (c2.hdr (.blk a)).prev = (c.hdr (.blk a)).prev) (h : AddrRingIs c l) :
    AddrRingIs c2 l :=
  ⟨@CSeg_congr c.nextOf c.prevOf c2.nextOf c2.prevOf
    _ _ _ h0.1 (fun a ha => (h1 a ha).1) h0.2 (fun a ha => (h1 a ha).2) h.1, h.2⟩

theorem LruRingIs_congr_on {c c2 : Cache} {l : List Int}
    (h0 : (c2.hdr .head).lru_next = (c.hdr .head).lru_next ∧
      (c2.hdr .head).lru_prev = (c.hdr .head).lru_prev)
    (h1 : ∀ a ∈ l, (c2.hdr (.blk a)).lru_next = (c.hdr (.blk a)).lru_next ∧
      (c2.hdr (.blk a)).lru_prev = (c.hdr (.blk a)).lru_prev) (h : LruRingIs c l) :
    LruRingIs c2 l :=
  ⟨@CSeg_congr c.lruNextOf c.lruPrevOf c2.lruNextOf
    c2.lruPrevOf _ _ _ h0.1 (fun a ha => (h1 a ha).1) h0.2
    (fun a ha => (h1 a ha).2) h.1, h.2⟩

/-- The new header and its links, once the header lies inside the buffer and
at an offset where the rings have no block; only the two rings and their common
membership are used. -/
theorem cacheInsertBefore_rings {h : Hunk} {c : Cache} {as lru k1 k2 : List Int} {n s : Int}
    (hringA : AddrRingIs c as) (hringL : LruRingIs c lru) (hsame : ∀ a, a ∈ lru ↔ a ∈ as)
    (hsplit : as = k1 ++ k2) (hn : n ∉ as)
    (hbuf : 0 ≤ n ∧ n + sizeofCacheHeader ≤ h.g_hunk_total_size) :
    ∃ c5, cacheInsertBefore h c n s (firstPtr k2 .head) = .ok (c5, some n) ∧
      Placed c c5 as lru k1 k2 n s := by
  subst hsplit
  have hnl : n ∉ lru := fun hh => hn ((hsame n).mp hh)
  -- the zeroed header
  have hr0 : AddrRingIs ((c.zero (.blk n)).setSize (.blk n) s) (k1 ++ k2) := by
    refine AddrRingIs_congr_on (by simp) ?_ hringA
    intro a ha
    have : a ≠ n := fun hh => hn (hh ▸ ha)
    simp [this]
  have hl0 : LruRingIs ((c.zero (.blk n)).setSize (.blk n) s) lru := by
    refine LruRingIs_congr_on (by simp) ?_ hringL
    intro a ha
    have : a ≠ n := fun hh => hnl (hh ▸ ha)
    simp [this]
  obtain ⟨c4, h4, r4, s4⟩ := cacheLinkBefore_spec hr0 hn
  have hl4 : LruRingIs c4 lru :=
    LruRingIs_congr (fun q => (s4.2 q).1) (fun q => (s4.2 q).2.1) hl0
  have hz1 : (c4.hdr (.blk n)).lru_next = .null := by rw [(s4.2 _).1]; simp [zeroHeader]
  have hz2 : (c4.hdr (.blk n)).lru_prev = .null := by rw [(s4.2 _).2.1]; simp [zeroHeader]
  obtain ⟨c5, h5, r5, s5⟩ := cacheLinkMRU_spec hl4 hnl
  refine ⟨c5, ?_, ⟨rfl, ?_, r5, hn, ?_, ?_, ?_⟩⟩
  · simp only [cacheInsertBefore, cacheNewHeader, hbuf, and_self, if_true, h4,
      CacheMarkMRU_unlinked hz1 hz2, h5]
  · exact AddrRingIs_congr (fun q => (s5.2 q).1) (fun q => (s5.2 q).2.1) r4
  · rw [s5.1, s4.1]; simp
  · intro a ha
    rw [(s5.2 _).2.2.1, (s5.2 _).2.2.2.1, (s4.2 _).2.2.1, (s4.2 _).2.2.2.1]
    simp [ha]
  · rw [(s5.2 _).2.2.1, (s5.2 _).2.2.2.1, (s4.2 _).2.2.1, (s4.2 _).2.2.2.1]
    simp [zeroHeader]

/-- The new header and its links, once the header lies inside the buffer and
at an offset where the rings have no block. -/
theorem cacheInsertBefore_spec {h : Hunk} {c : Cache} {as lru k1 k2 : List Int} {n s : Int}
    (hinv : CacheInv c as lru) (hsplit : as = k1 ++ k2) (hn : n ∉ as)
    (hbuf : 0 ≤ n ∧ n + sizeofCacheHeader ≤ h.g_hunk_total_size) :
    ∃ c5, cacheInsertBefore h c n s (firstPtr k2 .head) = .ok (c5, some n) ∧
      Placed c c5 as lru k1 k2 n s :=
  cacheInsertBefore_rings hinv.ringA hinv.ringL hinv.same hsplit hn hbuf

/-- A new header at the offset of the block it is to precede: the `MemSet`
wipes that block's links and the insertion dereferences a null `prev`. -/
theorem cacheInsertBefore_same {h : Hunk} {c : Cache} {n s : Int} :
    ∃ e, cacheInsertBefore h c n s (.blk n) = .error e := by
  by_cases hbuf : 0 ≤ n ∧ n + sizeofCacheHeader ≤ h.g_hunk_total_size
  · exact ⟨.crash, by simp [cacheInsertBefore, cacheNewHeader, hbuf, cacheLinkBefore, zeroHeader]⟩
  · exact ⟨.crash, by simp [cacheInsertBefore, cacheNewHeader, hbuf]⟩

/-- A new header outside the byte buffer. -/
theorem cacheInsertBefore_outside {h : Hunk} {c : Cache} {n s : Int} {old : CachePtr}
    (hbuf : ¬ (0 ≤ n ∧ n + sizeofCacheHeader ≤ h.g_hunk_total_size)) :
    cacheInsertBefore h c n s old = .error .crash := by
  simp [cacheInsertBefore, cacheNewHeader, hbuf]

/-- Where the scan of `CacheTryAlloc` can end: with a fault, with NULL and the
state unchanged, or with a placement at the candidate position after some
prefix `k1` of the address ring, in a gap that is wide enough. -/
theorem cacheScan_cases {h : Hunk} {c : Cache} {as : List Int} (s : Int)
    (hring : AddrRingIs c as) :
    ∀ (fuel : Nat) (l1 : List Int) (a : Int) (l2 : List Int), as = l1 ++ a :: l2 →
      (∃ e, cacheScan h c s fuel (candAfter c h.g_hunk_low_used l1) (.blk a) = .error e) ∨
      cacheScan h c s fuel (candAfter c h.g_hunk_low_used l1) (.blk a) = .ok (c, none) ∨
      ∃ k1 k2, as = k1 ++ k2 ∧
        (∀ b k3, k2 = b :: k3 → b - candAfter c h.g_hunk_low_used k1 ≥ s) ∧
        (k2 = [] → h.g_hunk_total_size - h.g_hunk_high_used
          - candAfter c h.g_hunk_low_used k1 ≥ s) ∧
        cacheScan h c s fuel (candAfter c h.g_hunk_low_used l1) (.blk a)
          = cacheInsertBefore h c (candAfter c h.g_hunk_low_used k1) s (firstPtr k2 .head) := by
  intro fuel
  induction fuel with
  | zero => intro l1 a l2 _; left; exact ⟨.fuel, rfl⟩
  | succ f ih =>
    intro l1 a l2 hsplit
    simp only [cacheScan]
    by_cases h1 : a - candAfter c h.g_hunk_low_used l1 ≥ s
    · right; right
      refine ⟨l1, a :: l2, hsplit, ?_, by simp, by simp [h1, firstPtr]⟩
      intro b k3 hb
      simp only [List.cons.injEq] at hb
      rw [← hb.1]; exact h1
    · simp only [h1, if_false]
      have hmid : (c.hdr (.blk a)).next = firstPtr l2 .head := by
        have := hring.1
        rw [hsplit] at this
        exact (CSeg_mid this).2
      cases l2 with
      | nil =>
        simp only [firstPtr] at hmid
        simp only [hmid, ne_eq, not_true_eq_false, if_false]
        have hc : candAfter c h.g_hunk_low_used (l1 ++ [a]) = a + (c.hdr (.blk a)).size :=
          candAfter_append c a l1 _
        by_cases h2 : h.g_hunk_total_size - h.g_hunk_high_used
            - (a + (c.hdr (.blk a)).size) ≥ s
        · right; right
          refine ⟨l1 ++ [a], [], by simp [hsplit], by simp, ?_, ?_⟩
          · intro _; rw [hc]; exact h2
          · simp only [h2, if_true, firstPtr, hc]
        · right; left
          simp only [h2, if_false]
      | cons b l3 =>
        simp only [firstPtr] at hmid
        simp only [hmid, ne_eq, reduceCtorEq, not_false_eq_true, if_true]
        have hc : candAfter c h.g_hunk_low_used (l1 ++ [a]) = a + (c.hdr (.blk a)).size :=
          candAfter_append c a l1 _
        rw [← hc]
        exact ih (l1 ++ [a]) b l3 (by simp [hsplit])
/-! ## Geometry of the address ring -/

theorem CGeom_mono {c : Cache} : ∀ (l : List Int) (p q : Int), q ≤ p → CGeom c p l → CGeom c q l := by
  intro l
  cases l with
  | nil => intro p q _ _; trivial
  | cons a l =>
    intro p q hq h
    simp only [CGeom] at h ⊢
    exact ⟨by omega, h.2⟩

theorem CGeom_congr {c c2 : Cache} : ∀ (l : List Int) (p : Int),
    (∀ a ∈ l, (c2.hdr (.blk a)).size = (c.hdr (.blk a)).size) → CGeom c p l → CGeom c2 p l := by
  intro l
  induction l with
  | nil => intro p _ _; trivial
  | cons a l ih =>
    intro p hs h
    simp only [CGeom] at h ⊢
    have ha := hs a (List.mem_cons_self _ _)
    have hl : ∀ b ∈ l, (c2.hdr (.blk b)).size = (c.hdr (.blk b)).size :=
      fun b hb => hs b (List.mem_cons_of_mem _ hb)
    rw [ha]
    rcases h.2 with ⟨h1, h2⟩ | ⟨h1, h2⟩
    · exact ⟨h.1, Or.inl ⟨h1, ih _ hl h2⟩⟩
    · exact ⟨h.1, Or.inr ⟨h1, ih _ hl h2⟩⟩

/-- Every block lies at or above the lower bound, and after its predecessors. -/
theorem CGeom_lower {c : Cache} : ∀ (l : List Int) (p : Int), CGeom c p l → ∀ a ∈ l, p ≤ a := by
  intro l
  induction l with
  | nil => intro p _ a ha; simp at ha
  | cons b l ih =>
    intro p h a ha
    simp only [CGeom] at h
    rcases List.mem_cons.mp ha with rfl | ha
    · exact h.1
    · rcases h.2 with ⟨h1, h2⟩ | ⟨h1, h2⟩
      · have := ih _ h2 a ha; omega
      · have := ih _ h2 a ha; omega

theorem CGeom_tail_gt {c : Cache} {b : Int} {l : List Int} {p : Int}
    (h : CGeom c p (b :: l)) : ∀ a ∈ l, b < a := by
  intro a ha
  simp only [CGeom] at h
  rcases h.2 with ⟨h1, h2⟩ | ⟨h1, h2⟩
  · have := CGeom_lower _ _ h2 a ha; omega
  · have := CGeom_lower _ _ h2 a ha; omega

/-- Removing a block keeps the geometry. -/
theorem CGeom_remove {c : Cache} (a : Int) (l2 : List Int) : ∀ (l1 : List Int) (p : Int),
    CGeom c p (l1 ++ a :: l2) → CGeom c p (l1 ++ l2) := by
  intro l1
  induction l1 with
  | nil =>
    intro p h
    simp only [List.nil_append, CGeom] at h ⊢
    rcases h.2 with ⟨h1, h2⟩ | ⟨h1, h2⟩
    · exact CGeom_mono _ _ _ (by omega) h2
    · exact CGeom_mono _ _ _ (by omega) h2
  | cons b l1 ih =>
    intro p h
    simp only [List.cons_append, CGeom] at h ⊢
    rcases h.2 with ⟨h1, h2⟩ | ⟨h1, h2⟩
    · exact ⟨h.1, Or.inl ⟨h1, ih _ h2⟩⟩
    · exact ⟨h.1, Or.inr ⟨h1, ih _ h2⟩⟩

/-- The candidate position after `k1`, when it is not negative, lies above all
of `k1` and not above any of `k2`. -/
theorem CGeom_cand {c : Cache} (k2 : List Int) (n : Int) (hn : 0 ≤ n) :
    ∀ (k1 : List Int) (p : Int), CGeom c p (k1 ++ k2) → n = candAfter c p k1 → 0 ≤ p →
      (∀ a ∈ k1, a < n) ∧ (∀ b ∈ k2, n ≤ b) := by
  intro k1
  induction k1 with
  | nil =>
    intro p h hc _
    simp only [List.nil_append, candAfter] at h hc
    subst hc
    exact ⟨by simp, CGeom_lower _ _ h⟩
  | cons a k1 ih =>
    intro p h hc hp
    simp only [List.cons_append, CGeom, candAfter] at h hc
    rcases h.2 with ⟨h1, h2⟩ | ⟨h1, h2⟩
    · obtain ⟨i1, i2⟩ := ih _ h2 hc (by omega)
      refine ⟨?_, i2⟩
      intro x hx
      rcases List.mem_cons.mp hx with rfl | hx
      · cases k1 with
        | nil => simp only [candAfter] at hc; omega
        | cons b k3 =>
          have := i1 b (List.mem_cons_self _ _)
          have := CGeom_lower _ _ h2 b (by simp)
          omega
      · exact i1 x hx
    · cases k1 with
      | nil => simp only [candAfter] at hc; omega
      | cons b k3 =>
        have hc2 : n = candAfter c (a + 1) (b :: k3) := by
          simp only [candAfter] at hc ⊢; exact hc
        obtain ⟨i1, i2⟩ := ih _ h2 hc2 (by omega)
        refine ⟨?_, i2⟩
        intro x hx
        rcases List.mem_cons.mp hx with rfl | hx
        · have := i1 b (List.mem_cons_self _ _)
          have := CGeom_lower _ _ h2 b (by simp)
          omega
        · exact i1 x hx

/-- Inserting the new block at the candidate position keeps the geometry. -/
theorem CGeom_insert {c c2 : Cache} (k2 : List Int) (n s : Int) (hn : 0 ≤ n)
    (hk2 : ∀ b k3, k2 = b :: k3 → n < b ∧ (0 < s → n + s ≤ b))
    (hs : 0 < s ∨ n + s < 0) (hnew : (c2.hdr (.blk n)).size = s) :
    ∀ (k1 : List Int) (p : Int), CGeom c p (k1 ++ k2) → n = candAfter c p k1 → 0 ≤ p →
      (∀ a ∈ k1 ++ k2, (c2.hdr (.blk a)).size = (c.hdr (.blk a)).size) →
      CGeom c2 p (k1 ++ n :: k2) := by
  intro k1
  induction k1 with
  | nil =>
    intro p h hc _ hsz
    simp only [List.nil_append, candAfter] at h hc hsz ⊢
    subst hc
    have h2 := @CGeom_congr _ c2 _ _ hsz h
    simp only [CGeom, hnew]
    refine ⟨le_refl _, ?_⟩
    cases k2 with
    | nil => rcases hs with hs | hs
             · exact Or.inl ⟨hs, trivial⟩
             · exact Or.inr ⟨hs, trivial⟩
    | cons b k3 =>
      have hb := hk2 b k3 rfl
      simp only [CGeom] at h2 ⊢
      rcases hs with hs | hs
      · exact Or.inl ⟨hs, hb.2 hs, h2.2⟩
      · exact Or.inr ⟨hs, by omega, h2.2⟩
  | cons a k1 ih =>
    intro p h hc hp hsz
    simp only [List.cons_append, CGeom, candAfter] at h hc ⊢
    have ha := hsz a (by simp)
    have hl : ∀ b ∈ k1 ++ k2, (c2.hdr (.blk b)).size = (c.hdr (.blk b)).size :=
      fun b hb => hsz b (by simp at hb ⊢; tauto)
    rw [ha]
    rcases h.2 with ⟨h1, h2⟩ | ⟨h1, h2⟩
    · exact ⟨h.1, Or.inl ⟨h1, ih _ h2 hc (by omega) hl⟩⟩
    · cases k1 with
      | nil => simp only [candAfter] at hc; omega
      | cons b k3 =>
        have hc2 : n = candAfter c (a + 1) (b :: k3) := by
          simp only [candAfter] at hc ⊢; exact hc
        exact ⟨h.1, Or.inr ⟨h1, ih _ h2 hc2 (by omega) hl⟩⟩

/-! ## The bounds invariant I5 -/

theorem CLay_congr {c c2 : Cache} (e : Int) : ∀ (l : List Int) (p : Int),
    (∀ a ∈ l, (c2.hdr (.blk a)).size = (c.hdr (.blk a)).size) → CLay c e p l → CLay c2 e p l := by
  intro l
  induction l with
  | nil => intro p _ h; exact h
  | cons a l ih =>
    intro p hs h
    simp only [CLay] at h ⊢
    rw [hs a (List.mem_cons_self _ _)]
    exact ⟨h.1, h.2.1, ih _ (fun b hb => hs b (List.mem_cons_of_mem _ hb)) h.2.2⟩

theorem CLay_le {c : Cache} (e : Int) : ∀ (l : List Int) (p : Int), CLay c e p l → p ≤ e := by
  intro l
  induction l with
  | nil => intro p h; exact h
  | cons a l ih =>
    intro p h
    simp only [CLay] at h
    have := ih _ h.2.2
    omega

theorem CLay_mono {c : Cache} (e : Int) : ∀ (l : List Int) (p q : Int), q ≤ p →
    CLay c e p l → CLay c e q l := by
  intro l
  cases l with
  | nil => intro p q hq h; simp only [CLay] at h ⊢; omega
  | cons a l =>
    intro p q hq h
    simp only [CLay] at h ⊢
    exact ⟨by omega, h.2⟩

theorem CLay_remove {c : Cache} (e a : Int) (l2 : List Int) : ∀ (l1 : List Int) (p : Int),
    CLay c e p (l1 ++ a :: l2) → CLay c e p (l1 ++ l2) := by
  intro l1
  induction l1 with
  | nil =>
    intro p h
    simp only [List.nil_append, CLay] at h ⊢
    exact CLay_mono _ _ _ _ (by omega) h.2.2
  | cons b l1 ih =>
    intro p h
    simp only [List.cons_append, CLay] at h ⊢
    exact ⟨h.1, h.2.1, ih _ h.2.2⟩

/-- The bounds invariant implies the geometry. -/
theorem CLay_geom {c : Cache} (e : Int) : ∀ (l : List Int) (p : Int), CLay c e p l → CGeom c p l := by
  intro l
  induction l with
  | nil => intro p _; trivial
  | cons a l ih =>
    intro p h
    simp only [CLay] at h
    simp only [CGeom]
    exact ⟨h.1, Or.inl ⟨h.2.1, ih _ h.2.2⟩⟩

/-- Inserting a block of positive size into a gap that holds it keeps the bounds
invariant. -/
theorem CLay_insert {c c2 : Cache} (e : Int) (k2 : List Int) (n s : Int) (hs : 0 < s)
    (hk2 : ∀ b k3, k2 = b :: k3 → n + s ≤ b) (hend : k2 = [] → n + s ≤ e)
    (hnew : (c2.hdr (.blk n)).size = s) :
    ∀ (k1 : List Int) (p : Int), CLay c e p (k1 ++ k2) → n = candAfter c p k1 →
      (∀ a ∈ k1 ++ k2, (c2.hdr (.blk a)).size = (c.hdr (.blk a)).size) →
      CLay c2 e p (k1 ++ n :: k2) := by
  intro k1
  induction k1 with
  | nil =>
    intro p h hc hsz
    simp only [List.nil_append, candAfter] at h hc hsz ⊢
    subst hc
    have h2 := @CLay_congr _ c2 e _ _ hsz h
    simp only [CLay, hnew]
    refine ⟨le_refl _, hs, ?_⟩
    cases k2 with
    | nil => simp only [CLay]; exact hend rfl
    | cons b k3 =>
      simp only [CLay] at h2 ⊢
      exact ⟨hk2 b k3 rfl, h2.2⟩
  | cons a k1 ih =>
    intro p h hc hsz
    simp only [List.cons_append, CLay, candAfter] at h hc ⊢
    rw [hsz a (by simp)]
    exact ⟨h.1, h.2.1, ih _ h.2.2 hc (fun b hb => hsz b (by simp at hb ⊢; tauto))⟩
/-! ## `CacheTryAlloc` -/

theorem CGeom_suffix {c : Cache} (k2 : List Int) : ∀ (k1 : List Int) (p : Int),
    CGeom c p (k1 ++ k2) → ∃ q, CGeom c q k2 := by
  intro k1
  induction k1 with
  | nil => intro p h; exact ⟨p, h⟩
  | cons a k1 ih =>
    intro p h
    simp only [List.cons_append, CGeom] at h
    rcases h.2 with ⟨-, h2⟩ | ⟨-, h2⟩
    · exact ih _ h2
    · exact ih _ h2

theorem ring_empty_iff {c : Cache} {as : List Int} (h : AddrRingIs c as) :
    (c.hdr .head).next = .head ↔ as = [] := by
  have := (CSeg_ends _ _ _ h.1).1
  simp only [Cache.nextOf] at this
  rw [this]
  cases as with
  | nil => simp [firstPtr]
  | cons a l => simp [firstPtr]

/-- The placement into an empty cache. -/
theorem cacheInsertFirst_spec {h : Hunk} {c : Cache} {lru : List Int} {s : Int}
    (hinv : CacheInv c [] lru)
    (hbuf : 0 ≤ h.g_hunk_low_used ∧ h.g_hunk_low_used + sizeofCacheHeader ≤ h.g_hunk_total_size) :
    ∃ c5, cacheInsertFirst h c s = .ok (c5, some h.g_hunk_low_used) ∧
      Placed c c5 [] lru [] [] h.g_hunk_low_used s := by
  have hl : lru = [] := List.eq_nil_iff_forall_not_mem.mpr (fun a ha => by
    have := (hinv.same a).mp ha
    simp at this)
  subst hl
  generalize hc4 : ((((((c.zero (.blk h.g_hunk_low_used)).setSize (.blk h.g_hunk_low_used) s).setNext
    .head (.blk h.g_hunk_low_used)).setPrev .head (.blk h.g_hunk_low_used)).setNext
    (.blk h.g_hunk_low_used) .head).setPrev (.blk h.g_hunk_low_used) .head) = c4
  have hl4 : LruRingIs c4 [] := by
    refine LruRingIs_congr_on ?_ (by simp) hinv.ringL
    subst hc4
    simp
  have hz1 : (c4.hdr (.blk h.g_hunk_low_used)).lru_next = .null := by
    subst hc4; simp [zeroHeader]
  have hz2 : (c4.hdr (.blk h.g_hunk_low_used)).lru_prev = .null := by
    subst hc4; simp [zeroHeader]
  obtain ⟨c5, h5, r5, s5⟩ := cacheLinkMRU_spec hl4 (n := h.g_hunk_low_used) (by simp)
  refine ⟨c5, ?_, ⟨rfl, ?_, r5, by simp, ?_, ?_, ?_⟩⟩
  · simp only [cacheInsertFirst, cacheNewHeader, hbuf, and_self, if_true, hc4,
      CacheMarkMRU_unlinked hz1 hz2, h5]
  · refine ⟨?_, by simp⟩
    simp only [List.nil_append, CSeg, Cache.nextOf, Cache.prevOf]
    rw [(s5.2 _).1, (s5.2 _).1, (s5.2 _).2.1, (s5.2 _).2.1]
    subst hc4
    simp
  · rw [s5.1]; subst hc4; simp
  · intro a ha
    rw [(s5.2 _).2.2.1, (s5.2 _).2.2.2.1]
    subst hc4
    simp [ha]
  · rw [(s5.2 _).2.2.1, (s5.2 _).2.2.2.1]
    subst hc4
    simp [zeroHeader]

/-- What `CacheTryAlloc` does on a consistent cache: it ends with a fault, or
returns NULL and leaves the state as it is, or places a new header at the
candidate position after a prefix `k1` of the address ring, in a gap that holds
the requested size, at an offset where no block of the rings lies. -/
theorem CacheTryAlloc_spec {h : Hunk} {c : Cache} {as lru : List Int} {s : Int} (fuel : Nat)
    (hinv : CacheInv c as lru) (hg : CGeom c h.g_hunk_low_used as) (hh : HunkOk h)
    (hs : RoundedSize s) :
    (∃ e, CacheTryAlloc fuel h c s = .error e) ∨
    (CacheTryAlloc fuel h c s = .ok (c, none) ∧ as ≠ []) ∨
    ∃ c5 n k1 k2, CacheTryAlloc fuel h c s = .ok (c5, some n) ∧
      Placed c c5 as lru k1 k2 n s ∧ CGeom c5 h.g_hunk_low_used (k1 ++ n :: k2) ∧
      n = candAfter c h.g_hunk_low_used k1 ∧
      (∀ b k3, k2 = b :: k3 → n + s ≤ b) ∧
      (k2 = [] → n + s ≤ h.g_hunk_total_size - h.g_hunk_high_used) := by
  obtain ⟨hL, hH, hLH, hN⟩ := hh
  have hsz : sizeofCacheHeader = 64 := rfl
  cases as with
  | nil =>
    have he := (ring_empty_iff hinv.ringA).mpr rfl
    simp only [CacheTryAlloc, he, if_true]
    by_cases hfit : wrap32 (wrap32 (h.g_hunk_total_size - h.g_hunk_low_used)
        - h.g_hunk_high_used) < s
    · left; exact ⟨_, by rw [if_pos hfit]⟩
    · simp only [hfit, if_false]
      by_cases hbuf : 0 ≤ h.g_hunk_low_used ∧
          h.g_hunk_low_used + sizeofCacheHeader ≤ h.g_hunk_total_size
      · right; right
        obtain ⟨c5, h5, p5⟩ := cacheInsertFirst_spec (s := s) hinv hbuf
        refine ⟨c5, _, [], [], h5, p5, ?_, rfl, by simp, ?_⟩
        · simp only [List.nil_append, CGeom, p5.new.1]
          refine ⟨le_refl _, ?_⟩
          rcases hs with hs | hs
          · exact Or.inl ⟨hs, trivial⟩
          · exact Or.inr ⟨by omega, trivial⟩
        · intro _
          unfold wrap32 at hfit
          omega
      · left
        exact ⟨.crash, by simp [cacheInsertFirst, cacheNewHeader, hbuf]⟩
  | cons a l2 =>
    have hne : ¬ (c.hdr .head).next = .head := by
      rw [ring_empty_iff hinv.ringA]; simp
    have hfirst : (c.hdr .head).next = .blk a := (CSeg_ends _ _ _ hinv.ringA.1).1
    simp only [CacheTryAlloc, hne, if_false, hfirst]
    have hsc := cacheScan_cases (h := h) s hinv.ringA fuel [] a l2 rfl
    simp only [candAfter] at hsc
    rcases hsc with ⟨e, he⟩ | hnone | ⟨k1, k2, hsplit, hfit1, hfit2, heq⟩
    · left; exact ⟨e, he⟩
    · right; left; exact ⟨hnone, by simp⟩
    · rw [heq]
      generalize hn : candAfter c h.g_hunk_low_used k1 = n at *
      by_cases hbuf : 0 ≤ n ∧ n + sizeofCacheHeader ≤ h.g_hunk_total_size
      swap
      · left; exact ⟨_, cacheInsertBefore_outside hbuf⟩
      rw [hsplit] at hg
      obtain ⟨g1, g2⟩ := CGeom_cand k2 n hbuf.1 k1 _ hg hn.symm hL
      have hs2 : 0 < s ∨ n + s < 0 := by
        rcases hs with hs | hs
        · exact Or.inl hs
        · right; unfold RoundedSize at *; omega
      cases k2 with
      | nil =>
        have hfresh : n ∉ a :: l2 := by
          rw [hsplit]
          simp only [List.append_nil]
          intro hh
          have := g1 n hh
          omega
        obtain ⟨c5, h5, p5⟩ := cacheInsertBefore_spec (s := s) hinv hsplit hfresh hbuf
        right; right
        refine ⟨c5, n, k1, [], h5, p5, ?_, hn.symm, by simp, ?_⟩
        · refine CGeom_insert [] n s hbuf.1 (by simp) hs2 p5.new.1 k1 _ hg hn.symm hL ?_
          intro x hx
          have : x ≠ n := by
            intro hh
            subst hh
            simp only [List.append_nil] at hx
            have := g1 _ hx
            omega
          exact (p5.old x this).1
        · intro _
          have := hfit2 rfl
          omega
      | cons b k3 =>
        by_cases hnb : n = b
        · left
          subst hnb
          simp only [firstPtr]
          exact cacheInsertBefore_same
        have hnb2 : n < b := by
          have := g2 b (List.mem_cons_self _ _)
          omega
        obtain ⟨q, hq⟩ := CGeom_suffix (b :: k3) k1 _ hg
        have hgt := CGeom_tail_gt hq
        have hmem : ∀ x ∈ k1 ++ b :: k3, x ≠ n := by
          intro x hx hh
          subst hh
          rcases List.mem_append.mp hx with hx | hx
          · have := g1 _ hx; omega
          · rcases List.mem_cons.mp hx with hx | hx
            · omega
            · have := hgt _ hx; omega
        have hfresh : n ∉ a :: l2 := by
          rw [hsplit]
          exact fun hh => hmem n hh rfl
        obtain ⟨c5, h5, p5⟩ := cacheInsertBefore_spec (s := s) hinv hsplit hfresh hbuf
        have hfit := hfit1 b k3 rfl
        right; right
        refine ⟨c5, n, k1, b :: k3, h5, p5, ?_, hn.symm, ?_, by simp⟩
        · refine CGeom_insert (b :: k3) n s hbuf.1 ?_ hs2 p5.new.1 k1 _ hg hn.symm hL ?_
          · intro b2 k4 hb
            simp only [List.cons.injEq] at hb
            rw [← hb.1]
            exact ⟨hnb2, fun _ => by omega⟩
          · intro x hx
            exact (p5.old x (hmem x hx)).1
        · intro b2 k4 hb
          simp only [List.cons.injEq] at hb
          rw [← hb.1]
          omega
/-! ## `CacheAlloc` -/

/-- Attaching the user to a freshly placed header restores ring and handle
consistency. -/
theorem cacheAttach_spec {c c5 : Cache} {as lru k1 k2 : List Int} {n s : Int} {cu : Nat}
    (name : List Int) (hinv : CacheInv c as lru) (hp : Placed c c5 as lru k1 k2 n s)
    (hcu : c.data cu = none) :
    ∃ c6, cacheAttach c5 n cu name = .ok c6 ∧ CacheInv c6 (k1 ++ n :: k2) (n :: lru) ∧
      (∀ q, (c6.hdr q).size = (c5.hdr q).size) ∧
      (∀ w, c6.data w = if w = cu then some (n + sizeofCacheHeader) else c.data w) := by
  obtain ⟨r, hr⟩ := StringCopy_ok
    ((((c5.setUser (.blk n) (some cu)).setData cu (some (n + sizeofCacheHeader))).hdr
      (.blk n)).name) 0 15 name 15 (by norm_num) (by norm_num)
  have hsplit := hp.split
  refine ⟨((c5.setUser (.blk n) (some cu)).setData cu (some (n + sizeofCacheHeader))).setName
    (.blk n) r.1, by simp only [cacheAttach, hr], ⟨?_, ?_, ?_, ?_, ?_⟩, ?_, ?_⟩
  · exact AddrRingIs_congr (by intro q; simp) (by intro q; simp) hp.ringA
  · exact LruRingIs_congr (by intro q; simp) (by intro q; simp) hp.ringL
  · intro a
    rw [List.mem_cons, hinv.same, hsplit]
    simp only [List.mem_append, List.mem_cons]
    tauto
  · intro a ha
    by_cases han : a = n
    · subst han
      exact ⟨cu, by simp, by simp⟩
    · have ha2 : a ∈ as := by
        rw [hsplit]
        simp only [List.mem_append, List.mem_cons] at ha ⊢
        tauto
      obtain ⟨w, h1, h2⟩ := hinv.owner a ha2
      have hw : w ≠ cu := fun hh => by rw [hh, hcu] at h2; simp at h2
      refine ⟨w, ?_, ?_⟩
      · simp only [Cache.setName_user, Cache.setData_hdr, Cache.setUser_user,
          CachePtr.blk.injEq, han, if_false]
        rw [(hp.old a han).2]; exact h1
      · simp only [Cache.setName_data, Cache.setData_data, hw, if_false, Cache.setUser_data]
        rw [hp.data]; exact h2
  · intro w p hw
    simp only [Cache.setName_data, Cache.setData_data, Cache.setUser_data] at hw
    by_cases hwc : w = cu
    · subst hwc
      simp only [if_true, Option.some.injEq] at hw
      subst hw
      have : n + sizeofCacheHeader - sizeofCacheHeader = n := by ring
      rw [this]
      exact ⟨by simp, by simp⟩
    · simp only [hwc, if_false] at hw
      rw [hp.data] at hw
      obtain ⟨h1, h2⟩ := hinv.handle w p hw
      have hne : p - sizeofCacheHeader ≠ n := fun hh => hp.fresh (hh ▸ h1)
      refine ⟨?_, ?_⟩
      · rw [hsplit] at h1
        simp only [List.mem_append, List.mem_cons] at h1 ⊢
        tauto
      · simp only [Cache.setName_user, Cache.setData_hdr, Cache.setUser_user,
          CachePtr.blk.injEq, hne, if_false]
        rw [(hp.old _ hne).2]; exact h2
  · intro q; simp
  · intro w
    simp only [Cache.setName_data, Cache.setData_data, Cache.setUser_data]
    rw [hp.data]

theorem take_concat_le {α : Type} (m1 : List α) (b : α) (k : Nat) :
    (m1 ++ [b]).take ((m1 ++ [b]).length - (k + 1)) = m1.take (m1.length - k) := by
  have : (m1 ++ [b]).length - (k + 1) = m1.length - k := by simp
  rw [this, List.take_append_of_le_length (by omega)]

/-- The loop of `CacheAlloc` on a consistent cache: when it returns, it has
evicted the `k` least recently used blocks, oldest first, each as the sentinel's
`lru_prev` after a `CacheTryAlloc` that returned NULL, then `CacheTryAlloc`
succeeded and the user was attached; the cache is consistent again, the new
block leads the LRU ring and the surviving blocks follow in their old order. -/
theorem CacheAllocLoop_spec {h : Hunk} (hh : HunkOk h) {s : Int} (hs : RoundedSize s)
    (cu : Nat) (name : List Int) (sf : Nat) :
    ∀ (fuel : Nat) (c : Cache) (as lru : List Int), CacheOk h c as lru → c.data cu = none →
      ∀ (c2 : Cache) (r : Option Int), CacheAllocLoop h cu s name sf fuel c = .ok (c2, r) →
      ∃ (k : Nat) (cK c5 : Cache) (n : Int) (as2 : List Int),
        k ≤ lru.length ∧ Evicts sf h s c (lru.reverse.take k) cK ∧
        CacheTryAlloc sf h cK s = .ok (c5, some n) ∧ cacheAttach c5 n cu name = .ok c2 ∧
        CacheOk h c2 as2 (n :: lru.take (lru.length - k)) ∧
        (0 < s → CLay c (h.g_hunk_total_size - h.g_hunk_high_used) h.g_hunk_low_used as →
          CLay c2 (h.g_hunk_total_size - h.g_hunk_high_used) h.g_hunk_low_used as2) ∧
        r = some (n + sizeofCacheHeader) := by
  intro fuel
  induction fuel with
  | zero => intro c as lru _ _ c2 r hr; simp [CacheAllocLoop] at hr
  | succ f ih =>
    intro c as lru hok hcu c2 r hr
    rcases CacheTryAlloc_spec sf hok.inv hok.geom hh hs with
      ⟨e, he⟩ | ⟨hnone, hne⟩ | ⟨c5, n, k1, k2, h5, p5, g5, hn, fit1, fit2⟩
    · simp [CacheAllocLoop, he] at hr
    · -- one eviction
      have hne2 : ¬ (c.hdr .head).next = .head := by
        rw [ring_empty_iff hok.inv.ringA]; exact hne
      have hlne : lru ≠ [] := by
        intro hh2
        cases as with
        | nil => exact hne rfl
        | cons a l =>
          have := (hok.inv.same a).mpr (List.mem_cons_self _ _)
          rw [hh2] at this
          simp at this
      rcases List.eq_nil_or_concat lru with hh2 | ⟨m1, b, hlru⟩
      · exact absurd hh2 hlne
      rw [List.concat_eq_append] at hlru
      subst hlru
      have hlast : (c.hdr .head).lru_prev = .blk b := by
        have := (CSeg_ends _ _ _ hok.inv.ringL.1).2
        simp only [Cache.lruPrevOf] at this
        rw [this, lastPtr_append]
      have hb : b ∈ as := (hok.inv.same b).mp (by simp)
      obtain ⟨l1, l2, rfl⟩ := List.append_of_mem hb
      obtain ⟨u, hu1, hu2⟩ := hok.inv.owner b hb
      have hinv2 : CacheInv c (l1 ++ b :: l2) (m1 ++ b :: []) := hok.inv
      obtain ⟨c3, h3, i3, s3, d3⟩ := CacheFree_spec hinv2 hu2
      simp only [List.append_nil] at i3
      have hok3 : CacheOk h c3 (l1 ++ l2) m1 :=
        ⟨i3, CGeom_congr _ _ (fun a _ => s3 _) (CGeom_remove b l2 l1 _ hok.geom)⟩
      have hcu3 : c3.data cu = none := by
        rw [d3]; split_ifs
        · rfl
        · exact hcu
      have hloop : CacheAllocLoop h cu s name sf f c3 = .ok (c2, r) := by
        simp only [CacheAllocLoop, hnone, hne2, if_false, hlast, reduceCtorEq, hu1, h3] at hr
        exact hr
      obtain ⟨k, cK, c5, n, as2, j1, j2, j3, j4, j5, j6, j7⟩ := ih c3 _ _ hok3 hcu3 c2 r hloop
      refine ⟨k + 1, cK, c5, n, as2, by simp; omega, ?_, j3, j4, ?_, ?_, j7⟩
      · simp only [List.reverse_append, List.reverse_cons, List.reverse_nil, List.nil_append,
          List.singleton_append, List.take_succ_cons]
        exact Evicts.step c c3 cK b _ hnone hlast (by rw [hu1]; exact h3) j2
      · rw [take_concat_le]; exact j5
      · intro hpos hlay
        exact j6 hpos (CLay_congr _ _ _ (fun a _ => s3 _) (CLay_remove _ b l2 l1 _ hlay))
    · -- the request is placed
      obtain ⟨c6, h6, i6, s6, d6⟩ := cacheAttach_spec name hok.inv p5 hcu
      have hres : c2 = c6 ∧ r = c6.data cu := by
        simp only [CacheAllocLoop, h5, h6, Except.ok.injEq, Prod.mk.injEq] at hr
        exact ⟨hr.1.symm, hr.2.symm⟩
      obtain ⟨rfl, rfl⟩ := hres
      refine ⟨0, c, c5, n, k1 ++ n :: k2, Nat.zero_le _, ?_, h5, h6, ⟨?_, ?_⟩, ?_, ?_⟩
      · simp only [List.take_zero]; exact Evicts.done c
      · simpa using i6
      · exact CGeom_congr _ _ (fun a _ => s6 _) g5
      · intro hpos hlay
        refine CLay_congr _ _ _ (fun a _ => s6 _) ?_
        rw [p5.split] at hlay
        refine CLay_insert _ k2 n s hpos fit1 fit2 p5.new.1 k1 _ hlay hn ?_
        intro a ha
        have : a ≠ n := fun hh2 => p5.fresh (by rw [p5.split]; exact hh2 ▸ ha)
        exact (p5.old a this).1
      · rw [d6]; simp
/-! ## Runs of Cache calls -/

theorem cacheRounded_ok {size : Int} (h0 : 0 < size) (h1 : size < 2147483648) :
    RoundedSize (Align16 (wrap32 (size + sizeofCacheHeader))) := by
  unfold RoundedSize Align16 wrap32 sizeofCacheHeader
  omega

theorem cacheRounded_pos {size : Int} (h0 : 0 < size) (h1 : size ≤ 2147483568) :
    0 < Align16 (wrap32 (size + sizeofCacheHeader)) := by
  unfold Align16 wrap32 sizeofCacheHeader
  omega

/-- `CacheInit` on handles that are all null gives a consistent, empty cache. -/
theorem CacheInit_ok (h : Hunk) {c0 : Cache} (h0 : ∀ u, c0.data u = none) :
    CacheOk h (CacheInit c0) [] [] := by
  refine ⟨⟨⟨?_, by simp⟩, ⟨?_, by simp⟩, by simp, by simp, ?_⟩, trivial⟩
  · simp [CSeg, Cache.nextOf, Cache.prevOf, CacheInit]
  · simp [CSeg, Cache.lruNextOf, Cache.lruPrevOf, CacheInit]
  · intro u p hp
    simp only [CacheInit, Cache.setSize_data, Cache.setLruPrev_data, Cache.setLruNext_data,
      Cache.setPrev_data, Cache.setNext_data] at hp
    rw [h0] at hp
    exact absurd hp (by simp)

/-- One Cache call on a consistent cache, when it returns, leaves a consistent
cache; and it keeps the bounds invariant I5 when the rounding of the requested
size does not wrap. -/
theorem CacheCall_step {h : Hunk} (hh : HunkOk h) (fuel : Nat) {c : Cache} {as lru : List Int}
    (hok : CacheOk h c as lru) (op : CacheCall) (ht : op.typed) {c2 : Cache}
    (hr : op.run fuel h c = .ok c2) :
    ∃ as2 lru2, CacheOk h c2 as2 lru2 ∧
      (op.small → CLay c (h.g_hunk_total_size - h.g_hunk_high_used) h.g_hunk_low_used as →
        CLay c2 (h.g_hunk_total_size - h.g_hunk_high_used) h.g_hunk_low_used as2) := by
  cases op with
  | alloc cu size name =>
    simp only [CacheCall.run] at hr
    cases hq : CacheAlloc fuel h c cu size name with
    | error e => rw [hq] at hr; exact absurd hr (by simp [Except.map])
    | ok res =>
      rw [hq] at hr
      simp only [Except.map, Except.ok.injEq] at hr
      subst hr
      unfold CacheAlloc at hq
      split_ifs at hq with h1 h2
      have hcu : c.data cu = none := by
        cases hd : c.data cu with
        | none => rfl
        | some p => rw [hd] at h1; simp at h1
      have hs := cacheRounded_ok (by omega : 0 < size) ht
      obtain ⟨k, cK, c5, n, as2, -, -, -, -, j5, j6, -⟩ :=
        CacheAllocLoop_spec hh hs cu name fuel fuel c as lru hok hcu res.1 res.2 hq
      exact ⟨as2, _, j5, fun hsm => j6 (cacheRounded_pos (by omega) hsm)⟩
  | check cu =>
    simp only [CacheCall.run] at hr
    cases hd : c.data cu with
    | none =>
      simp only [CacheCheck, hd, Except.map, Except.ok.injEq] at hr
      subst hr
      exact ⟨as, lru, hok, fun _ hl => hl⟩
    | some p =>
      obtain ⟨hp1, -⟩ := hok.inv.handle cu p hd
      have hp2 := (hok.inv.same _).mpr hp1
      obtain ⟨m1, m2, rfl⟩ := List.append_of_mem hp2
      have hd2 : c.data cu = some (p - sizeofCacheHeader + sizeofCacheHeader) := by
        rw [hd]; congr 1; ring
      obtain ⟨c3, h3, i3, s3⟩ := CacheCheck_spec hok.inv hd2
      rw [h3] at hr
      simp only [Except.map, Except.ok.injEq] at hr
      subst hr
      exact ⟨as, _, ⟨i3, CGeom_congr _ _ (fun a _ => (s3.2 _).2.2.1) hok.geom⟩,
        fun _ hl => CLay_congr _ _ _ (fun a _ => (s3.2 _).2.2.1) hl⟩
  | free cu =>
    simp only [CacheCall.run] at hr
    cases hd : c.data cu with
    | none => simp [CacheFree, hd] at hr
    | some p =>
      obtain ⟨hp1, -⟩ := hok.inv.handle cu p hd
      have hp2 := (hok.inv.same _).mpr hp1
      obtain ⟨m1, m2, rfl⟩ := List.append_of_mem hp2
      obtain ⟨l1, l2, rfl⟩ := List.append_of_mem hp1
      have hd2 : c.data cu = some (p - sizeofCacheHeader + sizeofCacheHeader) := by
        rw [hd]; congr 1; ring
      obtain ⟨c3, h3, i3, s3, -⟩ := CacheFree_spec hok.inv hd2
      rw [h3] at hr
      simp only [Except.ok.injEq] at hr
      subst hr
      exact ⟨_, _, ⟨i3, CGeom_congr _ _ (fun a _ => s3 _) (CGeom_remove _ l2 l1 _ hok.geom)⟩,
        fun _ hl => CLay_congr _ _ _ (fun a _ => s3 _) (CLay_remove _ _ l2 l1 _ hl)⟩

/-- A run of Cache calls on a consistent cache, when it returns, leaves a
consistent cache, and keeps the bounds invariant I5 when no rounding wraps. -/
theorem cacheRun_ok {h : Hunk} (hh : HunkOk h) (fuel : Nat) :
    ∀ (ops : List CacheCall) (c : Cache) (as lru : List Int), CacheOk h c as lru →
      (∀ op ∈ ops, op.typed) → ∀ c2, runCacheCalls fuel h c ops = .ok c2 →
      ∃ as2 lru2, CacheOk h c2 as2 lru2 ∧
        ((∀ op ∈ ops, op.small) →
          CLay c (h.g_hunk_total_size - h.g_hunk_high_used) h.g_hunk_low_used as →
          CLay c2 (h.g_hunk_total_size - h.g_hunk_high_used) h.g_hunk_low_used as2) := by
  intro ops
  induction ops with
  | nil =>
    intro c as lru hok _ c2 hr
    simp only [runCacheCalls, Except.ok.injEq] at hr
    subst hr
    exact ⟨as, lru, hok, fun _ hl => hl⟩
  | cons op ops ih =>
    intro c as lru hok ht c2 hr
    simp only [runCacheCalls] at hr
    cases hq : op.run fuel h c with
    | error e => rw [hq] at hr; exact absurd hr (by simp)
    | ok c1 =>
      rw [hq] at hr
      obtain ⟨as1, lru1, hok1, hl1⟩ :=
        CacheCall_step hh fuel hok op (ht op (List.mem_cons_self _ _)) hq
      obtain ⟨as2, lru2, hok2, hl2⟩ :=
        ih c1 as1 lru1 hok1 (fun o ho => ht o (List.mem_cons_of_mem _ ho)) c2 hr
      exact ⟨as2, lru2, hok2, fun hsm hl =>
        hl2 (fun o ho => hsm o (List.mem_cons_of_mem _ ho))
          (hl1 (hsm op (List.mem_cons_self _ _)) hl)⟩

/-! ## The rings as the walks see them -/

theorem cacheLruFrom_eq {c : Cache} : ∀ (l : List Int) (x : CachePtr) (fuel : Nat),
    CSeg c.lruNextOf c.lruPrevOf x l .head →
    cacheLruFrom c fuel (c.hdr x).lru_next = l.take fuel := by
  intro l
  induction l with
  | nil =>
    intro x fuel h
    simp only [CSeg, Cache.lruNextOf] at h
    rw [h.1]
    cases fuel with
    | zero => simp [cacheLruFrom]
    | succ f => simp [cacheLruFrom]
  | cons a l ih =>
    intro x fuel h
    simp only [CSeg, Cache.lruNextOf] at h
    rw [h.1]
    cases fuel with
    | zero => simp [cacheLruFrom]
    | succ f =>
      simp only [cacheLruFrom, List.take_succ_cons, List.cons.injEq, true_and]
      exact ih _ f h.2.2

theorem cacheRingFrom_eq {c : Cache} : ∀ (l : List Int) (x : CachePtr) (fuel : Nat),
    CSeg c.nextOf c.prevOf x l .head →
    cacheRingFrom c fuel (c.hdr x).next = l.take fuel := by
  intro l
  induction l with
  | nil =>
    intro x fuel h
    simp only [CSeg, Cache.nextOf] at h
    rw [h.1]
    cases fuel with
    | zero => simp [cacheRingFrom]
    | succ f => simp [cacheRingFrom]
  | cons a l ih =>
    intro x fuel h
    simp only [CSeg, Cache.nextOf] at h
    rw [h.1]
    cases fuel with
    | zero => simp [cacheRingFrom]
    | succ f =>
      simp only [cacheRingFrom, List.take_succ_cons, List.cons.injEq, true_and]
      exact ih _ f h.2.2

/-- The walk along `lru_next` returns the LRU ring of a consistent cache, as
far as its fuel reaches. -/
theorem lruRing_eq {c : Cache} {l : List Int} (h : LruRingIs c l) (fuel : Nat) :
    lruRing fuel c = l.take fuel :=
  cacheLruFrom_eq l .head fuel h.1

/-- The walk along `next` returns the address ring of a consistent cache, as
far as its fuel reaches. -/
theorem addrRing_eq {c : Cache} {l : List Int} (h : AddrRingIs c l) (fuel : Nat) :
    (addrRing fuel c).map Prod.fst = l.take fuel := by
  simp only [addrRing, List.map_map]
  have : (Prod.fst ∘ fun a => (a, (c.hdr (CachePtr.blk a)).size)) = id := rfl
  rw [this, List.map_id]
  exact cacheRingFrom_eq l .head fuel h.1

/-- A walk that stopped before its fuel ran out has seen the whole ring. -/
theorem eq_of_take_eq {l m : List Int} {n : Nat} (h : l.take n = m) (hm : m.length < n) :
    l = m := by
  have hl : (l.take n).length = m.length := by rw [h]
  rw [List.length_take] at hl
  have : l.length ≤ n := by omega
  rw [List.take_of_length_le this] at h
  exact h
/-! ## Termination of the loops of `CacheAlloc` -/

theorem CacheUnlinkLRU_fuel (c : Cache) (ch : CachePtr) : CacheUnlinkLRU c ch ≠ .error .fuel := by
  unfold CacheUnlinkLRU
  split_ifs <;> simp

theorem cacheLinkMRU_fuel (c : Cache) (ch : CachePtr) : cacheLinkMRU c ch ≠ .error .fuel := by
  unfold cacheLinkMRU
  split_ifs <;> simp

theorem CacheMarkMRU_fuel (c : Cache) (ch : CachePtr) : CacheMarkMRU c ch ≠ .error .fuel := by
  unfold CacheMarkMRU
  split_ifs
  · simp
  · cases hq : CacheUnlinkLRU c ch with
    | error e =>
      simp only [ne_eq, Except.error.injEq]
      intro he
      exact CacheUnlinkLRU_fuel c ch (by rw [hq, he])
    | ok c1 => exact cacheLinkMRU_fuel c1 ch
  · exact cacheLinkMRU_fuel c ch

theorem cacheInsertBefore_fuel (h : Hunk) (c : Cache) (n s : Int) (old : CachePtr) :
    cacheInsertBefore h c n s old ≠ .error .fuel := by
  unfold cacheInsertBefore
  cases h1 : cacheNewHeader h c n s with
  | error e =>
    unfold cacheNewHeader at h1
    split_ifs at h1
    simp only [Except.error.injEq] at h1
    subst h1
    simp
  | ok c0 =>
    simp only
    cases h2 : cacheLinkBefore c0 (.blk n) old with
    | error e =>
      unfold cacheLinkBefore at h2
      split_ifs at h2
      simp only [Except.error.injEq] at h2
      subst h2
      simp
    | ok c4 =>
      simp only
      cases h3 : CacheMarkMRU c4 (.blk n) with
      | error e =>
        simp only [ne_eq, Except.error.injEq]
        intro he
        exact CacheMarkMRU_fuel c4 (.blk n) (by rw [h3, he])
      | ok c5 => simp

theorem cacheInsertFirst_fuel (h : Hunk) (c : Cache) (s : Int) :
    cacheInsertFirst h c s ≠ .error .fuel := by
  unfold cacheInsertFirst
  cases h1 : cacheNewHeader h c h.g_hunk_low_used s with
  | error e =>
    unfold cacheNewHeader at h1
    split_ifs at h1
    simp only [Except.error.injEq] at h1
    subst h1
    simp
  | ok c0 =>
    simp only
    generalize ((((c0.setNext .head (.blk h.g_hunk_low_used)).setPrev .head
      (.blk h.g_hunk_low_used)).setNext (.blk h.g_hunk_low_used) .head).setPrev
      (.blk h.g_hunk_low_used) .head) = c4
    cases h3 : CacheMarkMRU c4 (.blk h.g_hunk_low_used) with
    | error e =>
      simp only [ne_eq, Except.error.injEq]
      intro he
      exact CacheMarkMRU_fuel c4 _ (by rw [h3, he])
    | ok c5 => simp

/-- The scan of `CacheTryAlloc` ends within one iteration per block that is
left in the address ring. -/
theorem cacheScan_fuel {h : Hunk} {c : Cache} {as : List Int} (s : Int)
    (hring : AddrRingIs c as) :
    ∀ (fuel : Nat) (l1 : List Int) (a : Int) (l2 : List Int) (cand : Int),
      as = l1 ++ a :: l2 → l2.length < fuel →
      cacheScan h c s fuel cand (.blk a) ≠ .error .fuel := by
  intro fuel
  induction fuel with
  | zero => intro l1 a l2 cand _ hf; simp at hf
  | succ f ih =>
    intro l1 a l2 cand hsplit hf
    simp only [cacheScan]
    by_cases h1 : a - cand ≥ s
    · simp only [h1, if_true]
      exact cacheInsertBefore_fuel _ _ _ _ _
    · simp only [h1, if_false]
      have hmid : (c.hdr (.blk a)).next = firstPtr l2 .head := by
        have := hring.1
        rw [hsplit] at this
        exact (CSeg_mid this).2
      cases l2 with
      | nil =>
        simp only [firstPtr] at hmid
        simp only [hmid, ne_eq, not_true_eq_false, if_false]
        split_ifs
        · exact cacheInsertBefore_fuel _ _ _ _ _
        · simp
      | cons b l3 =>
        simp only [firstPtr] at hmid
        simp only [hmid, ne_eq, reduceCtorEq, not_false_eq_true, if_true]
        exact ih (l1 ++ [a]) b l3 _ (by simp [hsplit]) (by simp at hf; omega)

/-- `CacheTryAlloc` ends when the fuel of its scan exceeds the number of
blocks. -/
theorem CacheTryAlloc_fuel {h : Hunk} {c : Cache} {as : List Int} (s : Int)
    (hring : AddrRingIs c as) {fuel : Nat} (hf : as.length < fuel) :
    CacheTryAlloc fuel h c s ≠ .error .fuel := by
  unfold CacheTryAlloc
  cases as with
  | nil =>
    have he := (ring_empty_iff hring).mpr rfl
    simp only [he, if_true]
    split_ifs
    · simp
    · exact cacheInsertFirst_fuel _ _ _
  | cons a l2 =>
    have hne : ¬ (c.hdr .head).next = .head := by
      rw [ring_empty_iff hring]; simp
    simp only [hne, if_false]
    have hfirst : (c.hdr .head).next = .blk a := by
      have := (CSeg_ends _ _ _ hring.1).1
      simpa [Cache.nextOf, firstPtr] using this
    rw [hfirst]
    exact cacheScan_fuel s hring fuel [] a l2 _ rfl (by simp at hf; omega)

/-- The loop of `CacheAlloc` ends: with more fuel than there are blocks it
returns or stops at a fatal error. -/
theorem CacheAllocLoop_fuel {h : Hunk} (hh : HunkOk h) {s : Int} (hs : RoundedSize s)
    (cu : Nat) (name : List Int) (sf : Nat) :
    ∀ (fuel : Nat) (c : Cache) (as lru : List Int), CacheOk h c as lru → c.data cu = none →
      lru.length < fuel → as.length < sf →
      CacheAllocLoop h cu s name sf fuel c ≠ .error .fuel := by
  intro fuel
  induction fuel with
  | zero => intro c as lru _ _ hf _; simp at hf
  | succ f ih =>
    intro c as lru hok hcu hf hsf
    rcases CacheTryAlloc_spec sf hok.inv hok.geom hh hs with
      ⟨e, he⟩ | ⟨hnone, hne⟩ | ⟨c5, n, k1, k2, h5, p5, g5, hn, fit1, fit2⟩
    · simp only [CacheAllocLoop, he, ne_eq, Except.error.injEq]
      intro hef
      exact CacheTryAlloc_fuel s hok.inv.ringA hsf (by rw [he, hef])
    · have hne2 : ¬ (c.hdr .head).next = .head := by
        rw [ring_empty_iff hok.inv.ringA]; exact hne
      have hlne : lru ≠ [] := by
        intro hh2
        cases as with
        | nil => exact hne rfl
        | cons a l =>
          have := (hok.inv.same a).mpr (List.mem_cons_self _ _)
          rw [hh2] at this
          simp at this
      rcases List.eq_nil_or_concat lru with hh2 | ⟨m1, b, hlru⟩
      · exact absurd hh2 hlne
      rw [List.concat_eq_append] at hlru
      subst hlru
      have hlast : (c.hdr .head).lru_prev = .blk b := by
        have := (CSeg_ends _ _ _ hok.inv.ringL.1).2
        simp only [Cache.lruPrevOf] at this
        rw [this, lastPtr_append]
      have hb : b ∈ as := (hok.inv.same b).mp (by simp)
      obtain ⟨l1, l2, rfl⟩ := List.append_of_mem hb
      obtain ⟨u, hu1, hu2⟩ := hok.inv.owner b hb
      have hinv2 : CacheInv c (l1 ++ b :: l2) (m1 ++ b :: []) := hok.inv
      obtain ⟨c3, h3, i3, s3, d3⟩ := CacheFree_spec hinv2 hu2
      simp only [List.append_nil] at i3
      have hok3 : CacheOk h c3 (l1 ++ l2) m1 :=
        ⟨i3, CGeom_congr _ _ (fun a _ => s3 _) (CGeom_remove b l2 l1 _ hok.geom)⟩
      have hcu3 : c3.data cu = none := by
        rw [d3]; split_ifs
        · rfl
        · exact hcu
      simp only [CacheAllocLoop, hnone, hne2, if_false, hlast, reduceCtorEq, hu1, h3]
      exact ih c3 _ _ hok3 hcu3 (by simp at hf; omega) (by simp at hsf ⊢; omega)
    · obtain ⟨c6, h6, -⟩ := cacheAttach_spec name hok.inv p5 hcu
      simp [CacheAllocLoop, h5, h6]

/-- The two rings of a consistent cache have the same number of blocks. -/
theorem CacheInv_length {c : Cache} {as lru : List Int} (hinv : CacheInv c as lru) :
    lru.length = as.length :=
  ((List.perm_ext_iff_of_nodup hinv.ringL.2 hinv.ringA.2).mpr hinv.same).length_eq

/-! ## Cache: bounds, rings and eviction order -/

/-- The recursive form of the bounds invariant gives its spelt-out form. -/
theorem CLay_bounds {c : Cache} (e : Int) : ∀ (l : List Int) (p : Int), CLay c e p l →
    l.Pairwise (fun a b => a < b) ∧
    l.Pairwise (fun a b => a + (c.hdr (.blk a)).size ≤ b) ∧
    ∀ a ∈ l, 0 < (c.hdr (.blk a)).size ∧ p ≤ a ∧ a + (c.hdr (.blk a)).size ≤ e := by
  intro l
  induction l with
  | nil => intro p _; simp
  | cons a l ih =>
    intro p h
    simp only [CLay] at h
    obtain ⟨h1, h2, h3⟩ := h
    obtain ⟨i1, i2, i3⟩ := ih _ h3
    have hle := CLay_le e l _ h3
    refine ⟨List.pairwise_cons.mpr ⟨?_, i1⟩, List.pairwise_cons.mpr ⟨?_, i2⟩, ?_⟩
    · intro b hb
      have := (i3 b hb).2.1
      omega
    · intro b hb
      exact (i3 b hb).2.1
    · intro b hb
      rcases List.mem_cons.mp hb with rfl | hb
      · exact ⟨h2, h1, hle⟩
      · obtain ⟨j1, j2, j3⟩ := i3 b hb
        exact ⟨j1, by omega, j3⟩

/-- The counters of `s3Hunk` are those the program reaches by `MemoryInit` on a
buffer of 1 MiB followed by `HunkHighAlloc(914232, "")`. -/
theorem s3Hunk_reached :
    (((MemoryInit 0 1048576 (fun _ => 0)).bind (fun m =>
        HunkHighAlloc m.hunk 914232 [])).toOption.map
      (fun r => (r.1.g_hunk_total_size, r.1.g_hunk_low_used, r.1.g_hunk_high_used)))
      = some (s3Hunk.g_hunk_total_size, s3Hunk.g_hunk_low_used, s3Hunk.g_hunk_high_used) := by
  decide

theorem s3Hunk_ok : HunkOk s3Hunk := by
  unfold HunkOk s3Hunk
  decide

/-- The calls of scenario S3 return, with the state `s3State`. -/
theorem s3_run : runCacheCalls 10 s3Hunk (CacheInit rawCache) s3Calls = .ok s3State := by
  have hsome : ((runCacheCalls 10 s3Hunk (CacheInit rawCache) s3Calls).toOption).isSome = true := by
    decide
  cases hq : runCacheCalls 10 s3Hunk (CacheInit rawCache) s3Calls with
  | error e => rw [hq] at hsome; simp [Except.toOption] at hsome
  | ok c => simp only [s3State, hq, Except.toOption, Option.getD]

theorem s3Calls_typed : ∀ op ∈ s3Calls, op.typed := by
  intro op hop
  simp only [s3Calls, List.mem_cons, List.mem_singleton, List.not_mem_nil, or_false] at hop
  rcases hop with rfl | rfl | rfl | rfl <;> simp [CacheCall.typed]

theorem s3Calls_small : ∀ op ∈ s3Calls, op.small := by
  intro op hop
  simp only [s3Calls, List.mem_cons, List.mem_singleton, List.not_mem_nil, or_false] at hop
  rcases hop with rfl | rfl | rfl | rfl <;> simp [CacheCall.small]

/-- The state of scenario S3 is consistent, with the blocks A, B, C at the
offsets 131104, 132176, 133248 and the LRU order A, C, B. -/
theorem s3State_ok :
    CacheOk s3Hunk s3State [131104, 132176, 133248] [131104, 133248, 132176] := by
  obtain ⟨as, lru, hok, -⟩ := cacheRun_ok s3Hunk_ok 10 s3Calls (CacheInit rawCache) [] []
    (CacheInit_ok s3Hunk (fun _ => rfl)) s3Calls_typed s3State s3_run
  have h1 : (addrRing 10 s3State).map Prod.fst = [131104, 132176, 133248] := by decide
  have h2 : lruRing 10 s3State = [131104, 133248, 132176] := by decide
  rw [addrRing_eq hok.inv.ringA] at h1
  rw [lruRing_eq hok.inv.ringL] at h2
  have e1 := eq_of_take_eq h1 (by decide)
  have e2 := eq_of_take_eq h2 (by decide)
  subst e1 e2
  exact hok

/-- The evicting allocation of scenario S3 returns, with the state `s3After` and
the payload at offset 132240. -/
theorem s3_alloc : CacheAlloc 10 s3Hunk s3State 3 1000 [] = .ok (s3After, some 132240) := by
  have hsome : ((CacheAlloc 10 s3Hunk s3State 3 1000 []).toOption.map Prod.snd)
      = some (some 132240) := by
    decide
  cases hq : CacheAlloc 10 s3Hunk s3State 3 1000 [] with
  | error e => rw [hq] at hsome; simp [Except.toOption] at hsome
  | ok r =>
    rw [hq] at hsome
    simp only [Except.toOption, Option.map, Option.some.injEq] at hsome
    simp only [s3After, hq, Except.toOption, Option.getD, Except.ok.injEq]
    exact Prod.ext rfl hsome

/-- C8 (counterexample).  After `MemoryInit` on a buffer of 1 048 576 bytes,
`CacheAlloc(u, 1000, "")` places a block of 1072 bytes at offset 131104, the
value of `g_hunk_low_used`; `HunkHighAlloc(917384, "")` then returns and leaves
`N - g_hunk_high_used = 131168`, below the end 132176 of the cache block, which
is still in the address ring. -/
theorem hunk_high_alloc_runs_over_cache_block :
    (((MemoryInit 0 1048576 (fun _ => 0)).bind (fun m =>
        runMemCalls 10 m.hunk m.cache
          [MemCall.cacheAlloc 0 1000 [], MemCall.hunkHighAlloc 917384 []])).toOption.map
      (fun r => (addrRing 10 r.2, r.1.g_hunk_low_used,
        r.1.g_hunk_total_size - r.1.g_hunk_high_used,
        (addrRing 10 r.2).all (fun b =>
          decide (b.1 + b.2 ≤ r.1.g_hunk_total_size - r.1.g_hunk_high_used)))))
      = some ([(131104, 1072)], 131104, 131168, false) := by
  decide

/-- C8 (amended).  While the Hunk counters stay as they are (non-negative, with
`low_used + high_used ≤ N` and `N` an `int`), every sequence of `CacheAlloc`,
`CacheCheck` and `CacheFree` calls from `CacheInit` whose requested sizes are at
most 2147483568, so that their rounding does not wrap, leaves, when it returns,
an address ring whose offsets increase strictly, whose blocks do not overlap,
and whose blocks all lie within `[low_used, N - high_used)`. -/
theorem cache_calls_keep_bounds {h : Hunk} (hh : HunkOk h) {c0 : Cache}
    (h0 : ∀ u, c0.data u = none) (fuel : Nat) (ops : List CacheCall)
    (hs : ∀ op ∈ ops, op.small) {c : Cache}
    (hr : runCacheCalls fuel h (CacheInit c0) ops = .ok c) :
    ∃ as, AddrRingIs c as ∧ CacheBounds h c as := by
  have ht : ∀ op ∈ ops, op.typed := by
    intro op hop
    have := hs op hop
    cases op with
    | alloc cu size name =>
      simp only [CacheCall.small] at this
      simp only [CacheCall.typed]
      omega
    | check cu => trivial
    | free cu => trivial
  obtain ⟨as, lru, hok, hl⟩ := cacheRun_ok hh fuel ops (CacheInit c0) [] []
    (CacheInit_ok h h0) ht c hr
  have hl0 : CLay (CacheInit c0) (h.g_hunk_total_size - h.g_hunk_high_used)
      h.g_hunk_low_used [] := by
    simp only [CLay]
    have := hh.2.2.1
    omega
  exact ⟨as, hok.inv.ringA, CLay_bounds _ _ _ (hl hs hl0)⟩

theorem cache_calls_keep_bounds_witness :
    HunkOk s3Hunk ∧ (∀ u, rawCache.data u = none) ∧ (∀ op ∈ s3Calls, op.small) ∧
    runCacheCalls 10 s3Hunk (CacheInit rawCache) s3Calls = .ok s3State ∧
    addrRing 10 s3State = [(131104, 1072), (132176, 1072), (133248, 1072)] ∧
    ∃ as, AddrRingIs s3State as ∧ CacheBounds s3Hunk s3State as :=
  ⟨s3Hunk_ok, fun _ => rfl, s3Calls_small, s3_run, by decide,
    cache_calls_keep_bounds s3Hunk_ok (fun _ => rfl) 10 s3Calls s3Calls_small s3_run⟩

/-- C10.  On a consistent cache with address ring `as` and LRU ring `lru` (most
recently used first), `CacheAlloc` with more fuel than there are blocks ends,
and when it returns it has gone through `k` evictions: before each of them
`CacheTryAlloc` returned NULL and the block freed was the sentinel's `lru_prev`,
so the blocks evicted are the last `k` of `lru`, the oldest first; then
`CacheTryAlloc` succeeded at once, the user was attached, and the LRU ring is
the new block followed by the `lru.length - k` most recently used old blocks in
their old order. -/
theorem CacheAlloc_evicts_lru_first {h : Hunk} (hh : HunkOk h) {c : Cache}
    {as lru : List Int} (hok : CacheOk h c as lru) (cu : Nat) (size : Int) (name : List Int)
    (hsize : size < 2147483648) (fuel : Nat) (hfuel : as.length < fuel) :
    CacheAlloc fuel h c cu size name ≠ .error .fuel ∧
    ∀ c2 r, CacheAlloc fuel h c cu size name = .ok (c2, r) →
      ∃ (k : Nat) (cK c5 : Cache) (n : Int) (as2 : List Int),
        k ≤ lru.length ∧
        Evicts fuel h (Align16 (wrap32 (size + sizeofCacheHeader))) c (lru.reverse.take k) cK ∧
        CacheTryAlloc fuel h cK (Align16 (wrap32 (size + sizeofCacheHeader))) = .ok (c5, some n) ∧
        cacheAttach c5 n cu name = .ok c2 ∧
        CacheInv c2 as2 (n :: lru.take (lru.length - k)) ∧
        r = some (n + sizeofCacheHeader) := by
  constructor
  · unfold CacheAlloc
    split_ifs with h1 h2
    · simp
    · simp
    · have hcu : c.data cu = none := by
        cases hd : c.data cu with
        | none => rfl
        | some p => rw [hd] at h1; simp at h1
      exact CacheAllocLoop_fuel hh (cacheRounded_ok (by omega) hsize) cu name fuel fuel c as lru
        hok hcu (by rw [CacheInv_length hok.inv]; exact hfuel) hfuel
  · intro c2 r hr
    unfold CacheAlloc at hr
    split_ifs at hr with h1 h2
    have hcu : c.data cu = none := by
      cases hd : c.data cu with
      | none => rfl
      | some p => rw [hd] at h1; simp at h1
    obtain ⟨k, cK, c5, n, as2, j1, j2, j3, j4, j5, -, j7⟩ :=
      CacheAllocLoop_spec hh (cacheRounded_ok (by omega) hsize) cu name fuel fuel c as lru
        hok hcu c2 r hr
    exact ⟨k, cK, c5, n, as2, j1, j2, j3, j4, j5.inv, j7⟩

theorem CacheAlloc_evicts_lru_first_witness :
    HunkOk s3Hunk ∧
    CacheOk s3Hunk s3State [131104, 132176, 133248] [131104, 133248, 132176] ∧
    CacheAlloc 10 s3Hunk s3State 3 1000 [] = .ok (s3After, some 132240) ∧
    (s3State.data 0, s3State.data 1, s3State.data 2, s3State.data 3)
      = (some 131168, some 132240, some 133312, none) ∧
    (s3After.data 0, s3After.data 1, s3After.data 2, s3After.data 3)
      = (some 131168, none, some 133312, some 132240) ∧
    ∃ cK c5,
      Evicts 10 s3Hunk (Align16 (wrap32 (1000 + sizeofCacheHeader))) s3State [132176] cK ∧
      CacheTryAlloc 10 s3Hunk cK (Align16 (wrap32 (1000 + sizeofCacheHeader)))
        = .ok (c5, some 132176) ∧
      LruRingIs s3After [132176, 131104, 133248] := by
  refine ⟨s3Hunk_ok, s3State_ok, s3_alloc, by decide, by decide, ?_⟩
  obtain ⟨k, cK, c5, n, as2, j1, j2, j3, j4, j5, j7⟩ :=
    (CacheAlloc_evicts_lru_first s3Hunk_ok s3State_ok 3 1000 [] (by norm_num) 10
      (by decide)).2 s3After (some 132240) s3_alloc
  have hn : n = 132176 := by
    simp only [Option.some.injEq, sizeofCacheHeader] at j7
    omega
  subst hn
  have hwalk : lruRing 10 s3After = [132176, 131104, 133248] := by decide
  rw [lruRing_eq j5.ringL] at hwalk
  have hk : k = 1 := by
    have hlen := congrArg List.length hwalk
    simp only [List.length_take, List.length_cons, List.length_nil] at hlen
    simp only [List.length_cons, List.length_nil] at j1
    omega
  subst hk
  exact ⟨cK, c5, by simpa using j2, j3, by simpa using j5.ringL⟩
/-! ## Cache: `CacheCheck` and `CacheFlushAll` -/

/-- C11.  On a cache with consistent rings, `CacheCheck(user)` returns NULL and
changes nothing when `user->data` is NULL; otherwise it returns `user->data`,
the user's block becomes the sentinel's `lru_next`, the other blocks keep their
relative LRU order, and the address ring, every header's `next`, `prev`, `size`,
`user` and `name`, and every handle's `data` are unchanged. -/
theorem CacheCheck_promotes {c : Cache} {as lru : List Int} (hinv : CacheInv c as lru)
    (u : Nat) :
    (c.data u = none → CacheCheck c u = .ok (c, none)) ∧
    ∀ p, c.data u = some p →
      ∃ c2 m1 m2, lru = m1 ++ (p - sizeofCacheHeader) :: m2 ∧
        CacheCheck c u = .ok (c2, some p) ∧
        (c2.hdr .head).lru_next = .blk (p - sizeofCacheHeader) ∧
        LruRingIs c2 ((p - sizeofCacheHeader) :: (m1 ++ m2)) ∧
        AddrRingIs c2 as ∧ c2.data = c.data ∧
        ∀ q, (c2.hdr q).next = (c.hdr q).next ∧ (c2.hdr q).prev = (c.hdr q).prev ∧
          (c2.hdr q).size = (c.hdr q).size ∧ (c2.hdr q).user = (c.hdr q).user ∧
          (c2.hdr q).name = (c.hdr q).name := by
  constructor
  · intro hd
    simp only [CacheCheck, hd]
  · intro p hp
    obtain ⟨hp1, -⟩ := hinv.handle u p hp
    have hp2 := (hinv.same _).mpr hp1
    obtain ⟨m1, m2, rfl⟩ := List.append_of_mem hp2
    have hd2 : c.data u = some (p - sizeofCacheHeader + sizeofCacheHeader) := by
      rw [hp]; congr 1; ring
    obtain ⟨c2, h2, i2, s2⟩ := CacheCheck_spec hinv hd2
    have hpp : p - sizeofCacheHeader + sizeofCacheHeader = p := by ring
    rw [hpp] at h2
    refine ⟨c2, m1, m2, rfl, h2, ?_, i2.ringL, i2.ringA, s2.1, s2.2⟩
    have := (CSeg_ends _ _ _ i2.ringL.1).1
    simpa [Cache.lruNextOf, firstPtr] using this

theorem CacheCheck_promotes_witness :
    CacheInv s3State [131104, 132176, 133248] [131104, 133248, 132176] ∧
    s3State.data 2 = some 133312 ∧
    ∃ c2 m1 m2, [131104, 133248, 132176] = m1 ++ (133312 - sizeofCacheHeader) :: m2 ∧
      CacheCheck s3State 2 = .ok (c2, some 133312) ∧
      (c2.hdr .head).lru_next = .blk (133312 - sizeofCacheHeader) ∧
      LruRingIs c2 ((133312 - sizeofCacheHeader) :: (m1 ++ m2)) ∧
      AddrRingIs c2 [131104, 132176, 133248] ∧ c2.data = s3State.data ∧
      ∀ q, (c2.hdr q).next = (s3State.hdr q).next ∧ (c2.hdr q).prev = (s3State.hdr q).prev ∧
        (c2.hdr q).size = (s3State.hdr q).size ∧ (c2.hdr q).user = (s3State.hdr q).user ∧
        (c2.hdr q).name = (s3State.hdr q).name :=
  ⟨s3State_ok.inv, by decide,
    (CacheCheck_promotes s3State_ok.inv 2).2 133312 (by decide)⟩

/-- The loop of `CacheFlushAll` entered at a block that has a user never ends:
its body clears the user's `data` and leaves `ch` where it is. -/
theorem CacheFlushLoop_stuck (a : Int) (u : Nat) :
    ∀ (fuel : Nat) (c : Cache), (c.hdr (.blk a)).user = some u →
      CacheFlushLoop (.blk a) fuel c = .error .fuel := by
  intro fuel
  induction fuel with
  | zero => intro c _; rfl
  | succ f ih =>
    intro c hu
    simp only [CacheFlushLoop, reduceCtorEq, if_false, hu]
    exact ih _ (by simpa using hu)

/-- On a cache with consistent rings that holds at least one block, the loop of
`CacheFlushAll` does not end, whatever the fuel. -/
theorem CacheFlushAll_stuck {c : Cache} {as lru : List Int} (hinv : CacheInv c as lru)
    (hne : as ≠ []) (fuel : Nat) : CacheFlushAll fuel c = .error .fuel := by
  cases as with
  | nil => exact absurd rfl hne
  | cons a l =>
    have hfirst : (c.hdr .head).next = .blk a := by
      have := (CSeg_ends _ _ _ hinv.ringA.1).1
      simpa [Cache.nextOf, firstPtr] using this
    obtain ⟨u, hu, -⟩ := hinv.owner a (List.mem_cons_self _ _)
    simp only [CacheFlushAll, hfirst, CacheFlushLoop_stuck a u fuel c hu]

/-- On an empty cache `CacheFlushAll` returns at once. -/
theorem CacheFlushAll_empty {c : Cache} (he : (c.hdr .head).next = .head) (fuel : Nat) :
    ∃ c2, CacheFlushAll (fuel + 1) c = .ok c2 := by
  simp [CacheFlushAll, he, CacheFlushLoop]

/-- C12 (failing input).  In the state of scenario S3, which holds three live
cache blocks, `CacheFlushAll` does not terminate: the loop body sets
`ch->user->data = NULL` and never advances `ch`, so for every bound on the
number of iterations the loop is still running when the bound is reached. -/
theorem CacheFlushAll_never_ends_with_live_block :
    addrRing 10 s3State = [(131104, 1072), (132176, 1072), (133248, 1072)] ∧
    ∀ fuel : Nat, CacheFlushAll fuel s3State = .error .fuel :=
  ⟨by decide, fun fuel => CacheFlushAll_stuck s3State_ok.inv (by simp) fuel⟩
/-! ## Hunk: temp region, alignment, initial layout -/

/-- What a returning `HunkTempAlloc` did to the Hunk globals; `hb` is
`g_hunk_high_used` after the release of an active temp region. -/
theorem HunkTempAlloc_ok {h h2 : Hunk} {size p : Int}
    (hr : HunkTempAlloc h size = .ok (h2, p)) :
    0 ≤ size ∧
    hunkRounded size ≤ wrap32 (wrap32 (h.g_hunk_total_size - h.g_hunk_low_used)
      - (if h.g_hunk_temp_active = true then wrap32 (h.g_hunk_high_used - h.g_hunk_temp_used)
          else h.g_hunk_high_used)) ∧
    h2.g_hunk_low_used = h.g_hunk_low_used ∧
    h2.g_hunk_high_used = wrap32 ((if h.g_hunk_temp_active = true then
        wrap32 (h.g_hunk_high_used - h.g_hunk_temp_used) else h.g_hunk_high_used)
      + hunkRounded size) ∧
    h2.g_hunk_temp_used = wrap32 (h2.g_hunk_high_used - (if h.g_hunk_temp_active = true then
        wrap32 (h.g_hunk_high_used - h.g_hunk_temp_used) else h.g_hunk_high_used)) ∧
    h2.g_hunk_temp_active = true ∧
    h2.g_hunk_total_size = h.g_hunk_total_size ∧
    p = h.g_hunk_total_size - h2.g_hunk_high_used + sizeofHunkHeader := by
  unfold HunkTempAlloc at hr
  simp only at hr
  split at hr
  · exact absurd hr (by simp)
  · rename_i h3 res hq
    simp only [Except.ok.injEq, Prod.mk.injEq] at hr
    obtain ⟨rfl, rfl⟩ := hr
    obtain ⟨a1, a2, a3, a4, a5, a6, a7, -, a9⟩ := HunkHighAlloc_ok hq
    by_cases hact : h.g_hunk_temp_active = true
    · simp only [hact, if_true, HunkFreeTemp] at a2 a3 a4 a6 a7 a9
      refine ⟨a1, ?_, ?_, ?_, ?_, ?_, ?_, ?_⟩
      · simpa [hact] using a2
      · simpa using a3
      · simpa [hact] using a4
      · simp [hact, HunkFreeTemp]
      · simpa using a6
      · simpa using a7
      · simp only [a9, a4]
    · have hf : h.g_hunk_temp_active = false := by simpa using hact
      simp only [hf, Bool.false_eq_true, if_false] at a2 a3 a4 a6 a7 a9
      refine ⟨a1, ?_, ?_, ?_, ?_, ?_, ?_, ?_⟩
      · simpa [hf] using a2
      · simpa using a3
      · simpa [hf] using a4
      · simp [hf]
      · simpa using a6
      · simpa using a7
      · simp only [a9, a4]

/-- `HunkTempAlloc` returns whenever the size is not negative and the rounded
size fits between the two stacks once an active temp region is released. -/
theorem HunkTempAlloc_returns (h : Hunk) (size : Int) (h0 : 0 ≤ size)
    (hfit : hunkRounded size ≤ wrap32 (wrap32 (h.g_hunk_total_size - h.g_hunk_low_used)
      - (if h.g_hunk_temp_active = true then wrap32 (h.g_hunk_high_used - h.g_hunk_temp_used)
          else h.g_hunk_high_used))) :
    ∃ h2 p, HunkTempAlloc h size = .ok (h2, p) := by
  unfold HunkTempAlloc
  simp only
  by_cases hact : h.g_hunk_temp_active = true
  · simp only [hact, if_true] at hfit ⊢
    unfold HunkHighAlloc
    simp only [HunkFreeTemp]
    rw [if_neg (by omega), if_neg (by omega)]
    obtain ⟨m, hm⟩ := writeHunkHeader_ok h.mem h.g_hunk_base
      (h.g_hunk_total_size - wrap32 (wrap32 (h.g_hunk_high_used - h.g_hunk_temp_used)
        + hunkRounded size)) (hunkRounded size) tempName
    simp only [hm]
    exact ⟨_, _, rfl⟩
  · have hf : h.g_hunk_temp_active = false := by simpa using hact
    simp only [hf, Bool.false_eq_true, if_false] at hfit ⊢
    unfold HunkHighAlloc
    simp only
    rw [if_neg (by omega), if_neg (by omega)]
    obtain ⟨m, hm⟩ := writeHunkHeader_ok h.mem h.g_hunk_base
      (h.g_hunk_total_size - wrap32 (h.g_hunk_high_used + hunkRounded size))
      (hunkRounded size) tempName
    simp only [hm]
    exact ⟨_, _, rfl⟩

/-- C13 (failing input).  From the state set by `MemoryInit` on a buffer of
1 048 576 bytes, `HunkTempAlloc(100)` leaves `high_used = temp_used = 128` with
the temp region active.  `HunkHighAlloc(100, "")` then returns with
`high_used = 256`, `temp_used = 128` and `temp_active` still true: it adds its
128 bytes on top of the temp region instead of releasing it first, which would
give `high_used = (128 - 128) + 128 = 128` and `temp_active` false. -/
theorem HunkHighAlloc_keeps_temp_region :
    (runHunkOps (hunkInit 0 1048576 (fun _ => 0)) [HunkOp.tempAlloc 100]).toOption.map
        (fun h => (h.g_hunk_high_used, h.g_hunk_temp_used, h.g_hunk_temp_active))
      = some (128, 128, true) ∧
    hunkRounded 100 = 128 ∧
    (runHunkOps (hunkInit 0 1048576 (fun _ => 0))
        [HunkOp.tempAlloc 100, HunkOp.highAlloc 100 []]).toOption.map
        (fun h => (h.g_hunk_high_used, h.g_hunk_temp_used, h.g_hunk_temp_active))
      = some (256, 128, true) := by
  decide

/-- C14.  From a state that satisfies the Hunk invariant, with `N` an `int`:
when `HunkTempAlloc(a)` and then `HunkTempAlloc(b)` return, `HunkTempAlloc(b)`
alone returns from the same starting state too, with the same `high_used`,
`temp_used` and `temp_active` and the same pointer. -/
theorem HunkTempAlloc_replaces {h : Hunk} (hinv : HunkInv h)
    (hN : h.g_hunk_total_size < 2147483648) {a b : Int} {h1 h2 : Hunk} {p1 p2 : Int}
    (r1 : HunkTempAlloc h a = .ok (h1, p1)) (r2 : HunkTempAlloc h1 b = .ok (h2, p2)) :
    ∃ h3 p3, HunkTempAlloc h b = .ok (h3, p3) ∧
      h3.g_hunk_high_used = h2.g_hunk_high_used ∧
      h3.g_hunk_temp_used = h2.g_hunk_temp_used ∧
      h3.g_hunk_temp_active = h2.g_hunk_temp_active ∧ p3 = p2 := by
  obtain ⟨i1, i2, i3, i4, i5, i6⟩ := hinv
  obtain ⟨a1, a2, a3, a4, a5, a6, a7, a8⟩ := HunkTempAlloc_ok r1
  obtain ⟨b1, b2, b3, b4, b5, b6, b7, b8⟩ := HunkTempAlloc_ok r2
  simp only [a6, if_true] at b2 b4 b5
  have hbase : wrap32 (h1.g_hunk_high_used - h1.g_hunk_temp_used)
      = (if h.g_hunk_temp_active = true then wrap32 (h.g_hunk_high_used - h.g_hunk_temp_used)
          else h.g_hunk_high_used) := by
    rw [a5, a4]
    split_ifs <;> (unfold wrap32; omega)
  rw [hbase] at b2 b4 b5
  rw [a7, a3] at b2
  obtain ⟨h3, p3, r3⟩ := HunkTempAlloc_returns h b b1 b2
  obtain ⟨c1, c2, c3, c4, c5, c6, c7, c8⟩ := HunkTempAlloc_ok r3
  refine ⟨h3, p3, r3, ?_, ?_, ?_, ?_⟩
  · rw [c4, b4]
  · rw [c5, b5, c4, b4]
  · rw [c6, b6]
  · rw [c8, b8, c4, b4, a7]

theorem HunkTempAlloc_replaces_witness :
    HunkInv (hunkInit 0 1048576 (fun _ => 0)) ∧
    ∃ h1 p1 h2 p2,
      HunkTempAlloc (hunkInit 0 1048576 (fun _ => 0)) 100 = .ok (h1, p1) ∧
      HunkTempAlloc h1 200 = .ok (h2, p2) ∧
      ∃ h3 p3, HunkTempAlloc (hunkInit 0 1048576 (fun _ => 0)) 200 = .ok (h3, p3) ∧
        h3.g_hunk_high_used = h2.g_hunk_high_used ∧
        h3.g_hunk_temp_used = h2.g_hunk_temp_used ∧
        h3.g_hunk_temp_active = h2.g_hunk_temp_active ∧ p3 = p2 := by
  refine ⟨by decide, ?_⟩
  obtain ⟨h1, p1, r1⟩ := HunkTempAlloc_returns (hunkInit 0 1048576 (fun _ => 0)) 100
    (by norm_num) (by decide)
  obtain ⟨a1, a2, a3, a4, a5, a6, a7, a8⟩ := HunkTempAlloc_ok r1
  have e4 : h1.g_hunk_high_used = 128 := by rw [a4]; decide
  have e5 : h1.g_hunk_temp_used = 128 := by rw [a5, e4]; decide
  have e3 : h1.g_hunk_low_used = 0 := by rw [a3]; rfl
  have e7 : h1.g_hunk_total_size = 1048576 := by rw [a7]; rfl
  obtain ⟨h2, p2, r2⟩ := HunkTempAlloc_returns h1 200 (by norm_num)
    (by rw [a6, e3, e4, e5, e7]; decide)
  exact ⟨h1, p1, h2, p2, r1, r2, HunkTempAlloc_replaces (by decide) (by decide) r1 r2⟩

/-- The pointer returned by `HunkLowAlloc` lies `sizeof(HunkHeader) = 24` bytes
above the old `g_hunk_low_used`; when that is a multiple of 16, as in every
state reached from `MemoryInit`, the pointer is 8 above a multiple of 16. -/
theorem HunkLowAlloc_pointer_mod {h h2 : Hunk} {size p : Int} {name : List Int}
    (hl : h.g_hunk_low_used % 16 = 0) (hr : HunkLowAlloc h size name = .ok (h2, p)) :
    p % 16 = 8 ∧ h2.g_hunk_low_used % 16 = 0 := by
  obtain ⟨-, -, a3, -, -, -, -, -, a9⟩ := HunkLowAlloc_ok hr
  rw [a9, a3]
  unfold sizeofHunkHeader hunkRounded Align16 wrap32
  omega

/-- C15 (failing input).  From the state set by `MemoryInit` on a buffer of
1 048 576 bytes whose base is 16-byte aligned (offset 0), the allocation
`HunkLowAlloc(131072, "zone")` that `MemoryInit` itself makes returns the
offset 24, which is 8 modulo 16: the header at the 16-byte aligned offset 0 is
24 bytes long.  A second `HunkLowAlloc(100, "")` returns 131128, again 8
modulo 16. -/
theorem HunkLowAlloc_pointer_not_aligned :
    (HunkLowAlloc (hunkInit 0 1048576 (fun _ => 0)) 131072 zoneName).toOption.map
        (fun r => (r.2, r.2 % 16, r.1.g_hunk_low_used))
      = some (24, 8, 131104) ∧
    ((HunkLowAlloc (hunkInit 0 1048576 (fun _ => 0)) 131072 zoneName).bind
        (fun r => HunkLowAlloc r.1 100 [])).toOption.map (fun r => (r.2, r.2 % 16))
      = some (131128, 8) := by
  decide

/-- C17.  `MemoryInit` on a buffer of `N = 1 048 576` bytes, whatever its
address and contents, returns with `low_used = 131 072 + 32 = 131 104` and
`high_used = 0`. -/
theorem MemoryInit_layout (buf : Int) (mem : Bytes) :
    ∃ m, MemoryInit buf 1048576 mem = .ok m ∧
      m.hunk.g_hunk_low_used = 131072 + 32 ∧ m.hunk.g_hunk_high_used = 0 ∧
      m.hunk.g_hunk_total_size = 1048576 := by
  obtain ⟨w, hw⟩ := writeHunkHeader_ok mem buf 0 (hunkRounded DYNAMIC_ZONE_SIZE) zoneName
  have h1 : ¬ DYNAMIC_ZONE_SIZE < 0 := by decide
  have h2 : ¬ wrap32 (wrap32 (1048576 - 0) - 0) < hunkRounded DYNAMIC_ZONE_SIZE := by decide
  have h3 : wrap32 (0 + hunkRounded DYNAMIC_ZONE_SIZE) = 131072 + 32 := by decide
  cases hres : MemoryInit buf 1048576 mem with
  | error e =>
    simp only [MemoryInit, HunkLowAlloc, hunkInit, h1, h2, if_false, hw, reduceCtorEq] at hres
  | ok m =>
    simp only [MemoryInit, HunkLowAlloc, hunkInit, h1, h2, if_false, hw, Except.ok.injEq] at hres
    subst hres
    exact ⟨_, rfl, h3, rfl, rfl⟩
/-! ## Zone: where a request is placed and when a block is split -/

theorem zoneCarve_tag (z : MemoryZone) (c r tag : Int) (hn : c + r ≠ c) (a : Int) :
    ((zoneCarve z c r tag).1.blocks a).tag =
      (if a = c then tag
       else if a = c + r ∧ wrap32 ((z.blocks c).size - r) > MIN_FRAGMENT then 0
       else (z.blocks a).tag) := by
  have hn2 : ¬ c = c + r := fun h => hn h.symm
  simp only [zoneCarve, zoneSplit]
  by_cases hx : wrap32 ((z.blocks c).size - r) > MIN_FRAGMENT
  · by_cases h : a = c
    · subst h; simp [hx]
    · by_cases h2 : a = c + r
      · subst h2; simp [hx, hn]
      · simp [hx, h, h2]
  · by_cases h : a = c
    · subst h; simp [hx]
    · simp [hx, h]

theorem zoneCarve_rover (z : MemoryZone) (c r tag : Int) :
    (zoneCarve z c r tag).1.rover = ((zoneCarve z c r tag).1.blocks c).next := by
  simp only [zoneCarve, zoneSplit]
  split_ifs <;> simp

theorem zoneRounded_spec_cases {k : Int} (h0 : 0 ≤ k) (h1 : k < 2147483648) :
    (zoneRounded k = zoneRoundedSpec k ∧ 40 ≤ zoneRounded k) ∨
    (-2147483648 ≤ zoneRounded k ∧ zoneRounded k ≤ -2147483608 ∧
      2147483648 ≤ zoneRoundedSpec k) := by
  unfold zoneRounded zoneRoundedSpec Align8 wrap32 sizeofMemoryBlock
  omega

/-- C18.  On a zone that satisfies the ring invariants, a `ZoneTagMalloc` of a
size `0 ≤ k < 2^31` that returns a pointer took a free block `c` of the ring.
With `r = align8(k + sizeof(MemoryBlock) + 4)`: when `c.size - r > MIN_FRAGMENT`
the block is split into the used block of size `r` and a new free block of size
`c.size - r` right after it; when `c.size - r ≤ MIN_FRAGMENT`, so also when it is
exactly 64, the whole block is used, its size is unchanged and the ring holds
the same blocks as before. -/
theorem ZoneTagMalloc_split_threshold {z z2 : MemoryZone} {l : List Int} {fuel : Nat}
    {k tag p : Int} (hinv : ZoneInv z l) (h0 : 0 ≤ k) (h1 : k < 2147483648)
    (hr : ZoneTagMalloc fuel z k tag = .ok (z2, some p)) :
    ∃ l1 c l2, l = l1 ++ c :: l2 ∧ p = c + sizeofMemoryBlock ∧ (z.blocks c).tag = 0 ∧
      ((z.blocks c).size - zoneRoundedSpec k > MIN_FRAGMENT →
        ZoneRing z2 (l1 ++ c :: (c + zoneRoundedSpec k) :: l2) ∧
        (z2.blocks c).size = zoneRoundedSpec k ∧ (z2.blocks c).tag = tag ∧
        (z2.blocks (c + zoneRoundedSpec k)).size = (z.blocks c).size - zoneRoundedSpec k ∧
        (z2.blocks (c + zoneRoundedSpec k)).tag = 0) ∧
      ((z.blocks c).size - zoneRoundedSpec k ≤ MIN_FRAGMENT →
        ZoneRing z2 l ∧ (z2.blocks c).size = (z.blocks c).size ∧
        (z2.blocks c).tag = tag) := by
  unfold ZoneTagMalloc at hr
  split_ifs at hr with htag
  split at hr
  · exact absurd hr (by simp)
  · simp at hr
  · rename_i c hs
    simp only [Except.ok.injEq, Prod.mk.injEq, Option.some.injEq] at hr
    obtain ⟨rfl, rfl⟩ := hr
    obtain ⟨hc, hfree, hfit⟩ := zoneSearch_some hinv (zoneRounded k) fuel z.rover c hinv.rover hs
    obtain ⟨l1, l2, rfl⟩ := List.append_of_mem hc
    have hf := (ZFwd_append z.blocks l2 c tailhead l1 tailhead).mp hinv.fwd
    have ht := (ZTile_append z.blocks l2 c z.size l1 sizeofMemoryZone).mp hinv.tile
    obtain ⟨b1, b1m⟩ := ZTile_bounds _ _ _ ht.1
    obtain ⟨b2, b2m⟩ := ZTile_bounds _ _ _ ht.2.2
    have hb := hinv.bound
    have hsz := ht.2.1
    simp only [sizeofMemoryZone] at b1 b1m
    have hT : tailhead = 8 := rfl
    have hM : MIN_FRAGMENT = 64 := rfl
    refine ⟨l1, c, l2, rfl, by simp [zoneCarve], hfree, ?_, ?_⟩
    · -- the block is split
      intro hgt
      have hR : zoneRounded k = zoneRoundedSpec k ∧ 40 ≤ zoneRounded k := by
        rcases zoneRounded_spec_cases h0 h1 with hh | hh
        · exact hh
        · exfalso; omega
      rw [← hR.1] at hgt ⊢
      have hw : wrap32 ((z.blocks c).size - zoneRounded k)
          = (z.blocks c).size - zoneRounded k := by
        unfold wrap32; omega
      have hx : wrap32 ((z.blocks c).size - zoneRounded k) > MIN_FRAGMENT := by
        rw [hw]; exact hgt
      have hn : c + zoneRounded k ≠ c := by omega
      have key := @zoneCarve_split _ _ _ tag hx hn
      have ktag := zoneCarve_tag z c (zoneRounded k) tag hn
      refine ⟨⟨?_, ?_⟩, ?_, ?_, ?_, ?_⟩
      · rw [ZFwd_append]
        refine ⟨ZFwd_congr _ _ _ _ ?_ ?_ hf.1, ?_⟩
        · rw [(key tailhead).1, if_neg (by omega), if_neg (by omega)]
        · intro a ha
          have := b1m a ha
          rw [(key a).1, if_neg (by omega), if_neg (by omega)]
        · simp only [ZFwd]
          refine ⟨by rw [(key c).1, if_pos rfl], ZFwd_congr _ _ _ _ ?_ ?_ hf.2⟩
          · rw [(key _).1, if_neg hn, if_pos rfl]
          · intro a ha
            have := b2m a ha
            rw [(key a).1, if_neg (by omega), if_neg (by omega)]
      · rw [ZTile_append]
        refine ⟨ZTile_congr _ _ _ ?_ ht.1, ?_, ?_⟩
        · intro a ha
          have := b1m a ha
          rw [(key a).2, if_neg (by omega), if_neg (by omega)]
        · rw [(key c).2, if_pos rfl]; exact hR.2
        · simp only [ZTile]
          rw [(key c).2, if_pos rfl, (key _).2, if_neg hn, if_pos rfl, hw]
          refine ⟨rfl, by omega, ?_⟩
          have : c + zoneRounded k + ((z.blocks c).size - zoneRounded k)
              = c + (z.blocks c).size := by ring
          rw [this, zoneCarve_size]
          refine ZTile_congr _ _ _ ?_ ht.2.2
          intro a ha
          have := b2m a ha
          rw [(key a).2, if_neg (by omega), if_neg (by omega)]
      · rw [(key c).2, if_pos rfl]
      · rw [ktag c, if_pos rfl]
      · rw [(key _).2, if_neg hn, if_pos rfl, hw]
      · rw [ktag _, if_neg hn, if_pos ⟨rfl, hx⟩]
    · -- the whole block is used
      intro hle
      have hx : ¬ wrap32 ((z.blocks c).size - zoneRounded k) > MIN_FRAGMENT := by
        rcases zoneRounded_spec_cases h0 h1 with hh | hh
        · rw [← hh.1] at hle
          have hw : wrap32 ((z.blocks c).size - zoneRounded k)
              = (z.blocks c).size - zoneRounded k := by
            unfold wrap32; omega
          rw [hw]; omega
        · unfold wrap32; omega
      have key := @zoneCarve_nosplit _ _ _ tag hx
      have hn2 : ∀ a, ((zoneCarve z c (zoneRounded k) tag).1.blocks a).tag
          = if a = c then tag else (z.blocks a).tag := by
        intro a
        simp only [zoneCarve, hx, if_false]
        by_cases h : a = c
        · subst h; simp
        · simp [h]
      refine ⟨⟨?_, ?_⟩, (key c).2, ?_⟩
      · exact ZFwd_congr _ _ _ _ (key _).1 (fun a _ => (key a).1) hinv.fwd
      · rw [zoneCarve_size]
        exact ZTile_congr _ _ _ (fun a _ => (key a).2) hinv.tile
      · rw [hn2 c, if_pos rfl]

theorem ZoneTagMalloc_split_threshold_witness :
    ZoneInv (zoneInit DYNAMIC_ZONE_SIZE) [sizeofMemoryZone] ∧
    ZoneTagMalloc 100 (zoneInit DYNAMIC_ZONE_SIZE) 130924 1
      = .ok ((zoneCarve (zoneInit DYNAMIC_ZONE_SIZE) 48 130960 1).1, some 80) ∧
    ((zoneInit DYNAMIC_ZONE_SIZE).blocks 48).size - zoneRoundedSpec 130924 = MIN_FRAGMENT ∧
    ringView 10 (zoneCarve (zoneInit DYNAMIC_ZONE_SIZE) 48 130960 1).1 = [(48, 131024, 1)] ∧
    ∃ l1 c l2, [sizeofMemoryZone] = l1 ++ c :: l2 ∧ (80 : Int) = c + sizeofMemoryBlock ∧
      ((zoneInit DYNAMIC_ZONE_SIZE).blocks c).tag = 0 ∧
      (((zoneInit DYNAMIC_ZONE_SIZE).blocks c).size - zoneRoundedSpec 130924 > MIN_FRAGMENT →
        ZoneRing (zoneCarve (zoneInit DYNAMIC_ZONE_SIZE) 48 130960 1).1
          (l1 ++ c :: (c + zoneRoundedSpec 130924) :: l2) ∧
        ((zoneCarve (zoneInit DYNAMIC_ZONE_SIZE) 48 130960 1).1.blocks c).size
          = zoneRoundedSpec 130924 ∧
        ((zoneCarve (zoneInit DYNAMIC_ZONE_SIZE) 48 130960 1).1.blocks c).tag = 1 ∧
        ((zoneCarve (zoneInit DYNAMIC_ZONE_SIZE) 48 130960 1).1.blocks
            (c + zoneRoundedSpec 130924)).size
          = ((zoneInit DYNAMIC_ZONE_SIZE).blocks c).size - zoneRoundedSpec 130924 ∧
        ((zoneCarve (zoneInit DYNAMIC_ZONE_SIZE) 48 130960 1).1.blocks
            (c + zoneRoundedSpec 130924)).tag = 0) ∧
      (((zoneInit DYNAMIC_ZONE_SIZE).blocks c).size - zoneRoundedSpec 130924 ≤ MIN_FRAGMENT →
        ZoneRing (zoneCarve (zoneInit DYNAMIC_ZONE_SIZE) 48 130960 1).1 [sizeofMemoryZone] ∧
        ((zoneCarve (zoneInit DYNAMIC_ZONE_SIZE) 48 130960 1).1.blocks c).size
          = ((zoneInit DYNAMIC_ZONE_SIZE).blocks c).size ∧
        ((zoneCarve (zoneInit DYNAMIC_ZONE_SIZE) 48 130960 1).1.blocks c).tag = 1) :=
  ⟨zoneInit_inv (by decide) (by decide), rfl, by decide, by decide,
    ZoneTagMalloc_split_threshold (zoneInit_inv (by decide) (by decide)) (by decide)
      (by decide)
      (show ZoneTagMalloc 100 (zoneInit DYNAMIC_ZONE_SIZE) 130924 1
        = .ok ((zoneCarve (zoneInit DYNAMIC_ZONE_SIZE) 48 130960 1).1, some 80) from rfl)⟩

/-- C16 (counterexample).  On the fresh default zone, after
`a = ZoneTagMalloc(100, 1)`, `b = ZoneTagMalloc(200, 1)`, `ZoneFree(a)` the ring
is the free first hole at 48 (136 bytes), the used block of `b` at 184 and the
free remainder at 424, with the rover at 424.  The following
`ZoneTagMalloc(50, 1)` returns the payload at 456, inside the remainder at 424:
it is not inside the first hole, which spans the offsets 48 to 184 and stays
free. -/
theorem zone_malloc_after_free_skips_first_hole :
    (runZoneCalls 100 (zoneInit DYNAMIC_ZONE_SIZE)
        [ZoneCall.tagMalloc 100 1, ZoneCall.tagMalloc 200 1,
         ZoneCall.free (some 80)]).toOption.map
      (fun r => (r.2, ringView 10 r.1, r.1.rover))
      = some ([some 80, some 216], [(48, 136, 0), (184, 240, 1), (424, 130648, 0)], 424) ∧
    (runZoneCalls 100 (zoneInit DYNAMIC_ZONE_SIZE)
        [ZoneCall.tagMalloc 100 1, ZoneCall.tagMalloc 200 1, ZoneCall.free (some 80),
         ZoneCall.tagMalloc 50 1]).toOption.map
      (fun r => (r.2, ringView 10 r.1, r.1.rover,
        r.2.map (fun q => q.map (fun p => decide (48 ≤ p) && decide (p < 48 + 136)))))
      = some ([some 80, some 216, some 456],
          [(48, 136, 0), (184, 240, 1), (424, 88, 1), (512, 130560, 0)], 512,
          [some true, some false, some false]) :=
  ⟨by decide, by rfl⟩

/-- C16 (amended).  `ZoneTagMalloc` of a size `0 ≤ k < 2^31` with a non-zero tag
starts its search at the rover: when the rover points at a free block that is
large enough, and that block is not `rover->prev`, the request is placed in that
block, wherever other free blocks lie, and the rover then points at the block
after it. -/
theorem ZoneTagMalloc_takes_rover_block (z : MemoryZone) (k tag : Int) (fuel : Nat)
    (h0 : 0 ≤ k) (h1 : k < 2147483648) (htag : tag ≠ 0)
    (hrov : z.rover ≠ (z.blocks z.rover).prev) (hfree : (z.blocks z.rover).tag = 0)
    (hfit : (z.blocks z.rover).size ≥ zoneRounded k) :
    ∃ z2, ZoneTagMalloc (fuel + 1) z k tag = .ok (z2, some (z.rover + sizeofMemoryBlock)) ∧
      (z2.blocks z.rover).tag = tag ∧ z2.rover = (z2.blocks z.rover).next := by
  have hn : z.rover + zoneRounded k ≠ z.rover := by
    rcases zoneRounded_cases h0 h1 with hh | hh <;> omega
  refine ⟨(zoneCarve z z.rover (zoneRounded k) tag).1, ?_, ?_, zoneCarve_rover _ _ _ _⟩
  · simp [ZoneTagMalloc, htag, zoneSearch, hrov, hfree, hfit, zoneCarve]
  · rw [zoneCarve_tag z z.rover (zoneRounded k) tag hn, if_pos rfl]

theorem ZoneTagMalloc_takes_rover_block_witness :
    ringView 10 s2Zone = [(48, 136, 0), (184, 240, 1), (424, 130648, 0)] ∧
    s2Zone.rover = 424 ∧ (s2Zone.blocks s2Zone.rover).prev = 184 ∧
    (s2Zone.blocks s2Zone.rover).tag = 0 ∧
    (s2Zone.blocks s2Zone.rover).size ≥ zoneRounded 50 ∧
    ∃ z2, ZoneTagMalloc (99 + 1) s2Zone 50 1 = .ok (z2, some (s2Zone.rover + sizeofMemoryBlock)) ∧
      (z2.blocks s2Zone.rover).tag = 1 ∧ z2.rover = (z2.blocks s2Zone.rover).next :=
  ⟨by decide, by decide, by decide, by decide, by decide,
    ZoneTagMalloc_takes_rover_block s2Zone 50 1 99 (by decide) (by decide) (by decide)
      (by decide) (by decide) (by decide)⟩

/-! ## Zone: `ZoneFree` and its checks -/

/-- `ZoneFreeTrace` and `ZoneFree` are the same function: they end the same way,
and when they return they leave the same zone. -/
theorem ZoneFree_eq_trace (z : MemoryZone) (ptr : Option Int) :
    ZoneFree z ptr =
      (match (ZoneFreeTrace z ptr).2 with
       | some e => .error e
       | none => .ok (ZoneFreeTrace z ptr).1) := by
  cases ptr with
  | none => rfl
  | some p =>
    simp only [ZoneFree, ZoneFreeTrace]
    split_ifs <;> rfl

/-- The three checks of `ZoneFree` come before its first write: a null pointer,
a header without the identity word and a header with tag 0 each end in
`SysError` with the zone as it was; so a second `ZoneFree(p)` right after a
returning `ZoneFree(p)` whose block was not absorbed by its predecessor is
fatal whenever the first left the tag 0. -/
theorem ZoneFree_rejects (z : MemoryZone) :
    ZoneFreeTrace z none = (z, some (.sysError "ZoneFree: free NULL pointer")) ∧
    (∀ p, (z.blocks (p - sizeofMemoryBlock)).id ≠ ZONE_ID →
      ZoneFreeTrace z (some p)
        = (z, some (.sysError "ZoneFree: free memory block without zone id"))) ∧
    (∀ p, (z.blocks (p - sizeofMemoryBlock)).id = ZONE_ID →
      (z.blocks (p - sizeofMemoryBlock)).tag = 0 →
      ZoneFreeTrace z (some p) = (z, some (.sysError "ZoneFree: free a free memory block"))) := by
  refine ⟨rfl, ?_, ?_⟩
  · intro p hp
    simp [ZoneFreeTrace, hp]
  · intro p hp ht
    simp [ZoneFreeTrace, hp, ht]

theorem zoneMergePrev_tag_id (z : MemoryZone) (b a : Int) :
    ((zoneMergePrev z b).1.blocks a).tag = (z.blocks a).tag ∧
    ((zoneMergePrev z b).1.blocks a).id = (z.blocks a).id := by
  simp only [zoneMergePrev]
  split_ifs <;> simp

theorem zoneMergeNext_tag_id (z : MemoryZone) (b a : Int) :
    ((zoneMergeNext z b).blocks a).tag = (z.blocks a).tag ∧
    ((zoneMergeNext z b).blocks a).id = (z.blocks a).id := by
  simp only [zoneMergeNext]
  split_ifs <;> simp

/-- The merges of `ZoneFree` write links and sizes only: the freed block keeps
its identity word and has tag 0 afterwards, every other header keeps both. -/
theorem ZoneFreeBlock_tag_id (z : MemoryZone) (b a : Int) :
    ((ZoneFreeBlock z b).blocks a).tag = (if a = b then 0 else (z.blocks a).tag) ∧
    ((ZoneFreeBlock z b).blocks a).id = (z.blocks a).id := by
  unfold ZoneFreeBlock
  rw [(zoneMergeNext_tag_id _ _ a).1, (zoneMergeNext_tag_id _ _ a).2,
    (zoneMergePrev_tag_id _ _ a).1, (zoneMergePrev_tag_id _ _ a).2]
  simp

/-- A second `ZoneFree(p)` directly after a `ZoneFree(p)` that returned is
fatal. -/
theorem ZoneFree_twice {z z2 : MemoryZone} {p : Int} (hr : ZoneFree z (some p) = .ok z2) :
    ZoneFree z2 (some p) = .error (.sysError "ZoneFree: free a free memory block") := by
  simp only [ZoneFree] at hr
  split_ifs at hr with h1 h2
  simp only [Except.ok.injEq] at hr
  subst hr
  have ht := (ZoneFreeBlock_tag_id z (p - sizeofMemoryBlock) (p - sizeofMemoryBlock)).1
  have hi := (ZoneFreeBlock_tag_id z (p - sizeofMemoryBlock) (p - sizeofMemoryBlock)).2
  rw [if_pos rfl] at ht
  have h1b : (z.blocks (p - sizeofMemoryBlock)).id = ZONE_ID := by
    by_contra hh; exact h1 hh
  simp [ZoneFree, ht, hi, h1b]

/-- C19 (failing input).  On the fresh default zone the calls
`a = ZoneTagMalloc(100, 1)`, `b = ZoneTagMalloc(100, 1)`,
`c = ZoneTagMalloc(100, 1)`, `ZoneFree(b)`, `ZoneFree(a)`, `ZoneFree(c)`,
`p1 = ZoneTagMalloc(100, 1)`, `p2 = ZoneTagMalloc(130716, 1)`,
`p3 = ZoneTagMalloc(100, 1)` return the pointers 80, 216, 352, 216, 352, 80.
The last of them splits the block at 48 and writes the header of a free block
at 184, which is the header of the live block of `p1 = 216`.  `ZoneFree(p1)`,
of a pointer returned by `ZoneTagMalloc` and not freed since, then ends in
`SysError("ZoneFree: free a free memory block")`. -/
theorem zone_free_rejects_live_pointer :
    (runZoneCalls 100 (zoneInit DYNAMIC_ZONE_SIZE)
        [ZoneCall.tagMalloc 100 1, ZoneCall.tagMalloc 100 1, ZoneCall.tagMalloc 100 1,
         ZoneCall.free (some 216), ZoneCall.free (some 80), ZoneCall.free (some 352),
         ZoneCall.tagMalloc 100 1, ZoneCall.tagMalloc 130716 1]).toOption.map
      (fun r => (r.2, (r.1.blocks 184).tag, (r.1.blocks 184).id))
      = some ([some 80, some 216, some 352, some 216, some 352], 1, ZONE_ID) ∧
    (runZoneCalls 100 (zoneInit DYNAMIC_ZONE_SIZE)
        [ZoneCall.tagMalloc 100 1, ZoneCall.tagMalloc 100 1, ZoneCall.tagMalloc 100 1,
         ZoneCall.free (some 216), ZoneCall.free (some 80), ZoneCall.free (some 352),
         ZoneCall.tagMalloc 100 1, ZoneCall.tagMalloc 130716 1,
         ZoneCall.tagMalloc 100 1]).toOption.map
      (fun r => (r.2, (r.1.blocks 184).tag))
      = some ([some 80, some 216, some 352, some 216, some 352, some 80], 0) ∧
    faultOf (runZoneCalls 100 (zoneInit DYNAMIC_ZONE_SIZE)
        [ZoneCall.tagMalloc 100 1, ZoneCall.tagMalloc 100 1, ZoneCall.tagMalloc 100 1,
         ZoneCall.free (some 216), ZoneCall.free (some 80), ZoneCall.free (some 352),
         ZoneCall.tagMalloc 100 1, ZoneCall.tagMalloc 130716 1, ZoneCall.tagMalloc 100 1,
         ZoneCall.free (some 216)])
      = some (Fault.sysError "ZoneFree: free a free memory block") :=
  ⟨by decide, by decide, by rfl⟩
/-! ## File system: resolution along the search path -/

/-- `StringCompare` returns 0 exactly when the two C strings are byte-wise
equal. -/
theorem StringCompare_eq_zero : ∀ (l r : List Int), StringCompare l r = 0 ↔ cstr l = cstr r := by
  intro l
  induction l with
  | nil =>
    intro r
    cases r with
    | nil => simp [StringCompare, cstr]
    | cons b r =>
      by_cases hb : b = 0
      · subst hb; simp [StringCompare, cstr]
      · have : ¬ (0 : Int) = b := fun h => hb h.symm
        simp [StringCompare, cstr, hb, this]
  | cons a l ih =>
    intro r
    cases r with
    | nil =>
      by_cases ha : a = 0
      · subst ha; simp [StringCompare, cstr]
      · simp [StringCompare, cstr, ha]
    | cons b r =>
      by_cases hab : a = b
      · subst hab
        by_cases ha : a = 0
        · subst ha; simp [StringCompare, cstr]
        · have := ih r
          simp only [cstr] at this
          simp [StringCompare, cstr, ha, this]
      · by_cases ha : a = 0
        · subst ha
          have hb : ¬ b = 0 := fun h => hab h.symm
          simp [StringCompare, cstr, hab, hb]
        · by_cases hb : b = 0
          · subst hb; simp [StringCompare, cstr, ha]
          · simp [StringCompare, cstr, hab, ha, hb]

/-- The inner loop of `FileFind` returns the first entry, among those it goes
through, whose name is byte-wise equal to the path. -/
theorem packScan_eq (pack : PackHeader) (p : List Int) : ∀ (n i : Nat),
    packScan pack p n i
      = ((List.range' i n).map pack.file).find? (fun e => decide (cstr e.name = cstr p)) := by
  intro n
  induction n with
  | zero => intro i; simp [packScan]
  | succ n ih =>
    intro i
    simp only [packScan, List.range'_succ, List.map_cons, List.find?_cons]
    by_cases h : StringCompare (pack.file i).name p = 0
    · have := (StringCompare_eq_zero _ _).mp h
      simp [h, this]
    · have : ¬ cstr (pack.file i).name = cstr p := fun hh => h ((StringCompare_eq_zero _ _).mpr hh)
      simp [h, this, ih]

theorem packScan_lookup (pack : PackHeader) (p : List Int) :
    (packScan pack p pack.numfiles.toNat 0).map (fun e => (pack, e)) = pack.lookup p := by
  rw [packScan_eq, PackHeader.lookup, PackHeader.entries, List.range_eq_range']

/-- The outer loop of `FileFind` computes the resolution of the
specification. -/
theorem FileFindFrom_spec (fs : FileSys) (p : List Int) : ∀ (sp : List SearchPath),
    FileFindFrom fs p sp = findSpec fs sp p := by
  intro sp
  induction sp with
  | nil => simp [FileFindFrom, findSpec, resolveSpec]
  | cons node rest ih =>
    cases hp : node.pack with
    | none =>
      simp only [FileFindFrom, hp, ih, findSpec, resolveSpec, List.filterMap_cons]
    | some pack =>
      have hl := packScan_lookup pack p
      cases hs : packScan pack p pack.numfiles.toNat 0 with
      | none =>
        rw [hs] at hl
        simp only [Option.map_none'] at hl
        simp only [FileFindFrom, hp, hs, ih, findSpec, resolveSpec, List.filterMap_cons,
          List.findSome?_cons]
        rw [← PackHeader.lookup, ← hl]
      | some e =>
        rw [hs] at hl
        simp only [Option.map_some'] at hl
        simp only [FileFindFrom, hp, hs, findSpec, resolveSpec, List.filterMap_cons,
          List.findSome?_cons]
        rw [← PackHeader.lookup, ← hl]
        show (match FileSeek fs pack.handle e.filePosition with
          | .error e2 => .error e2
          | .ok fs2 => .ok (fs2, pack.handle, e.fileLength))
          = Except.map (fun fs2 => (fs2, pack.handle, e.fileLength))
              (FileSeek fs pack.handle e.filePosition)
        cases FileSeek fs pack.handle e.filePosition <;> rfl

/-! ## File system: registration of a game directory -/

theorem setFilePos_disk {fs fs2 : FileSys} {h : Int} {f : OpenFile → Int}
    (hr : setFilePos fs h f = .ok fs2) : fs2.disk = fs.disk := by
  unfold setFilePos at hr
  split_ifs at hr
  split at hr
  · simp only [Except.ok.injEq] at hr
    subst hr; rfl
  · exact absurd hr (by simp)

theorem FileRead_disk {fs fs2 : FileSys} {h c : Int} (hr : FileRead fs h c = .ok fs2) :
    fs2.disk = fs.disk := by
  unfold FileRead at hr
  split_ifs at hr
  exact setFilePos_disk hr

theorem FileOpenForRead_disk {fs fs2 : FileSys} {path : List Int} {h r : Int}
    (hr : FileOpenForRead fs path = .ok (fs2, h, r)) : fs2.disk = fs.disk := by
  unfold FileOpenForRead at hr
  split at hr
  · exact absurd hr (by simp)
  · split at hr
    · simp only [Except.ok.injEq, Prod.mk.injEq] at hr
      obtain ⟨rfl, -⟩ := hr; rfl
    · simp only [Except.ok.injEq, Prod.mk.injEq] at hr
      obtain ⟨rfl, -⟩ := hr; rfl

/-- What a returning `FileLoadPack` did: the files on disk and the search path
are as before, and a non-NULL result is the archive built from the file at
`packpath`. -/
theorem FileLoadPack_ok {k : FsConst} {st st1 : FileState} {packpath : List Int}
    {r : Option PackHeader} (hr : FileLoadPack k st packpath = .ok (st1, r)) :
    st1.fs.disk = st.fs.disk ∧ st1.g_search_path = st.g_search_path ∧
    ∀ pack, r = some pack → LoadedFrom k st.fs.disk packpath pack := by
  unfold FileLoadPack at hr
  cases hopen : FileOpenForRead st.fs packpath with
  | error e => rw [hopen] at hr; exact absurd hr (by simp)
  | ok t =>
    obtain ⟨fs1, packHandle, res⟩ := t
    have hd1 := FileOpenForRead_disk hopen
    rw [hopen] at hr
    simp only at hr
    cases hf : st.fs.disk packpath with
    | none =>
      rw [hf] at hr
      simp only [Except.ok.injEq, Prod.mk.injEq] at hr
      obtain ⟨rfl, rfl⟩ := hr
      exact ⟨hd1, rfl, fun pack hp => absurd hp (by simp)⟩
    | some f =>
      rw [hf] at hr
      simp only at hr
      by_cases h1 : res = -1
      · rw [if_pos h1] at hr
        simp only [Except.ok.injEq, Prod.mk.injEq] at hr
        obtain ⟨rfl, rfl⟩ := hr
        exact ⟨hd1, rfl, fun pack hp => absurd hp (by simp)⟩
      · rw [if_neg h1] at hr
        cases hread : FileRead fs1 packHandle 12 with
        | error e => rw [hread] at hr; exact absurd hr (by simp)
        | ok fs2 =>
          have hd2 := FileRead_disk hread
          rw [hread] at hr
          simp only at hr
          by_cases h2 : f.magic ≠ packMagic
          · rw [if_pos h2] at hr; exact absurd hr (by simp)
          · rw [if_neg h2] at hr
            by_cases h3 : packfileNumOf f > k.MAX_FILES_IN_PACK
            · rw [if_pos h3] at hr; exact absurd hr (by simp)
            · rw [if_neg h3] at hr
              cases hseek : FileSeek fs2 packHandle f.directoryOffset with
              | error e => rw [hseek] at hr; exact absurd hr (by simp)
              | ok fs3 =>
                have hd3 := setFilePos_disk hseek
                rw [hseek] at hr
                simp only at hr
                cases hread2 : FileRead fs3 packHandle f.directoryLength with
                | error e => rw [hread2] at hr; exact absurd hr (by simp)
                | ok fs4 =>
                  have hd4 := FileRead_disk hread2
                  rw [hread2] at hr
                  simp only at hr
                  cases ha1 : HunkLowAlloc st.hunk (wrap32 (packfileNumOf f * k.sizeofPackFile))
                      packfilesName with
                  | error e => rw [ha1] at hr; exact absurd hr (by simp)
                  | ok t1 =>
                    rw [ha1] at hr
                    simp only at hr
                    cases hload : loadPackFiles k f (packfileNumOf f).toNat 0 with
                    | error e => rw [hload] at hr; exact absurd hr (by simp)
                    | ok packFiles =>
                      rw [hload] at hr
                      simp only at hr
                      cases ha2 : HunkLowAlloc t1.1 k.sizeofPackHeader packheaderName with
                      | error e => rw [ha2] at hr; exact absurd hr (by simp)
                      | ok t2 =>
                        rw [ha2] at hr
                        simp only [Except.ok.injEq, Prod.mk.injEq] at hr
                        obtain ⟨rfl, rfl⟩ := hr
                        refine ⟨by rw [hd4, hd3, hd2, hd1], rfl, ?_⟩
                        intro pack hp
                        simp only [Option.some.injEq] at hp
                        subst hp
                        exact ⟨f, hf, rfl, hload⟩

/-- The loop of `FileAddGameDiectory` from `i`, when it returns, has put the
archives of `pak i`, `pak (i+1)`, ... in front of the search path, the last
loaded first. -/
theorem addPacksLoop_ok {k : FsConst} {dir : List Int} : ∀ (fuel i : Nat) (st st2 : FileState),
    addPacksLoop k dir fuel i st = .ok st2 →
    ∃ packs : List PackHeader,
      st2.g_search_path = packs.reverse.map packNode ++ st.g_search_path ∧
      st2.fs.disk = st.fs.disk ∧
      ∀ j (hj : j < packs.length),
        LoadedFrom k st.fs.disk (pakPath dir (i + j)) (packs.get ⟨j, hj⟩) := by
  intro fuel
  induction fuel with
  | zero => intro i st st2 hr; simp [addPacksLoop] at hr
  | succ n ih =>
    intro i st st2 hr
    unfold addPacksLoop at hr
    split_ifs at hr with hlen
    split at hr
    · exact absurd hr (by simp)
    · rename_i st1 hload
      obtain ⟨d1, p1, -⟩ := FileLoadPack_ok hload
      simp only [Except.ok.injEq] at hr
      subst hr
      exact ⟨[], by simp [p1], d1, fun j hj => absurd hj (by simp)⟩
    · rename_i st1 pack hload
      obtain ⟨d1, p1, l1⟩ := FileLoadPack_ok hload
      split at hr
      · exact absurd hr (by simp)
      · rename_i h2 q halloc
        obtain ⟨packs, e1, e2, e3⟩ := ih (i + 1) _ st2 hr
        refine ⟨pack :: packs, ?_, ?_, ?_⟩
        · rw [e1]
          simp [p1, packNode]
        · rw [e2]; exact d1
        · intro j hj
          cases j with
          | zero => exact l1 pack rfl
          | succ j =>
            have := e3 j (by simpa using hj)
            simp only [d1] at this
            have hij : i + 1 + j = i + (j + 1) := by omega
            rw [hij] at this
            simpa using this

/-- What a returning `FileAddGameDiectory(dir)` did to the search path: in front
of the old list stands the node of the directory, and in front of that the
archives `pak0`, `pak1`, ... that were loaded, the highest-numbered first. -/
theorem FileAddGameDiectory_ok {k : FsConst} {fuel : Nat} {st st2 : FileState} {dir : List Int}
    (hr : FileAddGameDiectory k fuel st dir = .ok st2) :
    ∃ (packs : List PackHeader) (filename : List Int),
      st2.g_search_path
        = packs.reverse.map packNode ++ ⟨filename, none⟩ :: st.g_search_path ∧
      st2.fs.disk = st.fs.disk ∧
      ∀ j (hj : j < packs.length),
        LoadedFrom k st.fs.disk (pakPath dir j) (packs.get ⟨j, hj⟩) := by
  unfold FileAddGameDiectory at hr
  split at hr
  · exact absurd hr (by simp)
  · split at hr
    · exact absurd hr (by simp)
    · split at hr
      · exact absurd hr (by simp)
      · rename_i gameDir _ h1 q _ filename _
        obtain ⟨packs, e1, e2, e3⟩ := addPacksLoop_ok fuel 0 _ st2 hr
        refine ⟨packs, filename, e1, e2, ?_⟩
        intro j hj
        have := e3 j hj
        simpa using this

/-- Archives in front of a search path are consulted first, in their order. -/
theorem resolveSpec_append (hp : List PackHeader) (rest : List SearchPath) (p : List Int) :
    resolveSpec (hp.map packNode ++ rest) p
      = (match hp.findSome? (PackHeader.lookup p) with
         | some x => some x
         | none => resolveSpec rest p) := by
  induction hp with
  | nil => simp
  | cons a l ih =>
    simp only [List.map_cons, List.cons_append, List.findSome?_cons]
    cases hl : a.lookup p with
    | none =>
      have hl2 : Option.map (fun e => (a, e))
          (List.find? (fun e => decide (cstr e.name = cstr p)) a.entries) = none := hl
      have h1 : resolveSpec (packNode a :: (l.map packNode ++ rest)) p
          = resolveSpec (l.map packNode ++ rest) p := by
        simp only [resolveSpec, packNode, List.filterMap_cons, List.findSome?_cons, hl2]
      rw [h1, ih]
    | some x =>
      have hl2 : Option.map (fun e => (a, e))
          (List.find? (fun e => decide (cstr e.name = cstr p)) a.entries) = some x := hl
      simp only [resolveSpec, packNode, List.filterMap_cons, List.findSome?_cons, hl2]

/-- The first registration of scenario S5 returns, with the state `s5StateA`. -/
theorem s5_runA : FileAddGameDiectory s5Const 20 s5Start dirA = .ok s5StateA := by
  have hsome : ((FileAddGameDiectory s5Const 20 s5Start dirA).toOption).isSome = true := by
    decide
  cases hq : FileAddGameDiectory s5Const 20 s5Start dirA with
  | error e => rw [hq] at hsome; simp [Except.toOption] at hsome
  | ok c => simp only [s5StateA, hq, Except.toOption, Option.getD]

/-- The second registration of scenario S5 returns, with the state
`s5StateB`. -/
theorem s5_runB : FileAddGameDiectory s5Const 20 s5StateA dirB = .ok s5StateB := by
  have hsome : ((FileAddGameDiectory s5Const 20 s5StateA dirB).toOption).isSome = true := by
    decide
  cases hq : FileAddGameDiectory s5Const 20 s5StateA dirB with
  | error e => rw [hq] at hsome; simp [Except.toOption] at hsome
  | ok c => simp only [s5StateB, hq, Except.toOption, Option.getD]

/-! ## File system: the file table during a registration -/

/-- An assignment to a position indicator keeps every stream on its file. -/
theorem setFilePos_open {fs fs2 : FileSys} {h : Int} {f : OpenFile → Int}
    (hr : setFilePos fs h f = .ok fs2) :
    ∀ (h2 : Int) (path : List Int), OpenOn fs h2 path → OpenOn fs2 h2 path := by
  intro h2 path hopen
  obtain ⟨a1, a2, o, a3, a4⟩ := hopen
  unfold setFilePos at hr
  split_ifs at hr
  cases hh : fs.g_file_handles h.toNat with
  | none => rw [hh] at hr; exact absurd hr (by simp)
  | some o1 =>
    rw [hh] at hr
    simp only [Except.ok.injEq] at hr
    subst hr
    refine ⟨a1, a2, ?_⟩
    by_cases he : h2.toNat = h.toNat
    · rw [he] at a3
      rw [hh] at a3
      simp only [Option.some.injEq] at a3
      subst a3
      exact ⟨⟨o1.path, f o1⟩, by simp only [he, if_true], a4⟩
    · exact ⟨o, by simp only [he, if_false, a3], a4⟩

/-- `FileSeek` on a stream that is open returns and leaves it at the
position. -/
theorem FileSeek_open {fs : FileSys} {h : Int} {path : List Int} (position : Int)
    (hopen : OpenOn fs h path) :
    ∃ fs2, FileSeek fs h position = .ok fs2 ∧
      fs2.g_file_handles h.toNat = some ⟨path, position⟩ := by
  obtain ⟨a1, a2, o, a3, a4⟩ := hopen
  unfold FileSeek setFilePos
  rw [if_pos ⟨a1, a2⟩, a3]
  subst a4
  exact ⟨_, rfl, by simp⟩

theorem FileRead_open {fs fs2 : FileSys} {h c : Int} (hr : FileRead fs h c = .ok fs2) :
    ∀ (h2 : Int) (path : List Int), OpenOn fs h2 path → OpenOn fs2 h2 path := by
  unfold FileRead at hr
  split_ifs at hr
  exact setFilePos_open hr

theorem FileGetAvailableHandeLoop_free (handles : Nat → Option OpenFile) :
    ∀ (n i r : Nat), FileGetAvailableHandeLoop handles n i = .ok r →
      r < i + n ∧ handles r = none := by
  intro n
  induction n with
  | zero => intro i r hr; simp [FileGetAvailableHandeLoop] at hr
  | succ n ih =>
    intro i r hr
    unfold FileGetAvailableHandeLoop at hr
    by_cases hn : (handles i).isNone = true
    · rw [if_pos hn] at hr
      simp only [Except.ok.injEq] at hr
      subst hr
      exact ⟨by omega, by simpa using hn⟩
    · rw [if_neg hn] at hr
      obtain ⟨i1, i2⟩ := ih (i + 1) r hr
      exact ⟨by omega, i2⟩

/-- What a returning `FileOpenForRead` did to the file table: streams that were
open stay on their files; when the file exists, the handle it reports is
opened on it and the result is the file's length; when it does not, the result
is -1. -/
theorem FileOpenForRead_open {fs fs2 : FileSys} {path : List Int} {h r : Int}
    (hr : FileOpenForRead fs path = .ok (fs2, h, r)) :
    (∀ (h2 : Int) (p : List Int), OpenOn fs h2 p → OpenOn fs2 h2 p) ∧
    (∀ f, fs.disk path = some f → OpenOn fs2 h path ∧ r = FileLength f) ∧
    (fs.disk path = none → r = -1) := by
  unfold FileOpenForRead at hr
  cases hav : FileGetAvailableHande fs with
  | error e => rw [hav] at hr; exact absurd hr (by simp)
  | ok handle =>
    rw [hav] at hr
    simp only at hr
    obtain ⟨f1, f2⟩ := FileGetAvailableHandeLoop_free _ _ _ _ hav
    have hmax : MAX_FILE_HANDLES = 10 := rfl
    cases hf : fs.disk path with
    | none =>
      rw [hf] at hr
      simp only [Except.ok.injEq, Prod.mk.injEq] at hr
      obtain ⟨rfl, rfl, rfl⟩ := hr
      exact ⟨fun _ _ hh => hh, fun f hh => absurd hh (by simp), fun _ => rfl⟩
    | some f =>
      rw [hf] at hr
      simp only [Except.ok.injEq, Prod.mk.injEq] at hr
      obtain ⟨rfl, rfl, rfl⟩ := hr
      refine ⟨?_, ?_, fun hh => absurd hh (by simp)⟩
      · intro h2 p hopen
        obtain ⟨a1, a2, o, a3, a4⟩ := hopen
        refine ⟨a1, a2, o, ?_, a4⟩
        have hne : h2.toNat ≠ handle := by
          intro he
          rw [he, f2] at a3
          exact absurd a3 (by simp)
        simp only [hne, if_false, a3]
      · intro f3 hf3
        simp only [Option.some.injEq] at hf3
        subst hf3
        refine ⟨⟨by omega, by rw [hmax]; omega, ⟨path, 0⟩, ?_, rfl⟩, rfl⟩
        simp

/-- What a returning `FileLoadPack` did to the file table: streams that were
open stay on their files, the handle of a non-NULL result is opened on the file
at `packpath`, and the result is NULL only when no archive can be loaded from
`packpath`. -/
theorem FileLoadPack_open {k : FsConst} {st st1 : FileState} {packpath : List Int}
    {r : Option PackHeader} (hr : FileLoadPack k st packpath = .ok (st1, r)) :
    (∀ (h2 : Int) (p : List Int), OpenOn st.fs h2 p → OpenOn st1.fs h2 p) ∧
    (∀ pack, r = some pack → OpenOn st1.fs pack.handle packpath) ∧
    (r = none → Unloadable st.fs.disk packpath) := by
  unfold FileLoadPack at hr
  cases hopen : FileOpenForRead st.fs packpath with
  | error e => rw [hopen] at hr; exact absurd hr (by simp)
  | ok t =>
    obtain ⟨fs1, packHandle, res⟩ := t
    obtain ⟨o1, o2, o3⟩ := FileOpenForRead_open hopen
    rw [hopen] at hr
    simp only at hr
    cases hf : st.fs.disk packpath with
    | none =>
      rw [hf] at hr
      simp only [Except.ok.injEq, Prod.mk.injEq] at hr
      obtain ⟨rfl, rfl⟩ := hr
      exact ⟨o1, fun pack hp => absurd hp (by simp), fun _ => Or.inl hf⟩
    | some f =>
      obtain ⟨o4, o5⟩ := o2 f hf
      rw [hf] at hr
      simp only at hr
      by_cases h1 : res = -1
      · rw [if_pos h1] at hr
        simp only [Except.ok.injEq, Prod.mk.injEq] at hr
        obtain ⟨rfl, rfl⟩ := hr
        exact ⟨o1, fun pack hp => absurd hp (by simp),
          fun _ => Or.inr ⟨f, hf, by rw [← o5]; exact h1⟩⟩
      · rw [if_neg h1] at hr
        cases hread : FileRead fs1 packHandle 12 with
        | error e => rw [hread] at hr; exact absurd hr (by simp)
        | ok fs2 =>
          have k2 := FileRead_open hread
          rw [hread] at hr
          simp only at hr
          by_cases h2 : f.magic ≠ packMagic
          · rw [if_pos h2] at hr; exact absurd hr (by simp)
          · rw [if_neg h2] at hr
            by_cases h3 : packfileNumOf f > k.MAX_FILES_IN_PACK
            · rw [if_pos h3] at hr; exact absurd hr (by simp)
            · rw [if_neg h3] at hr
              cases hseek : FileSeek fs2 packHandle f.directoryOffset with
              | error e => rw [hseek] at hr; exact absurd hr (by simp)
              | ok fs3 =>
                have k3 := setFilePos_open hseek
                rw [hseek] at hr
                simp only at hr
                cases hread2 : FileRead fs3 packHandle f.directoryLength with
                | error e => rw [hread2] at hr; exact absurd hr (by simp)
                | ok fs4 =>
                  have k4 := FileRead_open hread2
                  rw [hread2] at hr
                  simp only at hr
                  cases ha1 : HunkLowAlloc st.hunk (wrap32 (packfileNumOf f * k.sizeofPackFile))
                      packfilesName with
                  | error e => rw [ha1] at hr; exact absurd hr (by simp)
                  | ok t1 =>
                    rw [ha1] at hr
                    simp only at hr
                    cases hload : loadPackFiles k f (packfileNumOf f).toNat 0 with
                    | error e => rw [hload] at hr; exact absurd hr (by simp)
                    | ok packFiles =>
                      rw [hload] at hr
                      simp only at hr
                      cases ha2 : HunkLowAlloc t1.1 k.sizeofPackHeader packheaderName with
                      | error e => rw [ha2] at hr; exact absurd hr (by simp)
                      | ok t2 =>
                        rw [ha2] at hr
                        simp only [Except.ok.injEq, Prod.mk.injEq] at hr
                        obtain ⟨rfl, rfl⟩ := hr
                        refine ⟨fun h2 p hh => k4 _ _ (k3 _ _ (k2 _ _ (o1 _ _ hh))), ?_,
                          fun hh => absurd hh (by simp)⟩
                        intro pack hp
                        simp only [Option.some.injEq] at hp
                        subst hp
                        exact k4 _ _ (k3 _ _ (k2 _ _ o4))

/-! ## File system: what a registration puts on the search path -/

/-- The loop of `FileAddGameDiectory` from `i`, when it returns, has put the
archives of `pak i`, `pak (i+1)`, ... in front of the search path, the last
loaded first; each of them has its handle opened on its file, and the loop
stopped at the first number from which no archive can be loaded. -/
theorem addPacksLoop_full {k : FsConst} {dir : List Int} :
    ∀ (fuel i : Nat) (st st2 : FileState), addPacksLoop k dir fuel i st = .ok st2 →
    ∃ packs : List PackHeader,
      st2.g_search_path = packs.reverse.map packNode ++ st.g_search_path ∧
      st2.fs.disk = st.fs.disk ∧
      (∀ j (hj : j < packs.length),
        LoadedFrom k st.fs.disk (pakPath dir (i + j)) (packs.get ⟨j, hj⟩) ∧
        OpenOn st2.fs (packs.get ⟨j, hj⟩).handle (pakPath dir (i + j))) ∧
      Unloadable st.fs.disk (pakPath dir (i + packs.length)) ∧
      ∀ (h2 : Int) (p : List Int), OpenOn st.fs h2 p → OpenOn st2.fs h2 p := by
  intro fuel
  induction fuel with
  | zero => intro i st st2 hr; simp [addPacksLoop] at hr
  | succ n ih =>
    intro i st st2 hr
    unfold addPacksLoop at hr
    split_ifs at hr with hlen
    split at hr
    · exact absurd hr (by simp)
    · rename_i st1 hload
      obtain ⟨d1, p1, -⟩ := FileLoadPack_ok hload
      obtain ⟨q1, -, q3⟩ := FileLoadPack_open hload
      simp only [Except.ok.injEq] at hr
      subst hr
      exact ⟨[], by simp [p1], d1, fun j hj => absurd hj (by simp), by simpa using q3 rfl, q1⟩
    · rename_i st1 pack hload
      obtain ⟨d1, p1, l1⟩ := FileLoadPack_ok hload
      obtain ⟨q1, q2, -⟩ := FileLoadPack_open hload
      split at hr
      · exact absurd hr (by simp)
      · rename_i h2 q halloc
        obtain ⟨packs, e1, e2, e3, e4, e5⟩ := ih (i + 1) _ st2 hr
        refine ⟨pack :: packs, ?_, ?_, ?_, ?_, ?_⟩
        · rw [e1]
          simp [p1, packNode]
        · rw [e2]; exact d1
        · intro j hj
          cases j with
          | zero => exact ⟨l1 pack rfl, e5 _ _ (q2 pack rfl)⟩
          | succ j =>
            have := e3 j (by simpa using hj)
            simp only [d1] at this
            have hij : i + 1 + j = i + (j + 1) := by omega
            rw [hij] at this
            simpa using this
        · have hij : i + 1 + packs.length = i + (pack :: packs).length := by
            simp only [List.length_cons]; omega
          rw [← hij, ← d1]
          exact e4
        · intro h3 p hh
          exact e5 _ _ (q1 _ _ hh)

/-- What a returning `FileAddGameDiectory(dir)` did: in front of the old search
path stands the node of the directory, and in front of that the archives
`pak0`, `pak1`, ... up to the first number from which none can be loaded, the
highest-numbered first, each with its handle opened on its file. -/
theorem FileAddGameDiectory_full {k : FsConst} {fuel : Nat} {st st2 : FileState}
    {dir : List Int} (hr : FileAddGameDiectory k fuel st dir = .ok st2) :
    ∃ (packs : List PackHeader) (filename : List Int),
      copiedString k.MAX_OS_PATH_LENGTH dir 0 = .ok filename ∧
      st2.g_search_path
        = packs.reverse.map packNode ++ ⟨filename, none⟩ :: st.g_search_path ∧
      st2.fs.disk = st.fs.disk ∧
      (∀ j (hj : j < packs.length),
        LoadedFrom k st.fs.disk (pakPath dir j) (packs.get ⟨j, hj⟩) ∧
        OpenOn st2.fs (packs.get ⟨j, hj⟩).handle (pakPath dir j)) ∧
      Unloadable st.fs.disk (pakPath dir packs.length) ∧
      ∀ (h2 : Int) (p : List Int), OpenOn st.fs h2 p → OpenOn st2.fs h2 p := by
  unfold FileAddGameDiectory at hr
  cases hc : copiedString k.MAX_OS_PATH_LENGTH dir 0 with
  | error e => rw [hc] at hr; exact absurd hr (by simp)
  | ok filename =>
    rw [hc] at hr
    simp only at hr
    cases ha : HunkLowAlloc st.hunk k.sizeofSearchPath searchpathName with
    | error e => rw [ha] at hr; exact absurd hr (by simp)
    | ok t =>
      rw [ha] at hr
      simp only at hr
      obtain ⟨packs, e1, e2, e3, e4, e5⟩ := addPacksLoop_full fuel 0 _ st2 hr
      refine ⟨packs, filename, rfl, e1, e2, ?_, by simpa using e4, e5⟩
      intro j hj
      have := e3 j hj
      simpa using this

/-- Among the elements on which `f` gives a value, the search along the reversed
list finds the last one of the list. -/
theorem findSome_reverse_last {α β : Type} (f : α → Option β) : ∀ (l : List α),
    (∃ q ∈ l, (f q).isSome = true) →
    ∃ (pre post : List α) (pk : α) (x : β), l = pre ++ pk :: post ∧
      (∀ q ∈ post, f q = none) ∧ f pk = some x ∧ l.reverse.findSome? f = some x := by
  intro l
  induction l with
  | nil => rintro ⟨q, hq, -⟩; exact absurd hq (by simp)
  | cons a l ih =>
    intro hex
    by_cases hl : ∃ q ∈ l, (f q).isSome = true
    · obtain ⟨pre, post, pk, x, h1, h2, h3, h4⟩ := ih hl
      refine ⟨a :: pre, post, pk, x, by rw [h1]; rfl, h2, h3, ?_⟩
      rw [List.reverse_cons, List.findSome?_append, h4]
      rfl
    · have hnone : ∀ q ∈ l, f q = none := by
        intro q hq
        cases hfq : f q with
        | none => rfl
        | some y => exact absurd ⟨q, hq, by rw [hfq]; rfl⟩ hl
      obtain ⟨q, hq, hs⟩ := hex
      have hqa : (f a).isSome = true := by
        rcases List.mem_cons.mp hq with rfl | hq2
        · exact hs
        · rw [hnone q hq2] at hs
          exact absurd hs (by simp)
      obtain ⟨x, hx⟩ := Option.isSome_iff_exists.mp hqa
      refine ⟨[], l, a, x, rfl, hnone, hx, ?_⟩
      have hrev : l.reverse.findSome? f = none := by
        rw [List.findSome?_eq_none_iff]
        intro y hy
        exact hnone y (List.mem_reverse.mp hy)
      rw [List.reverse_cons, List.findSome?_append, hrev]
      simp [hx]

theorem PackHeader.lookup_fst {p : List Int} {pack : PackHeader} {x : PackHeader × PackFile}
    (h : pack.lookup p = some x) : x = (pack, x.2) := by
  unfold PackHeader.lookup at h
  cases hf : pack.entries.find? (fun e => decide (cstr e.name = cstr p)) with
  | none => rw [hf] at h; exact absurd h (by simp)
  | some e =>
    rw [hf] at h
    simp only [Option.map_some', Option.some.injEq] at h
    rw [← h]

/-- C20.  `FileFind`, called with `*handle` negative as `FileLoad` does (with
`*handle >= 0` it ends in `SysError`), walks the search path head first and
returns what the specification's resolution gives: the handle and `fileLength`
of the first entry whose name is byte-wise equal to the path in the first
archive node that has one, after `FileSeek` of that handle to the entry's
`filePosition`; and handle -1 with length 0 when no node resolves the path.
After `FileAddGameDiectory(A)` and then `FileAddGameDiectory(B)` the search path
is: the archives of `B`, `pak0`, `pak1`, ... up to the first number from which
none can be loaded, the highest-numbered first; the node of `B`; the archives
of `A` in the same way; the node of `A`; the old path.  So `pak0` of `B` is on
the path whenever it can be loaded, and whenever an archive of `B` has the path
`p`, `FileFind` returns the handle of the highest-numbered such archive of `B`,
which is opened on that archive's file and sought to the entry's position, and
the length of its first entry named `p`, whatever `A` holds. -/
theorem FileFind_resolves_head_first (k : FsConst) :
    (∀ (fs : FileSys) (sp : List SearchPath) (p : List Int) (h : Int), h < 0 →
      FileFind fs sp p h = findSpec fs sp p) ∧
    (∀ (fs : FileSys) (sp : List SearchPath) (p : List Int) (h : Int), 0 ≤ h →
      FileFind fs sp p h = .error (.sysError "handle is already set")) ∧
    (∀ (fuel : Nat) (st st1 st2 : FileState) (A B : List Int),
      FileAddGameDiectory k fuel st A = .ok st1 →
      FileAddGameDiectory k fuel st1 B = .ok st2 →
      ∃ (packsA packsB : List PackHeader) (nameA nameB : List Int),
        copiedString k.MAX_OS_PATH_LENGTH A 0 = .ok nameA ∧
        copiedString k.MAX_OS_PATH_LENGTH B 0 = .ok nameB ∧
        st2.g_search_path = packsB.reverse.map packNode ++
          ⟨nameB, none⟩ :: (packsA.reverse.map packNode ++ ⟨nameA, none⟩ :: st.g_search_path) ∧
        (∀ j (hj : j < packsB.length),
          LoadedFrom k st.fs.disk (pakPath B j) (packsB.get ⟨j, hj⟩) ∧
          OpenOn st2.fs (packsB.get ⟨j, hj⟩).handle (pakPath B j)) ∧
        Unloadable st.fs.disk (pakPath B packsB.length) ∧
        (∀ j (hj : j < packsA.length),
          LoadedFrom k st.fs.disk (pakPath A j) (packsA.get ⟨j, hj⟩)) ∧
        Unloadable st.fs.disk (pakPath A packsA.length) ∧
        (¬ Unloadable st.fs.disk (pakPath B 0) → packsB ≠ []) ∧
        ∀ (p : List Int), (∃ q ∈ packsB, (q.lookup p).isSome = true) →
          ∃ (pre post : List PackHeader) (pk : PackHeader) (e : PackFile) (fs2 : FileSys),
            packsB = pre ++ pk :: post ∧ (∀ q ∈ post, q.lookup p = none) ∧
            pk.lookup p = some (pk, e) ∧
            resolveSpec st2.g_search_path p = some (pk, e) ∧
            FileFind st2.fs st2.g_search_path p (-1) = .ok (fs2, pk.handle, e.fileLength) ∧
            fs2.g_file_handles pk.handle.toNat
              = some ⟨pakPath B pre.length, e.filePosition⟩) := by
  refine ⟨?_, ?_, ?_⟩
  · intro fs sp p h hh
    have : ¬ h ≥ 0 := by omega
    simp only [FileFind, this, if_false]
    exact FileFindFrom_spec fs p sp
  · intro fs sp p h hh
    have : h ≥ 0 := hh
    simp only [FileFind, this, if_true]
  · intro fuel st st1 st2 A B r1 r2
    obtain ⟨packsA, nameA, a0, a1, a2, a3, a4, -⟩ := FileAddGameDiectory_full r1
    obtain ⟨packsB, nameB, b0, b1, b2, b3, b4, -⟩ := FileAddGameDiectory_full r2
    rw [a2] at b3 b4
    refine ⟨packsA, packsB, nameA, nameB, a0, b0, by rw [b1, a1], b3, b4,
      fun j hj => (a3 j hj).1, a4, ?_, ?_⟩
    · intro hload hnil
      rw [hnil] at b4
      exact hload b4
    · intro p hex
      obtain ⟨pre, post, pk, x, h1, h2, h3, h4⟩ := findSome_reverse_last (PackHeader.lookup p)
        packsB hex
      have hx := PackHeader.lookup_fst h3
      have hres : resolveSpec st2.g_search_path p = some x := by
        rw [b1, resolveSpec_append, h4]
      have hlen : pre.length < packsB.length := by
        rw [h1]; simp
      have hget : packsB.get ⟨pre.length, hlen⟩ = pk := by
        subst h1
        simp only [List.get_eq_getElem]
        rw [List.getElem_append_right (le_refl _)]
        simp
      have hopen := (b3 pre.length hlen).2
      rw [hget] at hopen
      obtain ⟨fs2, s1, s2⟩ := FileSeek_open x.2.filePosition hopen
      refine ⟨pre, post, pk, x.2, fs2, h1, h2, by rw [h3]; exact congrArg some hx,
        by rw [hres]; exact congrArg some hx, ?_, s2⟩
      have hneg : ¬ ((-1 : Int) ≥ 0) := by decide
      simp only [FileFind, hneg, if_false]
      rw [FileFindFrom_spec, findSpec, hres]
      simp only
      rw [hx] at s1 ⊢
      simp only at s1 ⊢
      rw [s1]
      rfl

/-- In scenario S5 an archive can be loaded from `B/pak0.pak`. -/
theorem s5_pak0_loadable : ¬ Unloadable s5Start.fs.disk (pakPath dirB 0) := by
  have hd : s5Start.fs.disk (pakPath dirB 0) = some (s5Pack 200 7) := by
    show s5Disk (pakPath dirB 0) = some (s5Pack 200 7)
    unfold s5Disk
    rw [if_neg (by decide), if_pos rfl]
  rintro (h | ⟨f, h1, h2⟩)
  · rw [hd] at h
    exact absurd h (by simp)
  · rw [hd] at h1
    simp only [Option.some.injEq] at h1
    subst h1
    exact absurd h2 (by decide)

theorem FileFind_resolves_head_first_witness :
    FileAddGameDiectory s5Const 20 s5Start dirA = .ok s5StateA ∧
    FileAddGameDiectory s5Const 20 s5StateA dirB = .ok s5StateB ∧
    (s5StateB.fs.g_file_handles 2).map (fun o => o.path) = some (pakPath dirB 1) ∧
    (FileFind s5StateB.fs s5StateB.g_search_path sharedDat (-1)).toOption.map
        (fun r => (r.2.1, r.2.2, (r.1.g_file_handles 2).map (fun o => o.pos)))
      = some (2, 9, some 300) ∧
    FileFind s5StateB.fs s5StateB.g_search_path sharedDat (-1)
      = findSpec s5StateB.fs s5StateB.g_search_path sharedDat ∧
    ¬ Unloadable s5Start.fs.disk (pakPath dirB 0) ∧
    ∃ (packsA packsB : List PackHeader) (nameA nameB : List Int),
      copiedString s5Const.MAX_OS_PATH_LENGTH dirA 0 = .ok nameA ∧
      copiedString s5Const.MAX_OS_PATH_LENGTH dirB 0 = .ok nameB ∧
      s5StateB.g_search_path = packsB.reverse.map packNode ++
        ⟨nameB, none⟩ ::
          (packsA.reverse.map packNode ++ ⟨nameA, none⟩ :: s5Start.g_search_path) ∧
      (∀ j (hj : j < packsB.length),
        LoadedFrom s5Const s5Start.fs.disk (pakPath dirB j) (packsB.get ⟨j, hj⟩) ∧
        OpenOn s5StateB.fs (packsB.get ⟨j, hj⟩).handle (pakPath dirB j)) ∧
      Unloadable s5Start.fs.disk (pakPath dirB packsB.length) ∧
      (∀ j (hj : j < packsA.length),
        LoadedFrom s5Const s5Start.fs.disk (pakPath dirA j) (packsA.get ⟨j, hj⟩)) ∧
      Unloadable s5Start.fs.disk (pakPath dirA packsA.length) ∧
      (¬ Unloadable s5Start.fs.disk (pakPath dirB 0) → packsB ≠ []) ∧
      ∀ (p : List Int), (∃ q ∈ packsB, (q.lookup p).isSome = true) →
        ∃ (pre post : List PackHeader) (pk : PackHeader) (e : PackFile) (fs2 : FileSys),
          packsB = pre ++ pk :: post ∧ (∀ q ∈ post, q.lookup p = none) ∧
          pk.lookup p = some (pk, e) ∧
          resolveSpec s5StateB.g_search_path p = some (pk, e) ∧
          FileFind s5StateB.fs s5StateB.g_search_path p (-1)
            = .ok (fs2, pk.handle, e.fileLength) ∧
          fs2.g_file_handles pk.handle.toNat
            = some ⟨pakPath dirB pre.length, e.filePosition⟩ :=
  ⟨s5_runA, s5_runB, by decide, by decide,
    (FileFind_resolves_head_first s5Const).1 _ _ _ (-1) (by decide), s5_pak0_loadable,
    (FileFind_resolves_head_first s5Const).2.2 20 s5Start s5StateA s5StateB dirA dirB
      s5_runA s5_runB⟩

/-! ## `StringCopy` -/

theorem charAt_eq_zero_iff {src : List Int} (hz : ∀ c ∈ src, c ≠ 0) (i : Nat) :
    charAt src i = 0 ↔ src.length ≤ i := by
  unfold charAt
  constructor
  · intro h
    by_contra hlt
    have hi : i < src.length := by omega
    rw [List.getD_eq_getElem _ _ hi] at h
    exact hz _ (List.getElem_mem hi) h
  · intro h
    rw [List.getD_eq_default _ _ h]

/-- The loop of `StringCopy` from iteration `i`, with `ds` characters of `dest`
left: it returns `m = min(L, i + ds - 1, count)`, has copied the characters `i`
to `m - 1`, has put a NUL at `m`, and has written nowhere else. -/
theorem StringCopyLoop_spec {src : List Int} (hz : ∀ c ∈ src, c ≠ 0) (dest count : Int) :
    ∀ (fuel : Nat) (mem : Bytes) (ds : Int) (i : Nat),
      1 ≤ ds → ds ≤ fuel → i ≤ src.length → (i : Int) ≤ count →
      ∃ mem2 : Bytes,
        StringCopyLoop src dest count fuel mem ds i
          = .ok (mem2, min (min (src.length : Int) (i + ds - 1)) count) ∧
        (∀ j : Nat, i ≤ j → (j : Int) < min (min (src.length : Int) (i + ds - 1)) count →
          mem2 (dest + j) = charAt src j) ∧
        mem2 (dest + min (min (src.length : Int) (i + ds - 1)) count) = 0 ∧
        ∀ a, (a < dest + i ∨ dest + min (min (src.length : Int) (i + ds - 1)) count < a) →
          mem2 a = mem a := by
  intro fuel
  induction fuel with
  | zero => intro mem ds i h1 h2; simp at h2; omega
  | succ n ih =>
    intro mem ds i h1 h2 hi hc
    unfold StringCopyLoop
    by_cases hstop : ds = 1 ∨ (i : Int) = count
    · have hm : min (min (src.length : Int) (i + ds - 1)) count = i := by
        rcases hstop with h | h <;> omega
      rw [hm]
      simp only [hstop, if_true]
      refine ⟨_, rfl, ?_, by simp [setByte], ?_⟩
      · intro j hj1 hj2; omega
      · intro a ha
        simp only [setByte]
        rw [if_neg (by omega)]
    · simp only [hstop, if_false]
      have hds : ds ≠ 1 := fun h => hstop (Or.inl h)
      have hic : (i : Int) ≠ count := fun h => hstop (Or.inr h)
      by_cases h0 : charAt src i = 0
      · have hL : src.length = i := by
          have := (charAt_eq_zero_iff hz i).mp h0
          omega
        have hm : min (min (src.length : Int) (i + ds - 1)) count = i := by omega
        rw [hm]
        simp only [h0, if_true]
        refine ⟨_, rfl, ?_, by simp [setByte], ?_⟩
        · intro j hj1 hj2; omega
        · intro a ha
          simp only [setByte]
          rw [if_neg (by omega)]
      · simp only [h0, if_false]
        have hlt : i < src.length := by
          by_contra hh
          exact h0 ((charAt_eq_zero_iff hz i).mpr (by omega))
        obtain ⟨mem2, e1, e2, e3, e4⟩ := ih (setByte mem (dest + i) (charAt src i)) (ds - 1)
          (i + 1) (by omega) (by push_cast at h2; omega) (by omega) (by push_cast; omega)
        have hm : min (min (src.length : Int) (((i + 1 : Nat) : Int) + (ds - 1) - 1)) count
            = min (min (src.length : Int) (i + ds - 1)) count := by
          push_cast; congr 2; ring
        rw [hm] at e1 e2 e3 e4
        refine ⟨mem2, e1, ?_, e3, ?_⟩
        · intro j hj1 hj2
          by_cases hji : j = i
          · subst hji
            rw [e4 _ (Or.inl (by push_cast; omega))]
            simp [setByte]
          · exact e2 j (by omega) hj2
        · intro a ha
          have hm2 : (i : Int) + 1 ≤ min (min (src.length : Int) (i + ds - 1)) count := by
            omega
          rw [e4 a (by rcases ha with h | h
                       · left; push_cast; omega
                       · right; exact h)]
          simp only [setByte]
          rw [if_neg (by omega)]

/-- `StringCopy` with its effective count, which is `destSize - 1` when `count`
is 0. -/
theorem StringCopy_spec {src : List Int} (hz : ∀ c ∈ src, c ≠ 0) (mem : Bytes)
    (dest destSize count : Int) (h1 : 1 ≤ destSize) (h2 : 0 ≤ count) :
    ∃ mem2 : Bytes,
      StringCopy mem dest destSize src count
        = .ok (mem2, min (min (src.length : Int) (destSize - 1))
            (if count = 0 then destSize - 1 else count)) ∧
      (∀ j : Nat, (j : Int) < min (min (src.length : Int) (destSize - 1))
          (if count = 0 then destSize - 1 else count) → mem2 (dest + j) = charAt src j) ∧
      mem2 (dest + min (min (src.length : Int) (destSize - 1))
        (if count = 0 then destSize - 1 else count)) = 0 ∧
      ∀ a, (a < dest ∨ dest + min (min (src.length : Int) (destSize - 1))
          (if count = 0 then destSize - 1 else count) < a) → mem2 a = mem a := by
  unfold StringCopy
  have n1 : ¬ ¬ destSize > 0 := by omega
  have n2 : ¬ ¬ count ≥ 0 := by omega
  simp only [n1, n2, if_false]
  obtain ⟨mem2, e1, e2, e3, e4⟩ := StringCopyLoop_spec hz dest
    (if count = 0 then destSize - 1 else count) destSize.toNat mem destSize 0 h1
    (by rw [Int.toNat_of_nonneg (by omega)]) (Nat.zero_le _)
    (by split_ifs <;> simp <;> omega)
  simp only [Nat.cast_zero, zero_add, add_zero] at e1 e2 e3 e4
  exact ⟨mem2, e1, fun j hj => e2 j (Nat.zero_le _) hj, e3, e4⟩

/-- C22.  For a source string of `L` characters before its NUL, `destSize ≥ 1`
and `count ≥ 0`, `StringCopy(dest, destSize, src, count)` returns
`m = min(L, destSize - 1, count)` when `count > 0` and `m = min(L, destSize - 1)`
when `count == 0`; afterwards `dest[0..m)` holds `src[0..m)`, `dest[m]` is NUL,
and every byte outside `dest[0..m]`, so every byte at an index `≥ destSize`, is
as it was. -/
theorem StringCopy_contract {src : List Int} (hz : ∀ c ∈ src, c ≠ 0) (mem : Bytes)
    (dest destSize count : Int) (h1 : 1 ≤ destSize) (h2 : 0 ≤ count) :
    ∃ (mem2 : Bytes) (m : Int), StringCopy mem dest destSize src count = .ok (mem2, m) ∧
      (0 < count → m = min (min (src.length : Int) (destSize - 1)) count) ∧
      (count = 0 → m = min (src.length : Int) (destSize - 1)) ∧
      0 ≤ m ∧ m ≤ destSize - 1 ∧
      (∀ j : Nat, (j : Int) < m → mem2 (dest + j) = src.getD j 0) ∧
      mem2 (dest + m) = 0 ∧
      ∀ a, (a < dest ∨ dest + m < a) → mem2 a = mem a := by
  obtain ⟨mem2, e1, e2, e3, e4⟩ := StringCopy_spec hz mem dest destSize count h1 h2
  refine ⟨mem2, _, e1, ?_, ?_, ?_, ?_, e2, e3, e4⟩
  · intro hc
    rw [if_neg (by omega)]
  · intro hc
    rw [if_pos hc]
    omega
  · split_ifs <;> omega
  · split_ifs <;> omega

theorem StringCopy_contract_witness :
    (∀ c ∈ tempName, c ≠ 0) ∧
    ∃ (mem2 : Bytes) (m : Int), StringCopy (fun _ => 7) 8 16 tempName 3 = .ok (mem2, m) ∧
      (0 < (3 : Int) → m = min (min (tempName.length : Int) (16 - 1)) 3) ∧
      ((3 : Int) = 0 → m = min (tempName.length : Int) (16 - 1)) ∧
      0 ≤ m ∧ m ≤ 16 - 1 ∧
      (∀ j : Nat, (j : Int) < m → mem2 (8 + j) = tempName.getD j 0) ∧
      mem2 (8 + m) = 0 ∧
      ∀ a : Int, (a < 8 ∨ 8 + m < a) → mem2 a = (fun _ => 7 : Bytes) a :=
  ⟨by decide, StringCopy_contract (by decide) (fun _ => 7) 8 16 3 (by decide) (by decide)⟩

/-! ## `GetFileNameFromPath` -/

theorem lastSegment_append_sep (pre : List Int) (c : Int) (hc : c = 92 ∨ c = 47) :
    lastSegment (pre ++ [c]) = [] := by
  unfold lastSegment
  rw [List.reverse_append, List.reverse_singleton, List.singleton_append, List.takeWhile_cons]
  have : decide (c ≠ 92 ∧ c ≠ 47) = false := by
    rcases hc with h | h <;> simp [h]
  rw [this]
  rfl

theorem lastSegment_append_char (pre : List Int) (c : Int) (hc : ¬ (c = 92 ∨ c = 47)) :
    lastSegment (pre ++ [c]) = lastSegment pre ++ [c] := by
  unfold lastSegment
  rw [List.reverse_append, List.reverse_singleton, List.singleton_append, List.takeWhile_cons]
  have : decide (c ≠ 92 ∧ c ≠ 47) = true := by
    simp only [not_or] at hc
    simp [hc.1, hc.2]
  rw [this]
  simp

/-- The scan loop of `GetFileNameFromPath` ends with `scan` at the end of the
path and `onePastLastSlash` at the start of its last segment. -/
theorem scanPath_spec : ∀ (rest pre : List Int) (one : Nat), (∀ c ∈ rest, c ≠ 0) →
    one ≤ pre.length → pre.drop one = lastSegment pre →
    (scanPath rest pre.length one).1 = (pre ++ rest).length ∧
    (scanPath rest pre.length one).2 ≤ (pre ++ rest).length ∧
    (pre ++ rest).drop (scanPath rest pre.length one).2 = lastSegment (pre ++ rest) := by
  intro rest
  induction rest with
  | nil =>
    intro pre one _ h1 h2
    simp only [scanPath, List.append_nil]
    exact ⟨trivial, h1, h2⟩
  | cons c r ih =>
    intro pre one hz h1 h2
    have hc0 : c ≠ 0 := hz c (List.mem_cons_self _ _)
    have hz2 : ∀ x ∈ r, x ≠ 0 := fun x hx => hz x (List.mem_cons_of_mem _ hx)
    have happ : pre ++ c :: r = (pre ++ [c]) ++ r := by simp
    have hlen : (pre ++ [c]).length = pre.length + 1 := by simp
    simp only [scanPath, hc0, if_false]
    by_cases hs : c = 92 ∨ c = 47
    · simp only [hs, if_true]
      rw [happ, ← hlen]
      refine ih (pre ++ [c]) _ hz2 (le_refl _) ?_
      rw [List.drop_length, lastSegment_append_sep pre c hs]
    · simp only [hs, if_false]
      rw [happ, ← hlen]
      refine ih (pre ++ [c]) _ hz2 (by rw [hlen]; omega) ?_
      rw [lastSegment_append_char pre c hs, ← h2, List.drop_append_of_le_length h1]

theorem lastSegment_no_nul {path : List Int} (hz : ∀ c ∈ path, c ≠ 0) :
    ∀ c ∈ lastSegment path, c ≠ 0 := by
  intro c hc
  unfold lastSegment at hc
  rw [List.mem_reverse] at hc
  have := (List.takeWhile_sublist _).subset hc
  exact hz c (List.mem_reverse.mp this)

theorem lastSegment_length_le (path : List Int) : (lastSegment path).length ≤ path.length := by
  unfold lastSegment
  rw [List.length_reverse]
  have := (List.takeWhile_sublist (fun c => decide (c ≠ 92 ∧ c ≠ 47)) (l := path.reverse)).length_le
  simpa using this

/-- C24.  For a path of fewer than `2^31` characters before its NUL and
`destSize ≥ 1`, `GetFileNameFromPath(path, dest, destSize)` leaves in `dest` the
part of the path after its last `/` or `\` (the whole path when it has neither,
nothing when it ends in one), cut to its first `destSize - 1` characters and
followed by a NUL; it writes nowhere else. -/
theorem GetFileNameFromPath_spec {path : List Int} (hz : ∀ c ∈ path, c ≠ 0)
    (hlen : (path.length : Int) < 2147483648) (mem : Bytes) (dest destSize : Int)
    (h1 : 1 ≤ destSize) :
    ∃ mem2 : Bytes, GetFileNameFromPath mem path dest destSize = .ok mem2 ∧
      (∀ j : Nat, j < ((lastSegment path).take (destSize - 1).toNat).length →
        mem2 (dest + j) = ((lastSegment path).take (destSize - 1).toNat).getD j 0) ∧
      mem2 (dest + (((lastSegment path).take (destSize - 1).toNat).length : Nat)) = 0 ∧
      ∀ a, (a < dest ∨ dest + (((lastSegment path).take (destSize - 1).toNat).length : Nat) < a) →
        mem2 a = mem a := by
  obtain ⟨s1, s2, s3⟩ := scanPath_spec path [] 0 hz (Nat.le_refl _) (by simp [lastSegment])
  simp only [List.nil_append, List.length_nil] at s1 s2 s3
  have hsl := lastSegment_length_le path
  have hcount : wrap32 (((scanPath path 0 0).1 : Int) - ((scanPath path 0 0).2 : Int))
      = ((lastSegment path).length : Int) := by
    have h3 : (lastSegment path).length = path.length - (scanPath path 0 0).2 := by
      rw [← s3, List.length_drop]
    rw [s1, h3]
    unfold wrap32
    omega
  obtain ⟨mem2, e1, e2, e3, e4⟩ := StringCopy_spec (lastSegment_no_nul hz) mem dest destSize
    ((lastSegment path).length : Int) h1 (by omega)
  have hm : min (min ((lastSegment path).length : Int) (destSize - 1))
      (if ((lastSegment path).length : Int) = 0 then destSize - 1
        else ((lastSegment path).length : Int))
      = (((lastSegment path).take (destSize - 1).toNat).length : Nat) := by
    rw [List.length_take]
    split_ifs <;> omega
  rw [hm] at e1 e2 e3 e4
  refine ⟨mem2, ?_, ?_, e3, e4⟩
  · simp only [GetFileNameFromPath, s3, hcount, e1, Except.map]
  · intro j hj
    rw [e2 j (by exact_mod_cast hj)]
    unfold charAt
    have hj2 : j < (lastSegment path).length := by
      rw [List.length_take] at hj; omega
    rw [List.getD_eq_getElem _ _ hj2, List.getD_eq_getElem _ _ hj, List.getElem_take]

theorem GetFileNameFromPath_spec_witness :
    (∀ c ∈ ([97, 47, 98, 92, 99, 100, 101] : List Int), c ≠ 0) ∧
    lastSegment [97, 47, 98, 92, 99, 100, 101] = [99, 100, 101] ∧
    ∃ mem2 : Bytes,
      GetFileNameFromPath (fun _ => 7) [97, 47, 98, 92, 99, 100, 101] 10 3 = .ok mem2 ∧
      (∀ j : Nat,
        j < ((lastSegment [97, 47, 98, 92, 99, 100, 101]).take ((3 : Int) - 1).toNat).length →
        mem2 (10 + j)
          = ((lastSegment [97, 47, 98, 92, 99, 100, 101]).take ((3 : Int) - 1).toNat).getD j 0) ∧
      mem2 (10 + (((lastSegment [97, 47, 98, 92, 99, 100, 101]).take
        ((3 : Int) - 1).toNat).length : Nat)) = 0 ∧
      ∀ a : Int, (a < 10 ∨ 10 + (((lastSegment [97, 47, 98, 92, 99, 100, 101]).take
          ((3 : Int) - 1).toNat).length : Nat) < a) → mem2 a = (fun _ => 7 : Bytes) a :=
  ⟨by decide, by decide,
    @GetFileNameFromPath_spec [97, 47, 98, 92, 99, 100, 101] (by decide) (by decide)
      (fun _ => 7) 10 3 (by decide)⟩

/-! ## `IntToString` and `StringToInt` -/

theorem digitsLE_small {k : Nat} (h : k < 10) : digitsLE k = [k] := by
  unfold digitsLE
  by_cases h0 : k = 0
  · simp [h0]
  · rw [if_neg h0, Nat.digits_of_lt 10 k h0 h]

theorem digitsLE_big {k : Nat} (h : 10 ≤ k) :
    digitsLE k = (k % 10) :: digitsLE (k / 10) := by
  unfold digitsLE
  rw [if_neg (by omega), if_neg (by omega), Nat.digits_def' (by norm_num) (by omega)]

theorem digitsLE_length_pos (k : Nat) : 1 ≤ (digitsLE k).length := by
  by_cases h : k < 10
  · rw [digitsLE_small h]; simp
  · rw [digitsLE_big (by omega)]; simp

theorem digitsLE_length : ∀ (e k : Nat), k < 10 ^ (e + 1) → (digitsLE k).length ≤ e + 1 := by
  intro e
  induction e with
  | zero =>
    intro k hk
    rw [digitsLE_small (by simpa using hk)]
    simp
  | succ e ih =>
    intro k hk
    by_cases h : k < 10
    · rw [digitsLE_small h]; simp
    · rw [digitsLE_big (by omega), List.length_cons]
      have : k / 10 < 10 ^ (e + 1) := by
        rw [Nat.div_lt_iff_lt_mul (by norm_num)]
        rw [pow_succ] at hk
        exact hk
      have := ih _ this
      omega

theorem digitsLE_lt (k : Nat) : ∀ d ∈ digitsLE k, d < 10 := by
  intro d hd
  unfold digitsLE at hd
  by_cases h0 : k = 0
  · rw [if_pos h0] at hd
    simp at hd
    omega
  · rw [if_neg h0] at hd
    exact Nat.digits_lt_base (by norm_num) hd

/-- The digits of `digitsLE k`, read from the most significant one, give `k`
back. -/
theorem digitsLE_value : ∀ (n k : Nat), k ≤ n →
    List.foldr (fun (d : Nat) (acc : Int) => acc * 10 + (((d : Int) + 48) - 48)) (0 : Int)
      (digitsLE k) = k := by
  intro n
  induction n with
  | zero =>
    intro k hk
    rw [digitsLE_small (by omega)]
    simp
  | succ n ih =>
    intro k hk
    by_cases h : k < 10
    · rw [digitsLE_small h]
      simp
    · rw [digitsLE_big (by omega), List.foldr_cons, ih (k / 10) (by omega)]
      push_cast
      omega

theorem decimalSpec_eq (n : Int) :
    decimalSpec n = (if n < 0 then [45] else []) ++
      (digitsLE n.natAbs).reverse.map (fun (d : Nat) => (d : Int) + 48) := by
  unfold decimalSpec digitsLE
  by_cases h0 : n = 0
  · subst h0
    simp
  · have h1 : ¬ n.natAbs = 0 := by simpa using h0
    rw [if_neg h0, if_neg h1]

/-- The value read from decimal characters never falls below the value read so
far. -/
theorem decimalFold_ge : ∀ (cs : List Int) (a : Int), 0 ≤ a → (∀ c ∈ cs, 48 ≤ c ∧ c ≤ 57) →
    a ≤ cs.foldl (fun (acc c : Int) => acc * 10 + (c - 48)) a := by
  intro cs
  induction cs with
  | nil => intro a _ _; simp
  | cons c rest ih =>
    intro a ha hc
    rw [List.foldl_cons]
    have h1 := hc c (List.mem_cons_self _ _)
    have := ih (a * 10 + (c - 48)) (by omega) (fun x hx => hc x (List.mem_cons_of_mem _ hx))
    omega

/-- The digit loop of `IntToString`, given room for all digits of `k`, writes
them from index `i` on, least significant first, and a NUL after them. -/
theorem intDigitsLoop_spec (str size : Int) (hsz : size < 2147483648) :
    ∀ (fuel : Nat) (mem : Bytes) (k : Nat) (i : Int),
      0 ≤ i → i + (digitsLE k).length ≤ size - 1 → (digitsLE k).length ≤ fuel →
      ∃ mem2 : Bytes,
        intDigitsLoop str size fuel mem (k : Int) i = .ok (mem2, i + (digitsLE k).length) ∧
        (∀ j : Nat, j < (digitsLE k).length →
          mem2 (str + i + j) = ((digitsLE k).getD j 0 : Nat) + 48) ∧
        mem2 (str + i + (digitsLE k).length) = 0 ∧
        ∀ a, (a < str + i ∨ str + i + (digitsLE k).length < a) → mem2 a = mem a := by
  intro fuel
  induction fuel with
  | zero =>
    intro mem k i _ _ hf
    have := digitsLE_length_pos k
    omega
  | succ fuel ih =>
    intro mem k i hi hroom hf
    have hdiv : Int.tdiv (k : Int) 10 = ((k / 10 : Nat) : Int) := by
      have := Int.ofNat_tdiv k 10
      simpa using this.symm
    have hmod : Int.tmod (k : Int) 10 = ((k % 10 : Nat) : Int) := by
      have := Int.ofNat_tmod k 10
      simpa using this.symm
    have hpos := digitsLE_length_pos k
    have hw : wrap32 (i + 1) = i + 1 := by unfold wrap32; omega
    have hws : wrap32 (size - 1) = size - 1 := by unfold wrap32; omega
    unfold intDigitsLoop
    rw [hdiv, hmod, hw, hws]
    by_cases hk : k < 10
    · have hd := digitsLE_small hk
      have h0 : ((k / 10 : Nat) : Int) = 0 := by
        have : k / 10 = 0 := by omega
        simp [this]
      rw [if_pos (Or.inr h0)]
      have hm : k % 10 = k := by omega
      rw [hd, hm]
      refine ⟨setByte (setByte mem (str + i) ((k : Int) + 48)) (str + (i + 1)) 0, by simp,
        ?_, ?_, ?_⟩
      · intro j hj
        have hj0 : j = 0 := by simpa using hj
        subst hj0
        simp [setByte]
      · simp only [setByte, List.length_singleton, Nat.cast_one]
        rw [if_pos (by ring)]
      · intro a ha
        simp only [List.length_singleton, Nat.cast_one] at ha
        simp only [setByte]
        rw [if_neg (by omega), if_neg (by omega)]
    · have hd := digitsLE_big (show 10 ≤ k by omega)
      have hlen : (digitsLE k).length = (digitsLE (k / 10)).length + 1 := by
        rw [hd, List.length_cons]
      have hpos2 := digitsLE_length_pos (k / 10)
      have h0 : ¬ (i + 1 ≥ size - 1 ∨ ((k / 10 : Nat) : Int) = 0) := by
        have : k / 10 ≠ 0 := by omega
        have h2 : ((k / 10 : Nat) : Int) ≠ 0 := by exact_mod_cast this
        intro h
        rcases h with h | h
        · omega
        · exact h2 h
      rw [if_neg h0]
      obtain ⟨mem2, e1, e2, e3, e4⟩ := ih (setByte mem (str + i) (((k % 10 : Nat) : Int) + 48))
        (k / 10) (i + 1) (by omega) (by omega) (by omega)
      refine ⟨mem2, ?_, ?_, ?_, ?_⟩
      · rw [e1, hlen]
        push_cast
        congr 2
        ring
      · intro j hj
        rw [hd]
        cases j with
        | zero =>
          rw [e4 _ (Or.inl (by push_cast; omega))]
          simp [setByte]
        | succ j =>
          rw [List.getD_cons_succ]
          have := e2 j (by omega)
          rw [← this]
          congr 1
          push_cast
          ring
      · rw [hlen]
        rw [← e3]
        congr 1
        push_cast
        ring
      · intro a ha
        rw [e4 a (by omega)]
        simp only [setByte]
        rw [if_neg (by omega)]

/-- The rotation loop of `IntToString` mirrors the bytes between its two
indices and leaves the rest alone. -/
theorem rotateLoop_spec (str : Int) :
    ∀ (fuel : Nat) (mem : Bytes) (a b : Int),
      0 ≤ a → b < 2147483648 → 0 < fuel → b - a < fuel →
      ∃ mem2 : Bytes, rotateLoop str fuel mem a b = .ok mem2 ∧
        ∀ p, mem2 p = if str + a ≤ p ∧ p ≤ str + b then mem (str + a + (str + b) - p) else mem p := by
  intro fuel
  induction fuel with
  | zero => intro mem a b _ _ hf; omega
  | succ fuel ih =>
    intro mem a b ha hb _ hf
    unfold rotateLoop
    by_cases hab : a < b
    · rw [if_pos hab]
      have hw1 : wrap32 (a + 1) = a + 1 := by unfold wrap32; omega
      have hw2 : wrap32 (b - 1) = b - 1 := by unfold wrap32; omega
      rw [hw1, hw2]
      obtain ⟨mem2, e1, e2⟩ := ih
        (setByte (setByte mem (str + a) (mem (str + b))) (str + b) (mem (str + a)))
        (a + 1) (b - 1) (by omega) (by omega) (by omega) (by omega)
      refine ⟨mem2, e1, ?_⟩
      intro p
      rw [e2 p]
      by_cases hin : str + (a + 1) ≤ p ∧ p ≤ str + (b - 1)
      · rw [if_pos hin, if_pos (by omega)]
        simp only [setByte]
        rw [if_neg (by omega), if_neg (by omega)]
        congr 1
        ring
      · rw [if_neg hin]
        simp only [setByte]
        by_cases hpb : p = str + b
        · rw [if_pos hpb, if_pos (by omega)]
          congr 1
          omega
        · rw [if_neg hpb]
          by_cases hpa : p = str + a
          · rw [if_pos hpa, if_pos (by omega)]
            congr 1
            omega
          · rw [if_neg hpa, if_neg (by omega)]
    · rw [if_neg hab]
      refine ⟨mem, rfl, ?_⟩
      intro p
      by_cases hin : str + a ≤ p ∧ p ≤ str + b
      · rw [if_pos hin]
        congr 1
        omega
      · rw [if_neg hin]

/-- The two loops of `IntToString` together: the digits of `k` end up from
index `s` on, the highest first, followed by a NUL. -/
theorem intDigits_rotate (str size : Int) (hsz : size < 2147483648) (fuel : Nat) (mem : Bytes)
    (k : Nat) (s : Int) (hs : 0 ≤ s) (hroom : s + (digitsLE k).length ≤ size - 1)
    (hf : (digitsLE k).length ≤ fuel) :
    ∃ (mem1 mem3 : Bytes) (index : Int),
      intDigitsLoop str size fuel mem (k : Int) s = .ok (mem1, index) ∧
      rotateLoop str fuel mem1 s (wrap32 (index - 1)) = .ok mem3 ∧
      (∀ j : Nat, j < (digitsLE k).length →
        mem3 (str + s + j)
          = (((digitsLE k).reverse.map (fun (d : Nat) => (d : Int) + 48)).getD j 0)) ∧
      mem3 (str + s + (digitsLE k).length) = 0 ∧
      ∀ a, (a < str + s ∨ str + s + (digitsLE k).length < a) → mem3 a = mem a := by
  obtain ⟨mem1, e1, e2, e3, e4⟩ := intDigitsLoop_spec str size hsz fuel mem k s hs hroom hf
  have hpos := digitsLE_length_pos k
  have hw : wrap32 (s + (digitsLE k).length - 1) = s + (digitsLE k).length - 1 := by
    unfold wrap32; omega
  obtain ⟨mem3, r1, r2⟩ := rotateLoop_spec str fuel mem1 s (s + (digitsLE k).length - 1)
    hs (by omega) (by omega) (by omega)
  refine ⟨mem1, mem3, _, e1, ?_, ?_, ?_, ?_⟩
  · rw [hw, r1]
  · intro j hj
    rw [r2, if_pos (by omega)]
    have hidx : str + s + (str + (s + ((digitsLE k).length : Int) - 1)) - (str + s + j)
        = str + s + (((digitsLE k).length - 1 - j : Nat) : Int) := by
      omega
    rw [hidx, e2 _ (by omega)]
    have hj2 : j < ((digitsLE k).reverse.map (fun (d : Nat) => (d : Int) + 48)).length := by
      simpa using hj
    rw [List.getD_eq_getElem _ _ hj2, List.getElem_map, List.getElem_reverse,
      List.getD_eq_getElem _ _ (by omega)]
  · rw [r2, if_neg (by omega), e3]
  · intro a ha
    rw [r2, if_neg (by omega), e4 a ha]

/-- The loop of `StringToInt` over decimal characters followed by a NUL reads
their value, as long as that value fits an `int`. -/
theorem stringToIntLoop_spec (mem : Bytes) (str : Int) :
    ∀ (cs : List Int) (fuel : Nat) (number i : Int),
      (∀ c ∈ cs, 48 ≤ c ∧ c ≤ 57) → cs.length < fuel → 0 ≤ number → 0 ≤ i →
      i + cs.length < 2147483647 →
      cs.foldl (fun (acc c : Int) => acc * 10 + (c - 48)) number < 2147483648 →
      (∀ j : Nat, j < cs.length → mem (str + i + j) = cs.getD j 0) →
      mem (str + i + cs.length) = 0 →
      stringToIntLoop mem str fuel number i
        = .ok (cs.foldl (fun (acc c : Int) => acc * 10 + (c - 48)) number) := by
  intro cs
  induction cs with
  | nil =>
    intro fuel number i _ hf _ _ _ _ _ hend
    cases fuel with
    | zero => simp at hf
    | succ fuel =>
      have h0 : mem (str + i) = 0 := by simpa using hend
      unfold stringToIntLoop
      rw [h0]
      simp
  | cons c rest ih =>
    intro fuel number i hc hf hn hi hlen hval hmem hend
    cases fuel with
    | zero => simp at hf
    | succ fuel =>
      have hc1 := hc c (List.mem_cons_self _ _)
      have hrest : ∀ x ∈ rest, 48 ≤ x ∧ x ≤ 57 := fun x hx => hc x (List.mem_cons_of_mem _ hx)
      have h0 : mem (str + i) = c := by
        have := hmem 0 (by simp)
        simpa using this
      simp only [List.length_cons, Nat.cast_add, Nat.cast_one] at hlen hend hf
      have hw : wrap32 (i + 1) = i + 1 := by unfold wrap32; omega
      have hmem2 : ∀ j : Nat, j < rest.length → mem (str + (i + 1) + j) = rest.getD j 0 := by
        intro j hj
        have := hmem (j + 1) (by simp; omega)
        rw [List.getD_cons_succ] at this
        rw [← this]
        congr 1
        push_cast
        ring
      have hend2 : mem (str + (i + 1) + rest.length) = 0 := by
        rw [← hend]
        congr 1
        ring
      rw [List.foldl_cons] at hval ⊢
      have hge := decimalFold_ge rest (number * 10 + (c - 48)) (by omega) hrest
      unfold stringToIntLoop
      rw [h0, hw]
      by_cases hz : c = 48 ∧ number = 0
      · rw [if_pos hz]
        have : number * 10 + (c - 48) = number := by omega
        rw [this] at hval ⊢
        exact ih fuel number (i + 1) hrest (by omega) hn (by omega) (by omega) hval hmem2 hend2
      · rw [if_neg hz, if_pos ⟨by omega, by omega⟩]
        have hw2 : wrap32 (wrap32 (number * 10) + (c - 48)) = number * 10 + (c - 48) := by
          unfold wrap32; omega
        rw [hw2]
        exact ih fuel _ (i + 1) hrest (by omega) (by omega) (by omega) (by omega) hval hmem2 hend2

/-- The decimal characters of `k`, the highest first, read back as `k`. -/
theorem decimalFold_digits (k : Nat) :
    ((digitsLE k).reverse.map (fun (d : Nat) => (d : Int) + 48)).foldl
      (fun (acc c : Int) => acc * 10 + (c - 48)) (0 : Int) = (k : Int) := by
  rw [List.foldl_map, List.foldl_reverse]
  exact digitsLE_value k k (le_refl _)

theorem decimal_chars (k : Nat) :
    ∀ c ∈ (digitsLE k).reverse.map (fun (d : Nat) => (d : Int) + 48), 48 ≤ c ∧ c ≤ 57 := by
  intro c hc
  rw [List.mem_map] at hc
  obtain ⟨d, hd, rfl⟩ := hc
  have := digitsLE_lt k d (List.mem_reverse.mp hd)
  omega

theorem decimal_chars_length (k : Nat) :
    ((digitsLE k).reverse.map (fun (d : Nat) => (d : Int) + 48)).length = (digitsLE k).length := by
  simp

/-- C26.  For every `n` with `-2^31 < n < 2^31` and every buffer size of at
least 12, `IntToString(n, str, size)` writes the usual decimal representation of
`n` (a `-` for negative `n`, no leading zeros, `"0"` for zero) followed by a
NUL, touches nothing else, and `StringToInt` on the written string returns
`n`. -/
theorem IntToString_round_trip (fuel : Nat) (mem : Bytes) (n str size : Int)
    (hn1 : -2147483648 < n) (hn2 : n < 2147483648) (hs1 : 12 ≤ size) (hs2 : size < 2147483648)
    (hf : 12 ≤ fuel) :
    ∃ mem2 : Bytes, IntToString fuel mem n str size = .ok mem2 ∧
      (∀ j : Nat, j < (decimalSpec n).length → mem2 (str + j) = (decimalSpec n).getD j 0) ∧
      mem2 (str + (decimalSpec n).length) = 0 ∧
      (∀ a : Int, (a < str ∨ str + (decimalSpec n).length < a) → mem2 a = mem a) ∧
      StringToInt fuel mem2 str = .ok n := by
  have hk10 : n.natAbs < 10 ^ (9 + 1) := by
    have : (n.natAbs : Int) < 2147483648 := by
      rcases Int.natAbs_eq n with h | h <;> omega
    have h2 : n.natAbs < 2147483648 := by exact_mod_cast this
    norm_num
    omega
  have hlen := digitsLE_length 9 n.natAbs hk10
  have hpos := digitsLE_length_pos n.natAbs
  have hcl := decimal_chars_length n.natAbs
  have hch := decimal_chars n.natAbs
  have hval := decimalFold_digits n.natAbs
  rw [decimalSpec_eq]
  by_cases hneg : n < 0
  · have hk : (n.natAbs : Int) = -n := by
      rcases Int.natAbs_eq n with h | h <;> omega
    have hw : wrap32 (n * -1) = (n.natAbs : Int) := by
      rw [hk]; unfold wrap32; omega
    obtain ⟨mem1, mem3, index, e1, e2, e3, e4, e5⟩ := intDigits_rotate str size hs2 fuel
      (setByte mem (str + 0) 45) n.natAbs 1 (by norm_num) (by omega) (by omega)
    have h45 : mem3 (str + 0) = 45 := by
      rw [e5 _ (Or.inl (by omega))]
      simp [setByte]
    refine ⟨mem3, ?_, ?_, ?_, ?_, ?_⟩
    · unfold IntToString
      simp only [if_pos hneg]
      rw [hw, e1]
      exact e2
    · intro j hj
      rw [if_pos hneg, List.singleton_append] at hj ⊢
      cases j with
      | zero => simpa using h45
      | succ j =>
        rw [List.getD_cons_succ, ← e3 j (by simp at hj; omega)]
        congr 1
        push_cast
        ring
    · rw [if_pos hneg, List.singleton_append, List.length_cons, hcl, ← e4]
      congr 1
      push_cast
      ring
    · intro a ha
      rw [if_pos hneg, List.singleton_append, List.length_cons, hcl] at ha
      rw [e5 a (by push_cast at ha; omega)]
      simp only [setByte]
      rw [if_neg (by omega)]
    · unfold StringToInt
      rw [h45]
      simp only [if_true]
      rw [stringToIntLoop_spec mem3 str _ fuel 0 1 hch (by rw [hcl]; omega) (le_refl _)
        (by norm_num) (by rw [hcl]; omega) (by rw [hval]; omega)
        (by rw [hcl]; exact e3) (by rw [hcl]; exact e4), hval]
      have hfin : wrap32 ((n.natAbs : Int) * -1) = n := by rw [hk]; unfold wrap32; omega
      simp only [Except.map, hfin]
  · have hk : (n.natAbs : Int) = n := by
      rcases Int.natAbs_eq n with h | h <;> omega
    obtain ⟨mem1, mem3, index, e1, e2, e3, e4, e5⟩ := intDigits_rotate str size hs2 fuel
      mem n.natAbs 0 (le_refl _) (by omega) (by omega)
    have hfirst : 48 ≤ mem3 (str + 0) ∧ mem3 (str + 0) ≤ 57 := by
      have h1 := e3 0 (by omega)
      have h2 : (0 : Nat) < ((digitsLE n.natAbs).reverse.map
          (fun (d : Nat) => (d : Int) + 48)).length := by rw [hcl]; omega
      rw [List.getD_eq_getElem _ _ h2] at h1
      have h3 := hch _ (List.getElem_mem h2)
      rw [← h1] at h3
      simpa using h3
    refine ⟨mem3, ?_, ?_, ?_, ?_, ?_⟩
    · unfold IntToString
      simp only [if_neg hneg]
      rw [← hk, e1]
      exact e2
    · intro j hj
      rw [if_neg hneg, List.nil_append] at hj ⊢
      rw [← e3 j (by rw [hcl] at hj; exact hj)]
      congr 1
      ring
    · rw [if_neg hneg, List.nil_append, hcl, ← e4]
      congr 1
      ring
    · intro a ha
      rw [if_neg hneg, List.nil_append, hcl] at ha
      exact e5 a (by omega)
    · unfold StringToInt
      rw [if_neg (by omega), if_neg (by omega), if_neg (by omega)]
      rw [stringToIntLoop_spec mem3 str _ fuel 0 0 hch (by rw [hcl]; omega) (le_refl _)
        (le_refl _) (by rw [hcl]; omega) (by rw [hval]; omega)
        (by rw [hcl]; exact e3) (by rw [hcl]; exact e4), hval]
      have hfin : wrap32 ((n.natAbs : Int) * 1) = n := by rw [hk]; unfold wrap32; omega
      simp only [Except.map, hfin]

theorem IntToString_round_trip_witness :
    decimalSpec (-1203) = [45, 49, 50, 48, 51] ∧
    ∃ mem2 : Bytes, IntToString 12 (fun _ => 7) (-1203) 100 12 = .ok mem2 ∧
      (∀ j : Nat, j < (decimalSpec (-1203)).length →
        mem2 (100 + j) = (decimalSpec (-1203)).getD j 0) ∧
      mem2 (100 + (decimalSpec (-1203)).length) = 0 ∧
      (∀ a : Int, (a < 100 ∨ 100 + (decimalSpec (-1203)).length < a) →
        mem2 a = (fun _ => 7 : Bytes) a) ∧
      StringToInt 12 mem2 100 = .ok (-1203) :=
  ⟨by norm_num [decimalSpec], IntToString_round_trip 12 (fun _ => 7) (-1203) 100 12 (by decide)
    (by decide) (by decide) (by decide) (by decide)⟩

/-! ## Hunk: requests whose rounded size leaves the `int` range -/

/-- C25 (failing inputs).  In every Hunk state that satisfies the invariants, for
every `size` from 2147483609 to `2^31 - 1` the rounded size
`Align16(size + sizeof(HunkHeader))` wraps to a negative `int`, the
out-of-memory test passes, and `HunkLowAlloc(size, name)` returns with
`g_hunk_low_used` smaller than before. -/
theorem HunkLowAlloc_wrapped_size_lowers_low_used (h : Hunk) (size : Int) (name : List Int)
    (hinv : HunkInv h) (hN : h.g_hunk_total_size < 2147483648)
    (h1 : 2147483609 ≤ size) (h2 : size ≤ 2147483647) :
    hunkRounded size < 0 ∧
    ∃ (h2 : Hunk) (p : Int), HunkLowAlloc h size name = .ok (h2, p) ∧
      h2.g_hunk_low_used = h.g_hunk_low_used + hunkRounded size ∧
      h2.g_hunk_low_used < h.g_hunk_low_used := by
  obtain ⟨i1, i2, i3, -⟩ := hinv
  have hr : -2147483648 ≤ hunkRounded size ∧ hunkRounded size ≤ -2147483616 := by
    unfold hunkRounded Align16 wrap32 sizeofHunkHeader
    omega
  have hfree : wrap32 (wrap32 (h.g_hunk_total_size - h.g_hunk_low_used) - h.g_hunk_high_used)
      = h.g_hunk_total_size - h.g_hunk_low_used - h.g_hunk_high_used := by
    unfold wrap32; omega
  have hw : wrap32 (h.g_hunk_low_used + hunkRounded size)
      = h.g_hunk_low_used + hunkRounded size := by
    unfold wrap32; omega
  obtain ⟨m, hm⟩ := writeHunkHeader_ok h.mem h.g_hunk_base h.g_hunk_low_used
    (hunkRounded size) name
  refine ⟨by omega, ?_⟩
  unfold HunkLowAlloc
  rw [if_neg (by omega), hfree, if_neg (by omega), hm, hw]
  exact ⟨_, _, rfl, rfl, by simp only; omega⟩

theorem HunkLowAlloc_wrapped_size_lowers_low_used_witness :
    HunkInv (hunkInit 0 1048576 (fun _ => 0)) ∧
    hunkRounded 2147483609 = -2147483648 ∧
    (hunkRounded 2147483609 < 0 ∧
    ∃ (h2 : Hunk) (p : Int),
      HunkLowAlloc (hunkInit 0 1048576 (fun _ => 0)) 2147483609 tempName = .ok (h2, p) ∧
      h2.g_hunk_low_used
        = (hunkInit 0 1048576 (fun _ => 0)).g_hunk_low_used + hunkRounded 2147483609 ∧
      h2.g_hunk_low_used < (hunkInit 0 1048576 (fun _ => 0)).g_hunk_low_used) :=
  ⟨by decide, by decide,
    HunkLowAlloc_wrapped_size_lowers_low_used (hunkInit 0 1048576 (fun _ => 0)) 2147483609
      tempName (by decide) (by decide) (by decide) (by decide)⟩

/-! ## `GetFileNameFromPath`: paths whose length leaves the `int` range -/

theorem lastSegment_eq_self {path : List Int} (h : ∀ c ∈ path, c ≠ 92 ∧ c ≠ 47) :
    lastSegment path = path := by
  unfold lastSegment
  have : path.reverse.takeWhile (fun c => decide (c ≠ 92 ∧ c ≠ 47)) = path.reverse := by
    rw [List.takeWhile_eq_self_iff]
    intro x hx
    exact decide_eq_true (h x (List.mem_reverse.mp hx))
  rw [this, List.reverse_reverse]

/-- C24 (counterexample).  For the path of `2^32 + 1` characters `a`, which has
no separator, the count `(int)(scan - onePastLastSlash)` is 1:
`GetFileNameFromPath(path, dest, 16)` returns with `dest[1]` NUL, while the last
segment cut to its first 15 characters has an `a` at index 1. -/
theorem GetFileNameFromPath_long_path_cut_short :
    (∀ c ∈ List.replicate 4294967297 (97 : Int), c ≠ 0) ∧
    1 < ((lastSegment (List.replicate 4294967297 (97 : Int))).take
      ((16 : Int) - 1).toNat).length ∧
    ((lastSegment (List.replicate 4294967297 (97 : Int))).take ((16 : Int) - 1).toNat).getD 1 0
      = 97 ∧
    ∃ mem2 : Bytes,
      GetFileNameFromPath (fun _ => 7) (List.replicate 4294967297 (97 : Int)) 0 16 = .ok mem2 ∧
      mem2 (0 + 1) = 0 := by
  have hz : ∀ c ∈ List.replicate 4294967297 (97 : Int), c ≠ 0 := by
    intro c hc
    rw [List.eq_of_mem_replicate hc]
    decide
  have hsep : ∀ c ∈ List.replicate 4294967297 (97 : Int), c ≠ 92 ∧ c ≠ 47 := by
    intro c hc
    rw [List.eq_of_mem_replicate hc]
    decide
  have hlast := lastSegment_eq_self hsep
  have hlen : (List.replicate 4294967297 (97 : Int)).length = 4294967297 :=
    List.length_replicate _ _
  obtain ⟨s1, s2, s3⟩ := scanPath_spec (List.replicate 4294967297 (97 : Int)) [] 0 hz
    (Nat.le_refl _) (by simp [lastSegment])
  simp only [List.nil_append, List.length_nil] at s1 s2 s3
  rw [hlast] at s3
  rw [hlen] at s1 s2
  have h2 : (scanPath (List.replicate 4294967297 (97 : Int)) 0 0).2 = 0 := by
    have := congrArg List.length s3
    rw [List.length_drop, hlen] at this
    omega
  have hcount : wrap32 (((scanPath (List.replicate 4294967297 (97 : Int)) 0 0).1 : Int)
      - ((scanPath (List.replicate 4294967297 (97 : Int)) 0 0).2 : Int)) = 1 := by
    rw [s1, h2]
    decide
  refine ⟨hz, ?_, ?_, ?_⟩
  · rw [hlast, List.take_replicate, List.length_replicate]
    decide
  · rw [hlast, List.take_replicate]
    decide
  · obtain ⟨mem2, e1, -, e3, -⟩ := StringCopy_spec hz (fun _ => 7) 0 16 1 (by decide) (by decide)
    have hm : min (min ((List.replicate 4294967297 (97 : Int)).length : Int) (16 - 1))
        (if (1 : Int) = 0 then 16 - 1 else 1) = 1 := by
      rw [hlen]
      decide
    rw [hm] at e1 e3
    refine ⟨mem2, ?_, e3⟩
    unfold GetFileNameFromPath
    rw [hcount, h2, List.drop_zero, e1]
    rfl

/-! ## `FileLoad`: the allocation targets -/

/-- C21 (failing input).  In scenario S5, after both registrations, `FileFind`
resolves `"shared.dat"` to a file of length 9 behind handle 2, and `CacheAlloc`
of 10 bytes on an empty cache over the same Hunk returns a pointer, so the cache
has room.  `FileLoad("shared.dat", CACHE)` and
`FileLoad("shared.dat", TEMPSTACK)` nevertheless end in the fatal error
`"not enough space for %s"`: their cases of the `switch` leave `buffer` null.
With `LOWHUNK`, `TEMPHUNK` and `ZONE` the same call returns a buffer whose byte
at index 9 is 0. -/
theorem FileLoad_cache_target_allocates_nothing :
    (FileFind s5Load.files.fs s5Load.files.g_search_path sharedDat (-1)).toOption.map
        (fun r => (r.2.1, r.2.2)) = some (2, 9) ∧
    (CacheAlloc 10 s5Load.files.hunk (CacheInit rawCache) 0 (9 + 1) sharedDat).toOption.map
        Prod.snd = some (some 1376) ∧
    faultOf (FileLoad 100 s5Data s5Load sharedDat .CACHE)
      = some (.sysError "not enough space for %s") ∧
    faultOf (FileLoad 100 s5Data s5Load sharedDat .TEMPSTACK)
      = some (.sysError "not enough space for %s") ∧
    (FileLoad 100 s5Data s5Load sharedDat .LOWHUNK).toOption.map
        (fun r => (r.2, r.2.map (fun b => r.1.load b 9))) = some (some (.hunk 1336), some 0) ∧
    (FileLoad 100 s5Data s5Load sharedDat .TEMPHUNK).toOption.map
        (fun r => (r.2, r.2.map (fun b => r.1.load b 9))) = some (some (.hunk 1048552), some 0) ∧
    (FileLoad 100 s5Data s5Load sharedDat .ZONE).toOption.map
        (fun r => (r.2, r.2.map (fun b => r.1.load b 9))) = some (some (.zone 80), some 0) := by
  refine ⟨by decide, by decide, by decide, by decide, by decide, by decide, by decide⟩

/-- The shape of `decimalSpec`: `"0"` for zero, a `-` before the representation
of `-n` for negative `n`, and for positive `n` decimal digits that do not start
with `0` and whose value is `n`. -/
theorem decimalSpec_shape (n : Int) :
    (n = 0 → decimalSpec n = [48]) ∧
    (n < 0 → decimalSpec n = 45 :: decimalSpec (-n)) ∧
    (0 < n → (∀ c ∈ decimalSpec n, 48 ≤ c ∧ c ≤ 57) ∧ (decimalSpec n).head? ≠ some 48 ∧
      (decimalSpec n).foldl (fun (acc c : Int) => acc * 10 + (c - 48)) 0 = n) := by
  refine ⟨?_, ?_, ?_⟩
  · intro h0
    subst h0
    simp [decimalSpec]
  · intro hneg
    unfold decimalSpec
    rw [if_pos hneg, if_neg (by omega), if_neg (by omega), if_neg (by omega), Int.natAbs_neg]
    rfl
  · intro hpos
    have hk : (n.natAbs : Int) = n := by
      rcases Int.natAbs_eq n with h | h <;> omega
    have hne : n.natAbs ≠ 0 := by
      intro h0
      rw [h0] at hk
      simp at hk
      omega
    have he := decimalSpec_eq n
    rw [if_neg (by omega), List.nil_append] at he
    refine ⟨?_, ?_, ?_⟩
    · rw [he]
      exact decimal_chars n.natAbs
    · unfold decimalSpec
      rw [if_neg (by omega), if_neg (by omega), List.nil_append, List.head?_map,
        List.head?_reverse]
      have hnil : Nat.digits 10 n.natAbs ≠ [] := Nat.digits_ne_nil_iff_ne_zero.mpr hne
      rw [List.getLast?_eq_getLast _ hnil]
      have := Nat.getLast_digit_ne_zero 10 hne
      simp only [Option.map_some', ne_eq, Option.some.injEq]
      omega
    · rw [he, decimalFold_digits, hk]

/-! ## `CacheTryAlloc`: first fit in address order -/

theorem GapsTooSmall_append (c : Cache) (s a : Int) : ∀ (l : List Int) (p : Int),
    GapsTooSmall c s p (l ++ [a]) ↔ GapsTooSmall c s p l ∧ a - candAfter c p l < s := by
  intro l
  induction l with
  | nil => intro p; simp [GapsTooSmall, candAfter]
  | cons b l ih =>
    intro p
    rw [List.cons_append]
    simp only [GapsTooSmall, candAfter]
    rw [ih]
    tauto

theorem GapsTooSmall_split (c : Cache) (s b : Int) (k3 : List Int) : ∀ (k1 : List Int) (p : Int),
    GapsTooSmall c s p (k1 ++ b :: k3) → GapsTooSmall c s p k1 ∧ b - candAfter c p k1 < s := by
  intro k1
  induction k1 with
  | nil =>
    intro p h
    simp only [List.nil_append, GapsTooSmall, candAfter] at h ⊢
    exact ⟨trivial, h.1⟩
  | cons a k1 ih =>
    intro p h
    simp only [List.cons_append, GapsTooSmall, candAfter] at h ⊢
    exact ⟨⟨h.1, (ih _ h.2).1⟩, (ih _ h.2).2⟩

/-- Under the bounds invariant the candidate position after a prefix of the
ring is not below the start, and the rest of the ring lies above it. -/
theorem CLay_cand {c : Cache} (e : Int) (k2 : List Int) : ∀ (k1 : List Int) (p : Int),
    CLay c e p (k1 ++ k2) → p ≤ candAfter c p k1 ∧ CLay c e (candAfter c p k1) k2 := by
  intro k1
  induction k1 with
  | nil =>
    intro p h
    simp only [List.nil_append, candAfter] at h ⊢
    exact ⟨le_refl _, h⟩
  | cons a k1 ih =>
    intro p h
    simp only [List.cons_append, CLay, candAfter] at h ⊢
    obtain ⟨i1, i2⟩ := ih _ h.2.2
    exact ⟨by omega, i2⟩

theorem CLay_headD_le {c : Cache} (e : Int) (k2 : List Int) (p : Int) (h : CLay c e p k2) :
    p ≤ k2.headD e ∧ k2.headD e ≤ e := by
  cases k2 with
  | nil =>
    simp only [CLay, List.headD_nil] at h ⊢
    exact ⟨h, le_refl _⟩
  | cons b k3 =>
    simp only [CLay, List.headD_cons] at h ⊢
    have := CLay_le _ _ _ h.2.2
    omega

/-- The scan of `CacheTryAlloc` stops at the first candidate position whose gap
holds `s` bytes, and returns NULL when there is none. -/
theorem cacheScan_first_fit {h : Hunk} {c : Cache} {as : List Int} (s : Int)
    (hring : AddrRingIs c as) :
    ∀ (fuel : Nat) (l1 : List Int) (a : Int) (l2 : List Int), as = l1 ++ a :: l2 →
      l2.length < fuel → GapsTooSmall c s h.g_hunk_low_used l1 →
      (cacheScan h c s fuel (candAfter c h.g_hunk_low_used l1) (.blk a) = .ok (c, none) ∧
        GapsTooSmall c s h.g_hunk_low_used as ∧
        h.g_hunk_total_size - h.g_hunk_high_used - candAfter c h.g_hunk_low_used as < s) ∨
      ∃ k1 k2, as = k1 ++ k2 ∧ GapsTooSmall c s h.g_hunk_low_used k1 ∧
        s ≤ k2.headD (h.g_hunk_total_size - h.g_hunk_high_used)
          - candAfter c h.g_hunk_low_used k1 ∧
        cacheScan h c s fuel (candAfter c h.g_hunk_low_used l1) (.blk a)
          = cacheInsertBefore h c (candAfter c h.g_hunk_low_used k1) s (firstPtr k2 .head) := by
  intro fuel
  induction fuel with
  | zero => intro l1 a l2 _ hf; simp at hf
  | succ f ih =>
    intro l1 a l2 hsplit hf hsmall
    simp only [cacheScan]
    by_cases h1 : a - candAfter c h.g_hunk_low_used l1 ≥ s
    · right
      refine ⟨l1, a :: l2, hsplit, hsmall, ?_, by simp [h1, firstPtr]⟩
      simp only [List.headD_cons]
      omega
    · simp only [h1, if_false]
      have hmid : (c.hdr (.blk a)).next = firstPtr l2 .head := by
        have := hring.1
        rw [hsplit] at this
        exact (CSeg_mid this).2
      have hc : candAfter c h.g_hunk_low_used (l1 ++ [a]) = a + (c.hdr (.blk a)).size :=
        candAfter_append c a l1 _
      have hsmall2 : GapsTooSmall c s h.g_hunk_low_used (l1 ++ [a]) :=
        (GapsTooSmall_append c s a l1 _).mpr ⟨hsmall, by omega⟩
      cases l2 with
      | nil =>
        simp only [firstPtr] at hmid
        simp only [hmid, ne_eq, not_true_eq_false, if_false]
        by_cases h2 : h.g_hunk_total_size - h.g_hunk_high_used
            - (a + (c.hdr (.blk a)).size) ≥ s
        · right
          refine ⟨l1 ++ [a], [], by simp [hsplit], hsmall2, ?_, ?_⟩
          · simp only [List.headD_nil, hc]
            omega
          · simp only [h2, if_true, firstPtr, hc]
        · left
          simp only [h2, if_false]
          rw [hsplit]
          refine ⟨trivial, hsmall2, ?_⟩
          rw [hc]
          omega
      | cons b l3 =>
        simp only [firstPtr] at hmid
        simp only [hmid, ne_eq, reduceCtorEq, not_false_eq_true, if_true]
        rw [← hc]
        exact ih (l1 ++ [a]) b l3 (by simp [hsplit]) (by simp at hf; omega) hsmall2

/-- What `CacheTryAlloc` does on a non-empty ring that keeps the bounds
invariant, for a size that holds at least a header. -/
theorem CacheTryAlloc_scan {h : Hunk} {c : Cache} {as lru : List Int} (fuel : Nat) (s : Int)
    (hringA : AddrRingIs c as) (hringL : LruRingIs c lru) (hsame : ∀ a, a ∈ lru ↔ a ∈ as)
    (hne : as ≠ [])
    (hlay : CLay c (h.g_hunk_total_size - h.g_hunk_high_used) h.g_hunk_low_used as)
    (hh : HunkOk h) (hs : sizeofCacheHeader ≤ s) (hf : as.length ≤ fuel) :
    (CacheTryAlloc fuel h c s = .ok (c, none) ∧
      GapsTooSmall c s h.g_hunk_low_used as ∧
      h.g_hunk_total_size - h.g_hunk_high_used - candAfter c h.g_hunk_low_used as < s) ∨
    (∃ (c5 : Cache) (k1 k2 : List Int), as = k1 ++ k2 ∧
      GapsTooSmall c s h.g_hunk_low_used k1 ∧
      s ≤ k2.headD (h.g_hunk_total_size - h.g_hunk_high_used)
        - candAfter c h.g_hunk_low_used k1 ∧
      CacheTryAlloc fuel h c s = .ok (c5, some (candAfter c h.g_hunk_low_used k1)) ∧
      Placed c c5 as lru k1 k2 (candAfter c h.g_hunk_low_used k1) s ∧
      CLay c5 (h.g_hunk_total_size - h.g_hunk_high_used) h.g_hunk_low_used
        (k1 ++ candAfter c h.g_hunk_low_used k1 :: k2)) := by
  obtain ⟨hL, hH, hLH, hN⟩ := hh
  have hsz : sizeofCacheHeader = 64 := rfl
  cases as with
  | nil => exact absurd rfl hne
  | cons a l2 =>
    have hnh : ¬ (c.hdr .head).next = .head := by
      rw [ring_empty_iff hringA]; simp
    have hfirst : (c.hdr .head).next = .blk a := (CSeg_ends _ _ _ hringA.1).1
    simp only [CacheTryAlloc, hnh, if_false, hfirst]
    have hsc := cacheScan_first_fit (h := h) s hringA fuel [] a l2 rfl
      (by simp only [List.length_cons] at hf; omega) trivial
    simp only [candAfter] at hsc
    rcases hsc with hnone | ⟨k1, k2, hsplit, hsmall, hfit, heq⟩
    · left; exact hnone
    · right
      rw [heq]
      rw [hsplit] at hlay
      obtain ⟨c1, c2⟩ := CLay_cand _ k2 k1 _ hlay
      obtain ⟨d1, d2⟩ := CLay_headD_le _ k2 _ c2
      have hbuf : 0 ≤ candAfter c h.g_hunk_low_used k1 ∧
          candAfter c h.g_hunk_low_used k1 + sizeofCacheHeader ≤ h.g_hunk_total_size := by
        constructor <;> omega
      obtain ⟨g1, g2⟩ := CGeom_cand k2 (candAfter c h.g_hunk_low_used k1) hbuf.1 k1 _
        (CLay_geom _ _ _ hlay) rfl hL
      have hfresh : candAfter c h.g_hunk_low_used k1 ∉ a :: l2 := by
        rw [hsplit]
        intro hmem
        rcases List.mem_append.mp hmem with hm | hm
        · have := g1 _ hm; omega
        · cases k2 with
          | nil => simp at hm
          | cons b k3 =>
            simp only [List.headD_cons] at hfit
            rcases List.mem_cons.mp hm with hm | hm
            · omega
            · simp only [CLay] at c2
              have := (CLay_bounds _ _ _ c2.2.2).2.2 _ hm
              omega
      obtain ⟨c5, h5, p5⟩ :=
        cacheInsertBefore_rings (s := s) hringA hringL hsame hsplit hfresh hbuf
      refine ⟨c5, k1, k2, hsplit, hsmall, hfit, h5, p5, ?_⟩
      refine CLay_insert _ k2 _ s (by omega) ?_ ?_ p5.new.1 k1 _ hlay rfl ?_
      · intro b k3 hk
        rw [hk] at hfit
        simp only [List.headD_cons] at hfit
        omega
      · intro hk
        rw [hk] at hfit
        simp only [List.headD_nil] at hfit
        omega
      · intro x hx
        have hx2 : x ≠ candAfter c h.g_hunk_low_used k1 := by
          intro hxe
          apply hfresh
          rw [hsplit, ← hxe]
          exact hx
        exact (p5.old x hx2).1

/-- A positive result of the rounding in `CacheAlloc` holds at least a
header. -/
theorem cacheRounded_ge {size : Int} (h0 : 0 < size) (h1 : size < 2147483648)
    (hpos : 0 < Align16 (wrap32 (size + sizeofCacheHeader))) :
    sizeofCacheHeader ≤ Align16 (wrap32 (size + sizeofCacheHeader)) := by
  unfold Align16 wrap32 sizeofCacheHeader at *
  omega

/-- C23.  For a cache whose two rings hold the same blocks, with a non-empty
address ring that is sorted, without overlap and inside `[low_used, N - high_used)`, and a positive rounded
size `s`, `CacheTryAlloc(s)` looks at the candidate positions `low_used` and
then the end of each block in address order.  Either no gap holds `s` bytes and
it returns NULL with the state as it was, or it puts the new block at the first
candidate whose gap to the next block (to `N - high_used` after the last one)
holds `s` bytes: the block is linked into the address ring right there and at
the front of the LRU ring, and the ring is again sorted, without overlap and
inside `[low_used, N - high_used)`.  It returns NULL exactly when there is no
such gap. -/
theorem CacheTryAlloc_first_fit {h : Hunk} {c : Cache} {as lru : List Int} (fuel : Nat)
    (size s : Int) (hringA : AddrRingIs c as) (hringL : LruRingIs c lru)
    (hsame : ∀ a, a ∈ lru ↔ a ∈ as) (hne : as ≠ [])
    (hlay : CLay c (h.g_hunk_total_size - h.g_hunk_high_used) h.g_hunk_low_used as)
    (hh : HunkOk h) (h0 : 0 < size) (h1 : size < 2147483648)
    (hs : s = Align16 (wrap32 (size + sizeofCacheHeader))) (hpos : 0 < s)
    (hf : as.length ≤ fuel) :
    ((CacheTryAlloc fuel h c s = .ok (c, none) ∧
        GapsTooSmall c s h.g_hunk_low_used as ∧
        h.g_hunk_total_size - h.g_hunk_high_used - candAfter c h.g_hunk_low_used as < s) ∨
      (∃ (c5 : Cache) (k1 k2 : List Int), as = k1 ++ k2 ∧
        GapsTooSmall c s h.g_hunk_low_used k1 ∧
        s ≤ k2.headD (h.g_hunk_total_size - h.g_hunk_high_used)
          - candAfter c h.g_hunk_low_used k1 ∧
        CacheTryAlloc fuel h c s = .ok (c5, some (candAfter c h.g_hunk_low_used k1)) ∧
        Placed c c5 as lru k1 k2 (candAfter c h.g_hunk_low_used k1) s ∧
        CLay c5 (h.g_hunk_total_size - h.g_hunk_high_used) h.g_hunk_low_used
          (k1 ++ candAfter c h.g_hunk_low_used k1 :: k2) ∧
        CacheBounds h c5 (k1 ++ candAfter c h.g_hunk_low_used k1 :: k2))) ∧
    ((∃ c2, CacheTryAlloc fuel h c s = .ok (c2, none)) ↔
      (GapsTooSmall c s h.g_hunk_low_used as ∧
        h.g_hunk_total_size - h.g_hunk_high_used - candAfter c h.g_hunk_low_used as < s)) := by
  have hs64 : sizeofCacheHeader ≤ s := by
    rw [hs] at hpos ⊢
    exact cacheRounded_ge h0 h1 hpos
  have hmain := CacheTryAlloc_scan fuel s hringA hringL hsame hne hlay hh hs64 hf
  constructor
  · rcases hmain with hnone | ⟨c5, k1, k2, a1, a2, a3, a4, a5, a6⟩
    · left; exact hnone
    · right
      exact ⟨c5, k1, k2, a1, a2, a3, a4, a5, a6, CLay_bounds _ _ _ a6⟩
  · constructor
    · rintro ⟨c2, hc2⟩
      rcases hmain with hnone | ⟨c5, k1, k2, a1, a2, a3, a4, a5, a6⟩
      · exact hnone.2
      · rw [a4] at hc2
        simp at hc2
    · intro hno
      rcases hmain with hnone | ⟨c5, k1, k2, a1, a2, a3, a4, a5, a6⟩
      · exact ⟨c, hnone.1⟩
      · exfalso
        cases k2 with
        | nil =>
          simp only [List.append_nil] at a1
          simp only [List.headD_nil] at a3
          rw [a1] at hno
          omega
        | cons b k3 =>
          simp only [List.headD_cons] at a3
          rw [a1] at hno
          have := (GapsTooSmall_split c s b k3 k1 _ hno.1).2
          omega

/-- The calls `gapCalls` return, with the state `gapState`. -/
theorem gap_run : runCacheCalls 10 s3Hunk (CacheInit rawCache) gapCalls = .ok gapState := by
  have hsome : ((runCacheCalls 10 s3Hunk (CacheInit rawCache) gapCalls).toOption).isSome
      = true := by
    decide
  cases hq : runCacheCalls 10 s3Hunk (CacheInit rawCache) gapCalls with
  | error e => rw [hq] at hsome; simp [Except.toOption] at hsome
  | ok c => simp only [gapState, hq, Except.toOption, Option.getD]

theorem gapCalls_typed : ∀ op ∈ gapCalls, op.typed := by
  intro op hop
  simp only [gapCalls, List.mem_cons, List.mem_singleton, List.not_mem_nil, or_false] at hop
  rcases hop with rfl | rfl | rfl | rfl <;> simp [CacheCall.typed]

/-- The state `gapState` is consistent, with blocks at the offsets 131104 and
133248, the second of them used last. -/
theorem gapState_ok : CacheOk s3Hunk gapState [131104, 133248] [133248, 131104] := by
  obtain ⟨as, lru, hok, -⟩ := cacheRun_ok s3Hunk_ok 10 gapCalls (CacheInit rawCache) [] []
    (CacheInit_ok s3Hunk (fun _ => rfl)) gapCalls_typed gapState gap_run
  have h1 : (addrRing 10 gapState).map Prod.fst = [131104, 133248] := by decide
  have h2 : lruRing 10 gapState = [133248, 131104] := by decide
  rw [addrRing_eq hok.inv.ringA] at h1
  rw [lruRing_eq hok.inv.ringL] at h2
  have e1 := eq_of_take_eq h1 (by decide)
  have e2 := eq_of_take_eq h2 (by decide)
  subst e1 e2
  exact hok

theorem gapState_lay :
    CLay gapState (s3Hunk.g_hunk_total_size - s3Hunk.g_hunk_high_used) s3Hunk.g_hunk_low_used
      [131104, 133248] := by
  simp only [CLay]
  refine ⟨by decide, by decide, by decide, by decide, by decide⟩

theorem CacheTryAlloc_first_fit_witness :
    addrRing 10 gapState = [(131104, 1072), (133248, 1072)] ∧
    (CacheTryAlloc 10 s3Hunk gapState 1072).toOption.map
        (fun r => (r.2, addrRing 10 r.1, lruRing 10 r.1))
      = some (some 132176, [(131104, 1072), (132176, 1072), (133248, 1072)],
          [132176, 133248, 131104]) ∧
    (((CacheTryAlloc 10 s3Hunk gapState 1072 = .ok (gapState, none) ∧
        GapsTooSmall gapState 1072 s3Hunk.g_hunk_low_used [131104, 133248] ∧
        s3Hunk.g_hunk_total_size - s3Hunk.g_hunk_high_used
          - candAfter gapState s3Hunk.g_hunk_low_used [131104, 133248] < 1072) ∨
      (∃ (c5 : Cache) (k1 k2 : List Int), [131104, 133248] = k1 ++ k2 ∧
        GapsTooSmall gapState 1072 s3Hunk.g_hunk_low_used k1 ∧
        1072 ≤ k2.headD (s3Hunk.g_hunk_total_size - s3Hunk.g_hunk_high_used)
          - candAfter gapState s3Hunk.g_hunk_low_used k1 ∧
        CacheTryAlloc 10 s3Hunk gapState 1072
          = .ok (c5, some (candAfter gapState s3Hunk.g_hunk_low_used k1)) ∧
        Placed gapState c5 [131104, 133248] [133248, 131104] k1 k2
          (candAfter gapState s3Hunk.g_hunk_low_used k1) 1072 ∧
        CLay c5 (s3Hunk.g_hunk_total_size - s3Hunk.g_hunk_high_used) s3Hunk.g_hunk_low_used
          (k1 ++ candAfter gapState s3Hunk.g_hunk_low_used k1 :: k2) ∧
        CacheBounds s3Hunk c5 (k1 ++ candAfter gapState s3Hunk.g_hunk_low_used k1 :: k2))) ∧
    ((∃ c2, CacheTryAlloc 10 s3Hunk gapState 1072 = .ok (c2, none)) ↔
      (GapsTooSmall gapState 1072 s3Hunk.g_hunk_low_used [131104, 133248] ∧
        s3Hunk.g_hunk_total_size - s3Hunk.g_hunk_high_used
          - candAfter gapState s3Hunk.g_hunk_low_used [131104, 133248] < 1072))) :=
  ⟨by decide, by decide,
    CacheTryAlloc_first_fit 10 1000 1072 gapState_ok.inv.ringA gapState_ok.inv.ringL
      gapState_ok.inv.same (by simp) gapState_lay s3Hunk_ok
      (by decide) (by decide) (by decide) (by decide) (by decide)⟩

/-- The meaning of `lastSegment`: it holds no separator, and it is the whole
path or what follows a separator of the path. -/
theorem lastSegment_shape (path : List Int) :
    (∀ c ∈ lastSegment path, c ≠ 92 ∧ c ≠ 47) ∧
    (lastSegment path = path ∨
      ∃ (pre : List Int) (c : Int), (c = 92 ∨ c = 47) ∧ path = pre ++ c :: lastSegment path) := by
  constructor
  · intro c hc
    unfold lastSegment at hc
    rw [List.mem_reverse] at hc
    have := List.mem_takeWhile_imp hc
    simpa using this
  · have hsplit := List.takeWhile_append_dropWhile (fun c => decide (c ≠ 92 ∧ c ≠ 47))
      path.reverse
    have hp : path = (path.reverse.dropWhile (fun c => decide (c ≠ 92 ∧ c ≠ 47))).reverse
        ++ lastSegment path := by
      unfold lastSegment
      rw [← List.reverse_append, hsplit, List.reverse_reverse]
    cases hd : path.reverse.dropWhile (fun c => decide (c ≠ 92 ∧ c ≠ 47)) with
    | nil =>
      left
      rw [hd] at hp
      simpa using hp.symm
    | cons c rest =>
      right
      refine ⟨rest.reverse, c, ?_, ?_⟩
      · have hne : path.reverse.dropWhile (fun c => decide (c ≠ 92 ∧ c ≠ 47)) ≠ [] := by
          rw [hd]; simp
        have hh := List.head_dropWhile_not (fun c => decide (c ≠ 92 ∧ c ≠ 47)) path.reverse hne
        simp only [hd, List.head_cons] at hh
        by_contra hcon
        simp only [not_or] at hcon
        simp [hcon.1, hcon.2] at hh
      · rw [hd] at hp
        rw [List.reverse_cons, List.append_assoc, List.singleton_append] at hp
        exact hp


end Quake
